import Mathlib

/-!
# GMD model files: `og::Model::Load` and `og::Model::Save`

A shallow embedding of `Libraries/Source/og/Model/ModelEx.cpp` and theorems
about it.

* Bytes are `Fin 256`; a 32-bit integer is stored in four bytes.
* `int` values are `Int`, `uInt` values and 32-bit float patterns are `Nat`;
  every store into a file reduces modulo `2^32`.
* A computation that may throw `FileReadWriteError` is a function from a state
  to a result and a state; the state survives the throw, as the `catch` block
  of the source still sees the file and the partially built model.
* `Model.Load` is `Load` when every `new` expression provides its memory;
  `Model.LoadA` is `Load` with an allocator that can refuse, where
  `std::bad_alloc` passes the handler of `Load`, and with the buffers of a mesh
  filled in place. `LoadA_matches_Load` shows that the two agree on every call
  that no `std::bad_alloc` leaves.
* The classes `File` and `String` and the header `ModelEx.h` are not part of
  the sources at hand; what the model code uses of them is modelled from the
  format description and marked so.

The definitions come first: the embedding of the code, then the closed form of
the file format and the predicates the proofs are organised around. The
theorems follow; the ones that settle a claim carry its number.
-/

namespace og

/-! ## Bytes and thrown errors -/

/-- One byte of a file. -/
abbrev Byte := Fin 256

/-- The exception `FileReadWriteError`, one constructor for each place that
throws it: the two stream faults raised inside `File`, and the four format
complaints of `Model::Load` with the values they print. -/
inductive FileReadWriteError where
  | read : FileReadWriteError
  | write : FileReadWriteError
  | notGmd : FileReadWriteError
  | wrongVersion (version expected : Int) : FileReadWriteError
  | numBones (numBones entries : Nat) : FileReadWriteError
  | numMeshes (numMeshes entries : Nat) : FileReadWriteError
  deriving DecidableEq, Repr

/-- Result of a step of a `try` block: a value, or the exception thrown. -/
inductive Res (α : Type) where
  | ok (a : α) : Res α
  | error (e : FileReadWriteError) : Res α
  deriving DecidableEq, Repr

/-- Statements of a `try` block over a state `σ`. -/
def M (σ α : Type) : Type := σ → Res α × σ

/-- Sequencing: a throw skips the rest and keeps the state reached so far. -/
def M.bind {σ α β : Type} (x : M σ α) (f : α → M σ β) : M σ β := fun s =>
  match x s with
  | (Res.ok a, s1) => f a s1
  | (Res.error e, s1) => (Res.error e, s1)

/-- Normal completion with a value. -/
def M.pure {σ α : Type} (a : α) : M σ α := fun s => (Res.ok a, s)

instance {σ : Type} : Monad (M σ) where
  pure := M.pure
  bind := M.bind

/-- The statement `throw e`. -/
def throwErr {σ α : Type} (e : FileReadWriteError) : M σ α := fun s => (Res.error e, s)

/-- A counted `for` loop whose body collects one value per iteration. -/
def readN {σ α : Type} (x : M σ α) : Nat → M σ (List α)
  | 0 => pure []
  | n + 1 => do
    let a ← x
    let as ← readN x n
    pure (a :: as)

/-- A counted `for` loop run for its effect on the state. -/
def forN {σ : Type} (body : M σ Unit) : Nat → M σ Unit
  | 0 => pure ()
  | n + 1 => do
    body
    forN body n

/-- A loop over the entries of a container, in order. -/
def forEach {σ α : Type} (body : α → M σ Unit) : List α → M σ Unit
  | [] => pure ()
  | a :: as => do
    body a
    forEach body as

/-! ## 32-bit values in a file -/

/-- The four bytes of an unsigned 32-bit value, least significant first. -/
def encU32 (n : Nat) : List Byte :=
  [⟨n % 256, Nat.mod_lt _ (by decide)⟩,
   ⟨n / 256 % 256, Nat.mod_lt _ (by decide)⟩,
   ⟨n / 65536 % 256, Nat.mod_lt _ (by decide)⟩,
   ⟨n / 16777216 % 256, Nat.mod_lt _ (by decide)⟩]

/-- The unsigned value of four bytes. -/
def decU32 : List Byte → Nat
  | [a, b, c, d] => a.val + 256 * b.val + 65536 * c.val + 16777216 * d.val
  | _ => 0

/-- The `uInt` an `int` converts to. -/
def toUint (x : Int) : Nat := (x % 4294967296).toNat

/-- The `int` a `uInt` converts to (two's complement). -/
def toInt (u : Nat) : Int := if u < 2147483648 then (u : Int) else (u : Int) - 4294967296

/-! ## The data model (`ModelEx.h`) -/

/-- Modelled from the spec: the class `og::String` is not under `src/`; a
string is the sequence of its bytes. -/
abbrev String := List Byte

/-- A 2-component float vector, each component a 32-bit pattern. -/
structure Vec2 where
  x : Nat
  y : Nat
  deriving DecidableEq, Repr

/-- A 3-component float vector, each component a 32-bit pattern. -/
structure Vec3 where
  x : Nat
  y : Nat
  z : Nat
  deriving DecidableEq, Repr

/-- A quaternion, each component a 32-bit pattern. -/
structure Quat where
  x : Nat
  y : Nat
  z : Nat
  w : Nat
  deriving DecidableEq, Repr

/-- The struct `Bone`. -/
structure Bone where
  name : String
  idParent : Int
  origin : Vec3
  quat : Quat
  deriving DecidableEq, Repr

/-- The struct `VertexWeight`. -/
structure VertexWeight where
  boneId : Int
  origin : Vec3
  normal : Vec3
  influence : Nat
  deriving DecidableEq, Repr

/-- The struct `Vertex`: a weight count and the weight array. -/
structure Vertex where
  numWeights : Nat
  weights : List VertexWeight
  deriving DecidableEq, Repr

/-- The class `MeshAnimated` with the members it inherits from `Mesh`. It is the
only mesh class `Load` creates and the class `Save` casts every mesh to. The
counts are unsigned, as they are read and written with `ReadUint` and
`WriteUint`. -/
structure MeshAnimated where
  name : String
  material : String
  flags : Int
  detailLevel : Int
  numVerts : Nat
  numIndices : Nat
  indices : List Int
  texCoords : List Vec2
  vertices : List Vertex
  deriving DecidableEq, Repr

/-- The class `Model`: the constructor flag, the bone table and the meshes. -/
structure Model where
  isAnimated : Bool
  bones : List Bone
  meshes : List MeshAnimated
  deriving DecidableEq, Repr

/-- A component vector as allocated, before anything is read into it. -/
def Vec3.blank : Vec3 := ⟨0, 0, 0⟩

/-- The entry `bones.Alloc()` appends, before its members are read. -/
def Bone.blank : Bone := ⟨[], 0, Vec3.blank, ⟨0, 0, 0, 0⟩⟩

/-- An element of `new Vertex[n]`, before `InitVertex`. -/
def Vertex.blank : Vertex := ⟨0, []⟩

/-- The object `new MeshAnimated` creates, before its members are read. -/
def MeshAnimated.blank : MeshAnimated := ⟨[], [], 0, 0, 0, 0, [], [], []⟩

/-- The object `new Model(isAnimated)` creates: no bones, no meshes. -/
def Model.new (isAnimated : Bool) : Model := ⟨isAnimated, [], []⟩

/-- Applies `f` to the last element of a list (the entry allocated last). -/
def modifyLast {α : Type} (f : α → α) : List α → List α
  | [] => []
  | [a] => [f a]
  | a :: b :: l => a :: modifyLast f (b :: l)

/-! ## Constants of `ModelEx.cpp` -/

/-- The model file version. -/
def GMD_VERSION : Int := 1

/-- The string literal "GMD". -/
def strGMD : String := [71, 77, 68]

/-- The four bytes `file->Write( "GMD", 4 )` stores: the literal and its
terminator. -/
def magicGMD : List Byte := [71, 77, 68, 0]

/-- The string literal "Bones". -/
def strBones : String := [66, 111, 110, 101, 115]

/-- The string literal "Meshes". -/
def strMeshes : String := [77, 101, 115, 104, 101, 115]

/-- The string literal "Unknown". -/
def strUnknown : String := [85, 110, 107, 110, 111, 119, 110]

/-- The string literal "ogTools". -/
def strOgTools : String := [111, 103, 84, 111, 111, 108, 115]

/-! ## Strings (`og::String`) -/

/-- Modelled from the spec: `String::Cmp` is not under `src/`. The comparison
of two C strings: bytes are compared up to the first difference or the
terminator; the end of a list stands for the terminator. The result is zero
exactly when the strings are equal. -/
def String.Cmp : List Byte → List Byte → Int
  | [], [] => 0
  | [], b :: _ => 0 - (b.val : Int)
  | a :: _, [] => (a.val : Int)
  | a :: as, b :: bs =>
    if a ≠ b then (a.val : Int) - (b.val : Int)
    else if a = 0 then 0
    else String.Cmp as bs

/-- An upper-case ASCII letter becomes lower case. -/
def toLower (b : Byte) : Byte :=
  if 65 ≤ b.val ∧ b.val ≤ 90 then ⟨(b.val + 32) % 256, Nat.mod_lt _ (by decide)⟩ else b

/-- Modelled from the spec: `String::Icmp` is not under `src/`. It is
`String.Cmp` on the strings with ASCII letters folded to lower case. -/
def String.Icmp (a b : String) : Int :=
  String.Cmp (a.map toLower) (b.map toLower)

/-! ## Read streams (`og::File` opened by `OpenRead`) -/

/-- Modelled from the spec: the class `File` is not under `src/`. A file open
for reading is the sequence of bytes from its cursor to its end (`rest`); the
cursor advances by dropping what was read. When a seek has moved the cursor
past the end, `over` counts the bytes it stands past the end. -/
structure InFile where
  rest : List Byte
  over : Nat
  deriving DecidableEq, Repr

/-- Modelled from the spec: `File::Read` of `n` bytes. Reads beyond the
available data fail with a stream error. -/
def File.Read (n : Nat) : M InFile (List Byte) := fun f =>
  if n ≤ f.rest.length then (Res.ok (f.rest.take n), { rest := f.rest.drop n, over := f.over })
  else (Res.error FileReadWriteError.read, f)

/-- Modelled from the spec: `File::ReadUint`, an unsigned 32-bit integer. -/
def File.ReadUint : M InFile Nat := do
  let bs ← File.Read 4
  pure (decU32 bs)

/-- Modelled from the spec: `File::ReadInt`, a signed 32-bit integer. -/
def File.ReadInt : M InFile Int := do
  let bs ← File.Read 4
  pure (toInt (decU32 bs))

/-- Modelled from the spec: `File::ReadFloat`, a 32-bit float, kept as its
bit pattern. -/
def File.ReadFloat : M InFile Nat := do
  let bs ← File.Read 4
  pure (decU32 bs)

/-- Modelled from the spec: `File::ReadIntArray` of `num` integers. -/
def File.ReadIntArray (num : Nat) : M InFile (List Int) := readN File.ReadInt num

/-- Modelled from the spec: `File::Seek( offset, SEEK_CUR )` with a
non-negative offset: the cursor skips `offset` bytes. Seeking past the end is
not an error; the next read of at least one byte is. -/
def File.SeekCur (offset : Nat) : M InFile Unit := fun f =>
  (Res.ok (), { rest := f.rest.drop offset, over := f.over + (offset - f.rest.length) })

/-- Modelled from the spec: `String::ReadFromFile`, a length field followed
by that many raw bytes. -/
def String.ReadFromFile : M InFile String := do
  let len ← File.ReadUint
  File.Read len

/-- The call `file->ReadFloatArray( &v.x, 2 )` on a `Vec2`. -/
def readVec2 : M InFile Vec2 := do
  let x ← File.ReadFloat
  let y ← File.ReadFloat
  pure ⟨x, y⟩

/-- The call `file->ReadFloatArray( &v.x, 3 )` on a `Vec3`. -/
def readVec3 : M InFile Vec3 := do
  let x ← File.ReadFloat
  let y ← File.ReadFloat
  let z ← File.ReadFloat
  pure ⟨x, y, z⟩

/-- The call `file->ReadFloatArray( &q.x, 4 )` on a `Quat`. -/
def readQuat : M InFile Quat := do
  let x ← File.ReadFloat
  let y ← File.ReadFloat
  let z ← File.ReadFloat
  let w ← File.ReadFloat
  pure ⟨x, y, z, w⟩

/-! ## `Model::Load` -/

/-- The variables of `Model::Load` that its `catch` block still uses: the
open file and the pointer `model` (`none` is `NULL`). -/
structure LoadState where
  file : InFile
  model : Option Model
  deriving DecidableEq, Repr

/-- A call on `file` inside `Load`: only the file changes. -/
def onFile {α : Type} (x : M InFile α) : M LoadState α := fun s =>
  match x s.file with
  | (r, f) => (r, { file := f, model := s.model })

/-- An update through the pointer `model`. -/
def onModel (f : Model → Model) : M LoadState Unit := fun s =>
  (Res.ok (), { file := s.file, model := s.model.map f })

/-- An update of the bone allocated last (`Bone &bone`). -/
def onBone (f : Bone → Bone) : M LoadState Unit :=
  onModel fun m => { m with bones := modifyLast f m.bones }

/-- An update of the mesh appended last (`MeshAnimated *mesh`). -/
def onMesh (f : MeshAnimated → MeshAnimated) : M LoadState Unit :=
  onModel fun m => { m with meshes := modifyLast f m.meshes }

/-- Modelled from the spec: `InitVertices` is not under `src/`. It sets the
vertex count and allocates the texture-coordinate buffer and the vertex array
of that size. -/
def InitVertices (mesh : MeshAnimated) (num : Nat) : MeshAnimated :=
  { mesh with numVerts := num,
              texCoords := List.replicate num ⟨0, 0⟩,
              vertices := List.replicate num Vertex.blank }

/-- Modelled from the spec: `InitIndices` is not under `src/`. It sets the
index count and allocates the index buffer of that size. -/
def InitIndices (mesh : MeshAnimated) (num : Nat) : MeshAnimated :=
  { mesh with numIndices := num, indices := List.replicate num 0 }

/-- Modelled from the spec: `InitVertex` is not under `src/`. It sets the
weight count and allocates exactly that many weight slots. -/
def InitVertex (v : Vertex) (num : Nat) : Vertex :=
  { v with numWeights := num,
           weights := List.replicate num ⟨0, Vec3.blank, Vec3.blank, 0⟩ }

/-- The body of the loop over `l`: one weight record. -/
def readWeight : M InFile VertexWeight := do
  let boneId ← File.ReadInt
  let origin ← readVec3
  let normal ← readVec3
  let influence ← File.ReadFloat
  pure ⟨boneId, origin, normal, influence⟩

/-- The body of the loop over `k`: `InitVertex` with the count read, then one
weight record for each slot. -/
def readVertex : M InFile Vertex := do
  let num ← File.ReadUint
  let v := InitVertex Vertex.blank num
  let weights ← readN readWeight v.numWeights
  pure { v with weights := weights }

/-- The body of the loop over `j` in the "Bones" branch: allocate a bone, then
read its members into it. -/
def Load.bone : M LoadState Unit := do
  onModel fun m => { m with bones := m.bones ++ [Bone.blank] }
  let name ← onFile String.ReadFromFile
  onBone fun b => { b with name := name }
  let idParent ← onFile File.ReadInt
  onBone fun b => { b with idParent := idParent }
  let origin ← onFile readVec3
  onBone fun b => { b with origin := origin }
  let quat ← onFile readQuat
  onBone fun b => { b with quat := quat }

/-- The body of the loop over `j` in the "Meshes" branch: append a new mesh,
then read its members into it. The `2 * numVerts` floats of the texture
coordinates are read as `numVerts` pairs. Each array is stored into the mesh
when it has been read in full; a throw in the middle of an array leaves the
array as it was allocated. The code fills the buffers in place, which shows
only in the partially built model that a throw leaves behind: `LoadA.mesh`
below fills them in place, and `refines_mesh` shows that a mesh record read to
its end gives the same mesh either way. -/
def Load.mesh : M LoadState Unit := do
  onModel fun m => { m with meshes := m.meshes ++ [MeshAnimated.blank] }
  let name ← onFile String.ReadFromFile
  onMesh fun mesh => { mesh with name := name }
  let material ← onFile String.ReadFromFile
  onMesh fun mesh => { mesh with material := material }
  let flags ← onFile File.ReadInt
  onMesh fun mesh => { mesh with flags := flags }
  let detailLevel ← onFile File.ReadInt
  onMesh fun mesh => { mesh with detailLevel := detailLevel }
  let numVerts ← onFile File.ReadUint
  onMesh fun mesh => InitVertices mesh numVerts
  let numIndices ← onFile File.ReadUint
  onMesh fun mesh => InitIndices mesh numIndices
  let indices ← onFile (File.ReadIntArray numIndices)
  onMesh fun mesh => { mesh with indices := indices }
  let texCoords ← onFile (readN readVec2 numVerts)
  onMesh fun mesh => { mesh with texCoords := texCoords }
  let vertices ← onFile (readN readVertex numVerts)
  onMesh fun mesh => { mesh with vertices := vertices }

/-- The body of the loop over `i`: one chunk, dispatched by its name. -/
def Load.chunk (numBones numMeshes : Nat) : M LoadState Unit := do
  let name ← onFile String.ReadFromFile
  let size ← onFile File.ReadUint
  let entries ← onFile File.ReadUint
  if String.Icmp name strBones = 0 then
    if entries ≠ numBones then
      throwErr (FileReadWriteError.numBones numBones entries)
    else
      forN Load.bone entries
  else if String.Icmp name strMeshes = 0 then
    if entries ≠ numMeshes then
      throwErr (FileReadWriteError.numMeshes numMeshes entries)
    else
      forN Load.mesh entries
  else
    onFile (File.SeekCur size)

/-- The header fields `Load` reads after the version. -/
structure Header where
  modelName : String
  author : String
  appName : String
  numBones : Nat
  numMeshes : Nat
  numChunks : Nat
  deriving DecidableEq, Repr

/-- The first part of the `try` block of `Load`: the magic tag, the version,
the three strings and the three counts. -/
def Load.header : M LoadState Header := do
  let fileId ← onFile (File.Read 4)
  if String.Cmp fileId strGMD ≠ 0 then
    throwErr FileReadWriteError.notGmd
  else
    let version ← onFile File.ReadInt
    if version ≠ GMD_VERSION then
      throwErr (FileReadWriteError.wrongVersion version GMD_VERSION)
    else
      let modelName ← onFile String.ReadFromFile
      let author ← onFile String.ReadFromFile
      let appName ← onFile String.ReadFromFile
      let numBones ← onFile File.ReadUint
      let numMeshes ← onFile File.ReadUint
      let numChunks ← onFile File.ReadUint
      pure ⟨modelName, author, appName, numBones, numMeshes, numChunks⟩

/-- The statement `model = new Model(true)`. -/
def newModel : M LoadState Unit := fun s =>
  (Res.ok (), { file := s.file, model := some (Model.new true) })

/-- The `try` block of `Load` up to `file->Close()`: the header, the new
model, then `numChunks` chunks. -/
def Load.body : M LoadState Unit := do
  let h ← Load.header
  newModel
  forN (Load.chunk h.numBones h.numMeshes) h.numChunks

/-! ## Write streams (`og::File` opened by `OpenWrite`) -/

/-- Modelled from the spec: the class `File` is not under `src/`. A file open
for writing is its content, its cursor, and the length the medium can hold at
most (`none`: no bound); a write that would make the file longer than that is
the short write that raises a stream error. -/
structure OutFile where
  data : List Byte
  pos : Nat
  limit : Option Nat
  deriving DecidableEq, Repr

/-- Whether a medium with the given bound holds a file of `n` bytes. -/
def fits (limit : Option Nat) (n : Nat) : Bool :=
  match limit with
  | none => true
  | some l => decide (n ≤ l)

/-- The content after `bs` is stored at `pos`: the bytes there are replaced, a
gap between the old end and `pos` is filled with zero bytes, and the file grows
as needed. -/
def overwrite (data : List Byte) (pos : Nat) (bs : List Byte) : List Byte :=
  data.take pos ++ List.replicate (pos - data.length) 0 ++ bs ++ data.drop (pos + bs.length)

/-- Modelled from the spec: `File::Write` of the bytes `bs` at the cursor,
which advances past them. -/
def File.Write (bs : List Byte) : M OutFile Unit := fun f =>
  if fits f.limit (max f.data.length (f.pos + bs.length)) then
    (Res.ok (), { data := overwrite f.data f.pos bs, pos := f.pos + bs.length, limit := f.limit })
  else
    (Res.error FileReadWriteError.write, f)

/-- Modelled from the spec: `File::WriteUint`, an unsigned 32-bit integer. -/
def File.WriteUint (n : Nat) : M OutFile Unit := File.Write (encU32 (n % 4294967296))

/-- Modelled from the spec: `File::WriteInt`, a signed 32-bit integer. -/
def File.WriteInt (x : Int) : M OutFile Unit := File.Write (encU32 (toUint x))

/-- Modelled from the spec: `File::WriteFloat`, a 32-bit float given as its
bit pattern. -/
def File.WriteFloat (x : Nat) : M OutFile Unit := File.Write (encU32 (x % 4294967296))

/-- Modelled from the spec: `File::WriteIntArray` of the first `num` integers
of a buffer. -/
def File.WriteIntArray (xs : List Int) (num : Nat) : M OutFile Unit :=
  forEach File.WriteInt (xs.take num)

/-- Modelled from the spec: `File::Tell`, the cursor. -/
def File.Tell : M OutFile Nat := fun f => (Res.ok f.pos, f)

/-- Modelled from the spec: `File::Seek( offset, SEEK_SET )`. -/
def File.SeekSet (offset : Nat) : M OutFile Unit := fun f =>
  (Res.ok (), { data := f.data, pos := offset, limit := f.limit })

/-- Modelled from the spec: `String::WriteToFile`, the length field followed
by the raw bytes. -/
def String.WriteToFile (s : String) : M OutFile Unit := do
  File.WriteUint s.length
  File.Write s

/-- The call `file->WriteFloatArray( &v.x, 2 )` on a `Vec2`. -/
def writeVec2 (v : Vec2) : M OutFile Unit := do
  File.WriteFloat v.x
  File.WriteFloat v.y

/-- The call `file->WriteFloatArray( &v.x, 3 )` on a `Vec3`. -/
def writeVec3 (v : Vec3) : M OutFile Unit := do
  File.WriteFloat v.x
  File.WriteFloat v.y
  File.WriteFloat v.z

/-- The call `file->WriteFloatArray( &q.x, 4 )` on a `Quat`. -/
def writeQuat (q : Quat) : M OutFile Unit := do
  File.WriteFloat q.x
  File.WriteFloat q.y
  File.WriteFloat q.z
  File.WriteFloat q.w

/-! ## Chunk framing: `StartChunk` and `FinishChunk` -/

/-- The function `StartChunk`: the name, a zero in place of the size, the entry
count; returns where the size is to be stored. -/
def StartChunk (name : String) (entries : Nat) : M OutFile Nat := do
  String.WriteToFile name
  let sizePos ← File.Tell
  File.WriteUint 0
  File.WriteUint entries
  pure sizePos

/-- The function `FinishChunk`: stores `curPos-sizePos-8` (computed in `long`,
stored as `uInt`) at `sizePos` and puts the cursor back. -/
def FinishChunk (sizePos : Nat) : M OutFile Unit := do
  let curPos ← File.Tell
  File.SeekSet sizePos
  File.WriteUint (toUint ((curPos : Int) - (sizePos : Int) - 8))
  File.SeekSet curPos

/-! ## `Model::Save` -/

/-- The body of the first loop of `Save`: one bone. -/
def Save.bone (bone : Bone) : M OutFile Unit := do
  String.WriteToFile bone.name
  File.WriteInt bone.idParent
  writeVec3 bone.origin
  writeQuat bone.quat

/-- The body of the loop over `k` in `Save`: one weight. -/
def Save.weight (weight : VertexWeight) : M OutFile Unit := do
  File.WriteInt weight.boneId
  writeVec3 weight.origin
  writeVec3 weight.normal
  File.WriteFloat weight.influence

/-- The body of the loop over `j` in `Save`: the weight count of a vertex and
its first `numWeights` weights. -/
def Save.vertex (vInfo : Vertex) : M OutFile Unit := do
  File.WriteUint vInfo.numWeights
  forEach Save.weight (vInfo.weights.take vInfo.numWeights)

/-- The body of the second loop of `Save`: one mesh. The array loops run over
the first `numIndices` or `numVerts` elements of each buffer; the `2 * numVerts`
floats of the texture coordinates are written as `numVerts` pairs. -/
def Save.mesh (mesh : MeshAnimated) : M OutFile Unit := do
  String.WriteToFile mesh.name
  String.WriteToFile mesh.material
  File.WriteInt mesh.flags
  File.WriteInt mesh.detailLevel
  File.WriteUint mesh.numVerts
  File.WriteUint mesh.numIndices
  File.WriteIntArray mesh.indices mesh.numIndices
  forEach writeVec2 (mesh.texCoords.take mesh.numVerts)
  forEach Save.vertex (mesh.vertices.take mesh.numVerts)

/-- The `try` block of `Save` up to `file->Close()`, for the model name
computed from the file name. -/
def Save.body (modelName : String) (model : Model) : M OutFile Unit := do
  File.Write magicGMD
  File.WriteInt GMD_VERSION
  String.WriteToFile modelName
  String.WriteToFile strUnknown
  String.WriteToFile strOgTools
  let numBones := model.bones.length
  let numMeshes := model.meshes.length
  File.WriteUint numBones
  File.WriteUint numMeshes
  File.WriteUint 2
  let sizePos ← StartChunk strBones numBones
  forEach Save.bone model.bones
  FinishChunk sizePos
  let sizePos ← StartChunk strMeshes numMeshes
  forEach Save.mesh model.meshes
  FinishChunk sizePos

/-! ## The entry points -/

/-- What a call does besides returning: the diagnostics, the `Close` of the
opened file and the `delete` of the model. -/
inductive Event where
  | warning (filename : String) : Event
  | close : Event
  | deleteModel (model : Option Model) : Event
  | error (e : FileReadWriteError) (filename : String) : Event
  deriving DecidableEq, Repr

/-- The part of the interface `FileSystemCore` that the model code calls.
`OpenRead` gives the bytes of an existing file, to be read from its first byte,
or nothing. `OpenWrite` gives a new, empty file, described by the length its
medium can hold (`none`: no bound), or nothing. -/
structure FileSystemCore where
  OpenRead : String → Option (List Byte)
  OpenWrite : String → Option (Option Nat)

/-- The two `og::String` operations `Save` applies to the file name. They are
not under `src/` and are taken as given. -/
structure PathOps where
  StripFileExtension : String → String
  StripPath : String → String

/-- What a call of `Load` returns and does: the pointer returned (`none` is
`NULL`), the events in order, and the file it opened with the state of its
try block at the end (`none`: no file was opened). -/
structure LoadOutcome where
  result : Option Model
  events : List Event
  final : Option LoadState
  deriving DecidableEq, Repr

/-- The function `Model::Load`; `modelFS` is the global pointer, `none` for
`NULL`. Every `new` expression of the try block is taken to provide its memory,
so that `FileReadWriteError` is the only exception; `Model.LoadA` below is the
function without this assumption, and `LoadA_matches_Load` relates the two. -/
def Model.Load (modelFS : Option FileSystemCore) (filename : String) : LoadOutcome :=
  match modelFS with
  | none => { result := none, events := [], final := none }
  | some fs =>
    match fs.OpenRead filename with
    | none => { result := none, events := [Event.warning filename], final := none }
    | some bytes =>
      match Load.body { file := { rest := bytes, over := 0 }, model := none } with
      | (Res.ok _, s) =>
        { result := s.model, events := [Event.close], final := some s }
      | (Res.error e, s) =>
        { result := none,
          events := [Event.close, Event.deleteModel s.model, Event.error e filename],
          final := some s }

/-- What a call of `Save` returns and does: the boolean, the events in order,
and the file it opened as the call leaves it (`none`: no file was opened). -/
structure SaveOutcome where
  result : Bool
  events : List Event
  final : Option OutFile
  deriving DecidableEq, Repr

/-- The function `Model::Save`; `modelFS` is the global pointer, `none` for
`NULL`. -/
def Model.Save (ops : PathOps) (modelFS : Option FileSystemCore) (model : Model)
    (filename : String) : SaveOutcome :=
  match modelFS with
  | none => { result := false, events := [], final := none }
  | some fs =>
    match fs.OpenWrite filename with
    | none => { result := false, events := [], final := none }
    | some limit =>
      match Save.body (ops.StripPath (ops.StripFileExtension filename)) model
          { data := [], pos := 0, limit := limit } with
      | (Res.ok _, f) => { result := true, events := [Event.close], final := some f }
      | (Res.error e, f) =>
        { result := false, events := [Event.close, Event.error e filename], final := some f }

/-! ## The bytes of the format, in closed form -/

/-- The bytes `File::WriteInt` stores. -/
def encInt (x : Int) : List Byte := encU32 (toUint x)

/-- The bytes `File::WriteUint` and `File::WriteFloat` store. -/
def encUint (n : Nat) : List Byte := encU32 (n % 4294967296)

/-- The bytes `String::WriteToFile` stores. -/
def encStr (s : String) : List Byte := encUint s.length ++ s

/-- The bytes of a `Vec2`. -/
def encVec2 (v : Vec2) : List Byte := encUint v.x ++ encUint v.y

/-- The bytes of a `Vec3`. -/
def encVec3 (v : Vec3) : List Byte := encUint v.x ++ (encUint v.y ++ encUint v.z)

/-- The bytes of a `Quat`. -/
def encQuat (q : Quat) : List Byte :=
  encUint q.x ++ (encUint q.y ++ (encUint q.z ++ encUint q.w))

/-- The bytes of the entries of a container, one after the other. -/
def encList {α : Type} (enc : α → List Byte) : List α → List Byte
  | [] => []
  | a :: as => enc a ++ encList enc as

/-- The bytes of one bone record. -/
def encBone (b : Bone) : List Byte :=
  encStr b.name ++ (encInt b.idParent ++ (encVec3 b.origin ++ encQuat b.quat))

/-- The bytes of one weight record. -/
def encWeight (w : VertexWeight) : List Byte :=
  encInt w.boneId ++ (encVec3 w.origin ++ (encVec3 w.normal ++ encUint w.influence))

/-- The bytes of one vertex record. -/
def encVertex (v : Vertex) : List Byte :=
  encUint v.numWeights ++ encList encWeight (v.weights.take v.numWeights)

/-- The bytes of one mesh record. -/
def encMesh (m : MeshAnimated) : List Byte :=
  encStr m.name ++ (encStr m.material ++ (encInt m.flags ++ (encInt m.detailLevel ++
    (encUint m.numVerts ++ (encUint m.numIndices ++
      (encList encInt (m.indices.take m.numIndices) ++
        (encList encVec2 (m.texCoords.take m.numVerts) ++
          encList encVertex (m.vertices.take m.numVerts))))))))

/-- The bytes of a chunk: name, size of the payload, entry count, payload. -/
def encChunk (name : String) (entries : Nat) (payload : List Byte) : List Byte :=
  encStr name ++ (encUint payload.length ++ (encUint entries ++ payload))

/-- The bytes of a header. -/
def encHeader (version : Int) (modelName author appName : String)
    (numBones numMeshes numChunks : Nat) : List Byte :=
  magicGMD ++ (encInt version ++ (encStr modelName ++ (encStr author ++ (encStr appName ++
    (encUint numBones ++ (encUint numMeshes ++ encUint numChunks))))))

/-- The payload of the "Bones" chunk of a model. -/
def bonesPayload (model : Model) : List Byte := encList encBone model.bones

/-- The payload of the "Meshes" chunk of a model. -/
def meshesPayload (model : Model) : List Byte := encList encMesh model.meshes

/-- The content of the file `Save` writes for a model, in closed form. -/
def gmdBytes (modelName : String) (model : Model) : List Byte :=
  encHeader GMD_VERSION modelName strUnknown strOgTools model.bones.length model.meshes.length 2 ++
    (encChunk strBones model.bones.length (bonesPayload model) ++
      encChunk strMeshes model.meshes.length (meshesPayload model))

/-! ## Well-formed in-memory models

The ranges of the machine types and the counts of the data model: every count
is the length of its buffer. -/

/-- A value of type `uInt`, or a 32-bit float pattern. -/
def IsU32 (n : Nat) : Prop := n < 4294967296

/-- A value of type `int`. -/
def IsI32 (x : Int) : Prop := -2147483648 ≤ x ∧ x < 2147483648

/-- A string whose length fits its length field. -/
def String.Valid (s : String) : Prop := s.length < 4294967296

/-- A `Vec2` of 32-bit patterns. -/
def Vec2.Valid (v : Vec2) : Prop := IsU32 v.x ∧ IsU32 v.y

/-- A `Vec3` of 32-bit patterns. -/
def Vec3.Valid (v : Vec3) : Prop := IsU32 v.x ∧ IsU32 v.y ∧ IsU32 v.z

/-- A `Quat` of 32-bit patterns. -/
def Quat.Valid (q : Quat) : Prop := IsU32 q.x ∧ IsU32 q.y ∧ IsU32 q.z ∧ IsU32 q.w

/-- A bone whose members are in the ranges of their types. -/
def Bone.Valid (b : Bone) : Prop :=
  String.Valid b.name ∧ IsI32 b.idParent ∧ b.origin.Valid ∧ b.quat.Valid

/-- A weight whose members are in the ranges of their types. -/
def VertexWeight.Valid (w : VertexWeight) : Prop :=
  IsI32 w.boneId ∧ w.origin.Valid ∧ w.normal.Valid ∧ IsU32 w.influence

/-- A vertex with exactly `numWeights` weights. -/
def Vertex.Valid (v : Vertex) : Prop :=
  IsU32 v.numWeights ∧ v.weights.length = v.numWeights ∧ ∀ w ∈ v.weights, w.Valid

/-- A mesh whose counts match its buffers. -/
def MeshAnimated.Valid (m : MeshAnimated) : Prop :=
  String.Valid m.name ∧ String.Valid m.material ∧ IsI32 m.flags ∧ IsI32 m.detailLevel ∧
  IsU32 m.numVerts ∧ IsU32 m.numIndices ∧
  m.indices.length = m.numIndices ∧ (∀ i ∈ m.indices, IsI32 i) ∧
  m.texCoords.length = m.numVerts ∧ (∀ t ∈ m.texCoords, t.Valid) ∧
  m.vertices.length = m.numVerts ∧ (∀ v ∈ m.vertices, v.Valid)

/-- A model as the data model describes it. -/
def Model.Valid (m : Model) : Prop :=
  IsU32 m.bones.length ∧ IsU32 m.meshes.length ∧
  (∀ b ∈ m.bones, b.Valid) ∧ (∀ mesh ∈ m.meshes, mesh.Valid)

instance (n : Nat) : Decidable (IsU32 n) := by unfold IsU32; infer_instance
instance (x : Int) : Decidable (IsI32 x) := by unfold IsI32; infer_instance
instance (s : String) : Decidable (String.Valid s) := by unfold String.Valid; infer_instance
instance (v : Vec2) : Decidable v.Valid := by unfold Vec2.Valid; infer_instance
instance (v : Vec3) : Decidable v.Valid := by unfold Vec3.Valid; infer_instance
instance (q : Quat) : Decidable q.Valid := by unfold Quat.Valid; infer_instance
instance (b : Bone) : Decidable b.Valid := by unfold Bone.Valid; infer_instance
instance (w : VertexWeight) : Decidable w.Valid := by unfold VertexWeight.Valid; infer_instance
instance (v : Vertex) : Decidable v.Valid := by unfold Vertex.Valid; infer_instance
instance (m : MeshAnimated) : Decidable m.Valid := by unfold MeshAnimated.Valid; infer_instance
instance (m : Model) : Decidable m.Valid := by unfold Model.Valid; infer_instance

/-! ## What a step does to a file -/

/-- The reader `x` reads exactly the bytes `enc`: on a file that starts with
them it consumes them and returns `v`, whatever follows; on a file that ends
before the last of them it throws. -/
def Decodes {α : Type} (x : M InFile α) (enc : List Byte) (v : α) : Prop :=
  (∀ (r : List Byte) (o : Nat), x ⟨enc ++ r, o⟩ = (Res.ok v, ⟨r, o⟩)) ∧
  (∀ (k o : Nat), k < enc.length → ∃ e s, x ⟨enc.take k, o⟩ = (Res.error e, s))

/-- The statement `x` of `Load` reads exactly the bytes `enc`: on a file that
starts with them it consumes them, returns `v` and changes the pointer `model`
by `g`; on a file that ends before the last of them it throws. -/
def Steps {α : Type} (x : M LoadState α) (enc : List Byte) (v : α)
    (g : Option Model → Option Model) : Prop :=
  (∀ (r : List Byte) (o : Nat) (mo : Option Model),
      x ⟨⟨enc ++ r, o⟩, mo⟩ = (Res.ok v, ⟨⟨r, o⟩, g mo⟩)) ∧
  (∀ (k o : Nat) (mo : Option Model), k < enc.length →
      ∃ e s, x ⟨⟨enc.take k, o⟩, mo⟩ = (Res.error e, s))
/-- The writer `w`, with the cursor at the end of a file, appends exactly the
bytes `enc`, provided the medium holds the longer file. -/
def Appends (w : M OutFile Unit) (enc : List Byte) : Prop :=
  ∀ (d : List Byte) (lim : Option Nat), fits lim (d ++ enc).length = true →
    w ⟨d, d.length, lim⟩ = (Res.ok (), ⟨d ++ enc, (d ++ enc).length, lim⟩)

/-- The reader `x` looks only at the bytes it consumes: the cursor never moves
back from past the end, and a run that ends with the cursor inside the file
consumed a leading part `a` of it and runs the same way whatever follows `a`. -/
def LocalF {α : Type} (x : M InFile α) : Prop :=
  ∀ (s : List Byte) (o : Nat) (v : α) (r1 : List Byte) (o1 : Nat),
    x ⟨s, o⟩ = (Res.ok v, ⟨r1, o1⟩) →
    o ≤ o1 ∧ (o1 = 0 → ∃ a, s = a ++ r1 ∧ ∀ b, x ⟨a ++ b, 0⟩ = (Res.ok v, ⟨b, 0⟩))

/-- The same for a statement of `Load`. -/
def LocalL {α : Type} (x : M LoadState α) : Prop :=
  ∀ (s : List Byte) (o : Nat) (mo : Option Model) (v : α) (r1 : List Byte) (o1 : Nat)
    (mo1 : Option Model),
    x ⟨⟨s, o⟩, mo⟩ = (Res.ok v, ⟨⟨r1, o1⟩, mo1⟩) →
    o ≤ o1 ∧ (o1 = 0 → ∃ a, s = a ++ r1 ∧
      ∀ b, x ⟨⟨a ++ b, 0⟩, mo⟩ = (Res.ok v, ⟨⟨b, 0⟩, mo1⟩))

/-- The statement `x` throws only errors that satisfy `P`. -/
def Throws {σ α : Type} (P : FileReadWriteError → Prop) (x : M σ α) : Prop :=
  ∀ (s s1 : σ) (e : FileReadWriteError), x s = (Res.error e, s1) → P e

/-- The errors of a chunk: a stream fault or one of the two count complaints. -/
def ChunkError (e : FileReadWriteError) : Prop :=
  e = FileReadWriteError.read ∨ (∃ a b, e = FileReadWriteError.numBones a b) ∨
    ∃ a b, e = FileReadWriteError.numMeshes a b

/-! ## Example files and models -/

/-- The file system after `Save` has run, as a later `Load` sees it: the file
`filename` holds what `Save` left in it, every other file is as before. -/
def afterSave (ops : PathOps) (fs : FileSystemCore) (model : Model) (filename : String) :
    FileSystemCore :=
  { OpenRead := fun name =>
      if name = filename then
        (Model.Save ops (some fs) model filename).final.map OutFile.data
      else fs.OpenRead name,
    OpenWrite := fs.OpenWrite }

/-- A file system with nothing to read, in which every file can be created on
a medium without bound. -/
def writableFS : FileSystemCore :=
  { OpenRead := fun _ => none, OpenWrite := fun _ => some none }

/-- A file system in which every file can be created on a medium that holds
`limit` bytes. -/
def boundedFS (limit : Nat) : FileSystemCore :=
  { OpenRead := fun _ => none, OpenWrite := fun _ => some (some limit) }

/-- A file system in which every name opens a file with the content `bytes`
and nothing can be written. -/
def readableFS (bytes : List Byte) : FileSystemCore :=
  { OpenRead := fun _ => some bytes, OpenWrite := fun _ => none }

/-- A file system in which no file can be opened. -/
def emptyFS : FileSystemCore :=
  { OpenRead := fun _ => none, OpenWrite := fun _ => none }

/-- Path operations that leave a name as it is. -/
def plainOps : PathOps :=
  { StripFileExtension := id, StripPath := id }

/-- The file name "m". -/
def scenarioName : String := [109]

/-- The model of the concrete scenario: a root bone and a child bone, and one
mesh with three vertices and two indices; the vertices have no weight, one
weight of influence 1.0 on bone 0, and two weights of influence 0.6 and 0.4. -/
def scenarioModel : Model :=
  { isAnimated := true,
    bones := [⟨[114, 111, 111, 116], -1, ⟨0, 0, 0⟩, ⟨0, 0, 0, 1065353216⟩⟩,
              ⟨[99, 104, 105, 108, 100], 0, ⟨1065353216, 0, 0⟩, ⟨0, 0, 0, 1065353216⟩⟩],
    meshes := [{ name := [109, 101, 115, 104], material := [115, 107, 105, 110],
                 flags := 0, detailLevel := 0,
                 numVerts := 3, numIndices := 2, indices := [0, 1],
                 texCoords := [⟨0, 0⟩, ⟨1065353216, 0⟩, ⟨0, 1065353216⟩],
                 vertices := [⟨0, []⟩,
                              ⟨1, [⟨0, ⟨0, 0, 0⟩, ⟨0, 0, 1065353216⟩, 1065353216⟩]⟩,
                              ⟨2, [⟨0, ⟨0, 0, 0⟩, ⟨0, 0, 1065353216⟩, 1058642330⟩,
                                   ⟨1, ⟨0, 0, 0⟩, ⟨0, 0, 1065353216⟩, 1053609165⟩]⟩] }] }

/-- A file whose header announces two bones and whose only chunk, named
"Bones", announces one entry. -/
def mismatchFile : List Byte :=
  encHeader GMD_VERSION [] strUnknown strOgTools 2 0 1 ++
    (encStr strBones ++ (encUint 0 ++ (encUint 1 ++ [])))

/-- The file of the scenario model without its last byte. -/
def truncatedFile : List Byte :=
  (gmdBytes scenarioName scenarioModel).take ((gmdBytes scenarioName scenarioModel).length - 1)

/-- The header of the scenario file up to, and without, the field `numChunks`. -/
def scenarioHead : List Byte :=
  magicGMD ++ (encInt GMD_VERSION ++ (encStr scenarioName ++ (encStr strUnknown ++
    (encStr strOgTools ++ (encUint 2 ++ encUint 1)))))

/-- The "Bones" chunk of the scenario file. -/
def scenarioBones : List Byte := encChunk strBones 2 (bonesPayload scenarioModel)

/-- The "Meshes" chunk of the scenario file. -/
def scenarioMeshes : List Byte := encChunk strMeshes 1 (meshesPayload scenarioModel)

/-- A chunk named "X" with seven entries and a payload of three bytes. -/
def unknownChunk : List Byte := encChunk [88] 7 [1, 2, 3]

/-- The writer `w`, with the cursor anywhere, stores exactly the bytes `enc` at
the cursor and moves the cursor past them, provided the medium holds the
resulting file. -/
def Overwrites (w : M OutFile Unit) (enc : List Byte) : Prop :=
  ∀ f : OutFile, fits f.limit (max f.data.length (f.pos + enc.length)) = true →
    w f = (Res.ok (), ⟨overwrite f.data f.pos enc, f.pos + enc.length, f.limit⟩)

/-- The number of bytes of a bone record: the encoded name and 32 bytes. -/
def boneSize (b : Bone) : Nat := (4 + b.name.length) + 32

/-- The number of bytes of a vertex record: the count and 32 bytes for each weight. -/
def vertexSize (v : Vertex) : Nat := 4 + 32 * v.numWeights

/-- The number of bytes of a mesh record: the two encoded strings, 16 bytes
for the flags, the detail level and the two counts, the indices, the texture
coordinates and the vertex records. -/
def meshSize (m : MeshAnimated) : Nat :=
  (4 + m.name.length) + (4 + m.material.length) + 16 + 4 * m.numIndices + 8 * m.numVerts +
    (m.vertices.map vertexSize).sum

/-- A vertex with exactly `numWeights` weights. -/
def Vertex.CountsMatch (v : Vertex) : Prop := v.weights.length = v.numWeights

/-- A mesh whose buffers have the lengths its counts give. -/
def MeshAnimated.CountsMatch (m : MeshAnimated) : Prop :=
  m.indices.length = m.numIndices ∧ m.texCoords.length = m.numVerts ∧
  m.vertices.length = m.numVerts ∧ ∀ v ∈ m.vertices, v.CountsMatch

/-- A model whose meshes all have buffers of the lengths their counts give. -/
def Model.CountsMatch (m : Model) : Prop := ∀ mesh ∈ m.meshes, mesh.CountsMatch

instance (v : Vertex) : Decidable v.CountsMatch := by unfold Vertex.CountsMatch; infer_instance
instance (m : MeshAnimated) : Decidable m.CountsMatch := by
  unfold MeshAnimated.CountsMatch; infer_instance
instance (m : Model) : Decidable m.CountsMatch := by unfold Model.CountsMatch; infer_instance

/-- A vertex with the two weights of the example: bone ids 0 and -1. -/
def twoWeightVertex : Vertex :=
  ⟨2, [⟨0, ⟨1, 2, 3⟩, ⟨4, 5, 6⟩, 7⟩, ⟨-1, ⟨8, 9, 10⟩, ⟨11, 12, 13⟩, 14⟩]⟩

/-! ## The layout of the files `Load` accepts -/

/-- A chunk as `Load` reads it in full: a chunk whose name compares equal to
"Bones" with its bone records, a chunk whose name compares equal to "Meshes"
with its mesh records (either with whatever its size field holds), or a chunk
of another name with the bytes its size field makes `Load` skip. -/
inductive Chunk where
  | bones (name : String) (size : Nat) (bs : List Bone) : Chunk
  | meshes (name : String) (size : Nat) (ms : List MeshAnimated) : Chunk
  | skipped (name : String) (entries : Nat) (payload : List Byte) : Chunk
  deriving DecidableEq, Repr

/-- The bytes of a chunk: name, size field, entry count, payload. -/
def Chunk.enc : Chunk → List Byte
  | Chunk.bones name size bs =>
    encStr name ++ (encUint size ++ (encUint bs.length ++ encList encBone bs))
  | Chunk.meshes name size ms =>
    encStr name ++ (encUint size ++ (encUint ms.length ++ encList encMesh ms))
  | Chunk.skipped name entries payload => encChunk name entries payload

/-- A chunk in a file whose header announces `numBones` bones and `numMeshes`
meshes, with every field in the range of its type. -/
def Chunk.Valid (numBones numMeshes : Nat) : Chunk → Prop
  | Chunk.bones name size bs =>
    String.Valid name ∧ String.Icmp name strBones = 0 ∧ IsU32 size ∧
      bs.length = numBones ∧ ∀ b ∈ bs, b.Valid
  | Chunk.meshes name size ms =>
    String.Valid name ∧ String.Icmp name strBones ≠ 0 ∧ String.Icmp name strMeshes = 0 ∧
      IsU32 size ∧ ms.length = numMeshes ∧ ∀ m ∈ ms, m.Valid
  | Chunk.skipped name entries payload =>
    String.Valid name ∧ String.Icmp name strBones ≠ 0 ∧ String.Icmp name strMeshes ≠ 0 ∧
      IsU32 entries ∧ IsU32 payload.length

/-- The bones a chunk adds to the model. -/
def Chunk.bonesOf : Chunk → List Bone
  | Chunk.bones _ _ bs => bs
  | _ => []

/-- The meshes a chunk adds to the model. -/
def Chunk.meshesOf : Chunk → List MeshAnimated
  | Chunk.meshes _ _ ms => ms
  | _ => []

/-- The bones a sequence of chunks adds to the model, in file order. -/
def chunkBones : List Chunk → List Bone
  | [] => []
  | c :: cs => c.bonesOf ++ chunkBones cs

/-- The meshes a sequence of chunks adds to the model, in file order. -/
def chunkMeshes : List Chunk → List MeshAnimated
  | [] => []
  | c :: cs => c.meshesOf ++ chunkMeshes cs

/-- What follows the chunks that `Load` reads in full: bytes it never looks
at, or a last chunk of another name whose size field reaches past the end of
the file, so that the seek leaves the cursor past the end. -/
inductive Tail where
  | bytes (rest : List Byte) : Tail
  | cut (name : String) (size entries : Nat) (payload : List Byte) : Tail
  deriving DecidableEq, Repr

/-- The bytes of the end of a file. -/
def Tail.enc : Tail → List Byte
  | Tail.bytes rest => rest
  | Tail.cut name size entries payload =>
    encStr name ++ (encUint size ++ (encUint entries ++ payload))

/-- The number of chunks of the header count that the end of a file holds. -/
def Tail.count : Tail → Nat
  | Tail.bytes _ => 0
  | Tail.cut _ _ _ _ => 1

/-- The bytes `Load` leaves unread. -/
def Tail.unread : Tail → List Byte
  | Tail.bytes rest => rest
  | Tail.cut _ _ _ _ => []

/-- How far past the end of the file `Load` leaves the cursor. -/
def Tail.over : Tail → Nat
  | Tail.bytes _ => 0
  | Tail.cut _ size _ payload => size - payload.length

/-- The end of a file, with every field in the range of its type. -/
def Tail.Valid : Tail → Prop
  | Tail.bytes _ => True
  | Tail.cut name size entries payload =>
    String.Valid name ∧ String.Icmp name strBones ≠ 0 ∧ String.Icmp name strMeshes ≠ 0 ∧
      IsU32 size ∧ IsU32 entries ∧ payload.length < size

/-- The layout of a file: the header strings and counts, the chunks, and what
follows them. The chunk count of the header is the number of chunks. -/
structure GmdFile where
  modelName : String
  author : String
  appName : String
  numBones : Nat
  numMeshes : Nat
  chunks : List Chunk
  tail : Tail
  deriving DecidableEq, Repr

/-- The bytes of a file of the given layout. -/
def GmdFile.enc (t : GmdFile) : List Byte :=
  encHeader GMD_VERSION t.modelName t.author t.appName t.numBones t.numMeshes
      (t.chunks.length + t.tail.count) ++
    (encList Chunk.enc t.chunks ++ t.tail.enc)

/-- A layout with every field in the range of its type. -/
def GmdFile.Valid (t : GmdFile) : Prop :=
  String.Valid t.modelName ∧ String.Valid t.author ∧ String.Valid t.appName ∧
  IsU32 t.numBones ∧ IsU32 t.numMeshes ∧ IsU32 (t.chunks.length + t.tail.count) ∧
  (∀ c ∈ t.chunks, c.Valid t.numBones t.numMeshes) ∧ t.tail.Valid

/-- The model a file of the given layout holds. -/
def GmdFile.model (t : GmdFile) : Model :=
  ⟨true, chunkBones t.chunks, chunkMeshes t.chunks⟩

/-- The bytes `e x` are fixed bytes around the four bytes of the integer `x`. -/
def Patch (e : Int → List Byte) : Prop :=
  ∃ pre post : List Byte, ∀ x : Int, e x = pre ++ (encInt x ++ post)

/-! ## Chunk names and size fields in a file -/

/-- The byte `y` is the byte `x` or the same ASCII letter in the other case. -/
def sameLetter (x y : Byte) : Prop :=
  x = y ∨ (65 ≤ x.val ∧ x.val ≤ 90 ∧ y.val = x.val + 32) ∨
    (97 ≤ x.val ∧ x.val ≤ 122 ∧ x.val = y.val + 32)

/-- The string `b` is the string `a` with the case of some of its letters
changed. -/
def CaseVariant : String → String → Prop
  | [], [] => True
  | x :: xs, y :: ys => sameLetter x y ∧ CaseVariant xs ys
  | [], _ :: _ => False
  | _ :: _, [] => False

instance (x y : Byte) : Decidable (sameLetter x y) := by unfold sameLetter; infer_instance

/-- Whether one string is a case variant of the other can be computed. -/
def CaseVariant.dec : (a b : String) → Decidable (CaseVariant a b)
  | [], [] => isTrue trivial
  | x :: xs, y :: ys =>
    match (inferInstance : Decidable (sameLetter x y)), CaseVariant.dec xs ys with
    | isTrue h1, isTrue h2 => isTrue ⟨h1, h2⟩
    | isFalse h1, _ => isFalse fun h => h1 h.1
    | _, isFalse h2 => isFalse fun h => h2 h.2
  | [], _ :: _ => isFalse fun h => h
  | _ :: _, [] => isFalse fun h => h

instance (a b : String) : Decidable (CaseVariant a b) := CaseVariant.dec a b

/-- The file `s2` is the file `s1` with another value in the size field of one
chunk whose name compares equal to "Bones" or to "Meshes": `Load` reads the
header of `s1` and, after `k` of its chunks, stands before that chunk. -/
def SizeFieldChange (s1 s2 : List Byte) : Prop :=
  ∃ (hd p r : List Byte) (h : Header) (k : Nat) (mk : Option Model) (name : String)
    (size size2 : Nat),
    s1 = hd ++ (p ++ (encStr name ++ (encUint size ++ r))) ∧
    s2 = hd ++ (p ++ (encStr name ++ (encUint size2 ++ r))) ∧
    Load.header ⟨⟨hd ++ (p ++ (encStr name ++ (encUint size ++ r))), 0⟩, none⟩ =
      (Res.ok h, ⟨⟨p ++ (encStr name ++ (encUint size ++ r)), 0⟩, none⟩) ∧
    k < h.numChunks ∧
    forN (Load.chunk h.numBones h.numMeshes) k
        ⟨⟨p ++ (encStr name ++ (encUint size ++ r)), 0⟩, some (Model.new true)⟩ =
      (Res.ok (), ⟨⟨encStr name ++ (encUint size ++ r), 0⟩, mk⟩) ∧
    String.Valid name ∧ (String.Icmp name strBones = 0 ∨ String.Icmp name strMeshes = 0) ∧
    IsU32 size ∧ IsU32 size2

/-- The header of the scenario file. -/
def scenarioHeader : List Byte := scenarioHead ++ encUint 2

/-- The scenario file after the size field of its "Bones" chunk. -/
def scenarioAfterSize : List Byte :=
  encUint 2 ++ (bonesPayload scenarioModel ++ scenarioMeshes)

/-- The name of a chunk. -/
def Chunk.name : Chunk → String
  | Chunk.bones name _ _ => name
  | Chunk.meshes name _ _ => name
  | Chunk.skipped name _ _ => name

/-- The names of the chunks the end of a file holds. -/
def Tail.names : Tail → List String
  | Tail.bytes _ => []
  | Tail.cut name _ _ _ => [name]

/-- The names of the chunks of a file, in file order: as many as the chunk
count of the header says. -/
def GmdFile.chunkNames (t : GmdFile) : List String :=
  t.chunks.map Chunk.name ++ t.tail.names

/-- The number of names that `Icmp` finds equal to `ref`, as `Load` compares
the name of a chunk to "Bones" and to "Meshes". -/
def namedCount (ref : String) (names : List String) : Nat :=
  names.countP fun n => decide (String.Icmp n ref = 0)

instance (numBones numMeshes : Nat) (c : Chunk) : Decidable (c.Valid numBones numMeshes) := by
  cases c <;> unfold Chunk.Valid <;> infer_instance

instance (tl : Tail) : Decidable tl.Valid := by
  cases tl <;> unfold Tail.Valid <;> infer_instance

instance (t : GmdFile) : Decidable t.Valid := by unfold GmdFile.Valid; infer_instance

/-- The layout of the scenario file. -/
def scenarioLayout : GmdFile :=
  ⟨scenarioName, strUnknown, strOgTools, 2, 1,
    [Chunk.bones strBones 81 scenarioModel.bones, Chunk.meshes strMeshes 172 scenarioModel.meshes],
    Tail.bytes []⟩

/-- A layout with two "Bones" chunks and no "Meshes" chunk under a header that
announces two bones and one mesh. -/
def twoBonesLayout : GmdFile :=
  ⟨scenarioName, strUnknown, strOgTools, 2, 1,
    [Chunk.bones strBones 81 scenarioModel.bones, Chunk.bones strBones 81 scenarioModel.bones],
    Tail.bytes []⟩

/-! ## `Model::Load` with `new` expressions that can fail

`Model.Load` above is the function on the assumption that every `new`
expression provides its memory, and its `Load.mesh` stores an array into the
mesh when the array has been read in full. The definitions of this section
drop both assumptions: a `new` expression throws `std::bad_alloc` when the
allocator refuses, the handler of `Load` catches `FileReadWriteError` and
nothing else, and every buffer is filled in place, slot by slot. -/

/-- What leaves a statement of `Load` that does not complete: a
`FileReadWriteError`, or the `std::bad_alloc` of a `new` expression. -/
inductive Thrown where
  | fileError (e : FileReadWriteError) : Thrown
  | badAlloc : Thrown
  deriving DecidableEq, Repr

/-- Result of a step of the `try` block when `new` can fail. -/
inductive ResA (α : Type) where
  | ok (a : α) : ResA α
  | thrown (t : Thrown) : ResA α
  deriving DecidableEq, Repr

/-- Statements of the `try` block when `new` can fail. -/
def MA (σ α : Type) : Type := σ → ResA α × σ

/-- Sequencing: a throw skips the rest and keeps the state reached so far. -/
def MA.bind {σ α β : Type} (x : MA σ α) (f : α → MA σ β) : MA σ β := fun s =>
  match x s with
  | (ResA.ok a, s1) => f a s1
  | (ResA.thrown t, s1) => (ResA.thrown t, s1)

/-- Normal completion with a value. -/
def MA.pure {σ α : Type} (a : α) : MA σ α := fun s => (ResA.ok a, s)

instance {σ : Type} : Monad (MA σ) where
  pure := MA.pure
  bind := MA.bind

/-- A statement that allocates nothing: what it throws is a
`FileReadWriteError`. -/
def MA.ofM {σ α : Type} (x : M σ α) : MA σ α := fun s =>
  match x s with
  | (Res.ok a, s1) => (ResA.ok a, s1)
  | (Res.error e, s1) => (ResA.thrown (Thrown.fileError e), s1)

/-- Modelled from the spec: the allocator behind `new` and `new[]` is not under
`src/`. A request for `n` objects is granted when `n` is at most `cap`, the
largest array the allocator provides; otherwise `std::bad_alloc` is thrown. -/
def alloc {σ : Type} (cap n : Nat) : MA σ Unit := fun s =>
  if n ≤ cap then (ResA.ok (), s) else (ResA.thrown Thrown.badAlloc, s)

/-- A counted `for` loop whose body uses the loop index, which starts at `i`. -/
def forIdx {σ : Type} (body : Nat → MA σ Unit) (i : Nat) : Nat → MA σ Unit
  | 0 => pure ()
  | n + 1 => do
    body i
    forIdx body (i + 1) n

/-- Applies `f` to the element at index `k` of a list (`buffer[k]`). -/
def modifyAt {α : Type} (f : α → α) : Nat → List α → List α
  | _, [] => []
  | 0, a :: l => f a :: l
  | k + 1, a :: l => a :: modifyAt f k l

/-- An update of `mesh->vertices[k]` of the mesh appended last
(`Vertex &vInfo`). -/
def onVertex (k : Nat) (f : Vertex → Vertex) : M LoadState Unit :=
  onMesh fun mesh => { mesh with vertices := modifyAt f k mesh.vertices }

/-- An update of `vInfo.weights[l]` (`VertexWeight &weight`). -/
def onWeight (k l : Nat) (f : VertexWeight → VertexWeight) : M LoadState Unit :=
  onVertex k fun v => { v with weights := modifyAt f l v.weights }

/-- The body of the loop over `l`: each member of `weight` is stored as it is
read. -/
def LoadA.weight (k l : Nat) : MA LoadState Unit := do
  let boneId ← MA.ofM (onFile File.ReadInt)
  MA.ofM (onWeight k l fun w => { w with boneId := boneId })
  let origin ← MA.ofM (onFile readVec3)
  MA.ofM (onWeight k l fun w => { w with origin := origin })
  let normal ← MA.ofM (onFile readVec3)
  MA.ofM (onWeight k l fun w => { w with normal := normal })
  let influence ← MA.ofM (onFile File.ReadFloat)
  MA.ofM (onWeight k l fun w => { w with influence := influence })

/-- The body of the loop over `k`: `InitVertex` allocates the weights of
`vertices[k]` for the count read, then the loop over `l` fills them. -/
def LoadA.vertex (cap k : Nat) : MA LoadState Unit := do
  let num ← MA.ofM (onFile File.ReadUint)
  alloc cap num
  MA.ofM (onVertex k fun v => InitVertex v num)
  forIdx (LoadA.weight k) 0 num

/-- The body of the loop over `j` in the "Meshes" branch. `new MeshAnimated`,
`InitVertices` and `InitIndices` allocate. `ReadIntArray` and `ReadFloatArray`
are modelled from the spec as storing each integer, and each pair of floats,
into its slot of the buffer as it is read. -/
def LoadA.mesh (cap : Nat) : MA LoadState Unit := do
  alloc cap 1
  MA.ofM (onModel fun m => { m with meshes := m.meshes ++ [MeshAnimated.blank] })
  let name ← MA.ofM (onFile String.ReadFromFile)
  MA.ofM (onMesh fun mesh => { mesh with name := name })
  let material ← MA.ofM (onFile String.ReadFromFile)
  MA.ofM (onMesh fun mesh => { mesh with material := material })
  let flags ← MA.ofM (onFile File.ReadInt)
  MA.ofM (onMesh fun mesh => { mesh with flags := flags })
  let detailLevel ← MA.ofM (onFile File.ReadInt)
  MA.ofM (onMesh fun mesh => { mesh with detailLevel := detailLevel })
  let numVerts ← MA.ofM (onFile File.ReadUint)
  alloc cap numVerts
  MA.ofM (onMesh fun mesh => InitVertices mesh numVerts)
  let numIndices ← MA.ofM (onFile File.ReadUint)
  alloc cap numIndices
  MA.ofM (onMesh fun mesh => InitIndices mesh numIndices)
  forIdx (fun i => do
    let x ← MA.ofM (onFile File.ReadInt)
    MA.ofM (onMesh fun mesh => { mesh with indices := mesh.indices.set i x })) 0 numIndices
  forIdx (fun k => do
    let t ← MA.ofM (onFile readVec2)
    MA.ofM (onMesh fun mesh => { mesh with texCoords := mesh.texCoords.set k t })) 0 numVerts
  forIdx (LoadA.vertex cap) 0 numVerts

/-- The body of the loop over `i`: one chunk, dispatched by its name. -/
def LoadA.chunk (cap numBones numMeshes : Nat) : MA LoadState Unit := do
  let name ← MA.ofM (onFile String.ReadFromFile)
  let size ← MA.ofM (onFile File.ReadUint)
  let entries ← MA.ofM (onFile File.ReadUint)
  if String.Icmp name strBones = 0 then
    if entries ≠ numBones then
      MA.ofM (throwErr (FileReadWriteError.numBones numBones entries))
    else
      forIdx (fun _ => MA.ofM Load.bone) 0 entries
  else if String.Icmp name strMeshes = 0 then
    if entries ≠ numMeshes then
      MA.ofM (throwErr (FileReadWriteError.numMeshes numMeshes entries))
    else
      forIdx (fun _ => LoadA.mesh cap) 0 entries
  else
    MA.ofM (onFile (File.SeekCur size))

/-- The `try` block of `Load` up to `file->Close()`: the header, `new Model`,
then `numChunks` chunks. -/
def LoadA.body (cap : Nat) : MA LoadState Unit := do
  let h ← MA.ofM Load.header
  alloc cap 1
  MA.ofM newModel
  forIdx (fun _ => LoadA.chunk cap h.numBones h.numMeshes) 0 h.numChunks

/-- How a call of `Load` ends: it returns a pointer (`none` is `NULL`), or an
exception that its handler does not catch leaves it. -/
inductive Completion where
  | returned (result : Option Model) : Completion
  | escaped (t : Thrown) : Completion
  deriving DecidableEq, Repr

/-- What a call of `Load` does when `new` can fail: how it ends, the events in
order, and the file it opened with the state of its try block at the end. -/
structure LoadAOutcome where
  completion : Completion
  events : List Event
  final : Option LoadState
  deriving DecidableEq, Repr

/-- The function `Model::Load` when `new` can fail. The handler is
`catch( FileReadWriteError &err )`: a `std::bad_alloc` passes it, so that
neither `file->Close()` nor `delete model` nor a `return` is executed. -/
def Model.LoadA (cap : Nat) (modelFS : Option FileSystemCore) (filename : String) :
    LoadAOutcome :=
  match modelFS with
  | none => { completion := Completion.returned none, events := [], final := none }
  | some fs =>
    match fs.OpenRead filename with
    | none =>
      { completion := Completion.returned none, events := [Event.warning filename],
        final := none }
    | some bytes =>
      match LoadA.body cap { file := { rest := bytes, over := 0 }, model := none } with
      | (ResA.ok _, s) =>
        { completion := Completion.returned s.model, events := [Event.close], final := some s }
      | (ResA.thrown (Thrown.fileError e), s) =>
        { completion := Completion.returned none,
          events := [Event.close, Event.deleteModel s.model, Event.error e filename],
          final := some s }
      | (ResA.thrown Thrown.badAlloc, s) =>
        { completion := Completion.escaped Thrown.badAlloc, events := [], final := some s }

/-- A file of 70 bytes: a header that announces one mesh and one chunk, and a
chunk named "Meshes" with one entry whose vertex count is `2^32 - 1`. -/
def hugeVertsFile : List Byte :=
  encHeader GMD_VERSION [] [] [] 0 1 1 ++
    (encStr strMeshes ++ (encUint 0 ++ (encUint 1 ++
      (encStr [] ++ (encStr [] ++ (encInt 0 ++ (encInt 0 ++ (encUint 4294967295 ++ []))))))))

/-! ## What relates the two embeddings of `Load` -/

/-- An update of the mesh appended last, as a function on models. -/
def liftMesh (g : MeshAnimated → MeshAnimated) (m : Model) : Model :=
  { m with meshes := modifyLast g m.meshes }

/-- An update of `vertices[k]` of a mesh. -/
def vtxUpd (k : Nat) (g : Vertex → Vertex) (mesh : MeshAnimated) : MeshAnimated :=
  { mesh with vertices := modifyAt g k mesh.vertices }

/-- An update of `weights[l]` of a vertex. -/
def wUpd (l : Nat) (g : VertexWeight → VertexWeight) (v : Vertex) : Vertex :=
  { v with weights := modifyAt g l v.weights }

/-- The values `as` stored one after the other by `put` into the slots `i`,
`i + 1`, and so on. -/
def putAll {α β : Type} (put : Nat → α → β → β) : Nat → List α → β → β
  | _, [], b => b
  | i, a :: as, b => putAll put (i + 1) as (put i a b)

/-- The outcome `ra` of a statement in which `new` can fail matches the outcome
`r` of the statement in which it cannot: unless `ra` is a thrown
`std::bad_alloc`, it is the same value and state when `r` is a normal end, and
the same `FileReadWriteError` with the file in the same state when `r` is a
throw. -/
def Matches {α : Type} (r : Res α × LoadState) (ra : ResA α × LoadState) : Prop :=
  (∃ st, ra = (ResA.thrown Thrown.badAlloc, st)) ∨
  ((∀ a s1, r = (Res.ok a, s1) → ra = (ResA.ok a, s1)) ∧
   (∀ e s1, r = (Res.error e, s1) →
      ∃ mo, ra = (ResA.thrown (Thrown.fileError e), ⟨s1.file, mo⟩)))

/-- The statement `xa`, in which `new` can fail, does what the statement `x`
does, from every state. -/
def Refines {α : Type} (x : M LoadState α) (xa : MA LoadState α) : Prop :=
  ∀ s : LoadState, Matches (x s) (xa s)

/-- The statements `body i`, which fill slot `i` of a buffer of the mesh
appended last in place, read what the reader `read` reads and store it by
`put`, unless they throw `std::bad_alloc`. -/
def ElemSpec {α : Type} (body : Nat → MA LoadState Unit) (read : M InFile α)
    (put : Nat → α → MeshAnimated → MeshAnimated) : Prop :=
  ∀ (i : Nat) (f : InFile) (mo : Option Model),
    (∃ st, body i ⟨f, mo⟩ = (ResA.thrown Thrown.badAlloc, st)) ∨
    ((∀ a f1, read f = (Res.ok a, f1) →
        body i ⟨f, mo⟩ = (ResA.ok (), ⟨f1, mo.map (liftMesh (put i a))⟩)) ∧
     (∀ e f1, read f = (Res.error e, f1) →
        ∃ mo1, body i ⟨f, mo⟩ = (ResA.thrown (Thrown.fileError e), ⟨f1, mo1⟩)))

/-! ## Sequencing -/

theorem M.bind_ok {σ α β : Type} {x : M σ α} {f : α → M σ β} {s s1 : σ} {a : α}
    (h : x s = (Res.ok a, s1)) : (x >>= f) s = f a s1 := by
  show M.bind x f s = f a s1
  unfold M.bind
  rw [h]

theorem M.bind_error {σ α β : Type} {x : M σ α} {f : α → M σ β} {s s1 : σ}
    {e : FileReadWriteError} (h : x s = (Res.error e, s1)) :
    (x >>= f) s = (Res.error e, s1) := by
  show M.bind x f s = (Res.error e, s1)
  unfold M.bind
  rw [h]

theorem M.pure_apply {σ α : Type} (a : α) (s : σ) : (Pure.pure a : M σ α) s = (Res.ok a, s) := rfl

/-- A sequence succeeds exactly when both parts do. -/
theorem M.bind_eq_ok {σ α β : Type} {x : M σ α} {f : α → M σ β} {s s2 : σ} {b : β}
    (h : (x >>= f) s = (Res.ok b, s2)) :
    ∃ a s1, x s = (Res.ok a, s1) ∧ f a s1 = (Res.ok b, s2) := by
  have h1 : M.bind x f s = (Res.ok b, s2) := h
  unfold M.bind at h1
  rcases hx : x s with ⟨r, s1⟩
  rw [hx] at h1
  cases r with
  | ok a => exact ⟨a, s1, rfl, h1⟩
  | error e => simp at h1

/-! ## 32-bit values -/

theorem encU32_length (n : Nat) : (encU32 n).length = 4 := rfl

theorem decU32_encU32 (n : Nat) (h : n < 4294967296) : decU32 (encU32 n) = n := by
  simp only [encU32, decU32]
  omega

theorem toUint_lt (x : Int) : toUint x < 4294967296 := by
  unfold toUint
  omega

theorem toInt_toUint (x : Int) (h : IsI32 x) : toInt (toUint x) = x := by
  unfold IsI32 at h
  unfold toInt toUint
  split <;> omega

theorem encUint_length (n : Nat) : (encUint n).length = 4 := rfl

theorem encInt_length (x : Int) : (encInt x).length = 4 := rfl

/-! ## Readers on the bytes of a value -/

theorem File.Read_append (bs r : List Byte) (o : Nat) :
    File.Read bs.length ⟨bs ++ r, o⟩ = (Res.ok bs, ⟨r, o⟩) := by
  simp [File.Read]

theorem File.Read_short (n : Nat) (f : InFile) (h : f.rest.length < n) :
    File.Read n f = (Res.error FileReadWriteError.read, f) := by
  simp [File.Read, Nat.not_le.mpr h]

theorem decodes_ret {α : Type} (v : α) : Decodes (Pure.pure v : M InFile α) [] v := by
  constructor
  · intro r o
    rfl
  · intro k o hk
    simp at hk

theorem decodes_seq {α β : Type} {x : M InFile α} {f : α → M InFile β} {e1 e2 : List Byte}
    {a : α} {b : β} (h1 : Decodes x e1 a) (h2 : Decodes (f a) e2 b) :
    Decodes (x >>= f) (e1 ++ e2) b := by
  constructor
  · intro r o
    rw [List.append_assoc, M.bind_ok (h1.1 (e2 ++ r) o)]
    exact h2.1 r o
  · intro k o hk
    by_cases hlt : k < e1.length
    · obtain ⟨e, s, he⟩ := h1.2 k o hlt
      refine ⟨e, s, ?_⟩
      rw [List.take_append_of_le_length (Nat.le_of_lt hlt)]
      exact M.bind_error he
    · have hge : e1.length ≤ k := Nat.le_of_not_lt hlt
      rw [List.length_append] at hk
      obtain ⟨e, s, he⟩ := h2.2 (k - e1.length) o (by omega)
      refine ⟨e, s, ?_⟩
      rw [List.take_append_eq_append_take, List.take_of_length_le hge,
        M.bind_ok (h1.1 _ o)]
      exact he

theorem decodes_map {α β : Type} {x : M InFile α} (g : α → β) {e : List Byte}
    {a : α} (h : Decodes x e a) : Decodes (x >>= fun v => Pure.pure (g v)) e (g a) := by
  have h2 := @decodes_seq α β x (fun v => Pure.pure (g v)) e [] a (g a) h (decodes_ret (g a))
  simpa using h2

theorem decodes_Read (bs : List Byte) : Decodes (File.Read bs.length) bs bs := by
  constructor
  · exact fun r o => File.Read_append bs r o
  · intro k o hk
    refine ⟨FileReadWriteError.read, _, File.Read_short _ _ ?_⟩
    simp only [List.length_take]
    omega

theorem decodes_ReadUint_mod (n : Nat) :
    Decodes File.ReadUint (encUint n) (n % 4294967296) := by
  have h4 : Decodes (File.Read 4) (encUint n) (encUint n) := decodes_Read (encUint n)
  have := decodes_map decU32 h4
  rw [encUint, decU32_encU32 _ (Nat.mod_lt n (by decide))] at this
  exact this

theorem decodes_ReadUint (n : Nat) (h : IsU32 n) : Decodes File.ReadUint (encUint n) n := by
  have := decodes_ReadUint_mod n
  unfold IsU32 at h
  rwa [Nat.mod_eq_of_lt h] at this

theorem decodes_ReadFloat (n : Nat) (h : IsU32 n) : Decodes File.ReadFloat (encUint n) n :=
  decodes_ReadUint n h

theorem decodes_ReadInt (x : Int) (h : IsI32 x) : Decodes File.ReadInt (encInt x) x := by
  have h4 : Decodes (File.Read 4) (encInt x) (encInt x) := decodes_Read (encInt x)
  have := decodes_map (fun bs => toInt (decU32 bs)) h4
  simp only [encInt, decU32_encU32 _ (toUint_lt x), toInt_toUint x h] at this
  exact this

theorem decodes_ReadFromFile (s : String) (h : String.Valid s) :
    Decodes String.ReadFromFile (encStr s) s :=
  decodes_seq (decodes_ReadUint s.length h) (decodes_Read s)

theorem decodes_readN {α : Type} {x : M InFile α} {enc : α → List Byte} (as : List α)
    (h : ∀ a ∈ as, Decodes x (enc a) a) : Decodes (readN x as.length) (encList enc as) as := by
  induction as with
  | nil => exact decodes_ret []
  | cons a as ih =>
    have ha := h a (List.mem_cons_self a as)
    have ht := ih (fun b hb => h b (List.mem_cons_of_mem a hb))
    exact decodes_seq ha (decodes_map (fun l => a :: l) ht)

theorem decodes_readVec2 (v : Vec2) (h : v.Valid) : Decodes readVec2 (encVec2 v) v := by
  obtain ⟨hx, hy⟩ := h
  unfold readVec2 encVec2
  refine decodes_seq (decodes_ReadFloat v.x hx) ?_
  exact decodes_map (fun y => (⟨v.x, y⟩ : Vec2)) (decodes_ReadFloat v.y hy)

theorem decodes_readVec3 (v : Vec3) (h : v.Valid) : Decodes readVec3 (encVec3 v) v := by
  obtain ⟨hx, hy, hz⟩ := h
  unfold readVec3 encVec3
  refine decodes_seq (decodes_ReadFloat v.x hx) ?_
  refine decodes_seq (decodes_ReadFloat v.y hy) ?_
  exact decodes_map (fun z => (⟨v.x, v.y, z⟩ : Vec3)) (decodes_ReadFloat v.z hz)

theorem decodes_readQuat (q : Quat) (h : q.Valid) : Decodes readQuat (encQuat q) q := by
  obtain ⟨hx, hy, hz, hw⟩ := h
  unfold readQuat encQuat
  refine decodes_seq (decodes_ReadFloat q.x hx) ?_
  refine decodes_seq (decodes_ReadFloat q.y hy) ?_
  refine decodes_seq (decodes_ReadFloat q.z hz) ?_
  exact decodes_map (fun w => (⟨q.x, q.y, q.z, w⟩ : Quat)) (decodes_ReadFloat q.w hw)

theorem decodes_readWeight (w : VertexWeight) (h : w.Valid) :
    Decodes readWeight (encWeight w) w := by
  obtain ⟨hb, ho, hn, hi⟩ := h
  unfold readWeight encWeight
  refine decodes_seq (decodes_ReadInt w.boneId hb) ?_
  refine decodes_seq (decodes_readVec3 w.origin ho) ?_
  refine decodes_seq (decodes_readVec3 w.normal hn) ?_
  exact decodes_map (fun i => (⟨w.boneId, w.origin, w.normal, i⟩ : VertexWeight))
    (decodes_ReadFloat w.influence hi)

theorem decodes_readVertex (v : Vertex) (h : v.Valid) : Decodes readVertex (encVertex v) v := by
  obtain ⟨hn, hl, hw⟩ := h
  unfold readVertex encVertex
  refine decodes_seq (decodes_ReadUint v.numWeights hn) ?_
  have hN := decodes_readN v.weights (fun w hm => decodes_readWeight w (hw w hm))
  rw [hl] at hN
  have hT : v.weights.take v.numWeights = v.weights := by
    rw [← hl]; exact List.take_length _
  rw [hT]
  have := decodes_map (fun ws => ({ InitVertex Vertex.blank v.numWeights with weights := ws } : Vertex)) hN
  simpa [InitVertex] using this

/-! ## Statements of `Load` on the bytes they read -/

theorem onFile_ok {α : Type} {x : M InFile α} {f f1 : InFile} {a : α} (mo : Option Model)
    (h : x f = (Res.ok a, f1)) : onFile x ⟨f, mo⟩ = (Res.ok a, ⟨f1, mo⟩) := by
  simp [onFile, h]

theorem onFile_error {α : Type} {x : M InFile α} {f f1 : InFile} {e : FileReadWriteError}
    (mo : Option Model) (h : x f = (Res.error e, f1)) :
    onFile x ⟨f, mo⟩ = (Res.error e, ⟨f1, mo⟩) := by
  simp [onFile, h]

theorem steps_congr {α : Type} {x : M LoadState α} {e1 e2 : List Byte} {v : α}
    {g1 g2 : Option Model → Option Model} (h : Steps x e1 v g1) (he : e1 = e2)
    (hg : ∀ mo, g1 mo = g2 mo) : Steps x e2 v g2 := by
  subst he
  have : g1 = g2 := funext hg
  subst this
  exact h

theorem steps_onFile {α : Type} {x : M InFile α} {e : List Byte} {v : α}
    (h : Decodes x e v) : Steps (og.onFile x) e v id := by
  constructor
  · intro r o mo
    exact onFile_ok mo (h.1 r o)
  · intro k o mo hk
    obtain ⟨er, s, hs⟩ := h.2 k o hk
    exact ⟨er, _, onFile_error mo hs⟩

theorem steps_onModel (f : Model → Model) : Steps (og.onModel f) [] () (Option.map f) := by
  constructor
  · intro r o mo
    rfl
  · intro k o mo hk
    simp at hk

theorem steps_seq {α β : Type} {x : M LoadState α} {f : α → M LoadState β}
    {e1 e2 : List Byte} {a : α} {b : β} {g1 g2 : Option Model → Option Model}
    (h1 : Steps x e1 a g1) (h2 : Steps (f a) e2 b g2) :
    Steps (x >>= f) (e1 ++ e2) b (fun mo => g2 (g1 mo)) := by
  constructor
  · intro r o mo
    rw [List.append_assoc, M.bind_ok (h1.1 (e2 ++ r) o mo)]
    exact h2.1 r o (g1 mo)
  · intro k o mo hk
    by_cases hlt : k < e1.length
    · obtain ⟨e, s, he⟩ := h1.2 k o mo hlt
      refine ⟨e, s, ?_⟩
      rw [List.take_append_of_le_length (Nat.le_of_lt hlt)]
      exact M.bind_error he
    · have hge : e1.length ≤ k := Nat.le_of_not_lt hlt
      rw [List.length_append] at hk
      obtain ⟨e, s, he⟩ := h2.2 (k - e1.length) o (g1 mo) (by omega)
      refine ⟨e, s, ?_⟩
      rw [List.take_append_eq_append_take, List.take_of_length_le hge,
        M.bind_ok (h1.1 _ o mo)]
      exact he

/-- A read from the file followed by the rest of a block. -/
theorem steps_seqFile {α β : Type} {x : M InFile α} {f : α → M LoadState β}
    {e1 e2 : List Byte} {a : α} {b : β} {g : Option Model → Option Model}
    (h1 : Decodes x e1 a) (h2 : Steps (f a) e2 b g) :
    Steps (og.onFile x >>= f) (e1 ++ e2) b g :=
  steps_congr (steps_seq (steps_onFile h1) h2) rfl (fun _ => rfl)

/-- An update of the model followed by the rest of a block. -/
theorem steps_seqModel {β : Type} {u : Model → Model} {k : M LoadState β}
    {e : List Byte} {b : β} {g : Option Model → Option Model}
    (h : Steps k e b g) :
    Steps (og.onModel u >>= fun _ => k) e b (fun mo => g (mo.map u)) :=
  steps_congr (@steps_seq Unit β (og.onModel u) (fun _ => k) [] e () b _ g (steps_onModel u) h)
    (List.nil_append e) (fun _ => rfl)

/-- A read from the file stored into the model, at the end of a block. -/
theorem steps_lastFile {α : Type} {x : M InFile α} {u : α → Model → Model}
    {e : List Byte} {a : α} (h : Decodes x e a) :
    Steps (og.onFile x >>= fun v => og.onModel (u v)) e () (Option.map (u a)) :=
  steps_congr (@steps_seq α Unit (og.onFile x) (fun v => og.onModel (u v)) e [] a () _ _
    (steps_onFile h) (steps_onModel (u a))) (List.append_nil e) (fun _ => rfl)

theorem modifyLast_append_singleton {α : Type} (f : α → α) (l : List α) (a : α) :
    modifyLast f (l ++ [a]) = l ++ [f a] := by
  induction l with
  | nil => rfl
  | cons b l ih =>
    cases l with
    | nil => rfl
    | cons c l =>
      have ih2 : modifyLast f (c :: (l ++ [a])) = c :: (l ++ [f a]) := ih
      show b :: modifyLast f (c :: (l ++ [a])) = b :: c :: (l ++ [f a])
      rw [ih2]

theorem steps_bone (b : Bone) (h : b.Valid) :
    Steps Load.bone (encBone b) ()
      (Option.map fun m => { m with bones := m.bones ++ [b] }) := by
  obtain ⟨hn, hp, ho, hq⟩ := h
  have key : ∃ g, Steps Load.bone (encBone b) () g ∧
      ∀ mo, g mo = Option.map (fun m => { m with bones := m.bones ++ [b] }) mo := by
    apply Exists.intro
    apply And.intro
    case left =>
      unfold Load.bone encBone onBone
      apply steps_seqModel
      apply steps_seqFile (decodes_ReadFromFile _ hn)
      apply steps_seqModel
      apply steps_seqFile (decodes_ReadInt _ hp)
      apply steps_seqModel
      apply steps_seqFile (decodes_readVec3 _ ho)
      apply steps_seqModel
      exact steps_lastFile (decodes_readQuat _ hq)
    case right =>
      intro mo
      cases mo with
      | none => rfl
      | some m => simp [modifyLast_append_singleton, Bone.blank]
  obtain ⟨g, hs, hg⟩ := key
  exact steps_congr hs rfl hg

theorem steps_ret {α : Type} (v : α) : Steps (Pure.pure v : M LoadState α) [] v id := by
  constructor
  · intro r o mo
    rfl
  · intro k o mo hk
    simp at hk

/-- A loop of `Load` over the records of a container. -/
theorem steps_forN {α : Type} {body : M LoadState Unit} {enc : α → List Byte}
    {G : α → Model → Model} (as : List α)
    (h : ∀ a ∈ as, Steps body (enc a) () (Option.map (G a))) :
    Steps (og.forN body as.length) (encList enc as) ()
      (Option.map fun m => as.foldl (fun acc a => G a acc) m) := by
  induction as with
  | nil =>
    refine steps_congr (steps_ret ()) rfl ?_
    intro mo
    cases mo <;> rfl
  | cons a as ih =>
    have ha := h a (List.mem_cons_self a as)
    have ht := ih (fun b hb => h b (List.mem_cons_of_mem a hb))
    refine steps_congr (@steps_seq Unit Unit body (fun _ => og.forN body as.length)
      (enc a) (encList enc as) () () _ _ ha ht) rfl ?_
    intro mo
    cases mo <;> rfl

theorem foldl_bones (bs : List Bone) (m : Model) :
    bs.foldl (fun acc b => { acc with bones := acc.bones ++ [b] }) m =
      { m with bones := m.bones ++ bs } := by
  induction bs generalizing m with
  | nil => simp
  | cons b bs ih => simp [ih]

theorem foldl_meshes (ms : List MeshAnimated) (m : Model) :
    ms.foldl (fun acc mesh => { acc with meshes := acc.meshes ++ [mesh] }) m =
      { m with meshes := m.meshes ++ ms } := by
  induction ms generalizing m with
  | nil => simp
  | cons b bs ih => simp [ih]

theorem steps_bones (bs : List Bone) (h : ∀ b ∈ bs, b.Valid) :
    Steps (og.forN Load.bone bs.length) (encList encBone bs) ()
      (Option.map fun m => { m with bones := m.bones ++ bs }) := by
  refine steps_congr (steps_forN bs (fun b hb => steps_bone b (h b hb))) rfl ?_
  intro mo
  cases mo with
  | none => rfl
  | some m => simp [foldl_bones]

theorem take_all {α : Type} (l : List α) (n : Nat) (h : l.length = n) : l.take n = l := by
  rw [← h]
  exact List.take_length l

theorem steps_mesh (mesh : MeshAnimated) (h : mesh.Valid) :
    Steps Load.mesh (encMesh mesh) ()
      (Option.map fun m => { m with meshes := m.meshes ++ [mesh] }) := by
  obtain ⟨hn, hm, hf, hd, hnv, hni, hil, hiv, htl, htv, hvl, hvv⟩ := h
  have hI : Decodes (File.ReadIntArray mesh.numIndices)
      (encList encInt (mesh.indices.take mesh.numIndices)) mesh.indices := by
    have := decodes_readN mesh.indices (fun i hi => decodes_ReadInt i (hiv i hi))
    rw [hil] at this
    rw [take_all _ _ hil]
    exact this
  have hT : Decodes (readN readVec2 mesh.numVerts)
      (encList encVec2 (mesh.texCoords.take mesh.numVerts)) mesh.texCoords := by
    have := decodes_readN mesh.texCoords (fun t ht => decodes_readVec2 t (htv t ht))
    rw [htl] at this
    rw [take_all _ _ htl]
    exact this
  have hV : Decodes (readN readVertex mesh.numVerts)
      (encList encVertex (mesh.vertices.take mesh.numVerts)) mesh.vertices := by
    have := decodes_readN mesh.vertices (fun v hv => decodes_readVertex v (hvv v hv))
    rw [hvl] at this
    rw [take_all _ _ hvl]
    exact this
  have key : ∃ g, Steps Load.mesh (encMesh mesh) () g ∧
      ∀ mo, g mo = Option.map (fun m => { m with meshes := m.meshes ++ [mesh] }) mo := by
    apply Exists.intro
    apply And.intro
    case left =>
      unfold Load.mesh encMesh onMesh
      apply steps_seqModel
      apply steps_seqFile (decodes_ReadFromFile _ hn)
      apply steps_seqModel
      apply steps_seqFile (decodes_ReadFromFile _ hm)
      apply steps_seqModel
      apply steps_seqFile (decodes_ReadInt _ hf)
      apply steps_seqModel
      apply steps_seqFile (decodes_ReadInt _ hd)
      apply steps_seqModel
      apply steps_seqFile (decodes_ReadUint _ hnv)
      apply steps_seqModel
      apply steps_seqFile (decodes_ReadUint _ hni)
      apply steps_seqModel
      apply steps_seqFile hI
      apply steps_seqModel
      apply steps_seqFile hT
      apply steps_seqModel
      exact steps_lastFile hV
    case right =>
      intro mo
      cases mo with
      | none => rfl
      | some m =>
        simp [modifyLast_append_singleton, MeshAnimated.blank, InitVertices, InitIndices]
  obtain ⟨g, hs, hg⟩ := key
  exact steps_congr hs rfl hg

theorem steps_meshes (ms : List MeshAnimated) (h : ∀ mesh ∈ ms, mesh.Valid) :
    Steps (og.forN Load.mesh ms.length) (encList encMesh ms) ()
      (Option.map fun m => { m with meshes := m.meshes ++ ms }) := by
  refine steps_congr (steps_forN ms (fun b hb => steps_mesh b (h b hb))) rfl ?_
  intro mo
  cases mo with
  | none => rfl
  | some m => simp [foldl_meshes]

theorem Icmp_strBones : String.Icmp strBones strBones = 0 := by decide

theorem Icmp_strMeshes_strBones : ¬ String.Icmp strMeshes strBones = 0 := by decide

theorem Icmp_strMeshes : String.Icmp strMeshes strMeshes = 0 := by decide

/-- A chunk named "Bones" with the entry count of the header. -/
theorem steps_chunk_bones (numBones numMeshes : Nat) (hnb : IsU32 numBones)
    {payload : List Byte} {g : Option Model → Option Model}
    (hp : Steps (og.forN Load.bone numBones) payload () g) :
    Steps (Load.chunk numBones numMeshes) (encChunk strBones numBones payload) () g := by
  unfold Load.chunk encChunk
  apply steps_seqFile (decodes_ReadFromFile strBones (by decide))
  apply steps_seqFile (decodes_ReadUint_mod payload.length)
  apply steps_seqFile (decodes_ReadUint numBones hnb)
  simp only [Icmp_strBones, if_true, ne_eq, not_true_eq_false, if_false]
  exact hp

/-- A chunk named "Meshes" with the entry count of the header. -/
theorem steps_chunk_meshes (numBones numMeshes : Nat) (hnm : IsU32 numMeshes)
    {payload : List Byte} {g : Option Model → Option Model}
    (hp : Steps (og.forN Load.mesh numMeshes) payload () g) :
    Steps (Load.chunk numBones numMeshes) (encChunk strMeshes numMeshes payload) () g := by
  unfold Load.chunk encChunk
  apply steps_seqFile (decodes_ReadFromFile strMeshes (by decide))
  apply steps_seqFile (decodes_ReadUint_mod payload.length)
  apply steps_seqFile (decodes_ReadUint numMeshes hnm)
  simp only [Icmp_strMeshes_strBones, Icmp_strMeshes, if_true, ne_eq, not_true_eq_false, if_false]
  exact hp

/-- A read from the file whose value is returned, at the end of a block. -/
theorem steps_mapFile {α β : Type} {x : M InFile α} (u : α → β) {e : List Byte} {a : α}
    (h : Decodes x e a) : Steps (og.onFile x >>= fun v => Pure.pure (u v)) e (u a) id :=
  steps_congr (@steps_seq α β (og.onFile x) (fun v => Pure.pure (u v)) e [] a (u a) _ _
    (steps_onFile h) (steps_ret (u a))) (List.append_nil e) (fun _ => rfl)

theorem Cmp_magicGMD : String.Cmp magicGMD strGMD = 0 := by decide

/-- The header `Save` writes is read back field by field. -/
theorem steps_header (modelName author appName : String) (numBones numMeshes numChunks : Nat)
    (h1 : String.Valid modelName) (h2 : String.Valid author) (h3 : String.Valid appName)
    (h4 : IsU32 numBones) (h5 : IsU32 numMeshes) (h6 : IsU32 numChunks) :
    Steps Load.header
      (encHeader GMD_VERSION modelName author appName numBones numMeshes numChunks)
      ⟨modelName, author, appName, numBones, numMeshes, numChunks⟩ id := by
  unfold Load.header encHeader
  apply steps_seqFile (decodes_Read magicGMD)
  simp only [Cmp_magicGMD, ne_eq, not_true_eq_false, if_false]
  apply steps_seqFile (decodes_ReadInt GMD_VERSION (by decide))
  simp only [ne_eq, not_true_eq_false, if_false]
  apply steps_seqFile (decodes_ReadFromFile _ h1)
  apply steps_seqFile (decodes_ReadFromFile _ h2)
  apply steps_seqFile (decodes_ReadFromFile _ h3)
  apply steps_seqFile (decodes_ReadUint _ h4)
  apply steps_seqFile (decodes_ReadUint _ h5)
  exact steps_mapFile (fun n => (⟨modelName, author, appName, numBones, numMeshes, n⟩ : Header))
    (decodes_ReadUint _ h6)

theorem steps_newModel : Steps newModel [] () (fun _ => some (Model.new true)) := by
  constructor
  · intro r o mo
    rfl
  · intro k o mo hk
    simp at hk

theorem forN_two {σ : Type} (body : M σ Unit) :
    og.forN body 2 = (body >>= fun _ => (body >>= fun _ => Pure.pure ())) := rfl

/-- The statement `model = new Model(true)` followed by the rest of a block. -/
theorem steps_seqNew {β : Type} {k : M LoadState β} {e : List Byte} {b : β}
    {g : Option Model → Option Model} (h : Steps k e b g) :
    Steps (newModel >>= fun _ => k) e b (fun _ => g (some (Model.new true))) :=
  steps_congr (@steps_seq Unit β newModel (fun _ => k) [] e () b _ g steps_newModel h)
    (List.nil_append e) (fun _ => rfl)

/-- The last iteration of a loop. -/
theorem steps_seqLast {x : M LoadState Unit} {e : List Byte}
    {g : Option Model → Option Model} (h : Steps x e () g) :
    Steps (x >>= fun _ => Pure.pure ()) e () g :=
  steps_congr (@steps_seq Unit Unit x (fun _ => Pure.pure ()) e [] () () g id h (steps_ret ()))
    (List.append_nil e) (fun _ => rfl)

/-- The whole file `Save` writes for a well-formed model is read back by the
`try` block of `Load`, which leaves the model's bones and meshes in `model`. -/
theorem steps_body (modelName : String) (m : Model) (hn : String.Valid modelName)
    (hm : m.Valid) :
    Steps Load.body (gmdBytes modelName m) ()
      (fun _ => some ⟨true, m.bones, m.meshes⟩) := by
  obtain ⟨hb, hms, hbv, hmv⟩ := hm
  have key : ∃ g, Steps Load.body (gmdBytes modelName m) () g ∧
      ∀ mo, g mo = some ⟨true, m.bones, m.meshes⟩ := by
    apply Exists.intro
    apply And.intro
    case left =>
      unfold Load.body gmdBytes
      apply steps_seq (steps_header modelName strUnknown strOgTools m.bones.length
        m.meshes.length 2 hn (by decide) (by decide) hb hms (by decide))
      apply steps_seqNew
      dsimp only
      rw [forN_two]
      apply steps_seq (steps_chunk_bones _ _ hb (steps_bones m.bones hbv))
      exact steps_seqLast (steps_chunk_meshes _ _ hms (steps_meshes m.meshes hmv))
    case right =>
      intro mo
      simp [Model.new]
  obtain ⟨g, hs, hg⟩ := key
  exact steps_congr hs rfl hg

/-! ## Writers and the bytes they append -/

theorem fits_mono {lim : Option Nat} {n k : Nat} (h : fits lim n = true) (hk : k ≤ n) :
    fits lim k = true := by
  cases lim with
  | none => rfl
  | some l =>
    simp only [fits, decide_eq_true_eq] at h ⊢
    omega

theorem overwrite_end (d bs : List Byte) : overwrite d d.length bs = d ++ bs := by
  simp [overwrite]

theorem overwrite_mid (pre z z1 post : List Byte) (h : z1.length = z.length) :
    overwrite (pre ++ (z ++ post)) pre.length z1 = pre ++ (z1 ++ post) := by
  simp [overwrite, h]

theorem File.Write_end (bs d : List Byte) (lim : Option Nat)
    (h : fits lim (d ++ bs).length = true) :
    File.Write bs ⟨d, d.length, lim⟩ = (Res.ok (), ⟨d ++ bs, (d ++ bs).length, lim⟩) := by
  have hmax : max d.length (d.length + bs.length) = d.length + bs.length := by
    omega
  rw [List.length_append] at h
  simp only [File.Write, hmax, h, if_true, overwrite_end, List.length_append]

theorem appends_write (bs : List Byte) : Appends (File.Write bs) bs :=
  fun d lim h => File.Write_end bs d lim h

theorem appends_seq {w1 w2 : M OutFile Unit} {e1 e2 : List Byte}
    (h1 : Appends w1 e1) (h2 : Appends w2 e2) :
    Appends (w1 >>= fun _ => w2) (e1 ++ e2) := by
  intro d lim h
  have hf1 : fits lim (d ++ e1).length = true := by
    refine fits_mono h ?_
    simp only [List.length_append]
    omega
  rw [M.bind_ok (h1 d lim hf1)]
  have := h2 (d ++ e1) lim (by rwa [List.append_assoc])
  rw [this, List.append_assoc]

theorem appends_forEach {α : Type} {body : α → M OutFile Unit} {enc : α → List Byte}
    (as : List α) (h : ∀ a ∈ as, Appends (body a) (enc a)) :
    Appends (og.forEach body as) (encList enc as) := by
  induction as with
  | nil =>
    intro d lim _
    show (Res.ok (), (⟨d, d.length, lim⟩ : OutFile)) = _
    simp [encList]
  | cons a as ih =>
    exact appends_seq (h a (List.mem_cons_self a as))
      (ih (fun b hb => h b (List.mem_cons_of_mem a hb)))

theorem appends_WriteUint (n : Nat) : Appends (File.WriteUint n) (encUint n) :=
  appends_write _

theorem appends_WriteInt (x : Int) : Appends (File.WriteInt x) (encInt x) :=
  appends_write _

theorem appends_WriteFloat (x : Nat) : Appends (File.WriteFloat x) (encUint x) :=
  appends_write _

theorem appends_WriteToFile (s : String) : Appends (String.WriteToFile s) (encStr s) :=
  appends_seq (appends_WriteUint s.length) (appends_write s)

theorem appends_writeVec2 (v : Vec2) : Appends (writeVec2 v) (encVec2 v) :=
  appends_seq (appends_WriteFloat v.x) (appends_WriteFloat v.y)

theorem appends_writeVec3 (v : Vec3) : Appends (writeVec3 v) (encVec3 v) :=
  appends_seq (appends_WriteFloat v.x)
    (appends_seq (appends_WriteFloat v.y) (appends_WriteFloat v.z))

theorem appends_writeQuat (q : Quat) : Appends (writeQuat q) (encQuat q) :=
  appends_seq (appends_WriteFloat q.x)
    (appends_seq (appends_WriteFloat q.y)
      (appends_seq (appends_WriteFloat q.z) (appends_WriteFloat q.w)))

theorem appends_bone (b : Bone) : Appends (Save.bone b) (encBone b) :=
  appends_seq (appends_WriteToFile b.name)
    (appends_seq (appends_WriteInt b.idParent)
      (appends_seq (appends_writeVec3 b.origin) (appends_writeQuat b.quat)))

theorem appends_weight (w : VertexWeight) : Appends (Save.weight w) (encWeight w) :=
  appends_seq (appends_WriteInt w.boneId)
    (appends_seq (appends_writeVec3 w.origin)
      (appends_seq (appends_writeVec3 w.normal) (appends_WriteFloat w.influence)))

theorem appends_vertex (v : Vertex) : Appends (Save.vertex v) (encVertex v) :=
  appends_seq (appends_WriteUint v.numWeights)
    (appends_forEach _ (fun w _ => appends_weight w))

theorem appends_mesh (m : MeshAnimated) : Appends (Save.mesh m) (encMesh m) :=
  appends_seq (appends_WriteToFile m.name)
    (appends_seq (appends_WriteToFile m.material)
      (appends_seq (appends_WriteInt m.flags)
        (appends_seq (appends_WriteInt m.detailLevel)
          (appends_seq (appends_WriteUint m.numVerts)
            (appends_seq (appends_WriteUint m.numIndices)
              (appends_seq (appends_forEach _ (fun i _ => appends_WriteInt i))
                (appends_seq (appends_forEach _ (fun t _ => appends_writeVec2 t))
                  (appends_forEach _ (fun v _ => appends_vertex v)))))))))

/-! ## Chunk framing -/

theorem toUint_natCast (n : Nat) : toUint (n : Int) = n % 4294967296 := by
  unfold toUint
  omega

/-- The function `StartChunk` at the end of a file: what it appends and what it returns. -/
theorem StartChunk_end (name : String) (entries : Nat) (d : List Byte) (lim : Option Nat)
    (h : fits lim (d ++ (encStr name ++ (encUint 0 ++ encUint entries))).length = true) :
    StartChunk name entries ⟨d, d.length, lim⟩ =
      (Res.ok (d ++ encStr name).length,
        ⟨d ++ (encStr name ++ (encUint 0 ++ encUint entries)),
          (d ++ (encStr name ++ (encUint 0 ++ encUint entries))).length, lim⟩) := by
  have h1 : fits lim (d ++ encStr name).length = true := by
    refine fits_mono h ?_
    simp only [List.length_append]
    omega
  have h2 : fits lim ((d ++ encStr name) ++ encUint 0).length = true := by
    refine fits_mono h ?_
    simp only [List.length_append]
    omega
  have h3 : fits lim (((d ++ encStr name) ++ encUint 0) ++ encUint entries).length = true := by
    refine fits_mono h ?_
    simp only [List.length_append]
    omega
  unfold StartChunk
  rw [M.bind_ok (appends_WriteToFile name d lim h1)]
  have hT : File.Tell ⟨d ++ encStr name, (d ++ encStr name).length, lim⟩ =
      (Res.ok (d ++ encStr name).length, ⟨d ++ encStr name, (d ++ encStr name).length, lim⟩) := rfl
  rw [M.bind_ok hT, M.bind_ok (appends_WriteUint 0 _ lim h2),
    M.bind_ok (appends_WriteUint entries _ lim h3), M.pure_apply]
  simp only [List.append_assoc]

/-- The function `FinishChunk` with the cursor at the end of a file: the four
bytes at `sizePos` become the number of bytes that follow the entry count. -/
theorem FinishChunk_end (pre z c payload : List Byte) (lim : Option Nat)
    (hz : z.length = 4) (hc : c.length = 4)
    (h : fits lim (pre ++ (z ++ (c ++ payload))).length = true) :
    FinishChunk pre.length
        ⟨pre ++ (z ++ (c ++ payload)), (pre ++ (z ++ (c ++ payload))).length, lim⟩ =
      (Res.ok (), ⟨pre ++ (encUint payload.length ++ (c ++ payload)),
        (pre ++ (encUint payload.length ++ (c ++ payload))).length, lim⟩) := by
  have hsize : toUint (((pre ++ (z ++ (c ++ payload))).length : Int) - (pre.length : Int) - 8)
      = payload.length % 4294967296 := by
    rw [← toUint_natCast]
    congr 1
    simp only [List.length_append, hz, hc]
    omega
  have hlen : (pre ++ (encUint payload.length ++ (c ++ payload))).length =
      (pre ++ (z ++ (c ++ payload))).length := by
    simp only [List.length_append, hz, encUint_length]
  have hmax : max (pre ++ (z ++ (c ++ payload))).length (pre.length + 4) =
      (pre ++ (z ++ (c ++ payload))).length := by
    simp only [List.length_append, hz, hc]
    omega
  simp only [FinishChunk, File.Tell, File.SeekSet, File.WriteUint, File.Write, bind, M.bind,
    hsize, Nat.mod_mod, encU32_length, hmax, h, if_true]
  rw [← encUint, overwrite_mid pre z (encUint payload.length) (c ++ payload) (by rw [hz]; rfl), hlen]

/-- A framed chunk followed by more output: the name, the size of the payload,
the entry count and the payload are appended, then the rest. -/
theorem appends_chunkThen (name : String) (entries : Nat) {body k : M OutFile Unit}
    {payload rest : List Byte} (hb : Appends body payload) (hk : Appends k rest) :
    Appends (StartChunk name entries >>= fun sizePos =>
        body >>= fun _ => FinishChunk sizePos >>= fun _ => k)
      (encChunk name entries payload ++ rest) := by
  intro d lim h
  have hlen : ∀ n m : Nat, (encUint n).length = (encUint m).length := fun _ _ => rfl
  have hf0 : fits lim ((d ++ encStr name) ++ (encUint 0 ++ (encUint entries ++ payload))).length
      = true := by
    refine fits_mono h ?_
    simp only [List.length_append, encChunk, encUint_length]
    omega
  have hf1 : fits lim (d ++ (encStr name ++ (encUint 0 ++ encUint entries))).length = true := by
    refine fits_mono hf0 ?_
    simp only [List.length_append]
    omega
  have hf2 : fits lim ((d ++ (encStr name ++ (encUint 0 ++ encUint entries))) ++ payload).length
      = true := by
    refine fits_mono hf0 ?_
    simp only [List.length_append]
    omega
  rw [M.bind_ok (StartChunk_end name entries d lim hf1), M.bind_ok (hb _ lim hf2)]
  have hassoc : (d ++ (encStr name ++ (encUint 0 ++ encUint entries))) ++ payload =
      (d ++ encStr name) ++ (encUint 0 ++ (encUint entries ++ payload)) := by
    simp only [List.append_assoc]
  rw [hassoc, M.bind_ok (FinishChunk_end (d ++ encStr name) (encUint 0) (encUint entries) payload
    lim rfl rfl hf0)]
  have hassoc2 : (d ++ encStr name) ++ (encUint payload.length ++ (encUint entries ++ payload)) =
      d ++ encChunk name entries payload := by
    simp only [encChunk, List.append_assoc]
  rw [hassoc2, hk (d ++ encChunk name entries payload) lim (by rwa [List.append_assoc]),
    List.append_assoc]

/-- A framed chunk at the end of the output. -/
theorem appends_chunkLast (name : String) (entries : Nat) {body : M OutFile Unit}
    {payload : List Byte} (hb : Appends body payload) :
    Appends (StartChunk name entries >>= fun sizePos =>
        body >>= fun _ => FinishChunk sizePos)
      (encChunk name entries payload) := by
  intro d lim h
  have hf0 : fits lim ((d ++ encStr name) ++ (encUint 0 ++ (encUint entries ++ payload))).length
      = true := by
    refine fits_mono h ?_
    simp only [List.length_append, encChunk, encUint_length]
    omega
  have hf1 : fits lim (d ++ (encStr name ++ (encUint 0 ++ encUint entries))).length = true := by
    refine fits_mono hf0 ?_
    simp only [List.length_append]
    omega
  have hf2 : fits lim ((d ++ (encStr name ++ (encUint 0 ++ encUint entries))) ++ payload).length
      = true := by
    refine fits_mono hf0 ?_
    simp only [List.length_append]
    omega
  rw [M.bind_ok (StartChunk_end name entries d lim hf1), M.bind_ok (hb _ lim hf2)]
  have hassoc : (d ++ (encStr name ++ (encUint 0 ++ encUint entries))) ++ payload =
      (d ++ encStr name) ++ (encUint 0 ++ (encUint entries ++ payload)) := by
    simp only [List.append_assoc]
  rw [hassoc, FinishChunk_end (d ++ encStr name) (encUint 0) (encUint entries) payload
    lim rfl rfl hf0]
  have hassoc2 : (d ++ encStr name) ++ (encUint payload.length ++ (encUint entries ++ payload)) =
      d ++ encChunk name entries payload := by
    simp only [encChunk, List.append_assoc]
  rw [hassoc2]

/-- The `try` block of `Save` writes the closed form `gmdBytes`. -/
theorem appends_body (modelName : String) (m : Model) :
    Appends (Save.body modelName m) (gmdBytes modelName m) := by
  unfold Save.body gmdBytes encHeader
  simp only [List.append_assoc]
  refine appends_seq (appends_write magicGMD) ?_
  refine appends_seq (appends_WriteInt GMD_VERSION) ?_
  refine appends_seq (appends_WriteToFile modelName) ?_
  refine appends_seq (appends_WriteToFile strUnknown) ?_
  refine appends_seq (appends_WriteToFile strOgTools) ?_
  refine appends_seq (appends_WriteUint _) ?_
  refine appends_seq (appends_WriteUint _) ?_
  refine appends_seq (appends_WriteUint 2) ?_
  refine appends_chunkThen strBones _ (appends_forEach _ (fun b _ => appends_bone b)) ?_
  exact appends_chunkLast strMeshes _ (appends_forEach _ (fun b _ => appends_mesh b))

/-! ## Readers look only at what they consume -/

theorem localF_ret {α : Type} (v : α) : LocalF (Pure.pure v : M InFile α) := by
  intro s o w r1 o1 h
  have h2 : (Res.ok v, (⟨s, o⟩ : InFile)) = (Res.ok w, ⟨r1, o1⟩) := h
  simp only [Prod.mk.injEq, Res.ok.injEq, InFile.mk.injEq] at h2
  obtain ⟨hv, hs, ho⟩ := h2
  subst hv hs ho
  refine ⟨Nat.le_refl _, fun _ => ⟨[], rfl, fun b => rfl⟩⟩

theorem localF_seq {α β : Type} {x : M InFile α} {f : α → M InFile β}
    (h1 : LocalF x) (h2 : ∀ a, LocalF (f a)) : LocalF (x >>= f) := by
  intro s o v r1 o1 h
  obtain ⟨a, ⟨rm, om⟩, hx, hf⟩ := M.bind_eq_ok h
  obtain ⟨hle1, hloc1⟩ := h1 s o a rm om hx
  obtain ⟨hle2, hloc2⟩ := h2 a rm om v r1 o1 hf
  refine ⟨Nat.le_trans hle1 hle2, fun h0 => ?_⟩
  have hom : om = 0 := by omega
  obtain ⟨a1, hs1, hrun1⟩ := hloc1 hom
  obtain ⟨a2, hs2, hrun2⟩ := hloc2 h0
  refine ⟨a1 ++ a2, by rw [hs1, hs2, List.append_assoc], fun b => ?_⟩
  rw [List.append_assoc, M.bind_ok (hrun1 (a2 ++ b))]
  exact hrun2 b

theorem localF_Read (n : Nat) : LocalF (File.Read n) := by
  intro s o v r1 o1 h
  unfold File.Read at h
  by_cases hn : n ≤ s.length
  · simp only [hn, if_true, Prod.mk.injEq, Res.ok.injEq, InFile.mk.injEq] at h
    obtain ⟨hv, hr, ho⟩ := h
    subst hv hr ho
    refine ⟨Nat.le_refl _, fun _ => ⟨s.take n, (List.take_append_drop n s).symm, fun b => ?_⟩⟩
    have hl : (s.take n).length = n := by
      rw [List.length_take]
      omega
    have := File.Read_append (s.take n) b 0
    rwa [hl] at this
  · simp [hn] at h

theorem localF_SeekCur (k : Nat) : LocalF (File.SeekCur k) := by
  intro s o v r1 o1 h
  unfold File.SeekCur at h
  simp only [Prod.mk.injEq, Res.ok.injEq, InFile.mk.injEq] at h
  obtain ⟨_, hr, ho⟩ := h
  subst hr ho
  refine ⟨Nat.le_add_right _ _, fun h0 => ⟨s.take k, (List.take_append_drop k s).symm, fun b => ?_⟩⟩
  have hk : k ≤ s.length := by omega
  have hl : (s.take k).length = k := by
    rw [List.length_take]
    omega
  unfold File.SeekCur
  simp only [Prod.mk.injEq, InFile.mk.injEq, true_and, List.length_append, hl]
  constructor
  · rw [List.drop_append_of_le_length (by omega), List.drop_of_length_le (by omega)]
    rfl
  · omega

theorem localF_readN {α : Type} {x : M InFile α} (h : LocalF x) (n : Nat) :
    LocalF (og.readN x n) := by
  induction n with
  | zero => exact localF_ret []
  | succ n ih =>
    exact localF_seq h (fun a => localF_seq ih (fun as => localF_ret (a :: as)))

theorem localF_ReadUint : LocalF File.ReadUint :=
  localF_seq (localF_Read 4) (fun bs => localF_ret (decU32 bs))

theorem localF_ReadInt : LocalF File.ReadInt :=
  localF_seq (localF_Read 4) (fun bs => localF_ret (toInt (decU32 bs)))

theorem localF_ReadFloat : LocalF File.ReadFloat :=
  localF_seq (localF_Read 4) (fun bs => localF_ret (decU32 bs))

theorem localF_ReadFromFile : LocalF String.ReadFromFile :=
  localF_seq localF_ReadUint (fun len => localF_Read len)

theorem localF_readVec2 : LocalF readVec2 :=
  localF_seq localF_ReadFloat (fun x => localF_seq localF_ReadFloat (fun y => localF_ret ⟨x, y⟩))

theorem localF_readVec3 : LocalF readVec3 :=
  localF_seq localF_ReadFloat (fun x => localF_seq localF_ReadFloat (fun y =>
    localF_seq localF_ReadFloat (fun z => localF_ret ⟨x, y, z⟩)))

theorem localF_readQuat : LocalF readQuat :=
  localF_seq localF_ReadFloat (fun x => localF_seq localF_ReadFloat (fun y =>
    localF_seq localF_ReadFloat (fun z => localF_seq localF_ReadFloat (fun w =>
      localF_ret ⟨x, y, z, w⟩))))

theorem localF_readWeight : LocalF readWeight :=
  localF_seq localF_ReadInt (fun b => localF_seq localF_readVec3 (fun o =>
    localF_seq localF_readVec3 (fun n => localF_seq localF_ReadFloat (fun i =>
      localF_ret ⟨b, o, n, i⟩))))

theorem localF_readVertex : LocalF readVertex :=
  localF_seq localF_ReadUint (fun _ =>
    localF_seq (localF_readN localF_readWeight _) (fun _ => localF_ret _))

theorem onFile_eq_ok {α : Type} {x : M InFile α} {s s1 : LoadState} {a : α}
    (h : onFile x s = (Res.ok a, s1)) :
    x s.file = (Res.ok a, s1.file) ∧ s1.model = s.model := by
  unfold onFile at h
  rcases hx : x s.file with ⟨r, f⟩
  rw [hx] at h
  simp only [Prod.mk.injEq] at h
  obtain ⟨hr, hs⟩ := h
  subst hr hs
  exact ⟨rfl, rfl⟩

theorem localL_onFile {α : Type} {x : M InFile α} (h : LocalF x) : LocalL (og.onFile x) := by
  intro s o mo v r1 o1 mo1 hrun
  obtain ⟨hx, hm⟩ := onFile_eq_ok hrun
  obtain ⟨hle, hloc⟩ := h s o v r1 o1 hx
  have hm1 : mo1 = mo := hm
  subst hm1
  refine ⟨hle, fun h0 => ?_⟩
  obtain ⟨a, hs, hb⟩ := hloc h0
  exact ⟨a, hs, fun b => onFile_ok mo1 (hb b)⟩

theorem localL_onModel (f : Model → Model) : LocalL (og.onModel f) := by
  intro s o mo v r1 o1 mo1 h
  simp only [og.onModel, Prod.mk.injEq, LoadState.mk.injEq, InFile.mk.injEq] at h
  obtain ⟨_, ⟨hs, ho⟩, hm⟩ := h
  subst hs ho hm
  exact ⟨Nat.le_refl _, fun _ => ⟨[], rfl, fun b => rfl⟩⟩

theorem localL_newModel : LocalL og.newModel := by
  intro s o mo v r1 o1 mo1 h
  simp only [og.newModel, Prod.mk.injEq, LoadState.mk.injEq, InFile.mk.injEq] at h
  obtain ⟨_, ⟨hs, ho⟩, hm⟩ := h
  subst hs ho hm
  exact ⟨Nat.le_refl _, fun _ => ⟨[], rfl, fun b => rfl⟩⟩

theorem localL_throwErr {α : Type} (e : FileReadWriteError) :
    LocalL (og.throwErr e : M LoadState α) := by
  intro s o mo v r1 o1 mo1 h
  simp [og.throwErr] at h

theorem localL_ret {α : Type} (v : α) : LocalL (Pure.pure v : M LoadState α) := by
  intro s o mo w r1 o1 mo1 h
  have h2 : (Res.ok v, (⟨⟨s, o⟩, mo⟩ : LoadState)) = (Res.ok w, ⟨⟨r1, o1⟩, mo1⟩) := h
  simp only [Prod.mk.injEq, Res.ok.injEq, LoadState.mk.injEq, InFile.mk.injEq] at h2
  obtain ⟨hv, ⟨hs, ho⟩, hm⟩ := h2
  subst hv hs ho hm
  exact ⟨Nat.le_refl _, fun _ => ⟨[], rfl, fun b => rfl⟩⟩

theorem localL_seq {α β : Type} {x : M LoadState α} {f : α → M LoadState β}
    (h1 : LocalL x) (h2 : ∀ a, LocalL (f a)) : LocalL (x >>= f) := by
  intro s o mo v r1 o1 mo1 h
  obtain ⟨a, ⟨⟨rm, om⟩, mm⟩, hx, hf⟩ := M.bind_eq_ok h
  obtain ⟨hle1, hloc1⟩ := h1 s o mo a rm om mm hx
  obtain ⟨hle2, hloc2⟩ := h2 a rm om mm v r1 o1 mo1 hf
  refine ⟨Nat.le_trans hle1 hle2, fun h0 => ?_⟩
  have hom : om = 0 := by omega
  obtain ⟨a1, hs1, hrun1⟩ := hloc1 hom
  obtain ⟨a2, hs2, hrun2⟩ := hloc2 h0
  refine ⟨a1 ++ a2, by rw [hs1, hs2, List.append_assoc], fun b => ?_⟩
  rw [List.append_assoc, M.bind_ok (hrun1 (a2 ++ b))]
  exact hrun2 b

theorem localL_ite {α : Type} (c : Prop) [Decidable c] {x y : M LoadState α}
    (hx : LocalL x) (hy : LocalL y) : LocalL (if c then x else y) := by
  by_cases hc : c
  · simpa [hc] using hx
  · simpa [hc] using hy

theorem localL_forN {body : M LoadState Unit} (h : LocalL body) (n : Nat) :
    LocalL (og.forN body n) := by
  induction n with
  | zero => exact localL_ret ()
  | succ n ih => exact localL_seq h (fun _ => ih)

theorem localL_bone : LocalL Load.bone := by
  unfold Load.bone onBone
  refine localL_seq (localL_onModel _) (fun _ => ?_)
  refine localL_seq (localL_onFile localF_ReadFromFile) (fun _ => ?_)
  refine localL_seq (localL_onModel _) (fun _ => ?_)
  refine localL_seq (localL_onFile localF_ReadInt) (fun _ => ?_)
  refine localL_seq (localL_onModel _) (fun _ => ?_)
  refine localL_seq (localL_onFile localF_readVec3) (fun _ => ?_)
  refine localL_seq (localL_onModel _) (fun _ => ?_)
  exact localL_seq (localL_onFile localF_readQuat) (fun _ => localL_onModel _)

theorem localL_mesh : LocalL Load.mesh := by
  unfold Load.mesh onMesh
  refine localL_seq (localL_onModel _) (fun _ => ?_)
  refine localL_seq (localL_onFile localF_ReadFromFile) (fun _ => ?_)
  refine localL_seq (localL_onModel _) (fun _ => ?_)
  refine localL_seq (localL_onFile localF_ReadFromFile) (fun _ => ?_)
  refine localL_seq (localL_onModel _) (fun _ => ?_)
  refine localL_seq (localL_onFile localF_ReadInt) (fun _ => ?_)
  refine localL_seq (localL_onModel _) (fun _ => ?_)
  refine localL_seq (localL_onFile localF_ReadInt) (fun _ => ?_)
  refine localL_seq (localL_onModel _) (fun _ => ?_)
  refine localL_seq (localL_onFile localF_ReadUint) (fun _ => ?_)
  refine localL_seq (localL_onModel _) (fun _ => ?_)
  refine localL_seq (localL_onFile localF_ReadUint) (fun _ => ?_)
  refine localL_seq (localL_onModel _) (fun _ => ?_)
  refine localL_seq (localL_onFile (localF_readN localF_ReadInt _)) (fun _ => ?_)
  refine localL_seq (localL_onModel _) (fun _ => ?_)
  refine localL_seq (localL_onFile (localF_readN localF_readVec2 _)) (fun _ => ?_)
  refine localL_seq (localL_onModel _) (fun _ => ?_)
  exact localL_seq (localL_onFile (localF_readN localF_readVertex _)) (fun _ => localL_onModel _)

theorem localL_chunk (numBones numMeshes : Nat) : LocalL (Load.chunk numBones numMeshes) := by
  unfold Load.chunk
  refine localL_seq (localL_onFile localF_ReadFromFile) (fun name => ?_)
  refine localL_seq (localL_onFile localF_ReadUint) (fun size => ?_)
  refine localL_seq (localL_onFile localF_ReadUint) (fun entries => ?_)
  refine localL_ite _ (localL_ite _ (localL_throwErr _) (localL_forN localL_bone _)) ?_
  refine localL_ite _ (localL_ite _ (localL_throwErr _) (localL_forN localL_mesh _)) ?_
  exact localL_onFile (localF_SeekCur size)

/-! ## The magic tag -/

theorem Cmp_strGMD_iff (l : List Byte) (h : l.length = 4) :
    String.Cmp l strGMD = 0 ↔ l = magicGMD := by
  match l, h with
  | [a, b, c, d], _ =>
    constructor
    · intro hc
      simp only [String.Cmp, strGMD] at hc
      by_cases ha : a = 71
      · by_cases hb : b = 77
        · by_cases hcc : c = 68
          · subst ha hb hcc
            simp at hc
            have hd : d = 0 := by
              apply Fin.ext
              simpa using hc
            subst hd
            rfl
          · subst ha hb
            simp [hcc] at hc
            exact absurd (Fin.ext (by omega)) hcc
        · subst ha
          simp [hb] at hc
          exact absurd (Fin.ext (by omega)) hb
      · simp [ha] at hc
        exact absurd (Fin.ext (by omega)) ha
    · intro he
      rw [he]
      decide

/-! ## `Save` and `Load` on whole files -/

/-- What `Save` returns when the file can be opened and the medium holds it. -/
theorem Save_eq (ops : PathOps) (fs : FileSystemCore) (model : Model) (filename : String)
    (limit : Option Nat) (hw : fs.OpenWrite filename = some limit)
    (hfit : fits limit
      (gmdBytes (ops.StripPath (ops.StripFileExtension filename)) model).length = true) :
    Model.Save ops (some fs) model filename =
      { result := true, events := [Event.close],
        final := some ⟨gmdBytes (ops.StripPath (ops.StripFileExtension filename)) model,
          (gmdBytes (ops.StripPath (ops.StripFileExtension filename)) model).length, limit⟩ } := by
  have h := appends_body (ops.StripPath (ops.StripFileExtension filename)) model [] limit
    (by simpa using hfit)
  simp only [List.nil_append, List.length_nil] at h
  simp only [Model.Save, hw, h]

/-- What `Load` returns on a file that holds the closed form of a well-formed model. -/
theorem Load_gmdBytes (fs : FileSystemCore) (filename modelName : String) (model : Model)
    (hn : String.Valid modelName) (hm : model.Valid)
    (hr : fs.OpenRead filename = some (gmdBytes modelName model)) :
    Model.Load (some fs) filename =
      { result := some ⟨true, model.bones, model.meshes⟩, events := [Event.close],
        final := some ⟨⟨[], 0⟩, some ⟨true, model.bones, model.meshes⟩⟩ } := by
  have h := (steps_body modelName model hn hm).1 [] 0 none
  rw [List.append_nil] at h
  simp only [Model.Load, hr, h]

/-- What `Load` returns on a file that ends before the last byte of the closed form. -/
theorem Load_gmdBytes_take (fs : FileSystemCore) (filename modelName : String) (model : Model)
    (hn : String.Valid modelName) (hm : model.Valid) (k : Nat)
    (hk : k < (gmdBytes modelName model).length)
    (hr : fs.OpenRead filename = some ((gmdBytes modelName model).take k)) :
    (Model.Load (some fs) filename).result = none := by
  obtain ⟨e, s, h⟩ := (steps_body modelName model hn hm).2 k 0 none hk
  simp only [Model.Load, hr, h]

/-! ## Which errors a statement can throw -/

theorem M.bind_eq_error {σ α β : Type} {x : M σ α} {f : α → M σ β} {s s2 : σ}
    {e : FileReadWriteError} (h : (x >>= f) s = (Res.error e, s2)) :
    x s = (Res.error e, s2) ∨ ∃ a s1, x s = (Res.ok a, s1) ∧ f a s1 = (Res.error e, s2) := by
  have h1 : M.bind x f s = (Res.error e, s2) := h
  unfold M.bind at h1
  rcases hx : x s with ⟨r, s1⟩
  rw [hx] at h1
  cases r with
  | ok a => exact Or.inr ⟨a, s1, rfl, h1⟩
  | error e1 =>
    simp only [Prod.mk.injEq, Res.error.injEq] at h1
    obtain ⟨he, hs⟩ := h1
    subst he hs
    exact Or.inl rfl

theorem throws_ret {σ α : Type} (P : FileReadWriteError → Prop) (v : α) :
    Throws P (Pure.pure v : M σ α) := by
  intro s s1 e h
  have h2 : (Res.ok v, s) = (Res.error e, s1) := h
  simp at h2

theorem throws_seq {σ α β : Type} {P : FileReadWriteError → Prop} {x : M σ α}
    {f : α → M σ β} (h1 : Throws P x) (h2 : ∀ a, Throws P (f a)) : Throws P (x >>= f) := by
  intro s s2 e h
  rcases M.bind_eq_error h with hx | ⟨a, s1, _, hf⟩
  · exact h1 s s2 e hx
  · exact h2 a s1 s2 e hf

theorem throws_throwErr {σ α : Type} {P : FileReadWriteError → Prop} {e : FileReadWriteError}
    (h : P e) : Throws P (og.throwErr e : M σ α) := by
  intro s s1 e1 h1
  simp only [og.throwErr, Prod.mk.injEq, Res.error.injEq] at h1
  rw [← h1.1]
  exact h

theorem throws_ite {σ α : Type} {P : FileReadWriteError → Prop} (c : Prop) [Decidable c]
    {x y : M σ α} (hx : c → Throws P x) (hy : ¬ c → Throws P y) :
    Throws P (if c then x else y) := by
  by_cases hc : c
  · simpa [hc] using hx hc
  · simpa [hc] using hy hc

theorem throws_forN {σ : Type} {P : FileReadWriteError → Prop} {body : M σ Unit}
    (h : Throws P body) (n : Nat) : Throws P (og.forN body n) := by
  induction n with
  | zero => exact throws_ret P ()
  | succ n ih => exact throws_seq h (fun _ => ih)

theorem throws_readN {σ α : Type} {P : FileReadWriteError → Prop} {x : M σ α}
    (h : Throws P x) (n : Nat) : Throws P (og.readN x n) := by
  induction n with
  | zero => exact throws_ret P []
  | succ n ih => exact throws_seq h (fun a => throws_seq ih (fun as => throws_ret P (a :: as)))

theorem throws_onFile {α : Type} {P : FileReadWriteError → Prop} {x : M InFile α}
    (h : Throws P x) : Throws P (og.onFile x) := by
  intro s s1 e hrun
  unfold og.onFile at hrun
  rcases hx : x s.file with ⟨r, f⟩
  rw [hx] at hrun
  simp only [Prod.mk.injEq] at hrun
  exact h s.file f e (by rw [hx, hrun.1])

theorem throws_onModel {P : FileReadWriteError → Prop} (f : Model → Model) :
    Throws P (og.onModel f) := by
  intro s s1 e h
  simp [og.onModel] at h

theorem throws_newModel {P : FileReadWriteError → Prop} : Throws P og.newModel := by
  intro s s1 e h
  simp [og.newModel] at h

/-- A stream fault is the only error the file operations throw. -/
theorem throws_Read (n : Nat) : Throws (fun e => e = FileReadWriteError.read) (File.Read n) := by
  intro s s1 e h
  unfold File.Read at h
  split at h
  · simp at h
  · simp only [Prod.mk.injEq, Res.error.injEq] at h
    exact h.1.symm

theorem throws_SeekCur (k : Nat) :
    Throws (fun e => e = FileReadWriteError.read) (File.SeekCur k) := by
  intro s s1 e h
  simp [File.SeekCur] at h

theorem throws_ReadUint : Throws (fun e => e = FileReadWriteError.read) File.ReadUint :=
  throws_seq (throws_Read 4) (fun _ => throws_ret _ _)

theorem throws_ReadInt : Throws (fun e => e = FileReadWriteError.read) File.ReadInt :=
  throws_seq (throws_Read 4) (fun _ => throws_ret _ _)

theorem throws_ReadFloat : Throws (fun e => e = FileReadWriteError.read) File.ReadFloat :=
  throws_seq (throws_Read 4) (fun _ => throws_ret _ _)

theorem throws_ReadFromFile : Throws (fun e => e = FileReadWriteError.read) String.ReadFromFile :=
  throws_seq throws_ReadUint (fun n => throws_Read n)

theorem throws_readVec2 : Throws (fun e => e = FileReadWriteError.read) readVec2 :=
  throws_seq throws_ReadFloat (fun _ => throws_seq throws_ReadFloat (fun _ => throws_ret _ _))

theorem throws_readVec3 : Throws (fun e => e = FileReadWriteError.read) readVec3 :=
  throws_seq throws_ReadFloat (fun _ => throws_seq throws_ReadFloat (fun _ =>
    throws_seq throws_ReadFloat (fun _ => throws_ret _ _)))

theorem throws_readQuat : Throws (fun e => e = FileReadWriteError.read) readQuat :=
  throws_seq throws_ReadFloat (fun _ => throws_seq throws_ReadFloat (fun _ =>
    throws_seq throws_ReadFloat (fun _ => throws_seq throws_ReadFloat (fun _ => throws_ret _ _))))

theorem throws_readWeight : Throws (fun e => e = FileReadWriteError.read) readWeight :=
  throws_seq throws_ReadInt (fun _ => throws_seq throws_readVec3 (fun _ =>
    throws_seq throws_readVec3 (fun _ => throws_seq throws_ReadFloat (fun _ => throws_ret _ _))))

theorem throws_readVertex : Throws (fun e => e = FileReadWriteError.read) readVertex :=
  throws_seq throws_ReadUint (fun _ =>
    throws_seq (throws_readN throws_readWeight _) (fun _ => throws_ret _ _))

theorem throws_mono {σ α : Type} {P Q : FileReadWriteError → Prop} {x : M σ α}
    (h : Throws P x) (hpq : ∀ e, P e → Q e) : Throws Q x :=
  fun s s1 e hrun => hpq e (h s s1 e hrun)

/-- Reading a bone throws nothing but a stream fault. -/
theorem throws_bone : Throws (fun e => e = FileReadWriteError.read) Load.bone := by
  unfold Load.bone onBone
  refine throws_seq (throws_onModel _) (fun _ => ?_)
  refine throws_seq (throws_onFile throws_ReadFromFile) (fun _ => ?_)
  refine throws_seq (throws_onModel _) (fun _ => ?_)
  refine throws_seq (throws_onFile throws_ReadInt) (fun _ => ?_)
  refine throws_seq (throws_onModel _) (fun _ => ?_)
  refine throws_seq (throws_onFile throws_readVec3) (fun _ => ?_)
  refine throws_seq (throws_onModel _) (fun _ => ?_)
  exact throws_seq (throws_onFile throws_readQuat) (fun _ => throws_onModel _)

/-- Reading a mesh throws nothing but a stream fault. -/
theorem throws_mesh : Throws (fun e => e = FileReadWriteError.read) Load.mesh := by
  unfold Load.mesh onMesh
  refine throws_seq (throws_onModel _) (fun _ => ?_)
  refine throws_seq (throws_onFile throws_ReadFromFile) (fun _ => ?_)
  refine throws_seq (throws_onModel _) (fun _ => ?_)
  refine throws_seq (throws_onFile throws_ReadFromFile) (fun _ => ?_)
  refine throws_seq (throws_onModel _) (fun _ => ?_)
  refine throws_seq (throws_onFile throws_ReadInt) (fun _ => ?_)
  refine throws_seq (throws_onModel _) (fun _ => ?_)
  refine throws_seq (throws_onFile throws_ReadInt) (fun _ => ?_)
  refine throws_seq (throws_onModel _) (fun _ => ?_)
  refine throws_seq (throws_onFile throws_ReadUint) (fun _ => ?_)
  refine throws_seq (throws_onModel _) (fun _ => ?_)
  refine throws_seq (throws_onFile throws_ReadUint) (fun _ => ?_)
  refine throws_seq (throws_onModel _) (fun _ => ?_)
  refine throws_seq (throws_onFile (throws_readN throws_ReadInt _)) (fun _ => ?_)
  refine throws_seq (throws_onModel _) (fun _ => ?_)
  refine throws_seq (throws_onFile (throws_readN throws_readVec2 _)) (fun _ => ?_)
  refine throws_seq (throws_onModel _) (fun _ => ?_)
  exact throws_seq (throws_onFile (throws_readN throws_readVertex _)) (fun _ => throws_onModel _)

theorem throws_chunk (numBones numMeshes : Nat) :
    Throws ChunkError (Load.chunk numBones numMeshes) := by
  have hr : ∀ e, e = FileReadWriteError.read → ChunkError e := fun e h => Or.inl h
  unfold Load.chunk
  refine throws_seq (throws_onFile (throws_mono throws_ReadFromFile hr)) (fun name => ?_)
  refine throws_seq (throws_onFile (throws_mono throws_ReadUint hr)) (fun size => ?_)
  refine throws_seq (throws_onFile (throws_mono throws_ReadUint hr)) (fun entries => ?_)
  refine throws_ite _ (fun _ => throws_ite _ (fun _ => throws_throwErr (Or.inr (Or.inl ⟨_, _, rfl⟩)))
    (fun _ => throws_forN (throws_mono throws_bone hr) _)) (fun _ => ?_)
  refine throws_ite _ (fun _ => throws_ite _ (fun _ => throws_throwErr (Or.inr (Or.inr ⟨_, _, rfl⟩)))
    (fun _ => throws_forN (throws_mono throws_mesh hr) _)) (fun _ => ?_)
  exact throws_onFile (throws_mono (throws_SeekCur size) hr)

/-! ## The header checks -/

theorem onFile_Read_ok (n : Nat) (s : LoadState) (h : n ≤ s.file.rest.length) :
    onFile (File.Read n) s =
      (Res.ok (s.file.rest.take n), ⟨⟨s.file.rest.drop n, s.file.over⟩, s.model⟩) := by
  simp [onFile, File.Read, h]

theorem onFile_Read_short (n : Nat) (s : LoadState) (h : s.file.rest.length < n) :
    onFile (File.Read n) s = (Res.error FileReadWriteError.read, s) := by
  simp [onFile, File.Read, Nat.not_le.mpr h]

/-- A file shorter than the magic tag: the first read throws. -/
theorem header_short (s : LoadState) (h : s.file.rest.length < 4) :
    Load.header s = (Res.error FileReadWriteError.read, s) := by
  unfold Load.header
  exact M.bind_error (onFile_Read_short 4 s h)

/-- A file whose first four bytes are not the tag: the magic check throws. -/
theorem header_badMagic (s : LoadState) (h : 4 ≤ s.file.rest.length)
    (hm : s.file.rest.take 4 ≠ magicGMD) :
    Load.header s = (Res.error FileReadWriteError.notGmd,
      ⟨⟨s.file.rest.drop 4, s.file.over⟩, s.model⟩) := by
  have hl : (s.file.rest.take 4).length = 4 := by
    rw [List.length_take]
    omega
  have hc : String.Cmp (s.file.rest.take 4) strGMD ≠ 0 :=
    fun h0 => hm ((Cmp_strGMD_iff _ hl).mp h0)
  unfold Load.header
  rw [M.bind_ok (onFile_Read_ok 4 s h)]
  simp only [hc, ne_eq, not_false_eq_true, if_true]
  rfl

/-- The part of the header after the version check throws only stream faults. -/
theorem throws_header_fields (P : FileReadWriteError → Prop) (hP : P FileReadWriteError.read) :
    Throws P (do
      let modelName ← onFile String.ReadFromFile
      let author ← onFile String.ReadFromFile
      let appName ← onFile String.ReadFromFile
      let numBones ← onFile File.ReadUint
      let numMeshes ← onFile File.ReadUint
      let numChunks ← onFile File.ReadUint
      (Pure.pure ⟨modelName, author, appName, numBones, numMeshes, numChunks⟩ :
        M LoadState Header)) := by
  have hr : ∀ e, e = FileReadWriteError.read → P e := fun e h => h ▸ hP
  refine throws_seq (throws_onFile (throws_mono throws_ReadFromFile hr)) (fun _ => ?_)
  refine throws_seq (throws_onFile (throws_mono throws_ReadFromFile hr)) (fun _ => ?_)
  refine throws_seq (throws_onFile (throws_mono throws_ReadFromFile hr)) (fun _ => ?_)
  refine throws_seq (throws_onFile (throws_mono throws_ReadUint hr)) (fun _ => ?_)
  refine throws_seq (throws_onFile (throws_mono throws_ReadUint hr)) (fun _ => ?_)
  exact throws_seq (throws_onFile (throws_mono throws_ReadUint hr)) (fun _ => throws_ret _ _)

/-- A file that starts with the tag is not rejected by the magic check. -/
theorem header_goodMagic (s s1 : LoadState) (e : FileReadWriteError)
    (hm : s.file.rest.take 4 = magicGMD) (h : Load.header s = (Res.error e, s1)) :
    e ≠ FileReadWriteError.notGmd := by
  have h4 : 4 ≤ s.file.rest.length := by
    have := congrArg List.length hm
    rw [List.length_take] at this
    have h5 : magicGMD.length = 4 := rfl
    omega
  unfold Load.header at h
  rw [M.bind_ok (onFile_Read_ok 4 s h4), hm] at h
  simp only [Cmp_magicGMD, ne_eq, not_true_eq_false, if_false] at h
  refine (throws_seq (throws_onFile (throws_mono throws_ReadInt ?_)) (fun v => ?_) :
    Throws (fun e => e ≠ FileReadWriteError.notGmd) _) _ s1 e h
  · intro e he
    rw [he]
    simp
  · refine throws_ite _ (fun _ => throws_throwErr (by simp)) (fun _ => ?_)
    exact throws_header_fields _ (by simp)

/-! ## From the `try` block to the call -/

theorem Load_of_body_ok (fs : FileSystemCore) (filename : String) (bytes : List Byte)
    (s : LoadState) (hopen : fs.OpenRead filename = some bytes)
    (h : Load.body ⟨⟨bytes, 0⟩, none⟩ = (Res.ok (), s)) :
    Model.Load (some fs) filename =
      { result := s.model, events := [Event.close], final := some s } := by
  simp only [Model.Load, hopen, h]

theorem Load_of_body_error (fs : FileSystemCore) (filename : String) (bytes : List Byte)
    (s : LoadState) (e : FileReadWriteError) (hopen : fs.OpenRead filename = some bytes)
    (h : Load.body ⟨⟨bytes, 0⟩, none⟩ = (Res.error e, s)) :
    Model.Load (some fs) filename =
      { result := none,
        events := [Event.close, Event.deleteModel s.model, Event.error e filename],
        final := some s } := by
  simp only [Model.Load, hopen, h]

/-- The try block ends in a value or in a throw. -/
theorem M.run_cases {σ α : Type} (x : M σ α) (s : σ) :
    (∃ a s1, x s = (Res.ok a, s1)) ∨ ∃ e s1, x s = (Res.error e, s1) := by
  rcases hx : x s with ⟨r, s1⟩
  cases r with
  | ok a => exact Or.inl ⟨a, s1, rfl⟩
  | error e => exact Or.inr ⟨e, s1, rfl⟩

theorem body_of_header_error (s s1 : LoadState) (e : FileReadWriteError)
    (h : Load.header s = (Res.error e, s1)) : Load.body s = (Res.error e, s1) := by
  unfold Load.body
  exact M.bind_error h

/-- An error of the try block comes from the header or from a chunk. -/
theorem body_error_cases (s s1 : LoadState) (e : FileReadWriteError)
    (h : Load.body s = (Res.error e, s1)) :
    Load.header s = (Res.error e, s1) ∨ ChunkError e := by
  unfold Load.body at h
  rcases M.bind_eq_error h with hh | ⟨hd, s2, _, hrest⟩
  · exact Or.inl hh
  · right
    exact (throws_seq throws_newModel (fun _ => throws_forN (throws_chunk _ _) _) :
      Throws ChunkError _) s2 s1 e hrest

theorem ChunkError.ne_notGmd {e : FileReadWriteError} (h : ChunkError e) :
    e ≠ FileReadWriteError.notGmd := by
  rcases h with h | ⟨a, b, h⟩ | ⟨a, b, h⟩ <;> simp [h]

theorem ChunkError.ne_wrongVersion {e : FileReadWriteError} (h : ChunkError e) (a b : Int) :
    e ≠ FileReadWriteError.wrongVersion a b := by
  rcases h with h | ⟨c, d, h⟩ | ⟨c, d, h⟩ <;> simp [h]

/-- C2 (magic rejection). A file that can be opened and whose first four bytes
are not the tag `'G','M','D',0` makes `Load` return `NULL`, whatever follows;
when the file has at least four bytes the error is the format error "Not a gmd
file", raised before any model exists. A file whose first four bytes are the
tag is never rejected by the magic check. -/
theorem Load_magic_rejection (fs : FileSystemCore) (filename : String) (bytes : List Byte)
    (hopen : fs.OpenRead filename = some bytes) :
    (bytes.take 4 ≠ magicGMD → (Model.Load (some fs) filename).result = none) ∧
    (4 ≤ bytes.length → bytes.take 4 ≠ magicGMD →
      (Model.Load (some fs) filename).events =
        [Event.close, Event.deleteModel none,
          Event.error FileReadWriteError.notGmd filename]) ∧
    (bytes.take 4 = magicGMD →
      Event.error FileReadWriteError.notGmd filename ∉
        (Model.Load (some fs) filename).events) := by
  refine ⟨fun hm => ?_, fun h4 hm => ?_, fun hm => ?_⟩
  · by_cases h4 : 4 ≤ bytes.length
    · rw [Load_of_body_error fs filename bytes _ _ hopen
        (body_of_header_error _ _ _ (header_badMagic ⟨⟨bytes, 0⟩, none⟩ h4 hm))]
    · rw [Load_of_body_error fs filename bytes _ _ hopen
        (body_of_header_error _ _ _ (header_short ⟨⟨bytes, 0⟩, none⟩ (Nat.lt_of_not_le h4)))]
  · rw [Load_of_body_error fs filename bytes _ _ hopen
      (body_of_header_error _ _ _ (header_badMagic ⟨⟨bytes, 0⟩, none⟩ h4 hm))]
  · rcases M.run_cases Load.body ⟨⟨bytes, 0⟩, none⟩ with ⟨a, s1, hok⟩ | ⟨e, s1, herr⟩
    · rw [Load_of_body_ok fs filename bytes s1 hopen hok]
      simp
    · rw [Load_of_body_error fs filename bytes s1 e hopen herr]
      have hne : e ≠ FileReadWriteError.notGmd := by
        rcases body_error_cases _ _ _ herr with hh | hc
        · exact header_goodMagic _ _ _ hm hh
        · exact hc.ne_notGmd
      simp [Ne.symm hne]

/-- C1 (round trip). For a model as the data model describes it (every count
is the length of its buffer, every member in the range of its type), saved to
a file that can be opened on a medium that holds it, `Save` returns `true`, and
`Load` of the file `Save` wrote returns a model with the same bones and the
same meshes, field for field (floats as 32-bit patterns), hence also with the
same number of bones and of meshes. -/
theorem Save_Load_round_trip (ops : PathOps) (fs : FileSystemCore) (model : Model)
    (filename : String) (limit : Option Nat)
    (hm : model.Valid)
    (hn : String.Valid (ops.StripPath (ops.StripFileExtension filename)))
    (hw : fs.OpenWrite filename = some limit)
    (hfit : fits limit
      (gmdBytes (ops.StripPath (ops.StripFileExtension filename)) model).length = true) :
    (Model.Save ops (some fs) model filename).result = true ∧
    ∃ loaded, (Model.Load (some (afterSave ops fs model filename)) filename).result = some loaded ∧
      loaded.bones = model.bones ∧ loaded.meshes = model.meshes ∧
      loaded.bones.length = model.bones.length ∧
      loaded.meshes.length = model.meshes.length := by
  have hs := Save_eq ops fs model filename limit hw hfit
  have hr : (afterSave ops fs model filename).OpenRead filename =
      some (gmdBytes (ops.StripPath (ops.StripFileExtension filename)) model) := by
    simp [afterSave, hs]
  refine ⟨by rw [hs], ⟨true, model.bones, model.meshes⟩, ?_, rfl, rfl, rfl, rfl⟩
  rw [Load_gmdBytes _ filename _ model hn hm hr]

/-- The concrete scenario of C1: two bones with parents -1 and 0, one mesh
with three vertices, two indices and weight counts 0, 1 and 2. -/
theorem Save_Load_round_trip_witness :
    scenarioModel.Valid ∧
    String.Valid (plainOps.StripPath (plainOps.StripFileExtension scenarioName)) ∧
    writableFS.OpenWrite scenarioName = some none ∧
    (Model.Save plainOps (some writableFS) scenarioModel scenarioName).result = true ∧
    ∃ loaded,
      (Model.Load (some (afterSave plainOps writableFS scenarioModel scenarioName))
        scenarioName).result = some loaded ∧
      loaded.bones = scenarioModel.bones ∧ loaded.meshes = scenarioModel.meshes ∧
      loaded.bones.length = scenarioModel.bones.length ∧
      loaded.meshes.length = scenarioModel.meshes.length :=
  ⟨by decide, by decide, rfl,
    Save_Load_round_trip plainOps writableFS scenarioModel scenarioName none
      (by decide) (by decide) rfl rfl⟩

/-- A file with the tag and a version field other than the supported version:
the version check throws, citing both versions, before any model exists. -/
theorem header_badVersion (vb r : List Byte) (o : Nat) (mo : Option Model)
    (hl : vb.length = 4) (hv : toInt (decU32 vb) ≠ GMD_VERSION) :
    Load.header ⟨⟨magicGMD ++ (vb ++ r), o⟩, mo⟩ =
      (Res.error (FileReadWriteError.wrongVersion (toInt (decU32 vb)) GMD_VERSION),
        ⟨⟨r, o⟩, mo⟩) := by
  have h1 : onFile (File.Read 4) ⟨⟨magicGMD ++ (vb ++ r), o⟩, mo⟩ =
      (Res.ok magicGMD, ⟨⟨vb ++ r, o⟩, mo⟩) :=
    onFile_ok mo (File.Read_append magicGMD (vb ++ r) o)
  have h2 : onFile File.ReadInt ⟨⟨vb ++ r, o⟩, mo⟩ = (Res.ok (toInt (decU32 vb)), ⟨⟨r, o⟩, mo⟩) := by
    refine onFile_ok mo ?_
    unfold File.ReadInt
    have := File.Read_append vb r o
    rw [hl] at this
    rw [M.bind_ok this]
    rfl
  unfold Load.header
  rw [M.bind_ok h1]
  simp only [Cmp_magicGMD, ne_eq, not_true_eq_false, if_false]
  rw [M.bind_ok h2]
  simp only [ne_eq, hv, not_false_eq_true, if_true]
  rfl

/-- A file with the tag and the supported version passes the version check. -/
theorem header_goodVersion (vb r : List Byte) (o : Nat) (mo : Option Model)
    (s1 : LoadState) (e : FileReadWriteError)
    (hl : vb.length = 4) (hv : toInt (decU32 vb) = GMD_VERSION)
    (h : Load.header ⟨⟨magicGMD ++ (vb ++ r), o⟩, mo⟩ = (Res.error e, s1)) (a b : Int) :
    e ≠ FileReadWriteError.wrongVersion a b := by
  have h1 : onFile (File.Read 4) ⟨⟨magicGMD ++ (vb ++ r), o⟩, mo⟩ =
      (Res.ok magicGMD, ⟨⟨vb ++ r, o⟩, mo⟩) :=
    onFile_ok mo (File.Read_append magicGMD (vb ++ r) o)
  have h2 : onFile File.ReadInt ⟨⟨vb ++ r, o⟩, mo⟩ = (Res.ok (toInt (decU32 vb)), ⟨⟨r, o⟩, mo⟩) := by
    refine onFile_ok mo ?_
    unfold File.ReadInt
    have := File.Read_append vb r o
    rw [hl] at this
    rw [M.bind_ok this]
    rfl
  unfold Load.header at h
  rw [M.bind_ok h1] at h
  simp only [Cmp_magicGMD, ne_eq, not_true_eq_false, if_false] at h
  rw [M.bind_ok h2] at h
  simp only [ne_eq, hv, not_true_eq_false, if_false] at h
  exact throws_header_fields (fun e => e ≠ FileReadWriteError.wrongVersion a b) (by simp) _ s1 e h

/-- C3 (version rejection). On a file that starts with the tag followed by a
four-byte version field: when the field, read as `int`, is not `GMD_VERSION = 1`,
`Load` returns `NULL` and the error it raises carries the version found and the
version expected; when the field is 1, no version error is raised. -/
theorem Load_version_rejection (fs : FileSystemCore) (filename : String)
    (vb r : List Byte) (hl : vb.length = 4)
    (hopen : fs.OpenRead filename = some (magicGMD ++ (vb ++ r))) :
    GMD_VERSION = 1 ∧
    (toInt (decU32 vb) ≠ 1 →
      (Model.Load (some fs) filename).result = none ∧
      (Model.Load (some fs) filename).events =
        [Event.close, Event.deleteModel none,
          Event.error (FileReadWriteError.wrongVersion (toInt (decU32 vb)) 1) filename]) ∧
    (toInt (decU32 vb) = 1 → ∀ a b,
      Event.error (FileReadWriteError.wrongVersion a b) filename ∉
        (Model.Load (some fs) filename).events) := by
  refine ⟨rfl, fun hv => ?_, fun hv a b => ?_⟩
  · rw [Load_of_body_error fs filename _ _ _ hopen
      (body_of_header_error _ _ _ (header_badVersion vb r 0 none hl hv))]
    exact ⟨rfl, rfl⟩
  · rcases M.run_cases Load.body ⟨⟨magicGMD ++ (vb ++ r), 0⟩, none⟩ with
      ⟨u, s1, hok⟩ | ⟨e, s1, herr⟩
    · rw [Load_of_body_ok fs filename _ s1 hopen hok]
      simp
    · rw [Load_of_body_error fs filename _ s1 e hopen herr]
      have hne : e ≠ FileReadWriteError.wrongVersion a b := by
        rcases body_error_cases _ _ _ herr with hh | hc
        · exact header_goodVersion vb r 0 none s1 e hl hv hh a b
        · exact hc.ne_wrongVersion a b
      simp [Ne.symm hne]

/-- A file with the tag and version 2 is rejected, citing 2 and 1. -/
theorem Load_version_rejection_witness :
    ([2, 0, 0, 0] : List Byte).length = 4 ∧
    (readableFS (magicGMD ++ ([2, 0, 0, 0] ++ []))).OpenRead scenarioName =
      some (magicGMD ++ ([2, 0, 0, 0] ++ [])) ∧
    (Model.Load (some (readableFS (magicGMD ++ ([2, 0, 0, 0] ++ [])))) scenarioName).result
      = none ∧
    (Model.Load (some (readableFS (magicGMD ++ ([2, 0, 0, 0] ++ [])))) scenarioName).events =
      [Event.close, Event.deleteModel none,
        Event.error (FileReadWriteError.wrongVersion 2 1) scenarioName] :=
  ⟨rfl, rfl,
    (Load_version_rejection (readableFS (magicGMD ++ ([2, 0, 0, 0] ++ []))) scenarioName
      [2, 0, 0, 0] [] rfl rfl).2.1 (by decide)⟩

/-- A file that starts with four other bytes is rejected as "Not a gmd file". -/
theorem Load_magic_rejection_witness :
    (readableFS [71, 77, 68, 1, 1, 0, 0, 0]).OpenRead scenarioName =
      some [71, 77, 68, 1, 1, 0, 0, 0] ∧
    (Model.Load (some (readableFS [71, 77, 68, 1, 1, 0, 0, 0])) scenarioName).result = none ∧
    (Model.Load (some (readableFS [71, 77, 68, 1, 1, 0, 0, 0])) scenarioName).events =
      [Event.close, Event.deleteModel none,
        Event.error FileReadWriteError.notGmd scenarioName] :=
  ⟨rfl,
    (Load_magic_rejection (readableFS [71, 77, 68, 1, 1, 0, 0, 0]) scenarioName
      [71, 77, 68, 1, 1, 0, 0, 0] rfl).1 (by decide),
    (Load_magic_rejection (readableFS [71, 77, 68, 1, 1, 0, 0, 0]) scenarioName
      [71, 77, 68, 1, 1, 0, 0, 0] rfl).2.1 (by decide) (by decide)⟩

/-! ## The chunk loop -/

theorem forN_add {σ : Type} (body : M σ Unit) (k j : Nat) (s s1 : σ)
    (h : og.forN body k s = (Res.ok (), s1)) :
    og.forN body (k + j) s = og.forN body j s1 := by
  induction k generalizing s with
  | zero =>
    have h2 : (Res.ok (), s) = (Res.ok (), s1) := h
    simp only [Prod.mk.injEq, true_and] at h2
    rw [Nat.zero_add, h2]
  | succ k ih =>
    have h2 : (body >>= fun _ => og.forN body k) s = (Res.ok (), s1) := h
    obtain ⟨u, s2, hb, hk⟩ := M.bind_eq_ok h2
    have : k + 1 + j = (k + j) + 1 := by omega
    rw [this]
    show (body >>= fun _ => og.forN body (k + j)) s = _
    rw [M.bind_ok hb]
    exact ih s2 hk

/-- The head of a chunk: the name, the size and the entry count are read. -/
theorem chunk_head (numBones numMeshes : Nat) (name : String) (size entries : Nat)
    (rest : List Byte) (o : Nat) (mo : Option Model)
    (hname : String.Valid name) (hsize : IsU32 size) (hent : IsU32 entries) :
    Load.chunk numBones numMeshes
        ⟨⟨encStr name ++ (encUint size ++ (encUint entries ++ rest)), o⟩, mo⟩ =
      (if String.Icmp name strBones = 0 then
        if entries ≠ numBones then
          throwErr (FileReadWriteError.numBones numBones entries)
        else og.forN Load.bone entries
      else if String.Icmp name strMeshes = 0 then
        if entries ≠ numMeshes then
          throwErr (FileReadWriteError.numMeshes numMeshes entries)
        else og.forN Load.mesh entries
      else onFile (File.SeekCur size)) ⟨⟨rest, o⟩, mo⟩ := by
  unfold Load.chunk
  rw [M.bind_ok (onFile_ok mo ((decodes_ReadFromFile name hname).1 _ o)),
    M.bind_ok (onFile_ok mo ((decodes_ReadUint size hsize).1 _ o)),
    M.bind_ok (onFile_ok mo ((decodes_ReadUint entries hent).1 _ o))]

/-- The try block, once the header is read, is the chunk loop on a new model. -/
theorem body_of_header_ok (s s0 : LoadState) (h : Header)
    (hh : Load.header s = (Res.ok h, s0)) :
    Load.body s =
      og.forN (Load.chunk h.numBones h.numMeshes) h.numChunks
        ⟨s0.file, some (Model.new true)⟩ := by
  unfold Load.body
  rw [M.bind_ok hh]
  rfl

/-- C4 (chunk-count mismatch). On a file with a valid header, when `Load`,
after `k` chunks, stands before a chunk named "Bones" whose entry count is not
the header's `numBones`, or before a chunk named "Meshes" whose entry count is
not the header's `numMeshes`, it returns `NULL` with the matching count error;
the cursor is left on the first byte of that chunk's payload and the model is
as it was before the chunk, so nothing of the payload was decoded. -/
theorem Load_chunk_count_mismatch (fs : FileSystemCore) (filename : String)
    (bytes : List Byte) (h : Header) (s0 : LoadState) (k : Nat)
    (name : String) (size entries : Nat) (payload : List Byte) (o : Nat)
    (mo : Option Model)
    (hopen : fs.OpenRead filename = some bytes)
    (hhead : Load.header ⟨⟨bytes, 0⟩, none⟩ = (Res.ok h, s0))
    (hk : k < h.numChunks)
    (hprev : og.forN (Load.chunk h.numBones h.numMeshes) k ⟨s0.file, some (Model.new true)⟩ =
      (Res.ok (), ⟨⟨encStr name ++ (encUint size ++ (encUint entries ++ payload)), o⟩, mo⟩))
    (hname : String.Valid name) (hsize : IsU32 size) (hent : IsU32 entries)
    (hbad : (String.Icmp name strBones = 0 ∧ entries ≠ h.numBones) ∨
      (String.Icmp name strBones ≠ 0 ∧ String.Icmp name strMeshes = 0 ∧
        entries ≠ h.numMeshes)) :
    (Model.Load (some fs) filename).result = none ∧
    (Model.Load (some fs) filename).final = some ⟨⟨payload, o⟩, mo⟩ ∧
    (String.Icmp name strBones = 0 →
      (Model.Load (some fs) filename).events =
        [Event.close, Event.deleteModel mo,
          Event.error (FileReadWriteError.numBones h.numBones entries) filename]) ∧
    (String.Icmp name strBones ≠ 0 →
      (Model.Load (some fs) filename).events =
        [Event.close, Event.deleteModel mo,
          Event.error (FileReadWriteError.numMeshes h.numMeshes entries) filename]) := by
  obtain ⟨j, hj⟩ : ∃ j, h.numChunks = k + (j + 1) := ⟨h.numChunks - k - 1, by omega⟩
  have hloop : ∀ e, Load.chunk h.numBones h.numMeshes
        ⟨⟨encStr name ++ (encUint size ++ (encUint entries ++ payload)), o⟩, mo⟩ =
        (Res.error e, ⟨⟨payload, o⟩, mo⟩) →
      Load.body ⟨⟨bytes, 0⟩, none⟩ = (Res.error e, ⟨⟨payload, o⟩, mo⟩) := by
    intro e he
    rw [body_of_header_ok _ _ _ hhead, hj, forN_add _ k (j + 1) _ _ hprev]
    exact M.bind_error he
  have hc := chunk_head h.numBones h.numMeshes name size entries payload o mo hname hsize hent
  rcases hbad with ⟨hb, hne⟩ | ⟨hnb, hm, hne⟩
  · have he : Load.chunk h.numBones h.numMeshes
        ⟨⟨encStr name ++ (encUint size ++ (encUint entries ++ payload)), o⟩, mo⟩ =
        (Res.error (FileReadWriteError.numBones h.numBones entries), ⟨⟨payload, o⟩, mo⟩) := by
      rw [hc]
      simp only [hb, if_true, ne_eq, hne, not_false_eq_true]
      rfl
    rw [Load_of_body_error fs filename bytes _ _ hopen (hloop _ he)]
    exact ⟨rfl, rfl, fun _ => rfl, fun hx => absurd hb hx⟩
  · have he : Load.chunk h.numBones h.numMeshes
        ⟨⟨encStr name ++ (encUint size ++ (encUint entries ++ payload)), o⟩, mo⟩ =
        (Res.error (FileReadWriteError.numMeshes h.numMeshes entries), ⟨⟨payload, o⟩, mo⟩) := by
      rw [hc]
      simp only [hnb, if_false, hm, if_true, ne_eq, hne, not_false_eq_true]
      rfl
    rw [Load_of_body_error fs filename bytes _ _ hopen (hloop _ he)]
    exact ⟨rfl, rfl, fun hx => absurd hx hnb, fun _ => rfl⟩

theorem drop_append_len {α : Type} (a b : List α) (n : Nat) (h : n = a.length) :
    (a ++ b).drop n = b := by
  subst h
  exact List.drop_left a b

theorem take_append_len {α : Type} (a b : List α) (n : Nat) (h : n = a.length) :
    (a ++ b).take n = a := by
  subst h
  exact List.take_left a b

theorem decU32_encUint (n : Nat) (h : n < 4294967296) : decU32 (encUint n) = n := by
  rw [encUint, Nat.mod_eq_of_lt h, decU32_encU32 n h]

/-- C6 (chunks written by `Save` are independently skippable). In the file
`Save` writes, with payloads shorter than `2^32` bytes: the size field of the
"Bones" chunk holds the number of payload bytes that follow its entry count,
so that skipping that many bytes from the end of the entry count lands on the
first byte of the name of the "Meshes" chunk; and the size field of the
"Meshes" chunk holds the number of bytes from the end of its entry count to the
end of the file. -/
theorem Save_chunks_skippable (ops : PathOps) (fs : FileSystemCore) (model : Model)
    (filename : String) (limit : Option Nat)
    (hw : fs.OpenWrite filename = some limit)
    (hfit : fits limit
      (gmdBytes (ops.StripPath (ops.StripFileExtension filename)) model).length = true)
    (hB : (bonesPayload model).length < 4294967296)
    (hM : (meshesPayload model).length < 4294967296) :
    ∃ f hdr, (Model.Save ops (some fs) model filename).final = some f ∧
      hdr = encHeader GMD_VERSION (ops.StripPath (ops.StripFileExtension filename))
        strUnknown strOgTools model.bones.length model.meshes.length 2 ∧
      f.data.take (hdr ++ encStr strBones).length = hdr ++ encStr strBones ∧
      decU32 ((f.data.drop (hdr ++ encStr strBones).length).take 4) =
        (bonesPayload model).length ∧
      (f.data.drop ((hdr ++ encStr strBones).length + 8)).take (bonesPayload model).length =
        bonesPayload model ∧
      (f.data.drop ((hdr ++ encStr strBones).length + 8 + (bonesPayload model).length)).take
        (encStr strMeshes).length = encStr strMeshes ∧
      decU32 ((f.data.drop ((hdr ++ encStr strBones).length + 8 + (bonesPayload model).length +
        (encStr strMeshes).length)).take 4) = (meshesPayload model).length ∧
      f.data.drop ((hdr ++ encStr strBones).length + 8 + (bonesPayload model).length +
        (encStr strMeshes).length + 8) = meshesPayload model ∧
      (hdr ++ encStr strBones).length + 8 + (bonesPayload model).length +
        (encStr strMeshes).length + 8 + (meshesPayload model).length = f.data.length := by
  refine ⟨_, _, congrArg SaveOutcome.final (Save_eq ops fs model filename limit hw hfit), rfl, ?_⟩
  generalize hH : encHeader GMD_VERSION (ops.StripPath (ops.StripFileExtension filename))
    strUnknown strOgTools model.bones.length model.meshes.length 2 = hdr
  generalize hPB : bonesPayload model = B at hB ⊢
  generalize hPM : meshesPayload model = Ms at hM ⊢
  have hd : gmdBytes (ops.StripPath (ops.StripFileExtension filename)) model =
      hdr ++ (encStr strBones ++ (encUint B.length ++ (encUint model.bones.length ++
        (B ++ (encStr strMeshes ++ (encUint Ms.length ++
          (encUint model.meshes.length ++ Ms))))))) := by
    simp only [gmdBytes, encChunk, hH, hPB, hPM, List.append_assoc]
  simp only [hd]
  generalize hN1 : encStr strBones = N1
  generalize hN2 : encStr strMeshes = N2
  generalize hsB : encUint B.length = sB
  generalize hsM : encUint Ms.length = sM
  generalize heB : encUint model.bones.length = eB
  generalize heM : encUint model.meshes.length = eM
  have lsB : sB.length = 4 := by rw [← hsB]; rfl
  have lsM : sM.length = 4 := by rw [← hsM]; rfl
  have leB : eB.length = 4 := by rw [← heB]; rfl
  have leM : eM.length = 4 := by rw [← heM]; rfl
  have vB : decU32 sB = B.length := by rw [← hsB]; exact decU32_encUint _ hB
  have vM : decU32 sM = Ms.length := by rw [← hsM]; exact decU32_encUint _ hM
  have e1 : hdr ++ (N1 ++ (sB ++ (eB ++ (B ++ (N2 ++ (sM ++ (eM ++ Ms))))))) =
      (hdr ++ N1) ++ (sB ++ (eB ++ (B ++ (N2 ++ (sM ++ (eM ++ Ms)))))) := by
    simp only [List.append_assoc]
  have e2 : hdr ++ (N1 ++ (sB ++ (eB ++ (B ++ (N2 ++ (sM ++ (eM ++ Ms))))))) =
      ((hdr ++ N1) ++ (sB ++ eB)) ++ (B ++ (N2 ++ (sM ++ (eM ++ Ms)))) := by
    simp only [List.append_assoc]
  have e3 : hdr ++ (N1 ++ (sB ++ (eB ++ (B ++ (N2 ++ (sM ++ (eM ++ Ms))))))) =
      ((hdr ++ N1) ++ (sB ++ (eB ++ B))) ++ (N2 ++ (sM ++ (eM ++ Ms))) := by
    simp only [List.append_assoc]
  have e4 : hdr ++ (N1 ++ (sB ++ (eB ++ (B ++ (N2 ++ (sM ++ (eM ++ Ms))))))) =
      ((hdr ++ N1) ++ (sB ++ (eB ++ (B ++ N2)))) ++ (sM ++ (eM ++ Ms)) := by
    simp only [List.append_assoc]
  have e5 : hdr ++ (N1 ++ (sB ++ (eB ++ (B ++ (N2 ++ (sM ++ (eM ++ Ms))))))) =
      ((hdr ++ N1) ++ (sB ++ (eB ++ (B ++ (N2 ++ (sM ++ eM)))))) ++ Ms := by
    simp only [List.append_assoc]
  refine ⟨?_, ?_, ?_, ?_, ?_, ?_, ?_⟩
  · rw [e1, take_append_len _ _ _ rfl]
  · rw [e1, drop_append_len _ _ _ rfl, take_append_len _ _ _ lsB.symm, vB]
  · rw [e2, drop_append_len _ _ _ (by simp only [List.length_append, lsB, leB]),
      take_append_len _ _ _ rfl]
  · rw [e3, drop_append_len _ _ _ (by simp only [List.length_append, lsB, leB]; omega),
      take_append_len _ _ _ rfl]
  · rw [e4, drop_append_len _ _ _ (by simp only [List.length_append, lsB, leB]; omega),
      take_append_len _ _ _ lsM.symm, vM]
  · rw [e5, drop_append_len _ _ _ (by simp only [List.length_append, lsB, leB, lsM, leM]; omega)]
  · simp only [List.length_append, lsB, leB, lsM, leM]
    omega

/-- C7 (truncated files are terminal failures). For a well-formed model and
the file `f` that `Save` wrote for it: `Load` of the first `k` bytes of the file,
for every `k` smaller than its length (the empty file included), returns `NULL`;
and `Load` of the whole file consumes every byte of it, ending with the cursor
exactly at the end. -/
theorem Load_truncated (ops : PathOps) (fs fs2 : FileSystemCore) (model : Model)
    (filename : String) (limit : Option Nat) (f : OutFile) (k : Nat)
    (hm : model.Valid)
    (hn : String.Valid (ops.StripPath (ops.StripFileExtension filename)))
    (hw : fs.OpenWrite filename = some limit)
    (hfit : fits limit
      (gmdBytes (ops.StripPath (ops.StripFileExtension filename)) model).length = true)
    (hf : (Model.Save ops (some fs) model filename).final = some f)
    (hk : k < f.data.length)
    (hr : fs2.OpenRead filename = some (f.data.take k)) :
    (Model.Load (some fs2) filename).result = none ∧
    ∀ fs3 : FileSystemCore, fs3.OpenRead filename = some f.data →
      ∃ s, (Model.Load (some fs3) filename).final = some s ∧ s.file = ⟨[], 0⟩ := by
  rw [Save_eq ops fs model filename limit hw hfit] at hf
  simp only [Option.some.injEq] at hf
  subst hf
  refine ⟨Load_gmdBytes_take fs2 filename _ model hn hm k hk hr, fun fs3 h3 => ?_⟩
  rw [Load_gmdBytes fs3 filename _ model hn hm h3]
  exact ⟨_, rfl, rfl⟩

/-- C9 (no stream, no work). When the stream provider is not set, or when its
`OpenRead` returns no file, `Load` returns `NULL`; no file was opened, so there
is no stream on which it could read, seek or close, and it records no `Close`. -/
theorem Load_without_stream (modelFS : Option FileSystemCore) (filename : String)
    (h : modelFS = none ∨ ∃ fs, modelFS = some fs ∧ fs.OpenRead filename = none) :
    (Model.Load modelFS filename).result = none ∧
    (Model.Load modelFS filename).final = none ∧
    Event.close ∉ (Model.Load modelFS filename).events ∧
    (modelFS = none → (Model.Load modelFS filename).events = []) ∧
    (modelFS ≠ none → (Model.Load modelFS filename).events = [Event.warning filename]) := by
  rcases h with h | ⟨fs, h, ho⟩
  · subst h
    simp [Model.Load]
  · subst h
    simp [Model.Load, ho]

/-- The two cases of C9: no provider, and a provider that opens nothing. -/
theorem Load_without_stream_witness :
    (Model.Load none scenarioName).result = none ∧
    (Model.Load none scenarioName).final = none ∧
    (Model.Load none scenarioName).events = [] ∧
    (Model.Load (some emptyFS) scenarioName).result = none ∧
    (Model.Load (some emptyFS) scenarioName).final = none ∧
    (Model.Load (some emptyFS) scenarioName).events = [Event.warning scenarioName] :=
  ⟨(Load_without_stream none scenarioName (Or.inl rfl)).1,
    (Load_without_stream none scenarioName (Or.inl rfl)).2.1,
    (Load_without_stream none scenarioName (Or.inl rfl)).2.2.2.1 rfl,
    (Load_without_stream (some emptyFS) scenarioName (Or.inr ⟨emptyFS, rfl, rfl⟩)).1,
    (Load_without_stream (some emptyFS) scenarioName (Or.inr ⟨emptyFS, rfl, rfl⟩)).2.1,
    (Load_without_stream (some emptyFS) scenarioName (Or.inr ⟨emptyFS, rfl, rfl⟩)).2.2.2.2
      (by simp)⟩

/-! ## The errors of `Save` -/

theorem throws_Write (bs : List Byte) :
    Throws (fun e => e = FileReadWriteError.write) (File.Write bs) := by
  intro s s1 e h
  unfold File.Write at h
  split at h
  · simp at h
  · simp only [Prod.mk.injEq, Res.error.injEq] at h
    exact h.1.symm

theorem throws_Tell : Throws (fun e => e = FileReadWriteError.write) File.Tell := by
  intro s s1 e h
  simp [File.Tell] at h

theorem throws_SeekSet (p : Nat) :
    Throws (fun e => e = FileReadWriteError.write) (File.SeekSet p) := by
  intro s s1 e h
  simp [File.SeekSet] at h

theorem throws_forEach {σ α : Type} {P : FileReadWriteError → Prop} {body : α → M σ Unit}
    (h : ∀ a, Throws P (body a)) (as : List α) : Throws P (og.forEach body as) := by
  induction as with
  | nil => exact throws_ret P ()
  | cons a as ih => exact throws_seq (h a) (fun _ => ih)

theorem throws_WriteToFile (s : String) :
    Throws (fun e => e = FileReadWriteError.write) (String.WriteToFile s) :=
  throws_seq (throws_Write _) (fun _ => throws_Write _)

theorem throws_writeVec2 (v : Vec2) :
    Throws (fun e => e = FileReadWriteError.write) (writeVec2 v) :=
  throws_seq (throws_Write _) (fun _ => throws_Write _)

theorem throws_writeVec3 (v : Vec3) :
    Throws (fun e => e = FileReadWriteError.write) (writeVec3 v) :=
  throws_seq (throws_Write _) (fun _ => throws_seq (throws_Write _) (fun _ => throws_Write _))

theorem throws_writeQuat (q : Quat) :
    Throws (fun e => e = FileReadWriteError.write) (writeQuat q) :=
  throws_seq (throws_Write _) (fun _ => throws_seq (throws_Write _) (fun _ =>
    throws_seq (throws_Write _) (fun _ => throws_Write _)))

theorem throws_StartChunk (name : String) (entries : Nat) :
    Throws (fun e => e = FileReadWriteError.write) (StartChunk name entries) :=
  throws_seq (throws_WriteToFile name) (fun _ => throws_seq throws_Tell (fun _ =>
    throws_seq (throws_Write _) (fun _ => throws_seq (throws_Write _) (fun _ =>
      throws_ret _ _))))

theorem throws_FinishChunk (sizePos : Nat) :
    Throws (fun e => e = FileReadWriteError.write) (FinishChunk sizePos) :=
  throws_seq throws_Tell (fun _ => throws_seq (throws_SeekSet _) (fun _ =>
    throws_seq (throws_Write _) (fun _ => throws_SeekSet _)))

theorem throws_Save_bone (b : Bone) :
    Throws (fun e => e = FileReadWriteError.write) (Save.bone b) :=
  throws_seq (throws_WriteToFile _) (fun _ => throws_seq (throws_Write _) (fun _ =>
    throws_seq (throws_writeVec3 _) (fun _ => throws_writeQuat _)))

theorem throws_Save_weight (w : VertexWeight) :
    Throws (fun e => e = FileReadWriteError.write) (Save.weight w) :=
  throws_seq (throws_Write _) (fun _ => throws_seq (throws_writeVec3 _) (fun _ =>
    throws_seq (throws_writeVec3 _) (fun _ => throws_Write _)))

theorem throws_Save_vertex (v : Vertex) :
    Throws (fun e => e = FileReadWriteError.write) (Save.vertex v) :=
  throws_seq (throws_Write _) (fun _ => throws_forEach throws_Save_weight _)

theorem throws_Save_mesh (m : MeshAnimated) :
    Throws (fun e => e = FileReadWriteError.write) (Save.mesh m) :=
  throws_seq (throws_WriteToFile _) (fun _ => throws_seq (throws_WriteToFile _) (fun _ =>
    throws_seq (throws_Write _) (fun _ => throws_seq (throws_Write _) (fun _ =>
      throws_seq (throws_Write _) (fun _ => throws_seq (throws_Write _) (fun _ =>
        throws_seq (throws_forEach (fun _ => throws_Write _) _) (fun _ =>
          throws_seq (throws_forEach throws_writeVec2 _) (fun _ =>
            throws_forEach throws_Save_vertex _))))))))

/-- A failed write is the only error the try block of `Save` throws. -/
theorem throws_Save_body (modelName : String) (model : Model) :
    Throws (fun e => e = FileReadWriteError.write) (Save.body modelName model) := by
  unfold Save.body
  refine throws_seq (throws_Write _) (fun _ => ?_)
  refine throws_seq (throws_Write _) (fun _ => ?_)
  refine throws_seq (throws_WriteToFile _) (fun _ => ?_)
  refine throws_seq (throws_WriteToFile _) (fun _ => ?_)
  refine throws_seq (throws_WriteToFile _) (fun _ => ?_)
  refine throws_seq (throws_Write _) (fun _ => ?_)
  refine throws_seq (throws_Write _) (fun _ => ?_)
  refine throws_seq (throws_Write _) (fun _ => ?_)
  refine throws_seq (throws_StartChunk _ _) (fun _ => ?_)
  refine throws_seq (throws_forEach throws_Save_bone _) (fun _ => ?_)
  refine throws_seq (throws_FinishChunk _) (fun _ => ?_)
  refine throws_seq (throws_StartChunk _ _) (fun _ => ?_)
  refine throws_seq (throws_forEach throws_Save_mesh _) (fun _ => ?_)
  exact throws_FinishChunk _

/-- C10 (the result of `Save` is a uniform failure signal). `Save` returns
`true` exactly when the provider is set, the file is opened and the try block
ends without a throw. It returns `false`, without an event, when the provider
is not set or `OpenWrite` fails. When a write throws, it returns `false`, the
error is a write error, and the file is closed exactly once before the error is
reported; on success the file is closed exactly once too. -/
theorem Save_result (ops : PathOps) (modelFS : Option FileSystemCore) (model : Model)
    (filename : String) :
    ((Model.Save ops modelFS model filename).result = true ↔
      ∃ fs limit f, modelFS = some fs ∧ fs.OpenWrite filename = some limit ∧
        Save.body (ops.StripPath (ops.StripFileExtension filename)) model ⟨[], 0, limit⟩ =
          (Res.ok (), f)) ∧
    (modelFS = none →
      Model.Save ops modelFS model filename = ⟨false, [], none⟩) ∧
    (∀ fs, modelFS = some fs → fs.OpenWrite filename = none →
      Model.Save ops modelFS model filename = ⟨false, [], none⟩) ∧
    (∀ fs limit e f, modelFS = some fs → fs.OpenWrite filename = some limit →
      Save.body (ops.StripPath (ops.StripFileExtension filename)) model ⟨[], 0, limit⟩ =
        (Res.error e, f) →
      e = FileReadWriteError.write ∧
      Model.Save ops modelFS model filename =
        ⟨false, [Event.close, Event.error e filename], some f⟩) ∧
    (∀ fs limit, modelFS = some fs → fs.OpenWrite filename = some limit →
      (Model.Save ops modelFS model filename).events.count Event.close = 1) := by
  refine ⟨⟨fun hres => ?_, fun hex => ?_⟩, fun hn => ?_, fun fs hs ho => ?_,
    fun fs limit e f hs ho hb => ?_, fun fs limit hs ho => ?_⟩
  · cases modelFS with
    | none => simp [Model.Save] at hres
    | some fs =>
      cases ho : fs.OpenWrite filename with
      | none => simp [Model.Save, ho] at hres
      | some limit =>
        rcases M.run_cases (Save.body (ops.StripPath (ops.StripFileExtension filename)) model)
          ⟨[], 0, limit⟩ with ⟨u, f, hok⟩ | ⟨e, f, herr⟩
        · exact ⟨fs, limit, f, rfl, ho, hok⟩
        · simp [Model.Save, ho, herr] at hres
  · obtain ⟨fs, limit, f, hs, ho, hb⟩ := hex
    subst hs
    simp [Model.Save, ho, hb]
  · subst hn
    rfl
  · subst hs
    simp [Model.Save, ho]
  · subst hs
    refine ⟨throws_Save_body _ _ _ _ _ hb, ?_⟩
    simp [Model.Save, ho, hb]
  · subst hs
    rcases M.run_cases (Save.body (ops.StripPath (ops.StripFileExtension filename)) model)
      ⟨[], 0, limit⟩ with ⟨u, f, hok⟩ | ⟨e, f, herr⟩
    · simp [Model.Save, ho, hok]
    · simp [Model.Save, ho, herr, List.count_cons]

/-- The cases of C10 on the scenario model: no provider, no file, a medium
that holds only ten bytes, and a medium without bound. -/
theorem Save_result_witness :
    Model.Save plainOps none scenarioModel scenarioName = ⟨false, [], none⟩ ∧
    Model.Save plainOps (some emptyFS) scenarioModel scenarioName = ⟨false, [], none⟩ ∧
    (Model.Save plainOps (some (boundedFS 10)) scenarioModel scenarioName).result = false ∧
    (Model.Save plainOps (some (boundedFS 10)) scenarioModel scenarioName).events =
      [Event.close, Event.error FileReadWriteError.write scenarioName] ∧
    (Model.Save plainOps (some writableFS) scenarioModel scenarioName).result = true ∧
    (Model.Save plainOps (some writableFS) scenarioModel scenarioName).events.count
      Event.close = 1 :=
  ⟨(Save_result plainOps none scenarioModel scenarioName).2.1 rfl,
    (Save_result plainOps (some emptyFS) scenarioModel scenarioName).2.2.1 emptyFS rfl rfl,
    by decide!, by decide!, by decide!,
    (Save_result plainOps (some writableFS) scenarioModel scenarioName).2.2.2.2
      writableFS none rfl rfl⟩

/-- A "Bones" chunk with one entry under a header that announces two bones. -/
theorem Load_chunk_count_mismatch_witness :
    (readableFS mismatchFile).OpenRead scenarioName = some mismatchFile ∧
    (Model.Load (some (readableFS mismatchFile)) scenarioName).result = none ∧
    (Model.Load (some (readableFS mismatchFile)) scenarioName).final =
      some ⟨⟨[], 0⟩, some (Model.new true)⟩ ∧
    (Model.Load (some (readableFS mismatchFile)) scenarioName).events =
      [Event.close, Event.deleteModel (some (Model.new true)),
        Event.error (FileReadWriteError.numBones 2 1) scenarioName] :=
  have h := Load_chunk_count_mismatch (readableFS mismatchFile) scenarioName mismatchFile
    ⟨[], strUnknown, strOgTools, 2, 0, 1⟩
    ⟨⟨encStr strBones ++ (encUint 0 ++ (encUint 1 ++ [])), 0⟩, none⟩ 0 strBones 0 1 [] 0
    (some (Model.new true)) rfl
    ((steps_header [] strUnknown strOgTools 2 0 1 (by decide) (by decide) (by decide)
      (by decide) (by decide) (by decide)).1 _ 0 none)
    (by decide) rfl (by decide) (by decide) (by decide) (Or.inl ⟨by decide, by decide⟩)
  ⟨rfl, h.1, h.2.1, h.2.2.1 (by decide)⟩

set_option maxRecDepth 100000 in
/-- The chunk sizes in the file of the scenario model. -/
theorem Save_chunks_skippable_witness :
    ∃ f, (Model.Save plainOps (some writableFS) scenarioModel scenarioName).final = some f ∧
      decU32 ((f.data.drop 56).take 4) = 81 ∧
      (f.data.drop (56 + 8 + 81)).take 10 = encStr strMeshes ∧
      decU32 ((f.data.drop (56 + 8 + 81 + 10)).take 4) = 172 ∧
      56 + 8 + 81 + 10 + 8 + 172 = f.data.length := by
  obtain ⟨f, hdr, hf, hh, _, h2, _, h4, h5, _, h7⟩ :=
    Save_chunks_skippable plainOps writableFS scenarioModel scenarioName none rfl rfl
      (by decide!) (by decide!)
  subst hh
  exact ⟨f, hf, h2, h4, h5, h7⟩

set_option maxRecDepth 100000 in
/-- The scenario file without its last byte is rejected; the whole file is
read to its end. -/
theorem Load_truncated_witness :
    (Model.Load (some (readableFS truncatedFile)) scenarioName).result = none ∧
    ∃ s, (Model.Load (some (readableFS (gmdBytes scenarioName scenarioModel)))
        scenarioName).final = some s ∧ s.file = ⟨[], 0⟩ :=
  have h := Load_truncated plainOps writableFS (readableFS truncatedFile) scenarioModel
    scenarioName none
    ⟨gmdBytes scenarioName scenarioModel, (gmdBytes scenarioName scenarioModel).length, none⟩
    ((gmdBytes scenarioName scenarioModel).length - 1)
    (by decide) (by decide) rfl rfl
    (congrArg SaveOutcome.final
      (Save_eq plainOps writableFS scenarioModel scenarioName none rfl rfl))
    (by decide!) rfl
  ⟨h.1, h.2 (readableFS (gmdBytes scenarioName scenarioModel)) rfl⟩

/-! ## What an accepted file must contain -/

theorem encU32_decU32 (bs : List Byte) (h : bs.length = 4) : encU32 (decU32 bs) = bs := by
  match bs, h with
  | [a, b, c, d], _ =>
    have ha := a.isLt
    have hb := b.isLt
    have hc := c.isLt
    have hd := d.isLt
    simp only [encU32, decU32, List.cons.injEq, and_true]
    refine ⟨Fin.ext ?_, Fin.ext ?_, Fin.ext ?_, Fin.ext ?_⟩ <;> simp only <;> omega

theorem decU32_lt (bs : List Byte) : decU32 bs < 4294967296 := by
  unfold decU32
  split
  · rename_i a b c d
    have ha := a.isLt
    have hb := b.isLt
    have hc := c.isLt
    have hd := d.isLt
    omega
  · omega

/-- A successful `Read` took the bytes it returns from the front of the file. -/
theorem Read_inv (k : Nat) (s r bs : List Byte) (o o1 : Nat)
    (h : File.Read k ⟨s, o⟩ = (Res.ok bs, ⟨r, o1⟩)) :
    s = bs ++ r ∧ bs.length = k ∧ o1 = o := by
  unfold File.Read at h
  by_cases hk : k ≤ s.length
  · simp only [hk, if_true, Prod.mk.injEq, Res.ok.injEq, InFile.mk.injEq] at h
    obtain ⟨hb, hr, ho⟩ := h
    subst hb hr ho
    refine ⟨(List.take_append_drop k s).symm, ?_, rfl⟩
    rw [List.length_take]
    omega
  · simp [hk] at h

/-- A successful `ReadUint` consumed the four bytes of the value it returns. -/
theorem ReadUint_inv (s r : List Byte) (o o1 v : Nat)
    (h : File.ReadUint ⟨s, o⟩ = (Res.ok v, ⟨r, o1⟩)) :
    s = encUint v ++ r ∧ IsU32 v ∧ o1 = o := by
  have h2 : (File.Read 4 >>= fun bs => (Pure.pure (decU32 bs) : M InFile Nat)) ⟨s, o⟩ =
      (Res.ok v, ⟨r, o1⟩) := h
  obtain ⟨bs, ⟨r2, o2⟩, hr, hp⟩ := M.bind_eq_ok h2
  have hp2 : (Res.ok (decU32 bs), (⟨r2, o2⟩ : InFile)) = (Res.ok v, ⟨r, o1⟩) := hp
  simp only [Prod.mk.injEq, Res.ok.injEq, InFile.mk.injEq] at hp2
  obtain ⟨hv, hr2, ho2⟩ := hp2
  subst hv hr2 ho2
  obtain ⟨hs, hl, ho⟩ := Read_inv 4 s r2 bs o o2 hr
  refine ⟨?_, decU32_lt bs, ho⟩
  rw [encUint, Nat.mod_eq_of_lt (decU32_lt bs), encU32_decU32 bs hl]
  exact hs

theorem toUint_toInt (u : Nat) (h : u < 4294967296) : toUint (toInt u) = u := by
  unfold toUint toInt
  split <;> omega

theorem isI32_toInt (u : Nat) (h : u < 4294967296) : IsI32 (toInt u) := by
  unfold IsI32 toInt
  split <;> omega

/-- A successful `ReadInt` consumed the four bytes of the value it returns. -/
theorem ReadInt_inv (s r : List Byte) (o o1 : Nat) (v : Int)
    (h : File.ReadInt ⟨s, o⟩ = (Res.ok v, ⟨r, o1⟩)) :
    s = encInt v ++ r ∧ IsI32 v ∧ o1 = o := by
  have h2 : (File.Read 4 >>= fun bs => (Pure.pure (toInt (decU32 bs)) : M InFile Int)) ⟨s, o⟩ =
      (Res.ok v, ⟨r, o1⟩) := h
  obtain ⟨bs, ⟨r2, o2⟩, hr, hp⟩ := M.bind_eq_ok h2
  have hp2 : (Res.ok (toInt (decU32 bs)), (⟨r2, o2⟩ : InFile)) = (Res.ok v, ⟨r, o1⟩) := hp
  simp only [Prod.mk.injEq, Res.ok.injEq, InFile.mk.injEq] at hp2
  obtain ⟨hv, hr2, ho2⟩ := hp2
  subst hv hr2 ho2
  obtain ⟨hs, hl, ho⟩ := Read_inv 4 s r2 bs o o2 hr
  refine ⟨?_, isI32_toInt _ (decU32_lt bs), ho⟩
  rw [encInt, toUint_toInt _ (decU32_lt bs), encU32_decU32 bs hl]
  exact hs

/-- A successful `ReadFromFile` consumed the length field and the bytes of the
string it returns. -/
theorem ReadFromFile_inv (s r : List Byte) (o o1 : Nat) (v : String)
    (h : String.ReadFromFile ⟨s, o⟩ = (Res.ok v, ⟨r, o1⟩)) :
    s = encStr v ++ r ∧ String.Valid v ∧ o1 = o := by
  have h2 : (File.ReadUint >>= fun len => File.Read len) ⟨s, o⟩ = (Res.ok v, ⟨r, o1⟩) := h
  obtain ⟨len, ⟨r2, o2⟩, hu, hr⟩ := M.bind_eq_ok h2
  obtain ⟨hs, hlen, ho⟩ := ReadUint_inv s r2 o o2 len hu
  obtain ⟨hs2, hl, ho2⟩ := Read_inv len r2 r v o2 o1 hr
  subst hl
  refine ⟨?_, hlen, by omega⟩
  rw [hs, hs2, encStr, List.append_assoc]

/-- A read on `file` inside `Load` that succeeded. -/
theorem onFile_inv {α : Type} {x : M InFile α} {s r : List Byte} {o o1 : Nat}
    {mo mo1 : Option Model} {v : α}
    (h : onFile x ⟨⟨s, o⟩, mo⟩ = (Res.ok v, ⟨⟨r, o1⟩, mo1⟩)) :
    x ⟨s, o⟩ = (Res.ok v, ⟨r, o1⟩) ∧ mo1 = mo := by
  have := onFile_eq_ok h
  exact ⟨this.1, this.2⟩

/-- The header of an accepted file: the file starts with the bytes of the
header that was read, in the layout `Save` uses, and the rest is left unread. -/
theorem header_inv (s r : List Byte) (o o1 : Nat) (mo mo1 : Option Model) (h : Header)
    (hrun : Load.header ⟨⟨s, o⟩, mo⟩ = (Res.ok h, ⟨⟨r, o1⟩, mo1⟩)) :
    s = encHeader GMD_VERSION h.modelName h.author h.appName h.numBones h.numMeshes
          h.numChunks ++ r ∧
    o1 = o ∧ mo1 = mo ∧ String.Valid h.modelName ∧ String.Valid h.author ∧
    String.Valid h.appName ∧ IsU32 h.numBones ∧ IsU32 h.numMeshes ∧ IsU32 h.numChunks := by
  unfold Load.header at hrun
  obtain ⟨fileId, ⟨⟨r1, o2⟩, m1⟩, h1, hrun⟩ := M.bind_eq_ok hrun
  obtain ⟨h1, hm1⟩ := onFile_inv h1
  obtain ⟨hs1, hl1, ho1⟩ := Read_inv 4 s r1 fileId o o2 h1
  by_cases hc : String.Cmp fileId strGMD = 0
  · simp only [hc, ne_eq, not_true_eq_false, if_false] at hrun
    have hid : fileId = magicGMD := (Cmp_strGMD_iff fileId hl1).mp hc
    obtain ⟨version, ⟨⟨r2, o3⟩, m2⟩, h2, hrun⟩ := M.bind_eq_ok hrun
    obtain ⟨h2, hm2⟩ := onFile_inv h2
    obtain ⟨hs2, _, ho2⟩ := ReadInt_inv r1 r2 o2 o3 version h2
    by_cases hv : version = GMD_VERSION
    · simp only [hv, ne_eq, not_true_eq_false, if_false] at hrun
      obtain ⟨modelName, ⟨⟨r3, o4⟩, m3⟩, h3, hrun⟩ := M.bind_eq_ok hrun
      obtain ⟨h3, hm3⟩ := onFile_inv h3
      obtain ⟨hs3, hv3, ho3⟩ := ReadFromFile_inv r2 r3 o3 o4 modelName h3
      obtain ⟨author, ⟨⟨r4, o5⟩, m4⟩, h4, hrun⟩ := M.bind_eq_ok hrun
      obtain ⟨h4, hm4⟩ := onFile_inv h4
      obtain ⟨hs4, hv4, ho4⟩ := ReadFromFile_inv r3 r4 o4 o5 author h4
      obtain ⟨appName, ⟨⟨r5, o6⟩, m5⟩, h5, hrun⟩ := M.bind_eq_ok hrun
      obtain ⟨h5, hm5⟩ := onFile_inv h5
      obtain ⟨hs5, hv5, ho5⟩ := ReadFromFile_inv r4 r5 o5 o6 appName h5
      obtain ⟨numBones, ⟨⟨r6, o7⟩, m6⟩, h6, hrun⟩ := M.bind_eq_ok hrun
      obtain ⟨h6, hm6⟩ := onFile_inv h6
      obtain ⟨hs6, hv6, ho6⟩ := ReadUint_inv r5 r6 o6 o7 numBones h6
      obtain ⟨numMeshes, ⟨⟨r7, o8⟩, m7⟩, h7, hrun⟩ := M.bind_eq_ok hrun
      obtain ⟨h7, hm7⟩ := onFile_inv h7
      obtain ⟨hs7, hv7, ho7⟩ := ReadUint_inv r6 r7 o7 o8 numMeshes h7
      obtain ⟨numChunks, ⟨⟨r8, o9⟩, m8⟩, h8, hrun⟩ := M.bind_eq_ok hrun
      obtain ⟨h8, hm8⟩ := onFile_inv h8
      obtain ⟨hs8, hv8, ho8⟩ := ReadUint_inv r7 r8 o8 o9 numChunks h8
      have hp : (Res.ok (⟨modelName, author, appName, numBones, numMeshes, numChunks⟩ : Header),
          (⟨⟨r8, o9⟩, m8⟩ : LoadState)) = (Res.ok h, ⟨⟨r, o1⟩, mo1⟩) := hrun
      simp only [Prod.mk.injEq, Res.ok.injEq, LoadState.mk.injEq, InFile.mk.injEq] at hp
      obtain ⟨hh, ⟨hr, ho⟩, hm⟩ := hp
      subst hh hr ho hm
      refine ⟨?_, by omega, by simp [*], hv3, hv4, hv5, hv6, hv7, hv8⟩
      rw [hs1, hs2, hs3, hs4, hs5, hs6, hs7, hs8, hid, hv]
      simp only [encHeader, List.append_assoc]
    · simp [hv, throwErr] at hrun
  · simp [hc, throwErr] at hrun

/-- A chunk whose name is neither "Bones" nor "Meshes" and whose size field is
the length of its payload: `Load` skips it, and changes nothing else. -/
theorem chunk_unknown (numBones numMeshes : Nat) (name : String) (entries : Nat)
    (payload r : List Byte) (o : Nat) (mo : Option Model)
    (hname : String.Valid name) (hbones : String.Icmp name strBones ≠ 0)
    (hmeshes : String.Icmp name strMeshes ≠ 0)
    (hent : IsU32 entries) (hsize : IsU32 payload.length) :
    Load.chunk numBones numMeshes ⟨⟨encChunk name entries payload ++ r, o⟩, mo⟩ =
      (Res.ok (), ⟨⟨r, o⟩, mo⟩) := by
  have hc := chunk_head numBones numMeshes name payload.length entries (payload ++ r) o mo
    hname hsize hent
  simp only [encChunk, List.append_assoc] at hc ⊢
  rw [hc]
  simp only [hbones, hmeshes, if_false]
  simp [onFile, File.SeekCur]

theorem encUint_inj (a b : Nat) (ha : IsU32 a) (hb : IsU32 b) (h : encUint a = encUint b) :
    a = b := by
  have := congrArg decU32 h
  rwa [decU32_encUint a ha, decU32_encUint b hb] at this

theorem append_inj_of_length_right {α : Type} {a b c d : List α}
    (h : a ++ b = c ++ d) (hl : b.length = d.length) : a = c ∧ b = d := by
  have hlen := congrArg List.length h
  simp only [List.length_append] at hlen
  exact List.append_inj h (by omega)

/-- C5 (forward compatibility). Let a file consist of a header whose last
field `numChunks` is `n`, then the bytes `p` of its first `k` chunks, then the
rest `r`: `Load` reads the header and, after `k` chunks, stands at the beginning
of `r` (a chunk boundary: before, between or after the chunks of the file). Then
the file with `numChunks` set to `n + 1` and with a chunk inserted between `p`
and `r`, whose name is not a known chunk name and whose size field is the
length of its payload, is accepted whenever the original file is, with the same
model; and `Load`, standing before the inserted chunk, skips exactly its bytes
without an error and without touching the model. -/
theorem Load_skips_unknown_chunk (fs fs2 : FileSystemCore) (filename : String)
    (hd p r : List Byte) (n k : Nat) (h : Header) (mk : Option Model)
    (name : String) (entries : Nat) (payload : List Byte)
    (hopen : fs.OpenRead filename = some (hd ++ (encUint n ++ (p ++ r))))
    (hhead : Load.header ⟨⟨hd ++ (encUint n ++ (p ++ r)), 0⟩, none⟩ =
      (Res.ok h, ⟨⟨p ++ r, 0⟩, none⟩))
    (hk : k ≤ h.numChunks)
    (hprev : og.forN (Load.chunk h.numBones h.numMeshes) k
        ⟨⟨p ++ r, 0⟩, some (Model.new true)⟩ = (Res.ok (), ⟨⟨r, 0⟩, mk⟩))
    (hn1 : IsU32 (n + 1))
    (hname : String.Valid name) (hbones : String.Icmp name strBones ≠ 0)
    (hmeshes : String.Icmp name strMeshes ≠ 0)
    (hent : IsU32 entries) (hsize : IsU32 payload.length)
    (hopen2 : fs2.OpenRead filename =
      some (hd ++ (encUint (n + 1) ++ (p ++ (encChunk name entries payload ++ r))))) :
    (∀ m, (Model.Load (some fs) filename).result = some m →
      (Model.Load (some fs2) filename).result = some m) ∧
    (∀ o mo, Load.chunk h.numBones h.numMeshes
        ⟨⟨encChunk name entries payload ++ r, o⟩, mo⟩ = (Res.ok (), ⟨⟨r, o⟩, mo⟩)) := by
  refine ⟨fun m hres => ?_, fun o mo =>
    chunk_unknown _ _ name entries payload r o mo hname hbones hmeshes hent hsize⟩
  -- the header of the original file, and the place of `numChunks` in it
  obtain ⟨hs, _, _, hv1, hv2, hv3, hv4, hv5, hv6⟩ := header_inv _ _ _ _ _ _ _ hhead
  have hn : IsU32 n := by
    unfold IsU32 at hn1 ⊢
    omega
  have hsplit : hd ++ encUint n =
      (magicGMD ++ (encInt GMD_VERSION ++ (encStr h.modelName ++ (encStr h.author ++
        (encStr h.appName ++ (encUint h.numBones ++ encUint h.numMeshes)))))) ++
        encUint h.numChunks := by
    have h2 : (hd ++ encUint n) ++ (p ++ r) =
        ((magicGMD ++ (encInt GMD_VERSION ++ (encStr h.modelName ++ (encStr h.author ++
          (encStr h.appName ++ (encUint h.numBones ++ encUint h.numMeshes)))))) ++
          encUint h.numChunks) ++ (p ++ r) := by
      have h3 := hs
      simp only [encHeader, List.append_assoc] at h3 ⊢
      exact h3
    exact List.append_cancel_right h2
  obtain ⟨hhd, hnc⟩ := append_inj_of_length_right hsplit rfl
  have hnum : h.numChunks = n := (encUint_inj n h.numChunks hn hv6 hnc).symm
  -- the header of the new file
  have hhead2 : Load.header
      ⟨⟨hd ++ (encUint (n + 1) ++ (p ++ (encChunk name entries payload ++ r))), 0⟩, none⟩ =
      (Res.ok ⟨h.modelName, h.author, h.appName, h.numBones, h.numMeshes, n + 1⟩,
        ⟨⟨p ++ (encChunk name entries payload ++ r), 0⟩, none⟩) := by
    have := (steps_header h.modelName h.author h.appName h.numBones h.numMeshes (n + 1)
      hv1 hv2 hv3 hv4 hv5 hn1).1 (p ++ (encChunk name entries payload ++ r)) 0 none
    rw [hhd]
    simp only [encHeader, List.append_assoc] at this ⊢
    exact this
  -- the first `k` chunks are the bytes `p`, whatever follows them
  obtain ⟨_, hloc⟩ := localL_forN (localL_chunk h.numBones h.numMeshes) k _ _ _ _ _ _ _ hprev
  obtain ⟨a, ha, hrun⟩ := hloc rfl
  have hap : a = p := (List.append_cancel_right ha).symm
  subst hap
  -- the original run
  have hbody : Load.body ⟨⟨hd ++ (encUint n ++ (a ++ r)), 0⟩, none⟩ =
      og.forN (Load.chunk h.numBones h.numMeshes) (h.numChunks - k) ⟨⟨r, 0⟩, mk⟩ := by
    rw [body_of_header_ok _ _ _ hhead]
    have : h.numChunks = k + (h.numChunks - k) := by omega
    rw [this, forN_add _ k _ _ _ hprev]
    congr 1
    omega
  -- the new run
  have hbody2 : Load.body
      ⟨⟨hd ++ (encUint (n + 1) ++ (a ++ (encChunk name entries payload ++ r))), 0⟩, none⟩ =
      og.forN (Load.chunk h.numBones h.numMeshes) (h.numChunks - k) ⟨⟨r, 0⟩, mk⟩ := by
    rw [body_of_header_ok _ _ _ hhead2]
    have : n + 1 = k + ((h.numChunks - k) + 1) := by omega
    show og.forN (Load.chunk h.numBones h.numMeshes) (n + 1) _ = _
    rw [this, forN_add _ k _ _ _ (hrun (encChunk name entries payload ++ r))]
    show (Load.chunk h.numBones h.numMeshes >>= fun _ =>
      og.forN (Load.chunk h.numBones h.numMeshes) (h.numChunks - k)) _ = _
    rw [M.bind_ok (chunk_unknown _ _ name entries payload r 0 mk hname hbones hmeshes hent hsize)]
  rcases M.run_cases (og.forN (Load.chunk h.numBones h.numMeshes) (h.numChunks - k))
    ⟨⟨r, 0⟩, mk⟩ with ⟨u, s1, hok⟩ | ⟨e, s1, herr⟩
  · rw [Load_of_body_ok fs filename _ s1 hopen (by rw [hbody, hok])] at hres
    rw [Load_of_body_ok fs2 filename _ s1 hopen2 (by rw [hbody2, hok])]
    exact hres
  · rw [Load_of_body_error fs filename _ s1 e hopen (by rw [hbody, herr])] at hres
    simp at hres

set_option maxRecDepth 100000 in
/-- The scenario file with a chunk named "X" inserted between its "Bones" chunk
and its "Meshes" chunk loads to the scenario's bones and meshes. -/
theorem Load_skips_unknown_chunk_witness :
    (Model.Load (some (readableFS
        (scenarioHead ++ (encUint 2 ++ (scenarioBones ++ scenarioMeshes))))) scenarioName).result
      = some ⟨true, scenarioModel.bones, scenarioModel.meshes⟩ ∧
    (Model.Load (some (readableFS
        (scenarioHead ++ (encUint (2 + 1) ++ (scenarioBones ++ (unknownChunk ++ scenarioMeshes))))))
      scenarioName).result = some ⟨true, scenarioModel.bones, scenarioModel.meshes⟩ :=
  have h := Load_skips_unknown_chunk
    (readableFS (scenarioHead ++ (encUint 2 ++ (scenarioBones ++ scenarioMeshes))))
    (readableFS (scenarioHead ++ (encUint (2 + 1) ++
      (scenarioBones ++ (unknownChunk ++ scenarioMeshes)))))
    scenarioName scenarioHead scenarioBones scenarioMeshes 2 1
    ⟨scenarioName, strUnknown, strOgTools, 2, 1, 2⟩
    (some ⟨true, scenarioModel.bones, []⟩) [88] 7 [1, 2, 3]
    rfl (by decide!) (by decide) (by decide!) (by decide) (by decide) (by decide) (by decide)
    (by decide) (by decide) rfl
  ⟨by decide!, h.1 _ (by decide!)⟩

/-- C11 (structure of the output of `Save`). The file `Save` writes is the
header (magic tag, version 1, the model name, "Unknown", "ogTools", the number
of bones, the number of meshes, the chunk count 2), then a chunk named "Bones"
whose entry count is the number of bones, then a chunk named "Meshes" whose
entry count is the number of meshes, and nothing else. The payload of the
"Bones" chunk is the bones in table order, each as name, parent index, three
origin floats and four orientation floats. -/
theorem Save_output_structure (ops : PathOps) (fs : FileSystemCore) (model : Model)
    (filename : String) (limit : Option Nat)
    (hw : fs.OpenWrite filename = some limit)
    (hfit : fits limit
      (gmdBytes (ops.StripPath (ops.StripFileExtension filename)) model).length = true) :
    ∃ f, (Model.Save ops (some fs) model filename).final = some f ∧
      f.data =
        (magicGMD ++ (encInt 1 ++ (encStr (ops.StripPath (ops.StripFileExtension filename)) ++
          (encStr strUnknown ++ (encStr strOgTools ++ (encUint model.bones.length ++
            (encUint model.meshes.length ++ encUint 2))))))) ++
        ((encStr strBones ++ (encUint (encList encBone model.bones).length ++
            (encUint model.bones.length ++ encList encBone model.bones))) ++
         (encStr strMeshes ++ (encUint (encList encMesh model.meshes).length ++
            (encUint model.meshes.length ++ encList encMesh model.meshes)))) ∧
      (∀ b : Bone, encBone b =
        encStr b.name ++ (encInt b.idParent ++
          ((encUint b.origin.x ++ (encUint b.origin.y ++ encUint b.origin.z)) ++
            (encUint b.quat.x ++ (encUint b.quat.y ++ (encUint b.quat.z ++ encUint b.quat.w)))))) ∧
      (∀ (b : Bone) (bs : List Bone),
        encList encBone (b :: bs) = encBone b ++ encList encBone bs) ∧
      encList encBone [] = [] ∧
      (IsU32 model.bones.length → decU32 (encUint model.bones.length) = model.bones.length) ∧
      (IsU32 model.meshes.length →
        decU32 (encUint model.meshes.length) = model.meshes.length) ∧
      decU32 (encUint 2) = 2 :=
  ⟨_, congrArg SaveOutcome.final (Save_eq ops fs model filename limit hw hfit), rfl,
    fun _ => rfl, fun _ _ => rfl, rfl, fun h => decU32_encUint _ h, fun h => decU32_encUint _ h,
    by decide⟩

set_option maxRecDepth 100000 in
/-- The file of the scenario model, byte for byte up to the first bone. -/
theorem Save_output_structure_witness :
    ∃ f, (Model.Save plainOps (some writableFS) scenarioModel scenarioName).final = some f ∧
      f.data.take 72 =
        [71, 77, 68, 0, 1, 0, 0, 0, 1, 0, 0, 0, 109,
         7, 0, 0, 0, 85, 110, 107, 110, 111, 119, 110,
         7, 0, 0, 0, 111, 103, 84, 111, 111, 108, 115,
         2, 0, 0, 0, 1, 0, 0, 0, 2, 0, 0, 0,
         5, 0, 0, 0, 66, 111, 110, 101, 115, 81, 0, 0, 0, 2, 0, 0, 0,
         4, 0, 0, 0, 114, 111, 111, 116] ∧
      f.data.length = 335 := by
  obtain ⟨f, hf, hd, _⟩ :=
    Save_output_structure plainOps writableFS scenarioModel scenarioName none rfl rfl
  refine ⟨f, hf, ?_, ?_⟩
  · rw [hd]
    decide!
  · rw [hd]
    decide!

/-- C12 (the author and application strings are fixed placeholders). Two
models saved under the same file name give files that agree on every byte
before the field `numBones`: the magic tag, the version, the model name
computed from the file name, the author "Unknown" and the application
"ogTools". None of these bytes depends on the model. -/
theorem Save_header_placeholders (ops : PathOps) (fs : FileSystemCore) (m1 m2 : Model)
    (filename : String) (limit : Option Nat)
    (hw : fs.OpenWrite filename = some limit)
    (hfit1 : fits limit
      (gmdBytes (ops.StripPath (ops.StripFileExtension filename)) m1).length = true)
    (hfit2 : fits limit
      (gmdBytes (ops.StripPath (ops.StripFileExtension filename)) m2).length = true) :
    ∃ f1 f2 pre, (Model.Save ops (some fs) m1 filename).final = some f1 ∧
      (Model.Save ops (some fs) m2 filename).final = some f2 ∧
      pre = magicGMD ++ (encInt GMD_VERSION ++
        (encStr (ops.StripPath (ops.StripFileExtension filename)) ++
          (encStr [85, 110, 107, 110, 111, 119, 110] ++
            encStr [111, 103, 84, 111, 111, 108, 115]))) ∧
      f1.data.take pre.length = pre ∧ f2.data.take pre.length = pre ∧
      f1.data.drop pre.length =
        encUint m1.bones.length ++ (f1.data.drop (pre.length + 4)) ∧
      f2.data.drop pre.length =
        encUint m2.bones.length ++ (f2.data.drop (pre.length + 4)) := by
  have key : ∀ m : Model, ∃ R, gmdBytes (ops.StripPath (ops.StripFileExtension filename)) m =
      (magicGMD ++ (encInt GMD_VERSION ++
        (encStr (ops.StripPath (ops.StripFileExtension filename)) ++
          (encStr [85, 110, 107, 110, 111, 119, 110] ++
            encStr [111, 103, 84, 111, 111, 108, 115])))) ++ (encUint m.bones.length ++ R) := by
    intro m
    refine ⟨encUint m.meshes.length ++ (encUint 2 ++
      (encChunk strBones m.bones.length (bonesPayload m) ++
        encChunk strMeshes m.meshes.length (meshesPayload m))), ?_⟩
    simp only [gmdBytes, encHeader, strUnknown, strOgTools, List.append_assoc]
  have part : ∀ (m : Model) (pre d : List Byte), (∃ R, d = pre ++ (encUint m.bones.length ++ R)) →
      d.take pre.length = pre ∧
      d.drop pre.length = encUint m.bones.length ++ d.drop (pre.length + 4) := by
    intro m pre d ⟨R, hd⟩
    subst hd
    refine ⟨take_append_len _ _ _ rfl, ?_⟩
    rw [drop_append_len _ _ _ rfl, ← List.append_assoc,
      drop_append_len _ R _ (by simp only [List.length_append, encUint_length])]
  obtain ⟨a1, b1⟩ := part m1 _ _ (key m1)
  obtain ⟨a2, b2⟩ := part m2 _ _ (key m2)
  exact ⟨_, _, _, congrArg SaveOutcome.final (Save_eq ops fs m1 filename limit hw hfit1),
    congrArg SaveOutcome.final (Save_eq ops fs m2 filename limit hw hfit2), rfl, a1, a2, b1, b2⟩

set_option maxRecDepth 100000 in
/-- The scenario model and the empty model, saved as "m", share the 35 bytes
before `numBones`. -/
theorem Save_header_placeholders_witness :
    ∃ f1 f2, (Model.Save plainOps (some writableFS) scenarioModel scenarioName).final = some f1 ∧
      (Model.Save plainOps (some writableFS) (Model.new true) scenarioName).final = some f2 ∧
      f1.data.take 35 = f2.data.take 35 ∧
      f1.data.take 35 =
        [71, 77, 68, 0, 1, 0, 0, 0, 1, 0, 0, 0, 109,
         7, 0, 0, 0, 85, 110, 107, 110, 111, 119, 110,
         7, 0, 0, 0, 111, 103, 84, 111, 111, 108, 115] := by
  obtain ⟨f1, f2, pre, h1, h2, hp, t1, t2, _, _⟩ :=
    Save_header_placeholders plainOps writableFS scenarioModel (Model.new true) scenarioName
      none rfl rfl rfl
  have hl : pre.length = 35 := by rw [hp]; decide!
  have hv : pre = [71, 77, 68, 0, 1, 0, 0, 0, 1, 0, 0, 0, 109,
         7, 0, 0, 0, 85, 110, 107, 110, 111, 119, 110,
         7, 0, 0, 0, 111, 103, 84, 111, 111, 108, 115] := by rw [hp]; decide!
  rw [hl] at t1 t2
  exact ⟨f1, f2, h1, h2, by rw [t1, t2], by rw [t1, hv]⟩

/-! ## Writes at any cursor position -/

theorem overwrite_length (d : List Byte) (c : Nat) (a : List Byte) :
    (overwrite d c a).length = max d.length (c + a.length) := by
  simp only [overwrite, List.length_append, List.length_take, List.length_replicate,
    List.length_drop]
  omega

/-- The part of the file before the cursor, with the gap filled when the
cursor stands past the end. -/
theorem overwrite_eq (d : List Byte) (c : Nat) (a : List Byte) :
    ∃ P, P.length = c ∧ P = d.take c ++ List.replicate (c - d.length) 0 ∧
      overwrite d c a = P ++ (a ++ d.drop (c + a.length)) := by
  refine ⟨d.take c ++ List.replicate (c - d.length) 0, ?_, rfl, ?_⟩
  · simp only [List.length_append, List.length_take, List.length_replicate]
    omega
  · simp only [overwrite, List.append_assoc]

theorem overwrite_overwrite (d : List Byte) (c : Nat) (a b : List Byte) :
    overwrite (overwrite d c a) (c + a.length) b = overwrite d c (a ++ b) := by
  obtain ⟨P, hP, _, h1⟩ := overwrite_eq d c a
  obtain ⟨P2, hP2, hP2e, h2⟩ := overwrite_eq d c (a ++ b)
  have hPP : P2 = P := by
    obtain ⟨_, _, hPe, _⟩ := overwrite_eq d c a
    obtain ⟨Q, hQ, hQe, hq⟩ := overwrite_eq d c a
    rw [hP2e]
    have : P = d.take c ++ List.replicate (c - d.length) 0 := by
      have h3 : overwrite d c a = (d.take c ++ List.replicate (c - d.length) 0) ++
          (a ++ d.drop (c + a.length)) := by simp only [overwrite, List.append_assoc]
      rw [h1] at h3
      exact (List.append_inj h3 (by
        simp only [hP, List.length_append, List.length_take, List.length_replicate]; omega)).1
    rw [this]
  rw [h2, hPP]
  have hlen : (overwrite d c a).length = max d.length (c + a.length) := overwrite_length d c a
  rw [h1] at hlen ⊢
  have e1 : P ++ (a ++ d.drop (c + a.length)) = (P ++ a) ++ d.drop (c + a.length) := by
    rw [List.append_assoc]
  have hPa : (P ++ a).length = c + a.length := by rw [List.length_append, hP]
  unfold overwrite
  rw [show List.take (c + a.length) (P ++ (a ++ d.drop (c + a.length))) = P ++ a from by
      rw [e1]; exact take_append_len _ _ _ hPa.symm,
    show c + a.length - (P ++ (a ++ d.drop (c + a.length))).length = 0 from by
      rw [hlen]; omega,
    show List.drop (c + a.length + b.length) (P ++ (a ++ d.drop (c + a.length))) =
        d.drop (c + (a ++ b).length) from by
      rw [e1, ← List.drop_drop,
        drop_append_len _ _ _ hPa.symm, List.drop_drop, List.length_append]
      congr 1
      omega]
  simp only [List.replicate_zero, List.append_nil, List.append_assoc]

theorem fits_le {lim : Option Nat} {n k : Nat} (h : fits lim n = true) (hk : k ≤ n) :
    fits lim k = true := fits_mono h hk

theorem overwrites_write (bs : List Byte) : Overwrites (File.Write bs) bs := by
  intro f h
  simp only [File.Write, h, if_true]

theorem overwrites_seq {w1 w2 : M OutFile Unit} {e1 e2 : List Byte}
    (h1 : Overwrites w1 e1) (h2 : Overwrites w2 e2) :
    Overwrites (w1 >>= fun _ => w2) (e1 ++ e2) := by
  intro f h
  rw [List.length_append] at h
  have hf1 : fits f.limit (max f.data.length (f.pos + e1.length)) = true :=
    fits_le h (by omega)
  rw [M.bind_ok (h1 f hf1)]
  have hf2 : fits f.limit (max (overwrite f.data f.pos e1).length
      (f.pos + e1.length + e2.length)) = true := by
    rw [overwrite_length]
    exact fits_le h (by omega)
  rw [h2 _ hf2]
  simp only [overwrite_overwrite, List.length_append, Nat.add_assoc]

theorem overwrites_WriteUint (n : Nat) : Overwrites (File.WriteUint n) (encUint n) :=
  overwrites_write _

theorem overwrites_WriteToFile (s : String) : Overwrites (String.WriteToFile s) (encStr s) :=
  overwrites_seq (overwrites_WriteUint s.length) (overwrites_write s)

/-- The function `StartChunk` at any cursor position. -/
theorem StartChunk_run (name : String) (entries : Nat) (f : OutFile)
    (h : fits f.limit (max f.data.length (f.pos + ((encStr name).length + 8))) = true) :
    StartChunk name entries f =
      (Res.ok (f.pos + (encStr name).length),
        ⟨overwrite f.data f.pos (encStr name ++ (encUint 0 ++ encUint entries)),
          f.pos + (encStr name).length + 8, f.limit⟩) := by
  have h1 : fits f.limit (max f.data.length (f.pos + (encStr name).length)) = true :=
    fits_le h (by omega)
  unfold StartChunk
  rw [M.bind_ok (overwrites_WriteToFile name f h1)]
  have hT : ∀ g : OutFile, File.Tell g = (Res.ok g.pos, g) := fun _ => rfl
  rw [M.bind_ok (hT _)]
  have h2 := overwrites_seq (overwrites_WriteUint 0) (overwrites_WriteUint entries)
    ⟨overwrite f.data f.pos (encStr name), f.pos + (encStr name).length, f.limit⟩
    (by
      rw [overwrite_length]
      refine fits_le h ?_
      simp only [List.length_append, encUint_length]
      omega)
  have h3 : (File.WriteUint 0 >>= fun _ => (File.WriteUint entries >>= fun _ =>
      (Pure.pure (f.pos + (encStr name).length) : M OutFile Nat))) =
      ((File.WriteUint 0 >>= fun _ => File.WriteUint entries) >>= fun _ =>
        (Pure.pure (f.pos + (encStr name).length) : M OutFile Nat)) := by
    funext s
    show M.bind _ _ s = M.bind (M.bind _ _) _ s
    unfold M.bind
    rcases File.WriteUint 0 s with ⟨r, s1⟩
    cases r <;> rfl
  show (File.WriteUint 0 >>= fun _ => (File.WriteUint entries >>= fun _ =>
      (Pure.pure (f.pos + (encStr name).length) : M OutFile Nat))) _ = _
  rw [h3, M.bind_ok h2, M.pure_apply]
  simp only [overwrite_overwrite, List.length_append, encUint_length]

/-- The function `FinishChunk` at any cursor position. -/
theorem FinishChunk_run (sizePos : Nat) (f : OutFile)
    (h : fits f.limit (max f.data.length (sizePos + 4)) = true) :
    FinishChunk sizePos f =
      (Res.ok (), ⟨overwrite f.data sizePos
          (encUint (toUint ((f.pos : Int) - (sizePos : Int) - 8))), f.pos, f.limit⟩) := by
  simp only [FinishChunk, File.Tell, File.SeekSet, File.WriteUint, File.Write, bind, M.bind,
    encU32_length, h, if_true, encUint, Nat.mod_mod]

theorem Write_pos (bs : List Byte) (f f1 : OutFile) (h : File.Write bs f = (Res.ok (), f1)) :
    f1.pos = f.pos + bs.length := by
  unfold File.Write at h
  split at h
  · simp only [Prod.mk.injEq, true_and] at h
    rw [← h]
  · simp at h

/-- When `StartChunk` returns, the cursor stands eight bytes after the
position it returns. -/
theorem StartChunk_pos (name : String) (entries : Nat) (f f1 : OutFile) (p : Nat)
    (h : StartChunk name entries f = (Res.ok p, f1)) : f1.pos = p + 8 := by
  unfold StartChunk String.WriteToFile at h
  obtain ⟨_, s1, h1, h⟩ := M.bind_eq_ok h
  obtain ⟨_, s0, h0, h1⟩ := M.bind_eq_ok h1
  obtain ⟨q, s2, h2, h⟩ := M.bind_eq_ok h
  obtain ⟨_, s3, h3, h⟩ := M.bind_eq_ok h
  obtain ⟨_, s4, h4, h⟩ := M.bind_eq_ok h
  have hq : (Res.ok s1.pos, s1) = (Res.ok q, s2) := h2
  have hp : (Res.ok q, s4) = (Res.ok p, f1) := h
  simp only [Prod.mk.injEq, Res.ok.injEq] at hq hp
  have e3 := Write_pos _ _ _ h3
  have e4 := Write_pos _ _ _ h4
  rw [encU32_length] at e3 e4
  rw [← hp.2, ← hp.1, ← hq.1, e4, e3, ← hq.2]

theorem overwrite_at (d : List Byte) (c : Nat) (a : List Byte) :
    ((overwrite d c a).drop c).take a.length = a := by
  obtain ⟨P, hP, _, h⟩ := overwrite_eq d c a
  rw [h, drop_append_len _ _ _ hP.symm, take_append_len _ _ _ rfl]

/-- C17 (`FinishChunk` back-patches `curPos - sizePos - 8`). For a file with
cursor `c` and a position `p` with `p + 8 <= c < p + 8 + 2^32`, on a medium that
takes the write: `FinishChunk` returns normally and the four bytes at `p` then
hold the unsigned value `c - p - 8`. When `p` is what `StartChunk` returned and
the cursor is `n` bytes past where `StartChunk` left it, that value is `n`. -/
theorem FinishChunk_stores_size (f : OutFile) (p : Nat)
    (hp : p + 8 ≤ f.pos) (hc : f.pos < p + 8 + 4294967296)
    (hfit : fits f.limit (max f.data.length (p + 4)) = true) :
    ∃ f1, FinishChunk p f = (Res.ok (), f1) ∧
      (f1.data.drop p).take 4 = encUint (f.pos - p - 8) ∧
      decU32 ((f1.data.drop p).take 4) = f.pos - p - 8 ∧
      ∀ (name : String) (entries : Nat) (f0 fs : OutFile) (n : Nat),
        StartChunk name entries f0 = (Res.ok p, fs) → f.pos = fs.pos + n →
        decU32 ((f1.data.drop p).take 4) = n := by
  have hv : toUint ((f.pos : Int) - (p : Int) - 8) = f.pos - p - 8 := by
    unfold toUint
    omega
  have hat := overwrite_at f.data p (encUint (f.pos - p - 8))
  rw [encUint_length] at hat
  refine ⟨_, FinishChunk_run p f hfit, ?_, ?_, ?_⟩
  · simp only [hv]
    exact hat
  · simp only [hv]
    rw [hat, decU32_encUint _ (by omega)]
  · intro name entries f0 fs n hs hn
    have := StartChunk_pos name entries f0 fs p hs
    simp only [hv]
    rw [hat, decU32_encUint _ (by omega)]
    omega

/-- A chunk of size 3: the cursor stands 11 bytes after the placeholder. -/
theorem FinishChunk_stores_size_witness :
    ∃ f1, FinishChunk 2 ⟨[9, 9, 7, 7, 7, 7, 1, 0, 0, 0, 5, 6, 7], 13, none⟩ = (Res.ok (), f1) ∧
      (f1.data.drop 2).take 4 = [3, 0, 0, 0] ∧
      decU32 ((f1.data.drop 2).take 4) = 3 := by
  obtain ⟨f1, h1, h2, h3, _⟩ := FinishChunk_stores_size
    ⟨[9, 9, 7, 7, 7, 7, 1, 0, 0, 0, 5, 6, 7], 13, none⟩ 2 (by decide) (by decide) rfl
  exact ⟨f1, h1, h2, h3⟩

/-- C19 (the postcondition of `StartChunk`). For a file with cursor `c`, on a
medium that takes the writes: `StartChunk` stores at the cursor the name with
its length field, then four zero bytes, then the entry count as four bytes;
with the cursor at the end of the file this appends them. It returns `c` plus
the encoded length of the name, the position of the first zero byte, and leaves
the cursor eight bytes after the position it returns. -/
theorem StartChunk_postcondition (f : OutFile) (name : String) (entries : Nat)
    (hfit : fits f.limit (max f.data.length (f.pos + ((encStr name).length + 8))) = true) :
    ∃ p f1, StartChunk name entries f = (Res.ok p, f1) ∧
      p = f.pos + (encStr name).length ∧
      (encStr name).length = 4 + name.length ∧
      f1.pos = p + 8 ∧ f1.limit = f.limit ∧
      f1.data = overwrite f.data f.pos (encStr name ++ ([0, 0, 0, 0] ++ encUint entries)) ∧
      (f.pos = f.data.length →
        f1.data = f.data ++ (encStr name ++ ([0, 0, 0, 0] ++ encUint entries))) ∧
      (f1.data.drop f.pos).take (encStr name).length = encStr name ∧
      (f1.data.drop p).take 4 = [0, 0, 0, 0] ∧
      (f1.data.drop (p + 4)).take 4 = encUint entries ∧
      (IsU32 entries → decU32 ((f1.data.drop (p + 4)).take 4) = entries) := by
  have hz : encUint 0 = [0, 0, 0, 0] := by decide
  have hrun := StartChunk_run name entries f hfit
  rw [hz] at hrun
  obtain ⟨P, hP, _, ho⟩ := overwrite_eq f.data f.pos
    (encStr name ++ ([0, 0, 0, 0] ++ encUint entries))
  have h1 : ((overwrite f.data f.pos (encStr name ++ ([0, 0, 0, 0] ++ encUint entries))).drop
      f.pos).take (encStr name).length = encStr name := by
    rw [ho, drop_append_len _ _ _ hP.symm, List.append_assoc, take_append_len _ _ _ rfl]
  have h2 : ((overwrite f.data f.pos (encStr name ++ ([0, 0, 0, 0] ++ encUint entries))).drop
      (f.pos + (encStr name).length)).take 4 = [0, 0, 0, 0] := by
    rw [ho, List.append_assoc, ← List.append_assoc P, drop_append_len _ _ _
      (by rw [List.length_append, hP]), List.append_assoc, take_append_len [0, 0, 0, 0] _ 4 rfl]
  have h3 : ((overwrite f.data f.pos (encStr name ++ ([0, 0, 0, 0] ++ encUint entries))).drop
      (f.pos + (encStr name).length + 4)).take 4 = encUint entries := by
    rw [ho]
    have e : P ++ (encStr name ++ ([0, 0, 0, 0] ++ encUint entries) ++
        List.drop (f.pos + (encStr name ++ ([0, 0, 0, 0] ++ encUint entries)).length) f.data) =
        (P ++ (encStr name ++ [0, 0, 0, 0])) ++ (encUint entries ++
        List.drop (f.pos + (encStr name ++ ([0, 0, 0, 0] ++ encUint entries)).length) f.data) := by
      simp only [List.append_assoc]
    have hl : f.pos + (encStr name).length + 4 = (P ++ (encStr name ++ [0, 0, 0, 0])).length := by
      simp only [List.length_append, hP, List.length_cons, List.length_nil]
      omega
    rw [e, drop_append_len _ _ _ hl, take_append_len (encUint entries) _ 4 rfl]
  refine ⟨_, _, hrun, rfl, ?_, rfl, rfl, rfl, ?_, h1, h2, h3, ?_⟩
  · simp only [encStr, List.length_append, encUint_length]
  · intro he
    rw [he, overwrite_end]
  · intro he
    rw [h3, decU32_encUint _ he]

/-- A chunk named "Bones" with two entries started at the end of a five-byte file. -/
theorem StartChunk_postcondition_witness :
    StartChunk strBones 2 ⟨[1, 2, 3, 4, 5], 5, none⟩ =
      (Res.ok 14, ⟨[1, 2, 3, 4, 5, 5, 0, 0, 0, 66, 111, 110, 101, 115, 0, 0, 0, 0, 2, 0, 0, 0],
        22, none⟩) ∧
    ∃ p f1, StartChunk strBones 2 ⟨[1, 2, 3, 4, 5], 5, none⟩ = (Res.ok p, f1) ∧
      p = 5 + (encStr strBones).length ∧ f1.pos = p + 8 := by
  obtain ⟨p, f1, h1, h2, _, h4, _⟩ :=
    StartChunk_postcondition ⟨[1, 2, 3, 4, 5], 5, none⟩ strBones 2 rfl
  exact ⟨by decide!, p, f1, h1, h2, h4⟩

/-! ## The sizes of the records -/

theorem encStr_length (s : String) : (encStr s).length = 4 + s.length := by
  simp only [encStr, List.length_append, encUint_length]

theorem encVec2_length (v : Vec2) : (encVec2 v).length = 8 := rfl

theorem encVec3_length (v : Vec3) : (encVec3 v).length = 12 := rfl

theorem encQuat_length (q : Quat) : (encQuat q).length = 16 := rfl

theorem encWeight_length (w : VertexWeight) : (encWeight w).length = 32 := rfl

theorem encBone_length (b : Bone) : (encBone b).length = boneSize b := by
  simp only [encBone, List.length_append, encStr_length, encInt_length, encVec3_length,
    encQuat_length, boneSize]

theorem encList_length {α : Type} (enc : α → List Byte) (size : α → Nat) (as : List α)
    (h : ∀ a ∈ as, (enc a).length = size a) :
    (encList enc as).length = (as.map size).sum := by
  induction as with
  | nil => rfl
  | cons a as ih =>
    simp only [encList, List.length_append, List.map_cons, List.sum_cons]
    rw [h a (List.mem_cons_self a as), ih (fun b hb => h b (List.mem_cons_of_mem a hb))]

theorem encList_length_const {α : Type} (enc : α → List Byte) (k : Nat) (as : List α)
    (h : ∀ a, (enc a).length = k) : (encList enc as).length = k * as.length := by
  induction as with
  | nil => rfl
  | cons a as ih =>
    simp only [encList, List.length_append, List.length_cons, h a, ih]
    rw [Nat.mul_succ]
    omega

theorem encVertex_length (v : Vertex) (h : v.CountsMatch) :
    (encVertex v).length = vertexSize v := by
  unfold Vertex.CountsMatch at h
  simp only [encVertex, List.length_append, encUint_length, vertexSize,
    encList_length_const encWeight 32 _ encWeight_length, List.length_take, h, Nat.min_self]

theorem encMesh_length (m : MeshAnimated) (h : m.CountsMatch) :
    (encMesh m).length = meshSize m := by
  obtain ⟨hi, ht, hv, hvv⟩ := h
  have h3 : (encList encVertex (m.vertices.take m.numVerts)).length =
      (m.vertices.map vertexSize).sum := by
    rw [take_all _ _ hv]
    exact encList_length encVertex vertexSize _ (fun v hm => encVertex_length v (hvv v hm))
  simp only [encMesh, List.length_append, encStr_length, encInt_length, encUint_length,
    encList_length_const encInt 4 _ encInt_length,
    encList_length_const encVec2 8 _ encVec2_length, h3, List.length_take, hi, ht,
    Nat.min_self, meshSize]
  omega

/-- C20 (exact chunk sizes in the output of `Save`). For a model whose counts
match its buffers: the size field of the "Bones" chunk holds, modulo `2^32`, the
sum over the bones of the encoded length of the name plus 32; the size field of
the "Meshes" chunk holds, modulo `2^32`, the sum over the meshes of the encoded
lengths of name and material, plus 16, plus `4 * numIndices`, plus
`8 * numVerts`, plus the sum over its vertices of `4 + 32 * numWeights`. The
encoded length of a string is its length plus four. -/
theorem Save_chunk_sizes (ops : PathOps) (fs : FileSystemCore) (model : Model)
    (filename : String) (limit : Option Nat)
    (hw : fs.OpenWrite filename = some limit)
    (hfit : fits limit
      (gmdBytes (ops.StripPath (ops.StripFileExtension filename)) model).length = true)
    (hcm : model.CountsMatch) :
    ∃ f hdr, (Model.Save ops (some fs) model filename).final = some f ∧
      hdr = encHeader GMD_VERSION (ops.StripPath (ops.StripFileExtension filename))
        strUnknown strOgTools model.bones.length model.meshes.length 2 ∧
      f.data.take (hdr ++ encStr strBones).length = hdr ++ encStr strBones ∧
      decU32 ((f.data.drop (hdr ++ encStr strBones).length).take 4) =
        (model.bones.map (fun b => (4 + b.name.length) + 32)).sum % 4294967296 ∧
      (f.data.drop ((hdr ++ encStr strBones).length + 8 +
          (model.bones.map (fun b => (4 + b.name.length) + 32)).sum)).take
        (encStr strMeshes).length = encStr strMeshes ∧
      decU32 ((f.data.drop ((hdr ++ encStr strBones).length + 8 +
          (model.bones.map (fun b => (4 + b.name.length) + 32)).sum +
          (encStr strMeshes).length)).take 4) =
        (model.meshes.map (fun m =>
          (4 + m.name.length) + (4 + m.material.length) + 16 + 4 * m.numIndices +
            8 * m.numVerts + (m.vertices.map (fun v => 4 + 32 * v.numWeights)).sum)).sum
          % 4294967296 := by
  refine ⟨_, _, congrArg SaveOutcome.final (Save_eq ops fs model filename limit hw hfit), rfl, ?_⟩
  have hB : (bonesPayload model).length =
      (model.bones.map (fun b => (4 + b.name.length) + 32)).sum :=
    encList_length encBone _ _ (fun b _ => encBone_length b)
  have hM : (meshesPayload model).length =
      (model.meshes.map (fun m =>
          (4 + m.name.length) + (4 + m.material.length) + 16 + 4 * m.numIndices +
            8 * m.numVerts + (m.vertices.map (fun v => 4 + 32 * v.numWeights)).sum)).sum :=
    encList_length encMesh _ _ (fun m hm => encMesh_length m (hcm m hm))
  rw [← hB, ← hM]
  generalize hH : encHeader GMD_VERSION (ops.StripPath (ops.StripFileExtension filename))
    strUnknown strOgTools model.bones.length model.meshes.length 2 = hdr
  generalize hPB : bonesPayload model = B
  generalize hPM : meshesPayload model = Ms
  have hd : gmdBytes (ops.StripPath (ops.StripFileExtension filename)) model =
      hdr ++ (encStr strBones ++ (encUint B.length ++ (encUint model.bones.length ++
        (B ++ (encStr strMeshes ++ (encUint Ms.length ++
          (encUint model.meshes.length ++ Ms))))))) := by
    simp only [gmdBytes, encChunk, hH, hPB, hPM, List.append_assoc]
  simp only [hd]
  generalize hN1 : encStr strBones = N1
  generalize hN2 : encStr strMeshes = N2
  generalize heB : encUint model.bones.length = eB
  generalize heM : encUint model.meshes.length = eM
  have leB : eB.length = 4 := by rw [← heB]; rfl
  have vB : decU32 (encUint B.length) = B.length % 4294967296 := by
    rw [encUint, decU32_encU32 _ (Nat.mod_lt _ (by decide))]
  have vM : decU32 (encUint Ms.length) = Ms.length % 4294967296 := by
    rw [encUint, decU32_encU32 _ (Nat.mod_lt _ (by decide))]
  have e1 : hdr ++ (N1 ++ (encUint B.length ++ (eB ++ (B ++ (N2 ++ (encUint Ms.length ++
      (eM ++ Ms))))))) =
      (hdr ++ N1) ++ (encUint B.length ++ (eB ++ (B ++ (N2 ++ (encUint Ms.length ++
        (eM ++ Ms)))))) := by
    simp only [List.append_assoc]
  have e3 : hdr ++ (N1 ++ (encUint B.length ++ (eB ++ (B ++ (N2 ++ (encUint Ms.length ++
      (eM ++ Ms))))))) =
      ((hdr ++ N1) ++ (encUint B.length ++ (eB ++ B))) ++ (N2 ++ (encUint Ms.length ++
        (eM ++ Ms))) := by
    simp only [List.append_assoc]
  have e4 : hdr ++ (N1 ++ (encUint B.length ++ (eB ++ (B ++ (N2 ++ (encUint Ms.length ++
      (eM ++ Ms))))))) =
      ((hdr ++ N1) ++ (encUint B.length ++ (eB ++ (B ++ N2)))) ++ (encUint Ms.length ++
        (eM ++ Ms)) := by
    simp only [List.append_assoc]
  have l3 : (hdr ++ N1).length + 8 + B.length =
      ((hdr ++ N1) ++ (encUint B.length ++ (eB ++ B))).length := by
    simp only [List.length_append, encUint_length, leB]
    omega
  have l4 : (hdr ++ N1).length + 8 + B.length + N2.length =
      ((hdr ++ N1) ++ (encUint B.length ++ (eB ++ (B ++ N2)))).length := by
    simp only [List.length_append, encUint_length, leB]
    omega
  refine ⟨?_, ?_, ?_, ?_⟩
  · rw [e1, take_append_len _ _ _ rfl]
  · rw [e1, drop_append_len _ _ _ rfl, take_append_len (encUint B.length) _ 4 rfl, vB]
  · rw [e3, drop_append_len _ _ _ l3, take_append_len _ _ _ rfl]
  · rw [e4, drop_append_len _ _ _ l4, take_append_len (encUint Ms.length) _ 4 rfl, vM]

set_option maxRecDepth 100000 in
/-- The scenario file: 81 bytes of bones (40 + 41) and 172 bytes of meshes. -/
theorem Save_chunk_sizes_witness :
    scenarioModel.CountsMatch ∧
    ∃ f, (Model.Save plainOps (some writableFS) scenarioModel scenarioName).final = some f ∧
      decU32 ((f.data.drop 56).take 4) = 81 ∧
      decU32 ((f.data.drop (56 + 8 + 81 + 10)).take 4) = 172 := by
  obtain ⟨f, hdr, hf, hh, _, h2, _, h4⟩ :=
    Save_chunk_sizes plainOps writableFS scenarioModel scenarioName none rfl rfl (by decide)
  subst hh
  exact ⟨by decide, f, hf, h2, h4⟩

/-! ## What a successful read of a record consumed -/

/-- A successful `ReadFloat` consumed the four bytes of the pattern it returns. -/
theorem ReadFloat_inv (s r : List Byte) (o o1 v : Nat)
    (h : File.ReadFloat ⟨s, o⟩ = (Res.ok v, ⟨r, o1⟩)) :
    s = encUint v ++ r ∧ IsU32 v ∧ o1 = o :=
  ReadUint_inv s r o o1 v h

theorem readVec2_inv (s r : List Byte) (o o1 : Nat) (v : Vec2)
    (h : readVec2 ⟨s, o⟩ = (Res.ok v, ⟨r, o1⟩)) :
    s = encVec2 v ++ r ∧ v.Valid ∧ o1 = o := by
  unfold readVec2 at h
  obtain ⟨x, ⟨r1, o2⟩, h1, h⟩ := M.bind_eq_ok h
  obtain ⟨hs1, hv1, ho1⟩ := ReadFloat_inv s r1 o o2 x h1
  obtain ⟨y, ⟨r2, o3⟩, h2, h⟩ := M.bind_eq_ok h
  obtain ⟨hs2, hv2, ho2⟩ := ReadFloat_inv r1 r2 o2 o3 y h2
  have hp : (Res.ok (⟨x, y⟩ : Vec2), (⟨r2, o3⟩ : InFile)) = (Res.ok v, ⟨r, o1⟩) := h
  simp only [Prod.mk.injEq, Res.ok.injEq, InFile.mk.injEq] at hp
  obtain ⟨hv, hr, ho⟩ := hp
  subst hv hr ho
  refine ⟨?_, ⟨hv1, hv2⟩, by omega⟩
  rw [hs1, hs2]
  simp only [encVec2, List.append_assoc]

theorem readVec3_inv (s r : List Byte) (o o1 : Nat) (v : Vec3)
    (h : readVec3 ⟨s, o⟩ = (Res.ok v, ⟨r, o1⟩)) :
    s = encVec3 v ++ r ∧ v.Valid ∧ o1 = o := by
  unfold readVec3 at h
  obtain ⟨x, ⟨r1, o2⟩, h1, h⟩ := M.bind_eq_ok h
  obtain ⟨hs1, hv1, ho1⟩ := ReadFloat_inv s r1 o o2 x h1
  obtain ⟨y, ⟨r2, o3⟩, h2, h⟩ := M.bind_eq_ok h
  obtain ⟨hs2, hv2, ho2⟩ := ReadFloat_inv r1 r2 o2 o3 y h2
  obtain ⟨z, ⟨r3, o4⟩, h3, h⟩ := M.bind_eq_ok h
  obtain ⟨hs3, hv3, ho3⟩ := ReadFloat_inv r2 r3 o3 o4 z h3
  have hp : (Res.ok (⟨x, y, z⟩ : Vec3), (⟨r3, o4⟩ : InFile)) = (Res.ok v, ⟨r, o1⟩) := h
  simp only [Prod.mk.injEq, Res.ok.injEq, InFile.mk.injEq] at hp
  obtain ⟨hv, hr, ho⟩ := hp
  subst hv hr ho
  refine ⟨?_, ⟨hv1, hv2, hv3⟩, by omega⟩
  rw [hs1, hs2, hs3]
  simp only [encVec3, List.append_assoc]

theorem readQuat_inv (s r : List Byte) (o o1 : Nat) (v : Quat)
    (h : readQuat ⟨s, o⟩ = (Res.ok v, ⟨r, o1⟩)) :
    s = encQuat v ++ r ∧ v.Valid ∧ o1 = o := by
  unfold readQuat at h
  obtain ⟨x, ⟨r1, o2⟩, h1, h⟩ := M.bind_eq_ok h
  obtain ⟨hs1, hv1, ho1⟩ := ReadFloat_inv s r1 o o2 x h1
  obtain ⟨y, ⟨r2, o3⟩, h2, h⟩ := M.bind_eq_ok h
  obtain ⟨hs2, hv2, ho2⟩ := ReadFloat_inv r1 r2 o2 o3 y h2
  obtain ⟨z, ⟨r3, o4⟩, h3, h⟩ := M.bind_eq_ok h
  obtain ⟨hs3, hv3, ho3⟩ := ReadFloat_inv r2 r3 o3 o4 z h3
  obtain ⟨w, ⟨r4, o5⟩, h4, h⟩ := M.bind_eq_ok h
  obtain ⟨hs4, hv4, ho4⟩ := ReadFloat_inv r3 r4 o4 o5 w h4
  have hp : (Res.ok (⟨x, y, z, w⟩ : Quat), (⟨r4, o5⟩ : InFile)) = (Res.ok v, ⟨r, o1⟩) := h
  simp only [Prod.mk.injEq, Res.ok.injEq, InFile.mk.injEq] at hp
  obtain ⟨hv, hr, ho⟩ := hp
  subst hv hr ho
  refine ⟨?_, ⟨hv1, hv2, hv3, hv4⟩, by omega⟩
  rw [hs1, hs2, hs3, hs4]
  simp only [encQuat, List.append_assoc]

theorem readWeight_inv (s r : List Byte) (o o1 : Nat) (v : VertexWeight)
    (h : readWeight ⟨s, o⟩ = (Res.ok v, ⟨r, o1⟩)) :
    s = encWeight v ++ r ∧ v.Valid ∧ o1 = o := by
  unfold readWeight at h
  obtain ⟨x, ⟨r1, o2⟩, h1, h⟩ := M.bind_eq_ok h
  obtain ⟨hs1, hv1, ho1⟩ := ReadInt_inv s r1 o o2 x h1
  obtain ⟨y, ⟨r2, o3⟩, h2, h⟩ := M.bind_eq_ok h
  obtain ⟨hs2, hv2, ho2⟩ := readVec3_inv r1 r2 o2 o3 y h2
  obtain ⟨z, ⟨r3, o4⟩, h3, h⟩ := M.bind_eq_ok h
  obtain ⟨hs3, hv3, ho3⟩ := readVec3_inv r2 r3 o3 o4 z h3
  obtain ⟨w, ⟨r4, o5⟩, h4, h⟩ := M.bind_eq_ok h
  obtain ⟨hs4, hv4, ho4⟩ := ReadFloat_inv r3 r4 o4 o5 w h4
  have hp : (Res.ok (⟨x, y, z, w⟩ : VertexWeight), (⟨r4, o5⟩ : InFile)) =
      (Res.ok v, ⟨r, o1⟩) := h
  simp only [Prod.mk.injEq, Res.ok.injEq, InFile.mk.injEq] at hp
  obtain ⟨hv, hr, ho⟩ := hp
  subst hv hr ho
  refine ⟨?_, ⟨hv1, hv2, hv3, hv4⟩, by omega⟩
  rw [hs1, hs2, hs3, hs4]
  simp only [encWeight, List.append_assoc]

/-- A counted loop of reads that succeeded consumed the records of the values
it returns, one after the other. -/
theorem readN_inv {α : Type} {x : M InFile α} {enc : α → List Byte} {V : α → Prop}
    (hx : ∀ (s r : List Byte) (o o1 : Nat) (v : α), x ⟨s, o⟩ = (Res.ok v, ⟨r, o1⟩) →
      s = enc v ++ r ∧ V v ∧ o1 = o)
    (n : Nat) (s r : List Byte) (o o1 : Nat) (as : List α)
    (h : og.readN x n ⟨s, o⟩ = (Res.ok as, ⟨r, o1⟩)) :
    s = encList enc as ++ r ∧ as.length = n ∧ (∀ a ∈ as, V a) ∧ o1 = o := by
  induction n generalizing s r o o1 as with
  | zero =>
    have hp : (Res.ok ([] : List α), (⟨s, o⟩ : InFile)) = (Res.ok as, ⟨r, o1⟩) := h
    simp only [Prod.mk.injEq, Res.ok.injEq, InFile.mk.injEq] at hp
    obtain ⟨hv, hr, ho⟩ := hp
    subst hv hr ho
    exact ⟨rfl, rfl, fun a ha => absurd ha (List.not_mem_nil a), rfl⟩
  | succ n ih =>
    have h2 : (x >>= fun a => og.readN x n >>= fun l => (Pure.pure (a :: l) : M InFile (List α)))
        ⟨s, o⟩ = (Res.ok as, ⟨r, o1⟩) := h
    obtain ⟨a, ⟨r1, o2⟩, h1, h2⟩ := M.bind_eq_ok h2
    obtain ⟨hs1, hv1, ho1⟩ := hx s r1 o o2 a h1
    obtain ⟨l, ⟨r2, o3⟩, h3, h2⟩ := M.bind_eq_ok h2
    obtain ⟨hs2, hl, hv2, ho2⟩ := ih r1 r2 o2 o3 l h3
    have hp : (Res.ok (a :: l), (⟨r2, o3⟩ : InFile)) = (Res.ok as, ⟨r, o1⟩) := h2
    simp only [Prod.mk.injEq, Res.ok.injEq, InFile.mk.injEq] at hp
    obtain ⟨hv, hr, ho⟩ := hp
    subst hv hr ho
    refine ⟨?_, by simp [hl], ?_, by omega⟩
    · rw [hs1, hs2]
      simp only [encList, List.append_assoc]
    · intro b hb
      rcases List.mem_cons.mp hb with hb | hb
      · exact hb ▸ hv1
      · exact hv2 b hb

theorem readVertex_inv (s r : List Byte) (o o1 : Nat) (v : Vertex)
    (h : readVertex ⟨s, o⟩ = (Res.ok v, ⟨r, o1⟩)) :
    s = encVertex v ++ r ∧ v.Valid ∧ o1 = o := by
  unfold readVertex at h
  obtain ⟨num, ⟨r1, o2⟩, h1, h⟩ := M.bind_eq_ok h
  obtain ⟨hs1, hv1, ho1⟩ := ReadUint_inv s r1 o o2 num h1
  obtain ⟨ws, ⟨r2, o3⟩, h2, h⟩ := M.bind_eq_ok h
  obtain ⟨hs2, hl, hv2, ho2⟩ := readN_inv readWeight_inv _ r1 r2 o2 o3 ws h2
  have hp : (Res.ok ({ InitVertex Vertex.blank num with weights := ws } : Vertex),
      (⟨r2, o3⟩ : InFile)) = (Res.ok v, ⟨r, o1⟩) := h
  simp only [Prod.mk.injEq, Res.ok.injEq, InFile.mk.injEq] at hp
  obtain ⟨hv, hr, ho⟩ := hp
  subst hv hr ho
  have hl2 : ws.length = num := hl
  refine ⟨?_, ⟨hv1, hl2, hv2⟩, by omega⟩
  rw [hs1, hs2]
  simp only [encVertex, InitVertex, take_all ws num hl2, List.append_assoc]

theorem take_append_of_le {α : Type} (a b : List α) (n : Nat) (h : n ≤ a.length) :
    (a ++ b).take n = a.take n := by
  rw [List.take_append_eq_append_take]
  have : n - a.length = 0 := by omega
  rw [this]
  simp

/-- C13 (variable weight counts). For every vertex with `K` weights, whatever
`K` is: the record `Save` emits is the live `numWeights` followed by the `K`
weight records (bone id, three origin floats, three normal floats, influence)
in list order, `32 * K + 4` bytes in all; `Load` reads that record back as a
vertex with `numWeights = K` and the same weights in the same order; and
whenever `Load` reads a vertex from any stream, the weight count of the vertex
and the number of bytes consumed are given by the count stored in the first
four bytes of the record. -/
theorem Vertex_variable_weight_counts (v : Vertex) (hv : v.Valid) :
    encVertex v = encUint v.weights.length ++ encList encWeight v.weights ∧
    (∀ w : VertexWeight, encWeight w =
      encInt w.boneId ++ ((encUint w.origin.x ++ (encUint w.origin.y ++ encUint w.origin.z)) ++
        ((encUint w.normal.x ++ (encUint w.normal.y ++ encUint w.normal.z)) ++
          encUint w.influence))) ∧
    (encVertex v).length = 4 + 32 * v.weights.length ∧
    (∀ (d : List Byte) (lim : Option Nat), fits lim (d ++ encVertex v).length = true →
      Save.vertex v ⟨d, d.length, lim⟩ =
        (Res.ok (), ⟨d ++ encVertex v, (d ++ encVertex v).length, lim⟩)) ∧
    (∀ (r : List Byte) (o : Nat),
      readVertex ⟨encVertex v ++ r, o⟩ = (Res.ok v, ⟨r, o⟩)) ∧
    (∀ (s r : List Byte) (o o1 : Nat) (v1 : Vertex),
      readVertex ⟨s, o⟩ = (Res.ok v1, ⟨r, o1⟩) →
        v1.numWeights = decU32 (s.take 4) ∧ v1.weights.length = decU32 (s.take 4) ∧
        s.length = 4 + 32 * decU32 (s.take 4) + r.length ∧
        s = encVertex v1 ++ r) := by
  have hl : v.weights.length = v.numWeights := hv.2.1
  refine ⟨?_, fun _ => rfl, ?_, appends_vertex v, (decodes_readVertex v hv).1, ?_⟩
  · rw [encVertex, take_all _ _ hl, hl]
  · rw [encVertex_length v hl, vertexSize, hl]
  · intro s r o o1 v1 h
    obtain ⟨hs, hv1, _⟩ := readVertex_inv s r o o1 v1 h
    have hl1 : v1.weights.length = v1.numWeights := hv1.2.1
    have ht : s.take 4 = encUint v1.numWeights := by
      rw [hs, encVertex, List.append_assoc]
      exact take_append_len (encUint v1.numWeights) _ 4 rfl
    have hd : decU32 (s.take 4) = v1.numWeights := by
      rw [ht, decU32_encUint _ hv1.1]
    refine ⟨hd.symm, by rw [hd, hl1], ?_, hs⟩
    rw [hd]
    have := congrArg List.length hs
    rw [List.length_append, encVertex_length v1 hl1, vertexSize] at this
    exact this

/-- A vertex with two weights: 68 bytes, read back in order. -/
theorem Vertex_variable_weight_counts_witness :
    twoWeightVertex.Valid ∧ (encVertex twoWeightVertex).length = 68 ∧
    readVertex ⟨encVertex twoWeightVertex ++ [9], 0⟩ = (Res.ok twoWeightVertex, ⟨[9], 0⟩) :=
  have h := Vertex_variable_weight_counts twoWeightVertex (by decide)
  ⟨by decide, h.2.2.1, h.2.2.2.2.1 [9] 0⟩

/-- C15 (empty buffers). A mesh record whose `numVerts` and `numIndices` are
both 0 is read without error: `Load` consumes the two strings and 16 bytes and
appends a mesh with empty index, texture-coordinate and vertex sequences. A
vertex record whose `numWeights` is 0 is read without error: 4 bytes, and an
empty weight list. -/
theorem Load_empty_buffers (name material : String) (flags detailLevel : Int)
    (hn : String.Valid name) (hm : String.Valid material) (hf : IsI32 flags)
    (hd : IsI32 detailLevel) :
    (∀ (r : List Byte) (o : Nat) (mo : Option Model),
      Load.mesh ⟨⟨(encStr name ++ (encStr material ++ (encInt flags ++ (encInt detailLevel ++
          (encUint 0 ++ encUint 0))))) ++ r, o⟩, mo⟩ =
        (Res.ok (), ⟨⟨r, o⟩, mo.map fun m => { m with meshes := m.meshes ++
          [⟨name, material, flags, detailLevel, 0, 0, [], [], []⟩] }⟩)) ∧
    (encStr name ++ (encStr material ++ (encInt flags ++ (encInt detailLevel ++
        (encUint 0 ++ encUint 0))))).length = (encStr name).length + (encStr material).length + 16 ∧
    (∀ (r : List Byte) (o : Nat),
      readVertex ⟨encUint 0 ++ r, o⟩ = (Res.ok ⟨0, []⟩, ⟨r, o⟩)) ∧
    (encUint 0).length = 4 := by
  refine ⟨?_, ?_, ?_, rfl⟩
  · intro r o mo
    have hv : (⟨name, material, flags, detailLevel, 0, 0, [], [], []⟩ : MeshAnimated).Valid := by
      refine ⟨hn, hm, hf, hd, (by decide : IsU32 0), (by decide : IsU32 0), rfl, ?_, rfl, ?_,
        rfl, ?_⟩ <;>
        exact fun _ h => absurd h (List.not_mem_nil _)
    have h := (steps_mesh _ hv).1 r o mo
    have he : encMesh ⟨name, material, flags, detailLevel, 0, 0, [], [], []⟩ =
        encStr name ++ (encStr material ++ (encInt flags ++ (encInt detailLevel ++
          (encUint 0 ++ encUint 0)))) := by
      simp [encMesh, encList]
    rw [he] at h
    exact h
  · simp only [List.length_append, encInt_length, encUint_length]
    omega
  · intro r o
    have h := (decodes_readVertex ⟨0, []⟩ (by decide)).1 r o
    exact h

/-- An empty mesh named "m" with material "t" followed by one more byte: 26
bytes are consumed. -/
theorem Load_empty_buffers_witness :
    Load.mesh ⟨⟨(encStr [109] ++ (encStr [116] ++ (encInt 3 ++ (encInt (-1) ++
        (encUint 0 ++ encUint 0))))) ++ [7], 0⟩, some (Model.new true)⟩ =
      (Res.ok (), ⟨⟨[7], 0⟩, some ⟨true, [], [⟨[109], [116], 3, -1, 0, 0, [], [], []⟩]⟩⟩) ∧
    (encStr [109] ++ (encStr [116] ++ (encInt 3 ++ (encInt (-1) ++
        (encUint 0 ++ encUint 0))))).length = 26 :=
  have h := Load_empty_buffers [109] [116] 3 (-1) (by decide) (by decide) (by decide) (by decide)
  ⟨h.1 [7] 0 (some (Model.new true)), h.2.1⟩

/-! ## The header strings -/

theorem M.bind_assoc {σ α β γ : Type} (x : M σ α) (f : α → M σ β) (g : β → M σ γ) :
    ((x >>= f) >>= g) = (x >>= fun a => f a >>= g) := by
  funext s
  show M.bind (M.bind x f) g s = M.bind x (fun a => M.bind (f a) g) s
  unfold M.bind
  rcases x s with ⟨r, s1⟩
  cases r <;> rfl

theorem M.pure_bind {σ α β : Type} (a : α) (f : α → M σ β) :
    ((Pure.pure a : M σ α) >>= f) = f a := rfl

/-- What `Load` returns is decided by the outcome of its try block. -/
theorem Load_result_eq (fs : FileSystemCore) (filename : String) (bytes : List Byte)
    (hopen : fs.OpenRead filename = some bytes) :
    (Model.Load (some fs) filename).result =
      match Load.body ⟨⟨bytes, 0⟩, none⟩ with
      | (Res.ok _, s) => s.model
      | (Res.error _, _) => none := by
  unfold Model.Load
  simp only [hopen]
  split <;> rename_i heq <;> simp only [heq]

/-- The try block on a file with the tag and the supported version: the three
strings are read and dropped, and the rest of the block runs on what follows
them. -/
theorem body_after_strings (vb tail : List Byte) (a b c : String) (o : Nat)
    (mo : Option Model) (hl : vb.length = 4) (hv : toInt (decU32 vb) = GMD_VERSION)
    (ha : String.Valid a) (hb : String.Valid b) (hc : String.Valid c) :
    Load.body ⟨⟨magicGMD ++ (vb ++ (encStr a ++ (encStr b ++ (encStr c ++ tail)))), o⟩, mo⟩ =
      (onFile File.ReadUint >>= fun numBones =>
        onFile File.ReadUint >>= fun numMeshes =>
          onFile File.ReadUint >>= fun numChunks =>
            newModel >>= fun _ =>
              og.forN (Load.chunk numBones numMeshes) numChunks) ⟨⟨tail, o⟩, mo⟩ := by
  have h1 : onFile (File.Read 4)
      ⟨⟨magicGMD ++ (vb ++ (encStr a ++ (encStr b ++ (encStr c ++ tail)))), o⟩, mo⟩ =
      (Res.ok magicGMD, ⟨⟨vb ++ (encStr a ++ (encStr b ++ (encStr c ++ tail))), o⟩, mo⟩) :=
    onFile_ok mo (File.Read_append magicGMD _ o)
  have h2 : onFile File.ReadInt ⟨⟨vb ++ (encStr a ++ (encStr b ++ (encStr c ++ tail))), o⟩, mo⟩ =
      (Res.ok (toInt (decU32 vb)), ⟨⟨encStr a ++ (encStr b ++ (encStr c ++ tail)), o⟩, mo⟩) := by
    refine onFile_ok mo ?_
    unfold File.ReadInt
    have := File.Read_append vb (encStr a ++ (encStr b ++ (encStr c ++ tail))) o
    rw [hl] at this
    rw [M.bind_ok this]
    rfl
  have hh : Load.header
      ⟨⟨magicGMD ++ (vb ++ (encStr a ++ (encStr b ++ (encStr c ++ tail)))), o⟩, mo⟩ =
      (onFile File.ReadUint >>= fun numBones =>
        onFile File.ReadUint >>= fun numMeshes =>
          onFile File.ReadUint >>= fun numChunks =>
            (Pure.pure ⟨a, b, c, numBones, numMeshes, numChunks⟩ : M LoadState Header))
        ⟨⟨tail, o⟩, mo⟩ := by
    unfold Load.header
    rw [M.bind_ok h1]
    simp only [Cmp_magicGMD, ne_eq, not_true_eq_false, if_false]
    rw [M.bind_ok h2]
    simp only [hv, ne_eq, not_true_eq_false, if_false]
    rw [M.bind_ok (onFile_ok mo ((decodes_ReadFromFile a ha).1 _ o)),
      M.bind_ok (onFile_ok mo ((decodes_ReadFromFile b hb).1 _ o)),
      M.bind_ok (onFile_ok mo ((decodes_ReadFromFile c hc).1 _ o))]
  have hb2 : ∀ (s t : LoadState) (y : M LoadState Header) (K : Header → M LoadState Unit),
      Load.header s = y t → (Load.header >>= K) s = (y >>= K) t := by
    intro s t y K h
    show M.bind Load.header K s = M.bind y K t
    unfold M.bind
    rw [h]
  unfold Load.body
  rw [hb2 _ _ _ _ hh]
  simp only [M.bind_assoc, M.pure_bind]

/-- C16 (the loaded model does not depend on the header strings). Two files
that differ only in the model name, the author and the application name, in
content and in length: `Load` returns `NULL` for both, or a model for both,
and then the two models are equal. -/
theorem Load_ignores_header_strings (fs1 fs2 : FileSystemCore) (file1 file2 : String)
    (fileId vb tail : List Byte) (a1 b1 c1 a2 b2 c2 : String)
    (hid : fileId.length = 4) (hl : vb.length = 4)
    (ha1 : String.Valid a1) (hb1 : String.Valid b1) (hc1 : String.Valid c1)
    (ha2 : String.Valid a2) (hb2 : String.Valid b2) (hc2 : String.Valid c2)
    (h1 : fs1.OpenRead file1 =
      some (fileId ++ (vb ++ (encStr a1 ++ (encStr b1 ++ (encStr c1 ++ tail))))))
    (h2 : fs2.OpenRead file2 =
      some (fileId ++ (vb ++ (encStr a2 ++ (encStr b2 ++ (encStr c2 ++ tail)))))) :
    (Model.Load (some fs1) file1).result = (Model.Load (some fs2) file2).result := by
  rw [Load_result_eq fs1 file1 _ h1, Load_result_eq fs2 file2 _ h2]
  by_cases hm : fileId = magicGMD
  · subst hm
    by_cases hv : toInt (decU32 vb) = GMD_VERSION
    · rw [body_after_strings vb tail a1 b1 c1 0 none hl hv ha1 hb1 hc1,
        body_after_strings vb tail a2 b2 c2 0 none hl hv ha2 hb2 hc2]
    · rw [body_of_header_error _ _ _ (header_badVersion vb _ 0 none hl hv),
        body_of_header_error _ _ _ (header_badVersion vb _ 0 none hl hv)]
  · have hbad : ∀ r : List Byte, Load.body ⟨⟨fileId ++ r, 0⟩, none⟩ =
        (Res.error FileReadWriteError.notGmd, ⟨⟨r, 0⟩, none⟩) := by
      intro r
      have ht : (fileId ++ r).take 4 = fileId := take_append_len fileId r 4 hid.symm
      have hd : (fileId ++ r).drop 4 = r := drop_append_len fileId r 4 hid.symm
      have := header_badMagic ⟨⟨fileId ++ r, 0⟩, none⟩
        (by simp only [List.length_append]; omega) (by rw [ht]; exact hm)
      rw [hd] at this
      exact body_of_header_error _ _ _ this
    rw [hbad, hbad]

/-- Two files that hold the scenario model under different names, authors and
application names load as the same model. -/
theorem Load_ignores_header_strings_witness :
    (Model.Load (some (readableFS (magicGMD ++ (encInt 1 ++ (encStr [97] ++ (encStr [] ++
        (encStr [98, 99] ++ (encUint 2 ++ (encUint 1 ++ (encUint 2 ++
          (scenarioBones ++ scenarioMeshes))))))))))) []).result =
    (Model.Load (some (readableFS (magicGMD ++ (encInt 1 ++ (encStr [100, 101] ++
        (encStr [102] ++ (encStr [] ++ (encUint 2 ++ (encUint 1 ++ (encUint 2 ++
          (scenarioBones ++ scenarioMeshes))))))))))) []).result :=
  Load_ignores_header_strings _ _ [] [] magicGMD (encInt 1) _ [97] [] [98, 99] [100, 101] [102] []
    rfl rfl (by decide) (by decide) (by decide) (by decide) (by decide) (by decide) rfl rfl

/-! ## `Load` on a file of a given layout -/

theorem onFile_SeekCur (size : Nat) (rest : List Byte) (o : Nat) (mo : Option Model) :
    onFile (File.SeekCur size) ⟨⟨rest, o⟩, mo⟩ =
      (Res.ok (), ⟨⟨rest.drop size, o + (size - rest.length)⟩, mo⟩) := rfl

/-- A chunk that `Load` reads in full: the cursor ends behind it and its
records are appended to the model. -/
theorem chunk_run (numBones numMeshes : Nat) (hnb : IsU32 numBones) (hnm : IsU32 numMeshes)
    (c : Chunk) (hc : c.Valid numBones numMeshes) (r : List Byte) (o : Nat)
    (mo : Option Model) :
    Load.chunk numBones numMeshes ⟨⟨c.enc ++ r, o⟩, mo⟩ =
      (Res.ok (), ⟨⟨r, o⟩, mo.map fun m =>
        { m with bones := m.bones ++ c.bonesOf, meshes := m.meshes ++ c.meshesOf }⟩) := by
  cases c with
  | bones name size bs =>
    obtain ⟨hn, hi, hs, hl, hv⟩ := hc
    have he : (Chunk.bones name size bs).enc ++ r =
        encStr name ++ (encUint size ++ (encUint bs.length ++ (encList encBone bs ++ r))) := by
      simp only [Chunk.enc, List.append_assoc]
    rw [he, chunk_head numBones numMeshes name size bs.length _ o mo hn hs (hl ▸ hnb)]
    simp only [hi, if_true, hl, ne_eq, not_true_eq_false, if_false]
    have := (steps_bones bs hv).1 r o mo
    rw [hl] at this
    rw [this]
    cases mo <;> simp [Chunk.bonesOf, Chunk.meshesOf]
  | meshes name size ms =>
    obtain ⟨hn, hib, hi, hs, hl, hv⟩ := hc
    have he : (Chunk.meshes name size ms).enc ++ r =
        encStr name ++ (encUint size ++ (encUint ms.length ++ (encList encMesh ms ++ r))) := by
      simp only [Chunk.enc, List.append_assoc]
    rw [he, chunk_head numBones numMeshes name size ms.length _ o mo hn hs (hl ▸ hnm)]
    simp only [hib, hi, if_true, hl, ne_eq, not_true_eq_false, if_false]
    have := (steps_meshes ms hv).1 r o mo
    rw [hl] at this
    rw [this]
    cases mo <;> simp [Chunk.bonesOf, Chunk.meshesOf]
  | skipped name entries payload =>
    obtain ⟨hn, hib, him, he, hp⟩ := hc
    rw [Chunk.enc, chunk_unknown numBones numMeshes name entries payload r o mo hn hib him he hp]
    cases mo <;> simp [Chunk.bonesOf, Chunk.meshesOf]

/-- The chunk loop on the chunks of a layout and what follows them. -/
theorem chunks_run (numBones numMeshes : Nat) (hnb : IsU32 numBones) (hnm : IsU32 numMeshes)
    (cs : List Chunk) (hcs : ∀ c ∈ cs, c.Valid numBones numMeshes) (tl : Tail)
    (htl : tl.Valid) (o : Nat) (mo : Option Model) :
    og.forN (Load.chunk numBones numMeshes) (cs.length + tl.count)
        ⟨⟨encList Chunk.enc cs ++ tl.enc, o⟩, mo⟩ =
      (Res.ok (), ⟨⟨tl.unread, o + tl.over⟩, mo.map fun m =>
        { m with bones := m.bones ++ chunkBones cs, meshes := m.meshes ++ chunkMeshes cs }⟩) := by
  induction cs generalizing mo with
  | nil =>
    cases tl with
    | bytes rest =>
      cases mo <;> simp [forN, Tail.count, Tail.enc, Tail.unread, Tail.over, encList,
        chunkBones, chunkMeshes, M.pure_apply]
    | cut name size entries payload =>
      obtain ⟨hn, hib, him, hs, he, hp⟩ := htl
      have h1 : Load.chunk numBones numMeshes
          ⟨⟨encStr name ++ (encUint size ++ (encUint entries ++ payload)), o⟩, mo⟩ =
          (Res.ok (), ⟨⟨[], o + (size - payload.length)⟩, mo⟩) := by
        rw [chunk_head numBones numMeshes name size entries payload o mo hn hs he]
        simp only [hib, him, if_false]
        rw [onFile_SeekCur, List.drop_eq_nil_of_le (Nat.le_of_lt hp)]
      show (Load.chunk numBones numMeshes >>= fun _ =>
        og.forN (Load.chunk numBones numMeshes) 0) _ = _
      simp only [encList, List.nil_append, Tail.enc]
      rw [M.bind_ok h1]
      cases mo <;> simp [forN, Tail.unread, Tail.over, chunkBones, chunkMeshes, M.pure_apply]
  | cons c cs ih =>
    have hc := hcs c (List.mem_cons_self c cs)
    have ht := ih (fun d hd => hcs d (List.mem_cons_of_mem c hd))
    have hl : (c :: cs).length + tl.count = (cs.length + tl.count) + 1 := by
      simp only [List.length_cons]
      omega
    rw [hl]
    show (Load.chunk numBones numMeshes >>= fun _ =>
      og.forN (Load.chunk numBones numMeshes) (cs.length + tl.count)) _ = _
    have he : encList Chunk.enc (c :: cs) ++ tl.enc =
        c.enc ++ (encList Chunk.enc cs ++ tl.enc) := by
      simp only [encList, List.append_assoc]
    rw [he, M.bind_ok (chunk_run numBones numMeshes hnb hnm c hc _ o mo), ht]
    cases mo <;> simp [chunkBones, chunkMeshes]

/-- The try block on a file of a valid layout: it succeeds with the model of
the layout. -/
theorem body_run (t : GmdFile) (ht : t.Valid) :
    Load.body ⟨⟨t.enc, 0⟩, none⟩ =
      (Res.ok (), ⟨⟨t.tail.unread, t.tail.over⟩, some t.model⟩) := by
  obtain ⟨h1, h2, h3, hnb, hnm, hnc, hcs, htl⟩ := ht
  have hh := (steps_header t.modelName t.author t.appName t.numBones t.numMeshes
    (t.chunks.length + t.tail.count) h1 h2 h3 hnb hnm hnc).1
      (encList Chunk.enc t.chunks ++ t.tail.enc) 0 none
  rw [GmdFile.enc, body_of_header_ok _ _ _ hh]
  have := chunks_run t.numBones t.numMeshes hnb hnm t.chunks hcs t.tail htl 0
    (some (Model.new true))
  simp only [id] at this ⊢
  rw [this]
  simp [GmdFile.model, Model.new]

/-- A file of a valid layout is accepted, and `Load` returns its model. -/
theorem Load_layout (fs : FileSystemCore) (filename : String) (t : GmdFile) (ht : t.Valid)
    (hopen : fs.OpenRead filename = some t.enc) :
    (Model.Load (some fs) filename).result = some t.model := by
  rw [Load_of_body_ok fs filename t.enc _ hopen (body_run t ht)]

/-! ## The layout of an accepted file -/

theorem onModel_inv {f : Model → Model} {s r : List Byte} {o o1 : Nat}
    {mo mo1 : Option Model} {u : Unit}
    (h : onModel f ⟨⟨s, o⟩, mo⟩ = (Res.ok u, ⟨⟨r, o1⟩, mo1⟩)) : r = s ∧ o1 = o := by
  simp only [onModel, Prod.mk.injEq, LoadState.mk.injEq, InFile.mk.injEq] at h
  exact ⟨h.2.1.1.symm, h.2.1.2.symm⟩

theorem newModel_inv {s r : List Byte} {o o1 : Nat} {mo mo1 : Option Model} {u : Unit}
    (h : newModel ⟨⟨s, o⟩, mo⟩ = (Res.ok u, ⟨⟨r, o1⟩, mo1⟩)) : r = s ∧ o1 = o := by
  simp only [newModel, Prod.mk.injEq, LoadState.mk.injEq, InFile.mk.injEq] at h
  exact ⟨h.2.1.1.symm, h.2.1.2.symm⟩

/-- A bone record that `Load` read: the bytes consumed are the record of a
bone with every field in range. -/
theorem bone_inv (s r : List Byte) (o o1 : Nat) (mo mo1 : Option Model)
    (h : Load.bone ⟨⟨s, o⟩, mo⟩ = (Res.ok (), ⟨⟨r, o1⟩, mo1⟩)) :
    ∃ b : Bone, b.Valid ∧ s = encBone b ++ r ∧ o1 = o := by
  unfold Load.bone at h
  obtain ⟨_, ⟨⟨r0, p0⟩, m0⟩, h0, h⟩ := M.bind_eq_ok h
  obtain ⟨hr0, hp0⟩ := onModel_inv h0
  obtain ⟨name, ⟨⟨r1, p1⟩, m1⟩, h1, h⟩ := M.bind_eq_ok h
  obtain ⟨hs1, hv1, ho1⟩ := ReadFromFile_inv _ _ _ _ _ (onFile_inv h1).1
  obtain ⟨_, ⟨⟨r2, p2⟩, m2⟩, h2, h⟩ := M.bind_eq_ok h
  obtain ⟨hr2, hp2⟩ := onModel_inv h2
  obtain ⟨idParent, ⟨⟨r3, p3⟩, m3⟩, h3, h⟩ := M.bind_eq_ok h
  obtain ⟨hs3, hv3, ho3⟩ := ReadInt_inv _ _ _ _ _ (onFile_inv h3).1
  obtain ⟨_, ⟨⟨r4, p4⟩, m4⟩, h4, h⟩ := M.bind_eq_ok h
  obtain ⟨hr4, hp4⟩ := onModel_inv h4
  obtain ⟨origin, ⟨⟨r5, p5⟩, m5⟩, h5, h⟩ := M.bind_eq_ok h
  obtain ⟨hs5, hv5, ho5⟩ := readVec3_inv _ _ _ _ _ (onFile_inv h5).1
  obtain ⟨_, ⟨⟨r6, p6⟩, m6⟩, h6, h⟩ := M.bind_eq_ok h
  obtain ⟨hr6, hp6⟩ := onModel_inv h6
  obtain ⟨quat, ⟨⟨r7, p7⟩, m7⟩, h7, h⟩ := M.bind_eq_ok h
  obtain ⟨hs7, hv7, ho7⟩ := readQuat_inv _ _ _ _ _ (onFile_inv h7).1
  obtain ⟨hr8, hp8⟩ := onModel_inv h
  subst hr0 hp0 hr2 hp2 hr4 hp4 hr6 hp6 hr8 hp8
  refine ⟨⟨name, idParent, origin, quat⟩, ⟨hv1, hv3, hv5, hv7⟩, ?_, by omega⟩
  rw [hs1, hs3, hs5, hs7]
  simp only [encBone, List.append_assoc]

/-- A mesh record that `Load` read: the bytes consumed are the record of a
mesh with every field in range and every buffer of the length of its count. -/
theorem mesh_inv (s r : List Byte) (o o1 : Nat) (mo mo1 : Option Model)
    (h : Load.mesh ⟨⟨s, o⟩, mo⟩ = (Res.ok (), ⟨⟨r, o1⟩, mo1⟩)) :
    ∃ m : MeshAnimated, m.Valid ∧ s = encMesh m ++ r ∧ o1 = o := by
  unfold Load.mesh at h
  obtain ⟨_, ⟨⟨r0, p0⟩, m0⟩, h0, h⟩ := M.bind_eq_ok h
  obtain ⟨hr0, hp0⟩ := onModel_inv h0
  obtain ⟨name, ⟨⟨r1, p1⟩, m1⟩, h1, h⟩ := M.bind_eq_ok h
  obtain ⟨hs1, hv1, ho1⟩ := ReadFromFile_inv _ _ _ _ _ (onFile_inv h1).1
  obtain ⟨_, ⟨⟨r2, p2⟩, m2⟩, h2, h⟩ := M.bind_eq_ok h
  obtain ⟨hr2, hp2⟩ := onModel_inv h2
  obtain ⟨material, ⟨⟨r3, p3⟩, m3⟩, h3, h⟩ := M.bind_eq_ok h
  obtain ⟨hs3, hv3, ho3⟩ := ReadFromFile_inv _ _ _ _ _ (onFile_inv h3).1
  obtain ⟨_, ⟨⟨r4, p4⟩, m4⟩, h4, h⟩ := M.bind_eq_ok h
  obtain ⟨hr4, hp4⟩ := onModel_inv h4
  obtain ⟨flags, ⟨⟨r5, p5⟩, m5⟩, h5, h⟩ := M.bind_eq_ok h
  obtain ⟨hs5, hv5, ho5⟩ := ReadInt_inv _ _ _ _ _ (onFile_inv h5).1
  obtain ⟨_, ⟨⟨r6, p6⟩, m6⟩, h6, h⟩ := M.bind_eq_ok h
  obtain ⟨hr6, hp6⟩ := onModel_inv h6
  obtain ⟨detailLevel, ⟨⟨r7, p7⟩, m7⟩, h7, h⟩ := M.bind_eq_ok h
  obtain ⟨hs7, hv7, ho7⟩ := ReadInt_inv _ _ _ _ _ (onFile_inv h7).1
  obtain ⟨_, ⟨⟨r8, p8⟩, m8⟩, h8, h⟩ := M.bind_eq_ok h
  obtain ⟨hr8, hp8⟩ := onModel_inv h8
  obtain ⟨numVerts, ⟨⟨r9, p9⟩, m9⟩, h9, h⟩ := M.bind_eq_ok h
  obtain ⟨hs9, hv9, ho9⟩ := ReadUint_inv _ _ _ _ _ (onFile_inv h9).1
  obtain ⟨_, ⟨⟨r10, p10⟩, m10⟩, h10, h⟩ := M.bind_eq_ok h
  obtain ⟨hr10, hp10⟩ := onModel_inv h10
  obtain ⟨numIndices, ⟨⟨r11, p11⟩, m11⟩, h11, h⟩ := M.bind_eq_ok h
  obtain ⟨hs11, hv11, ho11⟩ := ReadUint_inv _ _ _ _ _ (onFile_inv h11).1
  obtain ⟨_, ⟨⟨r12, p12⟩, m12⟩, h12, h⟩ := M.bind_eq_ok h
  obtain ⟨hr12, hp12⟩ := onModel_inv h12
  obtain ⟨indices, ⟨⟨r13, p13⟩, m13⟩, h13, h⟩ := M.bind_eq_ok h
  obtain ⟨hs13, hl13, hv13, ho13⟩ :=
    readN_inv ReadInt_inv numIndices _ _ _ _ _ (onFile_inv h13).1
  obtain ⟨_, ⟨⟨r14, p14⟩, m14⟩, h14, h⟩ := M.bind_eq_ok h
  obtain ⟨hr14, hp14⟩ := onModel_inv h14
  obtain ⟨texCoords, ⟨⟨r15, p15⟩, m15⟩, h15, h⟩ := M.bind_eq_ok h
  obtain ⟨hs15, hl15, hv15, ho15⟩ :=
    readN_inv readVec2_inv numVerts _ _ _ _ _ (onFile_inv h15).1
  obtain ⟨_, ⟨⟨r16, p16⟩, m16⟩, h16, h⟩ := M.bind_eq_ok h
  obtain ⟨hr16, hp16⟩ := onModel_inv h16
  obtain ⟨vertices, ⟨⟨r17, p17⟩, m17⟩, h17, h⟩ := M.bind_eq_ok h
  obtain ⟨hs17, hl17, hv17, ho17⟩ :=
    readN_inv readVertex_inv numVerts _ _ _ _ _ (onFile_inv h17).1
  obtain ⟨hr18, hp18⟩ := onModel_inv h
  subst hr0 hp0 hr2 hp2 hr4 hp4 hr6 hp6 hr8 hp8 hr10 hp10 hr12 hp12 hr14 hp14 hr16 hp16
    hr18 hp18
  refine ⟨⟨name, material, flags, detailLevel, numVerts, numIndices, indices, texCoords,
    vertices⟩, ⟨hv1, hv3, hv5, hv7, hv9, hv11, hl13, hv13, hl15, hv15, hl17, hv17⟩, ?_, by omega⟩
  rw [hs1, hs3, hs5, hs7, hs9, hs11, hs13, hs15, hs17]
  simp only [encMesh, take_all indices numIndices hl13, take_all texCoords numVerts hl15,
    take_all vertices numVerts hl17, List.append_assoc]

/-- A counted loop of `Load` that succeeded consumed one record after the
other. -/
theorem forN_inv {α : Type} {body : M LoadState Unit} {enc : α → List Byte} {V : α → Prop}
    (hb : ∀ (s r : List Byte) (o o1 : Nat) (mo mo1 : Option Model),
      body ⟨⟨s, o⟩, mo⟩ = (Res.ok (), ⟨⟨r, o1⟩, mo1⟩) → ∃ a, V a ∧ s = enc a ++ r ∧ o1 = o)
    (n : Nat) (s r : List Byte) (o o1 : Nat) (mo mo1 : Option Model)
    (h : og.forN body n ⟨⟨s, o⟩, mo⟩ = (Res.ok (), ⟨⟨r, o1⟩, mo1⟩)) :
    ∃ as : List α, as.length = n ∧ (∀ a ∈ as, V a) ∧ s = encList enc as ++ r ∧ o1 = o := by
  induction n generalizing s o mo with
  | zero =>
    have hp : (Res.ok (), (⟨⟨s, o⟩, mo⟩ : LoadState)) = (Res.ok (), ⟨⟨r, o1⟩, mo1⟩) := h
    simp only [Prod.mk.injEq, LoadState.mk.injEq, InFile.mk.injEq, true_and] at hp
    obtain ⟨⟨hr, ho⟩, _⟩ := hp
    subst hr ho
    exact ⟨[], rfl, fun a ha => absurd ha (List.not_mem_nil a), rfl, rfl⟩
  | succ n ih =>
    have h2 : (body >>= fun _ => og.forN body n) ⟨⟨s, o⟩, mo⟩ =
        (Res.ok (), ⟨⟨r, o1⟩, mo1⟩) := h
    obtain ⟨_, ⟨⟨r1, o2⟩, m1⟩, h1, h2⟩ := M.bind_eq_ok h2
    obtain ⟨a, hva, hsa, hoa⟩ := hb s r1 o o2 mo m1 h1
    obtain ⟨as, hl, hv, hs, ho⟩ := ih r1 o2 m1 h2
    refine ⟨a :: as, by simp [hl], ?_, ?_, by omega⟩
    · intro b hm
      rcases List.mem_cons.mp hm with hm | hm
      · exact hm ▸ hva
      · exact hv b hm
    · rw [hsa, hs]
      simp only [encList, List.append_assoc]

/-- On an empty rest no chunk can be read. -/
theorem chunk_empty (numBones numMeshes o : Nat) (mo : Option Model) :
    Load.chunk numBones numMeshes ⟨⟨[], o⟩, mo⟩ =
      (Res.error FileReadWriteError.read, ⟨⟨[], o⟩, mo⟩) := rfl

/-- A chunk that `Load` read: it is a chunk read in full, or a chunk of
another name whose size field reaches past the end of the file. -/
theorem chunk_inv (numBones numMeshes : Nat) (s r : List Byte) (o o1 : Nat)
    (mo mo1 : Option Model)
    (h : Load.chunk numBones numMeshes ⟨⟨s, o⟩, mo⟩ = (Res.ok (), ⟨⟨r, o1⟩, mo1⟩)) :
    (∃ c : Chunk, c.Valid numBones numMeshes ∧ s = c.enc ++ r ∧ o1 = o) ∨
    (∃ (name : String) (size entries : Nat) (payload : List Byte),
      (Tail.cut name size entries payload).Valid ∧
      s = (Tail.cut name size entries payload).enc ∧ r = []) := by
  unfold Load.chunk at h
  obtain ⟨name, ⟨⟨r1, p1⟩, m1⟩, h1, h⟩ := M.bind_eq_ok h
  obtain ⟨hs1, hv1, ho1⟩ := ReadFromFile_inv _ _ _ _ _ (onFile_inv h1).1
  obtain ⟨size, ⟨⟨r2, p2⟩, m2⟩, h2, h⟩ := M.bind_eq_ok h
  obtain ⟨hs2, hv2, ho2⟩ := ReadUint_inv _ _ _ _ _ (onFile_inv h2).1
  obtain ⟨entries, ⟨⟨r3, p3⟩, m3⟩, h3, h⟩ := M.bind_eq_ok h
  obtain ⟨hs3, hv3, ho3⟩ := ReadUint_inv _ _ _ _ _ (onFile_inv h3).1
  by_cases hib : String.Icmp name strBones = 0
  · simp only [hib, if_true] at h
    by_cases he : entries = numBones
    · simp only [he, ne_eq, not_true_eq_false, if_false] at h
      obtain ⟨bs, hl, hv, hs, ho⟩ := forN_inv bone_inv numBones _ _ _ _ _ _ h
      refine Or.inl ⟨Chunk.bones name size bs, ⟨hv1, hib, hv2, hl, hv⟩, ?_, by omega⟩
      rw [hs1, hs2, hs3, hs, he]
      simp only [Chunk.enc, hl, List.append_assoc]
    · simp [he, throwErr] at h
  · simp only [hib, if_false] at h
    by_cases him : String.Icmp name strMeshes = 0
    · simp only [him, if_true] at h
      by_cases he : entries = numMeshes
      · simp only [he, ne_eq, not_true_eq_false, if_false] at h
        obtain ⟨ms, hl, hv, hs, ho⟩ := forN_inv mesh_inv numMeshes _ _ _ _ _ _ h
        refine Or.inl ⟨Chunk.meshes name size ms, ⟨hv1, hib, him, hv2, hl, hv⟩, ?_, by omega⟩
        rw [hs1, hs2, hs3, hs, he]
        simp only [Chunk.enc, hl, List.append_assoc]
      · simp [he, throwErr] at h
    · simp only [him, if_false] at h
      rw [onFile_SeekCur] at h
      simp only [Prod.mk.injEq, LoadState.mk.injEq, InFile.mk.injEq, true_and] at h
      obtain ⟨⟨hr, ho⟩, _⟩ := h
      by_cases hle : size ≤ r3.length
      · have hlen : (r3.take size).length = size := by
          rw [List.length_take]
          omega
        refine Or.inl ⟨Chunk.skipped name entries (r3.take size),
          ⟨hv1, hib, him, hv3, by rw [hlen]; exact hv2⟩, ?_, by omega⟩
        rw [hs1, hs2, hs3, ← hr]
        simp only [Chunk.enc, encChunk, hlen, List.append_assoc, List.take_append_drop]
      · refine Or.inr ⟨name, size, entries, r3, ⟨hv1, hib, him, hv2, hv3, by omega⟩, ?_, ?_⟩
        · rw [hs1, hs2, hs3]
          simp only [Tail.enc, List.append_assoc]
        · rw [← hr]
          exact List.drop_eq_nil_of_le (by omega)

/-- The chunks an accepted file holds: chunks read in full, then what follows
them. -/
theorem chunks_inv (numBones numMeshes : Nat) (n : Nat) (s r : List Byte) (o o1 : Nat)
    (mo mo1 : Option Model)
    (h : og.forN (Load.chunk numBones numMeshes) n ⟨⟨s, o⟩, mo⟩ =
      (Res.ok (), ⟨⟨r, o1⟩, mo1⟩)) :
    ∃ (cs : List Chunk) (tl : Tail), (∀ c ∈ cs, c.Valid numBones numMeshes) ∧ tl.Valid ∧
      cs.length + tl.count = n ∧ s = encList Chunk.enc cs ++ tl.enc := by
  induction n generalizing s o mo with
  | zero =>
    exact ⟨[], Tail.bytes s, fun c hc => absurd hc (List.not_mem_nil c), trivial, rfl, rfl⟩
  | succ n ih =>
    have h2 : (Load.chunk numBones numMeshes >>= fun _ =>
        og.forN (Load.chunk numBones numMeshes) n) ⟨⟨s, o⟩, mo⟩ =
        (Res.ok (), ⟨⟨r, o1⟩, mo1⟩) := h
    obtain ⟨_, ⟨⟨r1, o2⟩, m1⟩, h1, h2⟩ := M.bind_eq_ok h2
    rcases chunk_inv numBones numMeshes s r1 o o2 mo m1 h1 with
      ⟨c, hc, hs, _⟩ | ⟨name, size, entries, payload, hv, hs, hr⟩
    · obtain ⟨cs, tl, hcs, htl, hn, hs2⟩ := ih r1 o2 m1 h2
      refine ⟨c :: cs, tl, ?_, htl, by simp only [List.length_cons]; omega, ?_⟩
      · intro d hd
        rcases List.mem_cons.mp hd with hd | hd
        · exact hd ▸ hc
        · exact hcs d hd
      · rw [hs, hs2]
        simp only [encList, List.append_assoc]
    · subst hr
      cases n with
      | zero =>
        exact ⟨[], Tail.cut name size entries payload,
          fun c hc => absurd hc (List.not_mem_nil c), hv, rfl, by rw [hs]; rfl⟩
      | succ k =>
        have h3 : (Load.chunk numBones numMeshes >>= fun _ =>
            og.forN (Load.chunk numBones numMeshes) k) ⟨⟨[], o2⟩, m1⟩ =
            (Res.ok (), ⟨⟨r, o1⟩, mo1⟩) := h2
        rw [M.bind_error (chunk_empty numBones numMeshes o2 m1)] at h3
        simp at h3

/-- The try block succeeded: the file has a valid layout. -/
theorem body_inv (s : List Byte) (st : LoadState)
    (h : Load.body ⟨⟨s, 0⟩, none⟩ = (Res.ok (), st)) :
    ∃ t : GmdFile, t.Valid ∧ s = t.enc := by
  obtain ⟨⟨r, o1⟩, mo1⟩ := st
  unfold Load.body at h
  obtain ⟨hd, ⟨⟨r1, p1⟩, m1⟩, h1, h⟩ := M.bind_eq_ok h
  obtain ⟨hs, _, _, hv1, hv2, hv3, hnb, hnm, hnc⟩ := header_inv s r1 0 p1 none m1 hd h1
  obtain ⟨_, ⟨⟨r2, p2⟩, m2⟩, h2, h⟩ := M.bind_eq_ok h
  obtain ⟨hr2, _⟩ := newModel_inv h2
  subst hr2
  obtain ⟨cs, tl, hcs, htl, hn, hs2⟩ := chunks_inv hd.numBones hd.numMeshes hd.numChunks
    _ _ _ _ _ _ h
  refine ⟨⟨hd.modelName, hd.author, hd.appName, hd.numBones, hd.numMeshes, cs, tl⟩,
    ⟨hv1, hv2, hv3, hnb, hnm, by rw [hn]; exact hnc, hcs, htl⟩, ?_⟩
  rw [hs, hs2]
  simp only [GmdFile.enc, hn]

/-- Every file `Load` accepts has a valid layout, and the model returned is
the model of that layout. -/
theorem Load_accepts_inv (fs : FileSystemCore) (filename : String) (bytes : List Byte)
    (m : Model) (hopen : fs.OpenRead filename = some bytes)
    (hacc : (Model.Load (some fs) filename).result = some m) :
    ∃ t : GmdFile, t.Valid ∧ bytes = t.enc ∧ m = t.model := by
  rcases M.run_cases Load.body ⟨⟨bytes, 0⟩, none⟩ with ⟨u, st, h⟩ | ⟨e, st, h⟩
  · obtain ⟨t, ht, hs⟩ := body_inv bytes st h
    refine ⟨t, ht, hs, ?_⟩
    have := Load_layout fs filename t ht (hs ▸ hopen)
    rw [hacc] at this
    exact Option.some.inj this
  · rw [Load_of_body_error fs filename bytes st e hopen h] at hacc
    simp at hacc

/-! ## Replacing an integer field of an accepted file -/

theorem encList_append {α : Type} (enc : α → List Byte) (l1 l2 : List α) :
    encList enc (l1 ++ l2) = encList enc l1 ++ encList enc l2 := by
  induction l1 with
  | nil => rfl
  | cons a l ih =>
    show enc a ++ encList enc (l ++ l2) = (enc a ++ encList enc l) ++ encList enc l2
    rw [ih, List.append_assoc]

theorem patch_congr {e e2 : Int → List Byte} (h : ∀ x, e x = e2 x) (hp : Patch e2) :
    Patch e := by
  obtain ⟨pre, post, hp⟩ := hp
  exact ⟨pre, post, fun x => (h x).trans (hp x)⟩

theorem patch_pre (p : List Byte) {e : Int → List Byte} (hp : Patch e) :
    Patch (fun x => p ++ e x) := by
  obtain ⟨pre, post, hp⟩ := hp
  refine ⟨p ++ pre, post, fun x => ?_⟩
  show p ++ e x = _
  rw [hp x, List.append_assoc]

theorem patch_post (q : List Byte) {e : Int → List Byte} (hp : Patch e) :
    Patch (fun x => e x ++ q) := by
  obtain ⟨pre, post, hp⟩ := hp
  refine ⟨pre, post ++ q, fun x => ?_⟩
  show e x ++ q = _
  rw [hp x]
  simp only [List.append_assoc]

theorem patch_encInt : Patch (fun x => encInt x) :=
  ⟨[], [], fun x => by simp⟩

theorem patch_encList {α : Type} (enc : α → List Byte) (l1 l2 : List α) (a : Int → α)
    (hp : Patch (fun x => enc (a x))) :
    Patch (fun x => encList enc (l1 ++ a x :: l2)) := by
  refine patch_congr (fun x => ?_)
    (patch_pre (encList enc l1) (patch_post (encList enc l2) hp))
  rw [encList_append]
  rfl

theorem chunkBones_append (cs1 cs2 : List Chunk) :
    chunkBones (cs1 ++ cs2) = chunkBones cs1 ++ chunkBones cs2 := by
  induction cs1 with
  | nil => rfl
  | cons c cs ih =>
    show c.bonesOf ++ chunkBones (cs ++ cs2) = (c.bonesOf ++ chunkBones cs) ++ chunkBones cs2
    rw [ih, List.append_assoc]

theorem chunkMeshes_append (cs1 cs2 : List Chunk) :
    chunkMeshes (cs1 ++ cs2) = chunkMeshes cs1 ++ chunkMeshes cs2 := by
  induction cs1 with
  | nil => rfl
  | cons c cs ih =>
    show c.meshesOf ++ chunkMeshes (cs ++ cs2) =
      (c.meshesOf ++ chunkMeshes cs) ++ chunkMeshes cs2
    rw [ih, List.append_assoc]

/-- An entry of the concatenation of the parts of a list lies in one part. -/
theorem flat_split {α β : Type} (f : β → List α) (F : List β → List α)
    (hnil : F [] = []) (hcons : ∀ c cs, F (c :: cs) = f c ++ F cs)
    (cs : List β) (l1 : List α) (a : α) (l2 : List α) (h : F cs = l1 ++ a :: l2) :
    ∃ cs1 c cs2 a1 a2, cs = cs1 ++ c :: cs2 ∧ f c = a1 ++ a :: a2 ∧
      l1 = F cs1 ++ a1 ∧ l2 = a2 ++ F cs2 := by
  induction cs generalizing l1 with
  | nil =>
    rw [hnil] at h
    simp at h
  | cons c cs ih =>
    rw [hcons] at h
    rcases List.append_eq_append_iff.mp h with ⟨a3, h1, h2⟩ | ⟨c3, h1, h2⟩
    · obtain ⟨cs1, d, cs2, a1, a2, hcs, hd, hl1, hl2⟩ := ih a3 h2
      refine ⟨c :: cs1, d, cs2, a1, a2, by rw [hcs]; rfl, hd, ?_, hl2⟩
      rw [h1, hl1, hcons, List.append_assoc]
    · cases c3 with
      | nil =>
        obtain ⟨cs1, d, cs2, a1, a2, hcs, hd, hl1, hl2⟩ := ih [] (by simpa using h2.symm)
        refine ⟨c :: cs1, d, cs2, a1, a2, by rw [hcs]; rfl, hd, ?_, hl2⟩
        rw [hcons, List.append_assoc, ← hl1, h1]
        simp
      | cons b c4 =>
        simp only [List.cons_append, List.cons.injEq] at h2
        obtain ⟨hb, hl2⟩ := h2
        subst hb
        exact ⟨[], c, cs, l1, c4, rfl, h1, by rw [hnil]; rfl, hl2⟩

/-- Replacing a chunk of a valid layout by a valid chunk that differs in one
integer field. -/
theorem replace_chunk (t : GmdFile) (ht : t.Valid) (cs1 cs2 : List Chunk) (c : Int → Chunk)
    (old : Int) (hcs : t.chunks = cs1 ++ c old :: cs2)
    (hv : ∀ x, IsI32 x → (c x).Valid t.numBones t.numMeshes)
    (hp : Patch (fun x => (c x).enc)) :
    ∃ pre post : List Byte, t.enc = pre ++ (encInt old ++ post) ∧
      ∀ x : Int, IsI32 x → ∀ (fs2 : FileSystemCore) (file2 : String),
        fs2.OpenRead file2 = some (pre ++ (encInt x ++ post)) →
        (Model.Load (some fs2) file2).result =
          some ⟨true, chunkBones (cs1 ++ c x :: cs2), chunkMeshes (cs1 ++ c x :: cs2)⟩ := by
  obtain ⟨h1, h2, h3, hnb, hnm, hnc, hvc, htl⟩ := ht
  have hlen : ∀ x, (cs1 ++ c x :: cs2).length = t.chunks.length := by
    intro x
    rw [hcs]
    simp only [List.length_append, List.length_cons]
  have hE : Patch (fun x => GmdFile.enc
      ⟨t.modelName, t.author, t.appName, t.numBones, t.numMeshes, cs1 ++ c x :: cs2, t.tail⟩) := by
    refine patch_congr (fun x => ?_)
      (patch_pre (encHeader GMD_VERSION t.modelName t.author t.appName t.numBones t.numMeshes
        (t.chunks.length + t.tail.count)) (patch_post t.tail.enc
          (patch_encList Chunk.enc cs1 cs2 c hp)))
    simp only [GmdFile.enc, hlen x]
  obtain ⟨pre, post, hE⟩ := hE
  refine ⟨pre, post, ?_, ?_⟩
  · have h0 := hE old
    dsimp only at h0
    rw [← hcs] at h0
    exact h0
  · intro x hx fs2 file2 hopen
    have hx2 := hE x
    dsimp only at hx2
    rw [← hx2] at hopen
    have hval : GmdFile.Valid
        ⟨t.modelName, t.author, t.appName, t.numBones, t.numMeshes, cs1 ++ c x :: cs2, t.tail⟩ := by
      refine ⟨h1, h2, h3, hnb, hnm, ?_, ?_, htl⟩
      · show IsU32 ((cs1 ++ c x :: cs2).length + t.tail.count)
        rw [hlen x]
        exact hnc
      · intro d hd
        rcases List.mem_append.mp hd with hd | hd
        · exact hvc d (by rw [hcs]; exact List.mem_append_left _ hd)
        · rcases List.mem_cons.mp hd with hd | hd
          · exact hd ▸ hv x hx
          · exact hvc d (by rw [hcs]; exact List.mem_append_right _ (List.mem_cons_of_mem _ hd))
    exact Load_layout fs2 file2 _ hval hopen

/-- Replacing a bone of an accepted file by a valid bone that differs in one
integer field. -/
theorem replace_bone (fs : FileSystemCore) (filename : String) (bytes : List Byte) (m : Model)
    (hopen : fs.OpenRead filename = some bytes)
    (hacc : (Model.Load (some fs) filename).result = some m)
    (l1 l2 : List Bone) (b : Int → Bone) (old : Int) (hm : m.bones = l1 ++ b old :: l2)
    (hv : (b old).Valid → ∀ x, IsI32 x → (b x).Valid)
    (hp : Patch (fun x => encBone (b x))) :
    ∃ pre post : List Byte, bytes = pre ++ (encInt old ++ post) ∧
      ∀ x : Int, IsI32 x → ∀ (fs2 : FileSystemCore) (file2 : String),
        fs2.OpenRead file2 = some (pre ++ (encInt x ++ post)) →
        (Model.Load (some fs2) file2).result = some { m with bones := l1 ++ b x :: l2 } := by
  obtain ⟨t, ht, hb, hmt⟩ := Load_accepts_inv fs filename bytes m hopen hacc
  subst hb hmt
  obtain ⟨cs1, c, cs2, a1, a2, hcs, hc, hl1, hl2⟩ :=
    flat_split Chunk.bonesOf chunkBones rfl (fun _ _ => rfl) t.chunks l1 (b old) l2 hm
  cases c with
  | bones name size bs =>
    have hbs : bs = a1 ++ b old :: a2 := hc
    subst hbs
    have hmem : Chunk.bones name size (a1 ++ b old :: a2) ∈ t.chunks := by
      rw [hcs]
      exact List.mem_append_right _ (List.mem_cons_self _ _)
    have hcv := ht.2.2.2.2.2.2.1 _ hmem
    obtain ⟨hn, hi, hs, hl, hbv⟩ := hcv
    have hlen : ∀ x, (a1 ++ b x :: a2).length = (a1 ++ b old :: a2).length := by
      intro x
      simp only [List.length_append, List.length_cons]
    obtain ⟨pre, post, he, hrun⟩ := replace_chunk t ht cs1 cs2
      (fun x => Chunk.bones name size (a1 ++ b x :: a2)) old hcs
      (fun x hx => by
        refine ⟨hn, hi, hs, (hlen x).trans hl, ?_⟩
        intro d hd
        rcases List.mem_append.mp hd with hd | hd
        · exact hbv d (List.mem_append_left _ hd)
        · rcases List.mem_cons.mp hd with hd | hd
          · exact hd ▸ hv (hbv _ (List.mem_append_right _ (List.mem_cons_self _ _))) x hx
          · exact hbv d (List.mem_append_right _ (List.mem_cons_of_mem _ hd)))
      (by
        refine patch_congr (fun x => ?_)
          (patch_pre (encStr name ++ (encUint size ++ encUint (a1 ++ b old :: a2).length))
            (patch_encList encBone a1 a2 b hp))
        simp only [Chunk.enc, hlen x, List.append_assoc])
    refine ⟨pre, post, he, fun x hx fs2 file2 h2 => ?_⟩
    rw [hrun x hx fs2 file2 h2]
    simp only [GmdFile.model, hcs, chunkBones_append, chunkMeshes_append, chunkBones,
      chunkMeshes, Chunk.bonesOf, Chunk.meshesOf, hl1, hl2, List.append_assoc,
      List.cons_append, List.nil_append]
  | meshes name size ms =>
    have : ([] : List Bone) = a1 ++ b old :: a2 := hc
    simp at this
  | skipped name entries payload =>
    have : ([] : List Bone) = a1 ++ b old :: a2 := hc
    simp at this

/-- Replacing a mesh of an accepted file by a valid mesh that differs in one
integer field. -/
theorem replace_mesh (fs : FileSystemCore) (filename : String) (bytes : List Byte) (m : Model)
    (hopen : fs.OpenRead filename = some bytes)
    (hacc : (Model.Load (some fs) filename).result = some m)
    (l1 l2 : List MeshAnimated) (mesh : Int → MeshAnimated) (old : Int)
    (hm : m.meshes = l1 ++ mesh old :: l2)
    (hv : (mesh old).Valid → ∀ x, IsI32 x → (mesh x).Valid)
    (hp : (mesh old).Valid → Patch (fun x => encMesh (mesh x))) :
    ∃ pre post : List Byte, bytes = pre ++ (encInt old ++ post) ∧
      ∀ x : Int, IsI32 x → ∀ (fs2 : FileSystemCore) (file2 : String),
        fs2.OpenRead file2 = some (pre ++ (encInt x ++ post)) →
        (Model.Load (some fs2) file2).result = some { m with meshes := l1 ++ mesh x :: l2 } := by
  obtain ⟨t, ht, hb, hmt⟩ := Load_accepts_inv fs filename bytes m hopen hacc
  subst hb hmt
  obtain ⟨cs1, c, cs2, a1, a2, hcs, hc, hl1, hl2⟩ :=
    flat_split Chunk.meshesOf chunkMeshes rfl (fun _ _ => rfl) t.chunks l1 (mesh old) l2 hm
  cases c with
  | meshes name size ms =>
    have hms : ms = a1 ++ mesh old :: a2 := hc
    subst hms
    have hmem : Chunk.meshes name size (a1 ++ mesh old :: a2) ∈ t.chunks := by
      rw [hcs]
      exact List.mem_append_right _ (List.mem_cons_self _ _)
    have hcv := ht.2.2.2.2.2.2.1 _ hmem
    obtain ⟨hn, hib, hi, hs, hl, hmv⟩ := hcv
    have hold := hmv _ (List.mem_append_right _ (List.mem_cons_self _ _))
    have hlen : ∀ x, (a1 ++ mesh x :: a2).length = (a1 ++ mesh old :: a2).length := by
      intro x
      simp only [List.length_append, List.length_cons]
    obtain ⟨pre, post, he, hrun⟩ := replace_chunk t ht cs1 cs2
      (fun x => Chunk.meshes name size (a1 ++ mesh x :: a2)) old hcs
      (fun x hx => by
        refine ⟨hn, hib, hi, hs, (hlen x).trans hl, ?_⟩
        intro d hd
        rcases List.mem_append.mp hd with hd | hd
        · exact hmv d (List.mem_append_left _ hd)
        · rcases List.mem_cons.mp hd with hd | hd
          · exact hd ▸ hv hold x hx
          · exact hmv d (List.mem_append_right _ (List.mem_cons_of_mem _ hd)))
      (by
        refine patch_congr (fun x => ?_)
          (patch_pre (encStr name ++ (encUint size ++ encUint (a1 ++ mesh old :: a2).length))
            (patch_encList encMesh a1 a2 mesh (hp hold)))
        simp only [Chunk.enc, hlen x, List.append_assoc])
    refine ⟨pre, post, he, fun x hx fs2 file2 h2 => ?_⟩
    rw [hrun x hx fs2 file2 h2]
    simp only [GmdFile.model, hcs, chunkBones_append, chunkMeshes_append, chunkBones,
      chunkMeshes, Chunk.bonesOf, Chunk.meshesOf, hl1, hl2, List.append_assoc,
      List.cons_append, List.nil_append]
  | bones name size bs =>
    have : ([] : List MeshAnimated) = a1 ++ mesh old :: a2 := hc
    simp at this
  | skipped name entries payload =>
    have : ([] : List MeshAnimated) = a1 ++ mesh old :: a2 := hc
    simp at this

theorem mem_replace {α : Type} {P : α → Prop} {l1 l2 : List α} {a b : α}
    (h : ∀ c ∈ l1 ++ a :: l2, P c) (hb : P b) : ∀ c ∈ l1 ++ b :: l2, P c := by
  intro c hc
  rcases List.mem_append.mp hc with hc | hc
  · exact h c (List.mem_append_left _ hc)
  · rcases List.mem_cons.mp hc with hc | hc
    · exact hc ▸ hb
    · exact h c (List.mem_append_right _ (List.mem_cons_of_mem _ hc))

theorem length_replace {α : Type} (l1 l2 : List α) (a b : α) :
    (l1 ++ b :: l2).length = (l1 ++ a :: l2).length := by
  simp only [List.length_append, List.length_cons]

/-- The bytes of a mesh around one entry of its index buffer. -/
theorem patch_mesh_index (mesh : MeshAnimated) (i1 i2 : List Int) (v : Int)
    (hi : mesh.indices = i1 ++ v :: i2) (hl : mesh.indices.length = mesh.numIndices) :
    Patch (fun x => encMesh { mesh with indices := i1 ++ x :: i2 }) := by
  refine patch_congr (fun x => ?_)
    (patch_pre (encStr mesh.name ++ (encStr mesh.material ++ (encInt mesh.flags ++
        (encInt mesh.detailLevel ++ (encUint mesh.numVerts ++ encUint mesh.numIndices)))))
      (patch_post (encList encVec2 (mesh.texCoords.take mesh.numVerts) ++
          encList encVertex (mesh.vertices.take mesh.numVerts))
        (patch_encList encInt i1 i2 (fun x => x) patch_encInt)))
  have hlx : (i1 ++ x :: i2).length = mesh.numIndices := by
    rw [length_replace i1 i2 v x, ← hi]
    exact hl
  simp only [encMesh, take_all _ _ hlx, List.append_assoc]

/-- The bytes of a vertex around the bone id of one of its weights. -/
theorem patch_vertex_boneId (vtx : Vertex) (w1 w2 : List VertexWeight) (w : VertexWeight)
    (hw : vtx.weights = w1 ++ w :: w2) (hl : vtx.weights.length = vtx.numWeights) :
    Patch (fun x => encVertex
      { vtx with weights := w1 ++ { w with boneId := x } :: w2 }) := by
  have hpw : Patch (fun x => encWeight { w with boneId := x }) :=
    ⟨[], encVec3 w.origin ++ (encVec3 w.normal ++ encUint w.influence), fun _ => rfl⟩
  refine patch_congr (fun x => ?_)
    (patch_pre (encUint vtx.numWeights)
      (patch_encList encWeight w1 w2 (fun x => { w with boneId := x }) hpw))
  have hlx : (w1 ++ { w with boneId := x } :: w2).length = vtx.numWeights := by
    rw [length_replace w1 w2 w _, ← hw]
    exact hl
  simp only [encVertex, take_all _ _ hlx]

/-- The bytes of a mesh around an integer field of one of its vertices. -/
theorem patch_mesh_vertex (mesh : MeshAnimated) (v1 v2 : List Vertex) (vtx : Vertex)
    (vx : Int → Vertex) (hv : mesh.vertices = v1 ++ vtx :: v2)
    (hl : mesh.vertices.length = mesh.numVerts) (hp : Patch (fun x => encVertex (vx x))) :
    Patch (fun x => encMesh { mesh with vertices := v1 ++ vx x :: v2 }) := by
  refine patch_congr (fun x => ?_)
    (patch_pre (encStr mesh.name ++ (encStr mesh.material ++ (encInt mesh.flags ++
        (encInt mesh.detailLevel ++ (encUint mesh.numVerts ++ (encUint mesh.numIndices ++
          (encList encInt (mesh.indices.take mesh.numIndices) ++
            encList encVec2 (mesh.texCoords.take mesh.numVerts))))))))
      (patch_encList encVertex v1 v2 vx hp))
  have hlx : (v1 ++ vx x :: v2).length = mesh.numVerts := by
    rw [length_replace v1 v2 vtx _, ← hv]
    exact hl
  simp only [encMesh, take_all _ _ hlx, List.append_assoc]

/-- C14 (no range validation of reference fields). In every file `Load`
accepts, each bone of the returned model, each entry of the index buffer of
each of its meshes, and each weight of each vertex of each of its meshes has
its integer field (parent index, index entry, bone id) stored in four bytes of
the file such that replacing those four bytes by any 32-bit integer `x`,
negative or beyond any count, gives a file that `Load` also accepts; the model
returned holds `x` verbatim in that field and is otherwise the same. -/
theorem Load_no_range_validation (fs : FileSystemCore) (filename : String)
    (bytes : List Byte) (m : Model)
    (hopen : fs.OpenRead filename = some bytes)
    (hacc : (Model.Load (some fs) filename).result = some m) :
    (∀ (l1 l2 : List Bone) (b : Bone), m.bones = l1 ++ b :: l2 →
      ∃ pre post : List Byte, bytes = pre ++ (encInt b.idParent ++ post) ∧
        ∀ x : Int, IsI32 x → ∀ (fs2 : FileSystemCore) (file2 : String),
          fs2.OpenRead file2 = some (pre ++ (encInt x ++ post)) →
          (Model.Load (some fs2) file2).result =
            some { m with bones := l1 ++ { b with idParent := x } :: l2 }) ∧
    (∀ (l1 l2 : List MeshAnimated) (mesh : MeshAnimated) (i1 i2 : List Int) (v : Int),
      m.meshes = l1 ++ mesh :: l2 → mesh.indices = i1 ++ v :: i2 →
      ∃ pre post : List Byte, bytes = pre ++ (encInt v ++ post) ∧
        ∀ x : Int, IsI32 x → ∀ (fs2 : FileSystemCore) (file2 : String),
          fs2.OpenRead file2 = some (pre ++ (encInt x ++ post)) →
          (Model.Load (some fs2) file2).result =
            some { m with meshes := l1 ++ { mesh with indices := i1 ++ x :: i2 } :: l2 }) ∧
    (∀ (l1 l2 : List MeshAnimated) (mesh : MeshAnimated) (v1 v2 : List Vertex) (vtx : Vertex)
      (w1 w2 : List VertexWeight) (w : VertexWeight),
      m.meshes = l1 ++ mesh :: l2 → mesh.vertices = v1 ++ vtx :: v2 →
      vtx.weights = w1 ++ w :: w2 →
      ∃ pre post : List Byte, bytes = pre ++ (encInt w.boneId ++ post) ∧
        ∀ x : Int, IsI32 x → ∀ (fs2 : FileSystemCore) (file2 : String),
          fs2.OpenRead file2 = some (pre ++ (encInt x ++ post)) →
          (Model.Load (some fs2) file2).result =
            some { m with meshes := l1 ++ { mesh with vertices := v1 ++
              { vtx with weights := w1 ++ { w with boneId := x } :: w2 } :: v2 } :: l2 }) := by
  refine ⟨?_, ?_, ?_⟩
  · intro l1 l2 b hm
    exact replace_bone fs filename bytes m hopen hacc l1 l2
      (fun x => { b with idParent := x }) b.idParent hm
      (fun hb x hx => ⟨hb.1, hx, hb.2.2.1, hb.2.2.2⟩)
      ⟨encStr b.name, encVec3 b.origin ++ encQuat b.quat, fun _ => rfl⟩
  · intro l1 l2 mesh i1 i2 v hm hi
    have e0 : ({ mesh with indices := i1 ++ v :: i2 } : MeshAnimated) = mesh := by rw [← hi]
    refine replace_mesh fs filename bytes m hopen hacc l1 l2
      (fun x => { mesh with indices := i1 ++ x :: i2 }) v (e0.symm ▸ hm) ?_ ?_
    · intro hv x hx
      have hv := Eq.mp (congrArg MeshAnimated.Valid e0) hv
      obtain ⟨hn, hmt, hf, hd, hnv, hni, hil, hiv, htl, htv, hvl, hvv⟩ := hv
      refine ⟨hn, hmt, hf, hd, hnv, hni, ?_, ?_, htl, htv, hvl, hvv⟩
      · show (i1 ++ x :: i2).length = mesh.numIndices
        rw [length_replace i1 i2 v x, ← hi]
        exact hil
      · show ∀ i ∈ i1 ++ x :: i2, IsI32 i
        rw [hi] at hiv
        exact mem_replace hiv hx
    · intro hv
      have hv := Eq.mp (congrArg MeshAnimated.Valid e0) hv
      exact patch_mesh_index mesh i1 i2 v hi hv.2.2.2.2.2.2.1
  · intro l1 l2 mesh v1 v2 vtx w1 w2 w hm hvs hws
    have e1 : ({ vtx with weights := w1 ++ { w with boneId := w.boneId } :: w2 } : Vertex) =
        vtx := by
      show ({ vtx with weights := w1 ++ w :: w2 } : Vertex) = vtx
      rw [← hws]
    have e0 : ({ mesh with vertices := v1 ++
        { vtx with weights := w1 ++ { w with boneId := w.boneId } :: w2 } :: v2 } :
          MeshAnimated) = mesh := by
      rw [e1, ← hvs]
    refine replace_mesh fs filename bytes m hopen hacc l1 l2
      (fun x => { mesh with vertices := v1 ++
        { vtx with weights := w1 ++ { w with boneId := x } :: w2 } :: v2 })
      w.boneId (e0.symm ▸ hm) ?_ ?_
    · intro hv x hx
      have hv := Eq.mp (congrArg MeshAnimated.Valid e0) hv
      obtain ⟨hn, hmt, hf, hd, hnv, hni, hil, hiv, htl, htv, hvl, hvv⟩ := hv
      have hmv : vtx ∈ mesh.vertices := by
        rw [hvs]
        exact List.mem_append_right _ (List.mem_cons_self _ _)
      have hmw : w ∈ vtx.weights := by
        rw [hws]
        exact List.mem_append_right _ (List.mem_cons_self _ _)
      have hvtx : vtx.Valid := hvv vtx hmv
      have hwv : w.Valid := hvtx.2.2 w hmw
      refine ⟨hn, hmt, hf, hd, hnv, hni, hil, hiv, htl, htv, ?_, ?_⟩
      · show (v1 ++ _ :: v2).length = mesh.numVerts
        rw [length_replace v1 v2 vtx _, ← hvs]
        exact hvl
      · show ∀ u ∈ v1 ++ _ :: v2, u.Valid
        rw [hvs] at hvv
        refine mem_replace hvv ⟨hvtx.1, ?_, ?_⟩
        · show (w1 ++ _ :: w2).length = vtx.numWeights
          rw [length_replace w1 w2 w _, ← hws]
          exact hvtx.2.1
        · show ∀ u ∈ w1 ++ _ :: w2, u.Valid
          have hall := hvtx.2.2
          rw [hws] at hall
          exact mem_replace hall ⟨hx, hwv.2.1, hwv.2.2.1, hwv.2.2.2⟩
    · intro hv
      have hv := Eq.mp (congrArg MeshAnimated.Valid e0) hv
      have hmv : vtx ∈ mesh.vertices := by
        rw [hvs]
        exact List.mem_append_right _ (List.mem_cons_self _ _)
      have hvtx : vtx.Valid := hv.2.2.2.2.2.2.2.2.2.2.2 vtx hmv
      exact patch_mesh_vertex mesh v1 v2 vtx _ hvs hv.2.2.2.2.2.2.2.2.2.2.1
        (patch_vertex_boneId vtx w1 w2 w hws hvtx.2.1)

/-- The scenario file, with the parent index -1 of its first bone replaced by
70000: the file is accepted and the model holds 70000 in that bone. -/
theorem Load_no_range_validation_witness :
    (Model.Load (some (readableFS (gmdBytes scenarioName scenarioModel))) scenarioName).result =
      some scenarioModel ∧
    ∃ pre post : List Byte,
      gmdBytes scenarioName scenarioModel = pre ++ (encInt (-1) ++ post) ∧
      (Model.Load (some (readableFS (pre ++ (encInt 70000 ++ post)))) scenarioName).result =
        some { scenarioModel with
          bones := [⟨[114, 111, 111, 116], 70000, ⟨0, 0, 0⟩, ⟨0, 0, 0, 1065353216⟩⟩,
                    ⟨[99, 104, 105, 108, 100], 0, ⟨1065353216, 0, 0⟩, ⟨0, 0, 0, 1065353216⟩⟩] } := by
  have hacc : (Model.Load (some (readableFS (gmdBytes scenarioName scenarioModel)))
      scenarioName).result = some scenarioModel := by
    rw [Load_gmdBytes (readableFS (gmdBytes scenarioName scenarioModel)) scenarioName
      scenarioName scenarioModel (by decide) (by decide) rfl]
    rfl
  obtain ⟨pre, post, he, hrun⟩ :=
    (Load_no_range_validation (readableFS (gmdBytes scenarioName scenarioModel)) scenarioName
      (gmdBytes scenarioName scenarioModel) scenarioModel rfl hacc).1 []
      [⟨[99, 104, 105, 108, 100], 0, ⟨1065353216, 0, 0⟩, ⟨0, 0, 0, 1065353216⟩⟩]
      ⟨[114, 111, 111, 116], -1, ⟨0, 0, 0⟩, ⟨0, 0, 0, 1065353216⟩⟩ rfl
  exact ⟨hacc, pre, post, he, hrun 70000 (by decide) (readableFS _) scenarioName rfl⟩

/-! ## Changing a chunk without changing what `Load` does with it -/

theorem toLower_sameLetter (x y : Byte) (h : sameLetter x y) : toLower x = toLower y := by
  have hx := x.isLt
  have hy := y.isLt
  rcases h with h | ⟨h1, h2, h3⟩ | ⟨h1, h2, h3⟩
  · rw [h]
  · unfold toLower
    have hny : ¬ (65 ≤ y.val ∧ y.val ≤ 90) := by omega
    simp only [h1, h2, and_self, if_true, hny, if_false]
    apply Fin.ext
    show (x.val + 32) % 256 = y.val
    omega
  · unfold toLower
    have hnx : ¬ (65 ≤ x.val ∧ x.val ≤ 90) := by omega
    have hy1 : 65 ≤ y.val ∧ y.val ≤ 90 := by omega
    simp only [hnx, if_false, hy1, and_self, if_true]
    apply Fin.ext
    show x.val = (y.val + 32) % 256
    omega

theorem caseVariant_map (a b : String) (h : CaseVariant a b) :
    a.map toLower = b.map toLower := by
  induction a generalizing b with
  | nil =>
    cases b with
    | nil => rfl
    | cons y ys => exact absurd h (fun h => h)
  | cons x xs ih =>
    cases b with
    | nil => exact absurd h (fun h => h)
    | cons y ys =>
      obtain ⟨h1, h2⟩ := h
      simp only [List.map_cons, toLower_sameLetter x y h1, ih ys h2]

theorem caseVariant_length (a b : String) (h : CaseVariant a b) : b.length = a.length := by
  have := congrArg List.length (caseVariant_map a b h)
  simp only [List.length_map] at this
  exact this.symm

/-- Letter case does not matter to `Icmp`. -/
theorem Icmp_caseVariant (a b c : String) (h : CaseVariant a b) :
    String.Icmp b c = String.Icmp a c := by
  unfold String.Icmp
  rw [caseVariant_map a b h]

/-- A chunk whose name is replaced by a name that compares the same way to
"Bones" and to "Meshes" is read the same way. -/
theorem chunk_name_congr (numBones numMeshes : Nat) (name name2 : String)
    (hv : String.Valid name) (hv2 : String.Valid name2)
    (hb : String.Icmp name2 strBones = String.Icmp name strBones)
    (hm : String.Icmp name2 strMeshes = String.Icmp name strMeshes)
    (r : List Byte) (o : Nat) (mo : Option Model) :
    Load.chunk numBones numMeshes ⟨⟨encStr name2 ++ r, o⟩, mo⟩ =
      Load.chunk numBones numMeshes ⟨⟨encStr name ++ r, o⟩, mo⟩ := by
  unfold Load.chunk
  rw [M.bind_ok (onFile_ok mo ((decodes_ReadFromFile name2 hv2).1 r o)),
    M.bind_ok (onFile_ok mo ((decodes_ReadFromFile name hv).1 r o))]
  simp only [hb, hm]

/-- A chunk whose name compares equal to "Bones" or to "Meshes" is read the
same way whatever its size field holds. -/
theorem chunk_size_congr (numBones numMeshes : Nat) (name : String) (size size2 : Nat)
    (hv : String.Valid name) (hs : IsU32 size) (hs2 : IsU32 size2)
    (hn : String.Icmp name strBones = 0 ∨ String.Icmp name strMeshes = 0)
    (r : List Byte) (o : Nat) (mo : Option Model) :
    Load.chunk numBones numMeshes ⟨⟨encStr name ++ (encUint size2 ++ r), o⟩, mo⟩ =
      Load.chunk numBones numMeshes ⟨⟨encStr name ++ (encUint size ++ r), o⟩, mo⟩ := by
  unfold Load.chunk
  rw [M.bind_ok (onFile_ok mo ((decodes_ReadFromFile name hv).1 _ o)),
    M.bind_ok (onFile_ok mo ((decodes_ReadFromFile name hv).1 _ o)),
    M.bind_ok (onFile_ok mo ((decodes_ReadUint size2 hs2).1 r o)),
    M.bind_ok (onFile_ok mo ((decodes_ReadUint size hs).1 r o))]
  rcases hn with hn | hn
  · simp only [hn, if_true]
  · by_cases hb : String.Icmp name strBones = 0
    · simp only [hb, if_true]
    · simp only [hb, hn, if_true, if_false]

/-- A file in which `Load`, after the header and `k` chunks, stands before the
bytes `X`: when the next chunk is read from `Y` as it is from `X`, the file with
`Y` in place of `X` makes the try block end the same way, and `Load` stands
before `Y` after the header and `k` chunks. -/
theorem body_chunk_congr (hd p X Y : List Byte) (h : Header) (k : Nat) (mk : Option Model)
    (hhead : Load.header ⟨⟨hd ++ (p ++ X), 0⟩, none⟩ = (Res.ok h, ⟨⟨p ++ X, 0⟩, none⟩))
    (hk : k < h.numChunks)
    (hprev : og.forN (Load.chunk h.numBones h.numMeshes) k
        ⟨⟨p ++ X, 0⟩, some (Model.new true)⟩ = (Res.ok (), ⟨⟨X, 0⟩, mk⟩))
    (hc : Load.chunk h.numBones h.numMeshes ⟨⟨Y, 0⟩, mk⟩ =
      Load.chunk h.numBones h.numMeshes ⟨⟨X, 0⟩, mk⟩) :
    Load.body ⟨⟨hd ++ (p ++ Y), 0⟩, none⟩ = Load.body ⟨⟨hd ++ (p ++ X), 0⟩, none⟩ ∧
    Load.header ⟨⟨hd ++ (p ++ Y), 0⟩, none⟩ = (Res.ok h, ⟨⟨p ++ Y, 0⟩, none⟩) ∧
    og.forN (Load.chunk h.numBones h.numMeshes) k
        ⟨⟨p ++ Y, 0⟩, some (Model.new true)⟩ = (Res.ok (), ⟨⟨Y, 0⟩, mk⟩) := by
  obtain ⟨hs, _, _, hv1, hv2, hv3, hv4, hv5, hv6⟩ := header_inv _ _ _ _ _ _ _ hhead
  have hhd : hd = encHeader GMD_VERSION h.modelName h.author h.appName h.numBones h.numMeshes
      h.numChunks := List.append_cancel_right hs
  have hhead2 : Load.header ⟨⟨hd ++ (p ++ Y), 0⟩, none⟩ = (Res.ok h, ⟨⟨p ++ Y, 0⟩, none⟩) := by
    rw [hhd]
    exact (steps_header h.modelName h.author h.appName h.numBones h.numMeshes h.numChunks
      hv1 hv2 hv3 hv4 hv5 hv6).1 (p ++ Y) 0 none
  obtain ⟨_, hloc⟩ := localL_forN (localL_chunk h.numBones h.numMeshes) k _ _ _ _ _ _ _ hprev
  obtain ⟨a, ha, hrun⟩ := hloc rfl
  have hap : a = p := (List.append_cancel_right ha).symm
  subst hap
  have hprev2 := hrun Y
  refine ⟨?_, hhead2, hprev2⟩
  obtain ⟨j, hj⟩ : ∃ j, h.numChunks = k + (j + 1) := ⟨h.numChunks - k - 1, by omega⟩
  rw [body_of_header_ok _ _ _ hhead, body_of_header_ok _ _ _ hhead2, hj,
    forN_add _ k (j + 1) _ _ hprev, forN_add _ k (j + 1) _ _ hprev2]
  show M.bind (Load.chunk h.numBones h.numMeshes) _ _ =
    M.bind (Load.chunk h.numBones h.numMeshes) _ _
  unfold M.bind
  rw [hc]

/-- C21 (known chunk names are matched without regard to letter case). Let
`Load` read the header of a file and, after `k` of its chunks, stand before a
chunk whose name is "Bones" or "Meshes". The file in which the case of letters
of that name is changed makes `Load` return the same result: the file is
accepted when the original is, with an equal model. A chunk with the changed
name is decoded: its entry count is checked and its records are read, and its
size field is not used. -/
theorem Load_chunk_name_case (fs fs2 : FileSystemCore) (filename : String)
    (hd p r : List Byte) (h : Header) (k : Nat) (mk : Option Model) (name name2 : String)
    (hopen : fs.OpenRead filename = some (hd ++ (p ++ (encStr name ++ r))))
    (hhead : Load.header ⟨⟨hd ++ (p ++ (encStr name ++ r)), 0⟩, none⟩ =
      (Res.ok h, ⟨⟨p ++ (encStr name ++ r), 0⟩, none⟩))
    (hk : k < h.numChunks)
    (hprev : og.forN (Load.chunk h.numBones h.numMeshes) k
        ⟨⟨p ++ (encStr name ++ r), 0⟩, some (Model.new true)⟩ =
      (Res.ok (), ⟨⟨encStr name ++ r, 0⟩, mk⟩))
    (hname : name = strBones ∨ name = strMeshes)
    (hcase : CaseVariant name name2)
    (hopen2 : fs2.OpenRead filename = some (hd ++ (p ++ (encStr name2 ++ r)))) :
    (Model.Load (some fs2) filename).result = (Model.Load (some fs) filename).result ∧
    (∀ m, (Model.Load (some fs) filename).result = some m →
      (Model.Load (some fs2) filename).result = some m) ∧
    (∀ (nb nm size entries : Nat) (rest : List Byte) (o : Nat) (mo : Option Model),
      IsU32 size → IsU32 entries →
      Load.chunk nb nm ⟨⟨encStr name2 ++ (encUint size ++ (encUint entries ++ rest)), o⟩, mo⟩ =
        (if name = strBones then
          (if entries ≠ nb then throwErr (FileReadWriteError.numBones nb entries)
            else og.forN Load.bone entries)
        else
          (if entries ≠ nm then throwErr (FileReadWriteError.numMeshes nm entries)
            else og.forN Load.mesh entries)) ⟨⟨rest, o⟩, mo⟩) := by
  have hv : String.Valid name := by
    rcases hname with hn | hn <;> rw [hn] <;> decide
  have hv2 : String.Valid name2 := by
    unfold String.Valid at hv ⊢
    rw [caseVariant_length name name2 hcase]
    exact hv
  have hb := Icmp_caseVariant name name2 strBones hcase
  have hm := Icmp_caseVariant name name2 strMeshes hcase
  have hbody := (body_chunk_congr hd p (encStr name ++ r) (encStr name2 ++ r) h k mk hhead hk
    hprev (chunk_name_congr h.numBones h.numMeshes name name2 hv hv2 hb hm r 0 mk)).1
  have hres : (Model.Load (some fs2) filename).result =
      (Model.Load (some fs) filename).result := by
    rw [Load_result_eq fs2 filename _ hopen2, Load_result_eq fs filename _ hopen, hbody]
  refine ⟨hres, fun m hm1 => hres.trans hm1, ?_⟩
  intro nb nm size entries rest o mo hs he
  rw [chunk_head nb nm name2 size entries rest o mo hv2 hs he, hb, hm]
  rcases hname with hn | hn
  · subst hn
    simp only [Icmp_strBones, if_true]
  · subst hn
    have hne : strMeshes ≠ strBones := by decide
    simp only [Icmp_strMeshes_strBones, Icmp_strMeshes, if_true, if_false, hne]

set_option maxRecDepth 100000 in
/-- The scenario file with its first chunk named "bONES" loads as the scenario
file does. -/
theorem Load_chunk_name_case_witness :
    CaseVariant strBones [98, 79, 78, 69, 83] ∧
    (Model.Load (some (readableFS (scenarioHeader ++ ([] ++
        (encStr [98, 79, 78, 69, 83] ++ (encUint 81 ++ scenarioAfterSize)))))) scenarioName).result =
      some scenarioModel :=
  have h := Load_chunk_name_case
    (readableFS (scenarioHeader ++ ([] ++ (encStr strBones ++ (encUint 81 ++ scenarioAfterSize)))))
    (readableFS (scenarioHeader ++ ([] ++
      (encStr [98, 79, 78, 69, 83] ++ (encUint 81 ++ scenarioAfterSize)))))
    scenarioName scenarioHeader [] (encUint 81 ++ scenarioAfterSize)
    ⟨scenarioName, strUnknown, strOgTools, 2, 1, 2⟩ 0 (some (Model.new true))
    strBones [98, 79, 78, 69, 83]
    rfl (by decide!) (by decide) rfl (Or.inl rfl) (by decide) rfl
  ⟨by decide, h.2.1 scenarioModel (by decide!)⟩

/-- Changing size fields of known chunks, one after the other, does not change
how the try block ends. -/
theorem body_sizeChanges (s1 s2 : List Byte)
    (hrel : Relation.ReflTransGen SizeFieldChange s1 s2) :
    Load.body ⟨⟨s2, 0⟩, none⟩ = Load.body ⟨⟨s1, 0⟩, none⟩ := by
  have key : ∀ a b : List Byte, SizeFieldChange a b →
      Load.body ⟨⟨b, 0⟩, none⟩ = Load.body ⟨⟨a, 0⟩, none⟩ := by
    rintro a b ⟨hd, p, r, h, k, mk, name, size, size2, rfl, rfl, hhead, hk, hprev, hv, hn,
      hs, hs2⟩
    exact (body_chunk_congr hd p _ _ h k mk hhead hk hprev
      (chunk_size_congr h.numBones h.numMeshes name size size2 hv hs hs2 hn r 0 mk)).1
  induction hrel with
  | refl => rfl
  | tail _ hstep ih => rw [key _ _ hstep, ih]

/-- C23 (`Load` ignores the declared size of known chunks). Two files of which
one is obtained from the other by changing the size fields of chunks whose
names compare equal to "Bones" or "Meshes", one field after the other: `Load`
returns `NULL` for both, or a model for both, and then the two models are
equal. Such a chunk is read the same way whatever its size field holds, and
after its records `Load` stands on the byte that follows the last record. -/
theorem Load_ignores_known_chunk_size (s1 s2 : List Byte)
    (hrel : Relation.ReflTransGen SizeFieldChange s1 s2)
    (fs1 fs2 : FileSystemCore) (file1 file2 : String)
    (h1 : fs1.OpenRead file1 = some s1) (h2 : fs2.OpenRead file2 = some s2) :
    (Model.Load (some fs1) file1).result = (Model.Load (some fs2) file2).result ∧
    (∀ (nb nm : Nat) (name : String) (size size2 : Nat) (r : List Byte) (o : Nat)
      (mo : Option Model), String.Valid name → IsU32 size → IsU32 size2 →
      (String.Icmp name strBones = 0 ∨ String.Icmp name strMeshes = 0) →
      Load.chunk nb nm ⟨⟨encStr name ++ (encUint size2 ++ r), o⟩, mo⟩ =
        Load.chunk nb nm ⟨⟨encStr name ++ (encUint size ++ r), o⟩, mo⟩) ∧
    (∀ (nb nm size : Nat) (bs : List Bone) (r : List Byte) (o : Nat) (mo : Option Model),
      IsU32 nb → IsU32 size → bs.length = nb → (∀ b ∈ bs, b.Valid) →
      Load.chunk nb nm
          ⟨⟨encStr strBones ++ (encUint size ++ (encUint nb ++ (encList encBone bs ++ r))), o⟩,
            mo⟩ =
        (Res.ok (), ⟨⟨r, o⟩, mo.map fun m => { m with bones := m.bones ++ bs }⟩)) ∧
    (∀ (nb nm size : Nat) (ms : List MeshAnimated) (r : List Byte) (o : Nat)
      (mo : Option Model),
      IsU32 nm → IsU32 size → ms.length = nm → (∀ mesh ∈ ms, mesh.Valid) →
      Load.chunk nb nm
          ⟨⟨encStr strMeshes ++ (encUint size ++ (encUint nm ++ (encList encMesh ms ++ r))), o⟩,
            mo⟩ =
        (Res.ok (), ⟨⟨r, o⟩, mo.map fun m => { m with meshes := m.meshes ++ ms }⟩)) := by
  refine ⟨?_, ?_, ?_, ?_⟩
  · have hall := body_sizeChanges s1 s2 hrel
    rw [Load_result_eq fs1 file1 _ h1, Load_result_eq fs2 file2 _ h2, hall]
  · intro nb nm name size size2 r o mo hv hs hs2 hn
    exact chunk_size_congr nb nm name size size2 hv hs hs2 hn r o mo
  · intro nb nm size bs r o mo hnb hs hl hv
    have := chunk_head nb nm strBones size nb (encList encBone bs ++ r) o mo (by decide) hs hnb
    rw [this]
    simp only [Icmp_strBones, if_true, ne_eq, not_true_eq_false, if_false]
    have h3 := (steps_bones bs hv).1 r o mo
    rw [hl] at h3
    exact h3
  · intro nb nm size ms r o mo hnm hs hl hv
    have := chunk_head nb nm strMeshes size nm (encList encMesh ms ++ r) o mo (by decide) hs hnm
    rw [this]
    simp only [Icmp_strMeshes_strBones, Icmp_strMeshes, if_true, if_false, ne_eq,
      not_true_eq_false]
    have h3 := (steps_meshes ms hv).1 r o mo
    rw [hl] at h3
    exact h3

set_option maxRecDepth 100000 in
/-- The scenario file with 0 in the size field of its "Bones" chunk loads as
the scenario file does. -/
theorem Load_ignores_known_chunk_size_witness :
    SizeFieldChange
      (scenarioHeader ++ ([] ++ (encStr strBones ++ (encUint 81 ++ scenarioAfterSize))))
      (scenarioHeader ++ ([] ++ (encStr strBones ++ (encUint 0 ++ scenarioAfterSize)))) ∧
    (Model.Load (some (readableFS (scenarioHeader ++ ([] ++
        (encStr strBones ++ (encUint 0 ++ scenarioAfterSize)))))) scenarioName).result =
      some scenarioModel := by
  have hstep : SizeFieldChange
      (scenarioHeader ++ ([] ++ (encStr strBones ++ (encUint 81 ++ scenarioAfterSize))))
      (scenarioHeader ++ ([] ++ (encStr strBones ++ (encUint 0 ++ scenarioAfterSize)))) :=
    ⟨scenarioHeader, [], scenarioAfterSize, ⟨scenarioName, strUnknown, strOgTools, 2, 1, 2⟩, 0,
      some (Model.new true), strBones, 81, 0, rfl, rfl, by decide!, by decide, rfl, by decide,
      Or.inl (by decide), by decide, by decide⟩
  have h := (Load_ignores_known_chunk_size _ _ (Relation.ReflTransGen.single hstep)
    (readableFS (scenarioHeader ++ ([] ++ (encStr strBones ++ (encUint 81 ++ scenarioAfterSize)))))
    (readableFS (scenarioHeader ++ ([] ++ (encStr strBones ++ (encUint 0 ++ scenarioAfterSize)))))
    scenarioName scenarioName rfl rfl).1
  refine ⟨hstep, ?_⟩
  rw [← h]
  decide!

/-! ## Appending to an accepted file -/

/-- What `Load` returns and does on a file of a valid layout. -/
theorem Load_layout_outcome (fs : FileSystemCore) (filename : String) (t : GmdFile)
    (ht : t.Valid) (hopen : fs.OpenRead filename = some t.enc) :
    Model.Load (some fs) filename =
      { result := some t.model, events := [Event.close],
        final := some ⟨⟨t.tail.unread, t.tail.over⟩, some t.model⟩ } :=
  Load_of_body_ok fs filename t.enc _ hopen (body_run t ht)

/-- A file of a valid layout followed by more bytes has a valid layout with
the same model; when `Load` leaves the cursor inside the first file, the bytes
added are left unread as well. -/
theorem layout_append (t : GmdFile) (ht : t.Valid) (extra : List Byte) :
    ∃ t2 : GmdFile, t2.Valid ∧ t2.enc = t.enc ++ extra ∧ t2.model = t.model ∧
      (t.tail.over = 0 → t2.tail.unread = t.tail.unread ++ extra ∧ t2.tail.over = 0) := by
  obtain ⟨mn, au, ap, nb, nm, cs, tl⟩ := t
  obtain ⟨h1, h2, h3, hnb, hnm, hnc, hcs, htl⟩ := ht
  cases tl with
  | bytes rest =>
    refine ⟨⟨mn, au, ap, nb, nm, cs, Tail.bytes (rest ++ extra)⟩,
      ⟨h1, h2, h3, hnb, hnm, hnc, hcs, trivial⟩, ?_, rfl, fun _ => ⟨rfl, rfl⟩⟩
    simp only [GmdFile.enc, Tail.enc, Tail.count, List.append_assoc]
  | cut name size entries payload =>
    obtain ⟨hn, hib, him, hs, he, hp⟩ := htl
    have hover : (Tail.cut name size entries payload).over ≠ 0 := by
      simp only [Tail.over]
      omega
    by_cases hlt : (payload ++ extra).length < size
    · refine ⟨⟨mn, au, ap, nb, nm, cs, Tail.cut name size entries (payload ++ extra)⟩,
        ⟨h1, h2, h3, hnb, hnm, hnc, hcs, ⟨hn, hib, him, hs, he, hlt⟩⟩, ?_, rfl,
        fun h0 => absurd h0 hover⟩
      simp only [GmdFile.enc, Tail.enc, Tail.count, List.append_assoc]
    · have hlen : ((payload ++ extra).take size).length = size := by
        rw [List.length_take]
        omega
      have hcv : (Chunk.skipped name entries ((payload ++ extra).take size)).Valid nb nm :=
        ⟨hn, hib, him, he, by rw [hlen]; exact hs⟩
      refine ⟨⟨mn, au, ap, nb, nm, cs ++ [Chunk.skipped name entries ((payload ++ extra).take size)],
        Tail.bytes ((payload ++ extra).drop size)⟩,
        ⟨h1, h2, h3, hnb, hnm, ?_, ?_, trivial⟩, ?_, ?_, fun h0 => absurd h0 hover⟩
      · simpa only [List.length_append, List.length_singleton, Tail.count, Nat.add_zero]
          using hnc
      · intro c hc
        rcases List.mem_append.mp hc with hc | hc
        · exact hcs c hc
        · rw [List.mem_singleton.mp hc]
          exact hcv
      · simp only [GmdFile.enc, Tail.enc, Tail.count, List.length_append, List.length_singleton,
          Nat.add_zero, encList_append, encList, Chunk.enc, encChunk, hlen, List.append_nil,
          List.append_assoc, List.take_append_drop]
      · simp only [GmdFile.model, chunkBones_append, chunkMeshes_append, chunkBones,
          chunkMeshes, Chunk.bonesOf, Chunk.meshesOf, List.append_nil]

/-- C24 (trailing data is ignored). When `Load` accepts a file and returns the
model `m`, it accepts the file followed by any bytes and returns an equal
model, without an error. It does not read past the last chunk: when it left
the cursor inside the first file, it leaves the cursor of the longer file at
the same place, with the old unread bytes and all the added bytes unread. -/
theorem Load_trailing_data (fs fs2 : FileSystemCore) (filename file2 : String)
    (bytes extra : List Byte) (m : Model)
    (hopen : fs.OpenRead filename = some bytes)
    (hacc : (Model.Load (some fs) filename).result = some m)
    (hopen2 : fs2.OpenRead file2 = some (bytes ++ extra)) :
    (Model.Load (some fs2) file2).result = some m ∧
    (Model.Load (some fs2) file2).events = [Event.close] ∧
    (∀ st : LoadState, (Model.Load (some fs) filename).final = some st → st.file.over = 0 →
      (Model.Load (some fs2) file2).final = some ⟨⟨st.file.rest ++ extra, 0⟩, some m⟩) := by
  obtain ⟨t, ht, hb, hm⟩ := Load_accepts_inv fs filename bytes m hopen hacc
  subst hb hm
  obtain ⟨t2, ht2, he2, hm2, hun⟩ := layout_append t ht extra
  have hout := Load_layout_outcome fs filename t ht hopen
  have hout2 := Load_layout_outcome fs2 file2 t2 ht2 (he2 ▸ hopen2)
  rw [hout, hout2]
  refine ⟨by rw [hm2], rfl, ?_⟩
  intro st hst hov
  simp only [Option.some.injEq] at hst
  subst hst
  obtain ⟨hu, ho⟩ := hun hov
  simp only [hu, ho, hm2]

set_option maxRecDepth 100000 in
/-- The scenario file followed by three more bytes loads as the scenario file
does, and the three bytes are left unread. -/
theorem Load_trailing_data_witness :
    (Model.Load (some (readableFS (gmdBytes scenarioName scenarioModel))) scenarioName).result =
      some scenarioModel ∧
    (Model.Load (some (readableFS (gmdBytes scenarioName scenarioModel ++ [1, 2, 3])))
      scenarioName).result = some scenarioModel ∧
    (Model.Load (some (readableFS (gmdBytes scenarioName scenarioModel ++ [1, 2, 3])))
      scenarioName).final = some ⟨⟨[1, 2, 3], 0⟩, some scenarioModel⟩ := by
  have hacc : (Model.Load (some (readableFS (gmdBytes scenarioName scenarioModel)))
      scenarioName).result = some scenarioModel := by
    rw [Load_gmdBytes (readableFS (gmdBytes scenarioName scenarioModel)) scenarioName
      scenarioName scenarioModel (by decide) (by decide) rfl]
    rfl
  have hfin : (Model.Load (some (readableFS (gmdBytes scenarioName scenarioModel)))
      scenarioName).final = some ⟨⟨[], 0⟩, some scenarioModel⟩ := by
    rw [Load_gmdBytes (readableFS (gmdBytes scenarioName scenarioModel)) scenarioName
      scenarioName scenarioModel (by decide) (by decide) rfl]
    rfl
  have h := Load_trailing_data (readableFS (gmdBytes scenarioName scenarioModel))
    (readableFS (gmdBytes scenarioName scenarioModel ++ [1, 2, 3])) scenarioName scenarioName
    (gmdBytes scenarioName scenarioModel) [1, 2, 3] scenarioModel rfl hacc rfl
  exact ⟨hacc, h.1, h.2.2 _ hfin rfl⟩

/-! ## The chunks of an accepted file and its model -/

theorem lower_strBones : strBones.map toLower = [98, 111, 110, 101, 115] := by decide

theorem lower_strMeshes : strMeshes.map toLower = [109, 101, 115, 104, 101, 115] := by decide

/-- A name that compares equal to "Bones" does not compare equal to "Meshes". -/
theorem Icmp_bones_not_meshes (name : String) (h : String.Icmp name strBones = 0) :
    String.Icmp name strMeshes ≠ 0 := by
  unfold String.Icmp at h ⊢
  rw [lower_strBones] at h
  rw [lower_strMeshes]
  cases name with
  | nil => exact absurd h (by decide)
  | cons x xs =>
    simp only [List.map_cons, String.Cmp] at h ⊢
    by_cases hx : toLower x = 98
    · rw [hx, if_pos (by decide)]
      decide
    · simp only [hx, ne_eq, not_false_eq_true, if_true] at h
      exfalso
      apply hx
      apply Fin.ext
      have : ((toLower x).val : Int) = 98 := by
        have h2 : ((toLower x).val : Int) - ((98 : Byte).val : Int) = 0 := h
        have h3 : ((98 : Byte).val : Int) = 98 := rfl
        omega
      have h4 : (toLower x).val = 98 := by exact_mod_cast this
      exact h4

theorem namedCount_cons (ref n : String) (ns : List String) :
    namedCount ref (n :: ns) =
      namedCount ref ns + (if String.Icmp n ref = 0 then 1 else 0) := by
  unfold namedCount
  rw [List.countP_cons]
  by_cases h : String.Icmp n ref = 0 <;> simp [h]

theorem namedCount_append (ref : String) (a b : List String) :
    namedCount ref (a ++ b) = namedCount ref a + namedCount ref b := by
  unfold namedCount
  exact List.countP_append _ a b

/-- Each chunk named "Bones" adds `numBones` bones, each chunk named "Meshes"
adds `numMeshes` meshes, and no other chunk adds any. -/
theorem chunk_counts (numBones numMeshes : Nat) (cs : List Chunk)
    (hcs : ∀ c ∈ cs, c.Valid numBones numMeshes) :
    (chunkBones cs).length = numBones * namedCount strBones (cs.map Chunk.name) ∧
    (chunkMeshes cs).length = numMeshes * namedCount strMeshes (cs.map Chunk.name) := by
  induction cs with
  | nil => exact ⟨rfl, rfl⟩
  | cons c cs ih =>
    obtain ⟨ih1, ih2⟩ := ih (fun d hd => hcs d (List.mem_cons_of_mem c hd))
    have hc := hcs c (List.mem_cons_self c cs)
    cases c with
    | bones name size bs =>
      obtain ⟨_, hi, _, hl, _⟩ := hc
      have hnm := Icmp_bones_not_meshes name hi
      simp only [chunkBones, chunkMeshes, Chunk.bonesOf, Chunk.meshesOf, List.map_cons,
        Chunk.name, namedCount_cons, hi, hnm, if_true, if_false, List.length_append, hl, ih1,
        ih2, List.nil_append, Nat.add_zero, Nat.mul_add, Nat.mul_one]
      exact ⟨Nat.add_comm _ _, trivial⟩
    | meshes name size ms =>
      obtain ⟨_, hib, hi, _, hl, _⟩ := hc
      simp only [chunkBones, chunkMeshes, Chunk.bonesOf, Chunk.meshesOf, List.map_cons,
        Chunk.name, namedCount_cons, hi, hib, if_true, if_false, List.length_append, hl, ih1,
        ih2, List.nil_append, Nat.add_zero, Nat.mul_add, Nat.mul_one]
      exact ⟨trivial, Nat.add_comm _ _⟩
    | skipped name entries payload =>
      obtain ⟨_, hib, him, _, _⟩ := hc
      simp only [chunkBones, chunkMeshes, Chunk.bonesOf, Chunk.meshesOf, List.map_cons,
        Chunk.name, namedCount_cons, hib, him, if_false, ih1, ih2, List.nil_append,
        Nat.add_zero, and_self]

/-- The names of the chunks of a valid layout: only those of the chunks read
in full can compare equal to "Bones" or to "Meshes". -/
theorem layout_counts (t : GmdFile) (ht : t.Valid) :
    t.chunkNames.length = t.chunks.length + t.tail.count ∧
    t.model.bones.length = t.numBones * namedCount strBones t.chunkNames ∧
    t.model.meshes.length = t.numMeshes * namedCount strMeshes t.chunkNames := by
  obtain ⟨_, _, _, _, _, _, hcs, htl⟩ := ht
  obtain ⟨h1, h2⟩ := chunk_counts t.numBones t.numMeshes t.chunks hcs
  have ht0 : t.tail.names.length = t.tail.count ∧ namedCount strBones t.tail.names = 0 ∧
      namedCount strMeshes t.tail.names = 0 := by
    cases htail : t.tail with
    | bytes rest => exact ⟨rfl, rfl, rfl⟩
    | cut name size entries payload =>
      rw [htail] at htl
      obtain ⟨_, hib, him, _, _, _⟩ := htl
      refine ⟨rfl, ?_, ?_⟩
      · simp only [Tail.names, namedCount_cons, hib, if_false]
        rfl
      · simp only [Tail.names, namedCount_cons, him, if_false]
        rfl
  refine ⟨?_, ?_, ?_⟩
  · simp only [GmdFile.chunkNames, List.length_append, List.length_map, ht0.1]
  · show (chunkBones t.chunks).length = _
    rw [GmdFile.chunkNames, namedCount_append, ht0.2.1, h1, Nat.add_zero]
  · show (chunkMeshes t.chunks).length = _
    rw [GmdFile.chunkNames, namedCount_append, ht0.2.2, h2, Nat.add_zero]

/-- C22 (header counts and the loaded model). Every file `Load` accepts has a
layout: a header and chunks. For each layout of the file, with `numBones`,
`numMeshes` and the chunk count as `Load` reads them from the header: the
number of bones of the model returned is `numBones` times the number of chunks
whose name compares equal to "Bones", and the number of meshes is `numMeshes`
times the number of chunks whose name compares equal to "Meshes". With no
"Bones" chunk the model has no bone whatever `numBones` is; with two it has
`2 * numBones` bones. -/
theorem Load_model_counts (fs : FileSystemCore) (filename : String) (bytes : List Byte)
    (m : Model) (hopen : fs.OpenRead filename = some bytes)
    (hacc : (Model.Load (some fs) filename).result = some m) :
    (∃ t : GmdFile, t.Valid ∧ bytes = t.enc) ∧
    ∀ t : GmdFile, t.Valid → bytes = t.enc →
      (∃ s0, Load.header ⟨⟨bytes, 0⟩, none⟩ =
        (Res.ok ⟨t.modelName, t.author, t.appName, t.numBones, t.numMeshes,
          t.chunkNames.length⟩, s0)) ∧
      m.bones.length = t.numBones * namedCount strBones t.chunkNames ∧
      m.meshes.length = t.numMeshes * namedCount strMeshes t.chunkNames ∧
      (namedCount strBones t.chunkNames = 0 → m.bones = []) ∧
      (namedCount strBones t.chunkNames = 2 → m.bones.length = 2 * t.numBones) := by
  refine ⟨?_, ?_⟩
  · obtain ⟨t, ht, hb, _⟩ := Load_accepts_inv fs filename bytes m hopen hacc
    exact ⟨t, ht, hb⟩
  · intro t ht hb
    subst hb
    have hm : m = t.model := by
      have := Load_layout fs filename t ht hopen
      rw [hacc] at this
      exact Option.some.inj this
    subst hm
    obtain ⟨hlen, hbones, hmeshes⟩ := layout_counts t ht
    obtain ⟨h1, h2, h3, hnb, hnm, hnc, _, _⟩ := ht
    refine ⟨⟨⟨⟨encList Chunk.enc t.chunks ++ t.tail.enc, 0⟩, none⟩, ?_⟩, hbones, hmeshes,
      ?_, ?_⟩
    · rw [hlen]
      exact (steps_header t.modelName t.author t.appName t.numBones t.numMeshes
        (t.chunks.length + t.tail.count) h1 h2 h3 hnb hnm hnc).1
          (encList Chunk.enc t.chunks ++ t.tail.enc) 0 none
    · intro h0
      rw [h0, Nat.mul_zero] at hbones
      exact List.eq_nil_of_length_eq_zero hbones
    · intro h2
      rw [hbones, h2, Nat.mul_comm]

set_option maxRecDepth 100000 in
/-- A file with two "Bones" chunks and no "Meshes" chunk, under a header that
announces two bones and one mesh, loads with four bones and no mesh. -/
theorem Load_model_counts_witness :
    (Model.Load (some (readableFS twoBonesLayout.enc)) scenarioName).result =
      some twoBonesLayout.model ∧
    twoBonesLayout.model.bones.length = 2 * 2 ∧
    twoBonesLayout.model.meshes.length = 1 * 0 := by
  have hacc : (Model.Load (some (readableFS twoBonesLayout.enc)) scenarioName).result =
      some twoBonesLayout.model := by decide!
  have h := (Load_model_counts (readableFS twoBonesLayout.enc) scenarioName twoBonesLayout.enc
    twoBonesLayout.model rfl hacc).2 twoBonesLayout (by decide) rfl
  exact ⟨hacc, h.2.1, h.2.2.1⟩

/-- C25 (the order of the "Bones" and "Meshes" chunks does not matter). Every
file `Load` accepts has a layout: a header and chunks. When, in a layout of the
file, a "Bones" chunk comes before a "Meshes" chunk and the chunks between
them, if any, add no bone and no mesh, the file with the two chunks exchanged
is accepted as well and `Load` returns an equal model. -/
theorem Load_chunk_order (fs : FileSystemCore) (filename : String) (bytes : List Byte)
    (m : Model) (hopen : fs.OpenRead filename = some bytes)
    (hacc : (Model.Load (some fs) filename).result = some m) :
    (∃ t : GmdFile, t.Valid ∧ bytes = t.enc) ∧
    ∀ t : GmdFile, t.Valid → bytes = t.enc →
      ∀ (cs1 mid cs2 : List Chunk) (nameB : String) (sizeB : Nat) (bs : List Bone)
        (nameM : String) (sizeM : Nat) (ms : List MeshAnimated),
        t.chunks = cs1 ++ Chunk.bones nameB sizeB bs ::
          (mid ++ Chunk.meshes nameM sizeM ms :: cs2) →
        chunkBones mid = [] → chunkMeshes mid = [] →
        bytes = encHeader GMD_VERSION t.modelName t.author t.appName t.numBones t.numMeshes
            (t.chunks.length + t.tail.count) ++
          (encList Chunk.enc cs1 ++ ((Chunk.bones nameB sizeB bs).enc ++
            (encList Chunk.enc mid ++ ((Chunk.meshes nameM sizeM ms).enc ++
              (encList Chunk.enc cs2 ++ t.tail.enc))))) ∧
        ∀ (fs2 : FileSystemCore) (file2 : String),
          fs2.OpenRead file2 = some
            (encHeader GMD_VERSION t.modelName t.author t.appName t.numBones t.numMeshes
              (t.chunks.length + t.tail.count) ++
            (encList Chunk.enc cs1 ++ ((Chunk.meshes nameM sizeM ms).enc ++
              (encList Chunk.enc mid ++ ((Chunk.bones nameB sizeB bs).enc ++
                (encList Chunk.enc cs2 ++ t.tail.enc)))))) →
          (Model.Load (some fs2) file2).result = some m := by
  refine ⟨?_, ?_⟩
  · obtain ⟨t, ht, hb, _⟩ := Load_accepts_inv fs filename bytes m hopen hacc
    exact ⟨t, ht, hb⟩
  · intro t ht hb cs1 mid cs2 nameB sizeB bs nameM sizeM ms hcs hmb hmm
    subst hb
    have hm : m = t.model := by
      have := Load_layout fs filename t ht hopen
      rw [hacc] at this
      exact Option.some.inj this
    subst hm
    refine ⟨?_, ?_⟩
    · simp only [GmdFile.enc, hcs, encList_append, encList, List.append_assoc]
    · intro fs2 file2 hopen2
      obtain ⟨h1, h2, h3, hnb, hnm, hnc, hvc, htl⟩ := ht
      have hlen : (cs1 ++ Chunk.meshes nameM sizeM ms ::
          (mid ++ Chunk.bones nameB sizeB bs :: cs2)).length = t.chunks.length := by
        rw [hcs]
        simp only [List.length_append, List.length_cons]
      have hval : GmdFile.Valid ⟨t.modelName, t.author, t.appName, t.numBones, t.numMeshes,
          cs1 ++ Chunk.meshes nameM sizeM ms :: (mid ++ Chunk.bones nameB sizeB bs :: cs2),
          t.tail⟩ := by
        refine ⟨h1, h2, h3, hnb, hnm, ?_, ?_, htl⟩
        · show IsU32 ((cs1 ++ Chunk.meshes nameM sizeM ms ::
            (mid ++ Chunk.bones nameB sizeB bs :: cs2)).length + t.tail.count)
          rw [hlen]
          exact hnc
        · intro c hc
          apply hvc c
          rw [hcs]
          simp only [List.mem_append, List.mem_cons] at hc ⊢
          tauto
      have henc : GmdFile.enc ⟨t.modelName, t.author, t.appName, t.numBones, t.numMeshes,
          cs1 ++ Chunk.meshes nameM sizeM ms :: (mid ++ Chunk.bones nameB sizeB bs :: cs2),
          t.tail⟩ =
          encHeader GMD_VERSION t.modelName t.author t.appName t.numBones t.numMeshes
              (t.chunks.length + t.tail.count) ++
            (encList Chunk.enc cs1 ++ ((Chunk.meshes nameM sizeM ms).enc ++
              (encList Chunk.enc mid ++ ((Chunk.bones nameB sizeB bs).enc ++
                (encList Chunk.enc cs2 ++ t.tail.enc))))) := by
        simp only [GmdFile.enc, hlen, encList_append, encList, List.append_assoc]
      rw [← henc] at hopen2
      rw [Load_layout fs2 file2 _ hval hopen2]
      simp only [GmdFile.model, hcs, chunkBones_append, chunkMeshes_append, chunkBones,
        chunkMeshes, Chunk.bonesOf, Chunk.meshesOf, hmb, hmm, List.append_nil, List.nil_append]

set_option maxRecDepth 100000 in
/-- The scenario file with its "Meshes" chunk before its "Bones" chunk loads as
the scenario file does. -/
theorem Load_chunk_order_witness :
    (Model.Load (some (readableFS scenarioLayout.enc)) scenarioName).result =
      some scenarioModel ∧
    (Model.Load (some (readableFS (scenarioHeader ++ (scenarioMeshes ++ scenarioBones))))
      scenarioName).result = some scenarioModel := by
  have hacc : (Model.Load (some (readableFS scenarioLayout.enc)) scenarioName).result =
      some scenarioModel := by decide!
  have h := ((Load_chunk_order (readableFS scenarioLayout.enc) scenarioName scenarioLayout.enc
    scenarioModel rfl hacc).2 scenarioLayout (by decide) rfl [] [] [] strBones 81
    scenarioModel.bones strMeshes 172 scenarioModel.meshes rfl rfl rfl).2
    (readableFS (scenarioHeader ++ (scenarioMeshes ++ scenarioBones))) scenarioName (by decide!)
  exact ⟨hacc, h⟩

/-! ## `Load` when `new` can fail -/

theorem bindA_ok {σ α β : Type} {x : MA σ α} {f : α → MA σ β} {s s1 : σ} {a : α}
    (h : x s = (ResA.ok a, s1)) : (x >>= f) s = f a s1 := by
  show MA.bind x f s = f a s1
  unfold MA.bind
  rw [h]

theorem bindA_thrown {σ α β : Type} {x : MA σ α} {f : α → MA σ β} {s s1 : σ} {t : Thrown}
    (h : x s = (ResA.thrown t, s1)) : (x >>= f) s = (ResA.thrown t, s1) := by
  show MA.bind x f s = (ResA.thrown t, s1)
  unfold MA.bind
  rw [h]

theorem ofM_ok {σ α : Type} {x : M σ α} {s s1 : σ} {a : α} (h : x s = (Res.ok a, s1)) :
    MA.ofM x s = (ResA.ok a, s1) := by
  unfold MA.ofM
  rw [h]

theorem alloc_ok {σ : Type} (cap n : Nat) (s : σ) (h : n ≤ cap) :
    alloc cap n s = (ResA.ok (), s) := by
  unfold alloc
  rw [if_pos h]

theorem alloc_fail {σ : Type} (cap n : Nat) (s : σ) (h : cap < n) :
    alloc cap n s = (ResA.thrown Thrown.badAlloc, s) := by
  unfold alloc
  rw [if_neg (Nat.not_le.mpr h)]

/-- A mesh record that announces more vertices than the allocator provides:
`new MeshAnimated` succeeds, the name, the material, the flags, the detail level
and the vertex count are read, and `InitVertices` throws `std::bad_alloc`. -/
theorem mesh_bad_alloc (cap : Nat) (h1 : 1 ≤ cap) (name material : String)
    (flags detailLevel : Int) (numVerts : Nat) (hn : String.Valid name)
    (hm : String.Valid material) (hf : IsI32 flags) (hd : IsI32 detailLevel)
    (hv : IsU32 numVerts) (h2 : cap < numVerts) (r : List Byte) (o : Nat) (m : Model) :
    LoadA.mesh cap ⟨⟨encStr name ++ (encStr material ++ (encInt flags ++
        (encInt detailLevel ++ (encUint numVerts ++ r)))), o⟩, some m⟩ =
      (ResA.thrown Thrown.badAlloc, ⟨⟨r, o⟩, some { m with meshes := m.meshes ++
        [⟨name, material, flags, detailLevel, 0, 0, [], [], []⟩] }⟩) := by
  unfold LoadA.mesh
  rw [bindA_ok (alloc_ok cap 1 _ h1),
    bindA_ok (ofM_ok (rfl : onModel _ _ = (Res.ok (), _))),
    bindA_ok (ofM_ok (onFile_ok _ ((decodes_ReadFromFile name hn).1 _ o))),
    bindA_ok (ofM_ok (rfl : onMesh _ _ = (Res.ok (), _))),
    bindA_ok (ofM_ok (onFile_ok _ ((decodes_ReadFromFile material hm).1 _ o))),
    bindA_ok (ofM_ok (rfl : onMesh _ _ = (Res.ok (), _))),
    bindA_ok (ofM_ok (onFile_ok _ ((decodes_ReadInt flags hf).1 _ o))),
    bindA_ok (ofM_ok (rfl : onMesh _ _ = (Res.ok (), _))),
    bindA_ok (ofM_ok (onFile_ok _ ((decodes_ReadInt detailLevel hd).1 _ o))),
    bindA_ok (ofM_ok (rfl : onMesh _ _ = (Res.ok (), _))),
    bindA_ok (ofM_ok (onFile_ok _ ((decodes_ReadUint numVerts hv).1 _ o))),
    bindA_thrown (alloc_fail cap numVerts _ h2)]
  simp [modifyLast_append_singleton, MeshAnimated.blank]

/-- How a call of `Load` on an opened file ends, by the way its try block
ends: normally, with a `FileReadWriteError`, or with `std::bad_alloc`. -/
theorem LoadA_cases (cap : Nat) (fs : FileSystemCore) (filename : String) (bytes : List Byte)
    (hopen : fs.OpenRead filename = some bytes) :
    (∃ s, LoadA.body cap ⟨⟨bytes, 0⟩, none⟩ = (ResA.ok (), s) ∧
      Model.LoadA cap (some fs) filename =
        { completion := Completion.returned s.model, events := [Event.close],
          final := some s }) ∨
    (∃ e s, LoadA.body cap ⟨⟨bytes, 0⟩, none⟩ = (ResA.thrown (Thrown.fileError e), s) ∧
      Model.LoadA cap (some fs) filename =
        { completion := Completion.returned none,
          events := [Event.close, Event.deleteModel s.model, Event.error e filename],
          final := some s }) ∨
    (∃ s, LoadA.body cap ⟨⟨bytes, 0⟩, none⟩ = (ResA.thrown Thrown.badAlloc, s) ∧
      Model.LoadA cap (some fs) filename =
        { completion := Completion.escaped Thrown.badAlloc, events := [],
          final := some s }) := by
  unfold Model.LoadA
  simp only [hopen]
  rcases hb : LoadA.body cap ⟨⟨bytes, 0⟩, none⟩ with ⟨res, s⟩
  cases res with
  | ok u => exact Or.inl ⟨s, rfl, rfl⟩
  | thrown t =>
    cases t with
    | fileError e => exact Or.inr (Or.inl ⟨e, s, rfl, rfl⟩)
    | badAlloc => exact Or.inr (Or.inr ⟨s, rfl, rfl⟩)

/-- C8 (all-or-nothing, the stream closed once on every path) does not hold of
the code: the handler of `Load` is `catch( FileReadWriteError &err )`, and a
`new` expression inside the try block can throw `std::bad_alloc`. Take a file
with a valid header that announces one mesh and one chunk, whose chunk is named
"Meshes", has one entry, and holds a mesh record with a vertex count that the
allocator does not provide. `Load` opens the file, reads up to the vertex count,
and `InitVertices` throws: the call is left by the exception, with no `Close` of
the file, no `delete` of the model that holds the partially read mesh, no error
report and no return value. On the other paths the claim holds: a try block
that ends normally or with a `FileReadWriteError` closes the file once, and
returns the model of the complete parse, or deletes the model and returns
`NULL`. -/
theorem Load_bad_alloc_escapes (cap : Nat) (fs : FileSystemCore) (filename : String)
    (modelName author appName : String) (numBones size : Nat) (name material : String)
    (flags detailLevel : Int) (numVerts : Nat) (r : List Byte)
    (hmn : String.Valid modelName) (hau : String.Valid author) (hap : String.Valid appName)
    (hnb : IsU32 numBones) (hsz : IsU32 size) (hn : String.Valid name)
    (hm : String.Valid material) (hf : IsI32 flags) (hd : IsI32 detailLevel)
    (hv : IsU32 numVerts) (h1 : 1 ≤ cap) (h2 : cap < numVerts)
    (hopen : fs.OpenRead filename = some
      (encHeader GMD_VERSION modelName author appName numBones 1 1 ++
        (encStr strMeshes ++ (encUint size ++ (encUint 1 ++
          (encStr name ++ (encStr material ++ (encInt flags ++ (encInt detailLevel ++
            (encUint numVerts ++ r)))))))))) :
    Model.LoadA cap (some fs) filename =
      { completion := Completion.escaped Thrown.badAlloc, events := [],
        final := some ⟨⟨r, 0⟩,
          some ⟨true, [], [⟨name, material, flags, detailLevel, 0, 0, [], [], []⟩]⟩⟩ } ∧
    Event.close ∉ (Model.LoadA cap (some fs) filename).events ∧
    (∀ (cap2 : Nat) (fs2 : FileSystemCore) (file2 : String) (bytes : List Byte),
      fs2.OpenRead file2 = some bytes →
      (∃ s, LoadA.body cap2 ⟨⟨bytes, 0⟩, none⟩ = (ResA.ok (), s) ∧
        Model.LoadA cap2 (some fs2) file2 =
          { completion := Completion.returned s.model, events := [Event.close],
            final := some s }) ∨
      (∃ e s, LoadA.body cap2 ⟨⟨bytes, 0⟩, none⟩ = (ResA.thrown (Thrown.fileError e), s) ∧
        Model.LoadA cap2 (some fs2) file2 =
          { completion := Completion.returned none,
            events := [Event.close, Event.deleteModel s.model, Event.error e file2],
            final := some s }) ∨
      (∃ s, LoadA.body cap2 ⟨⟨bytes, 0⟩, none⟩ = (ResA.thrown Thrown.badAlloc, s) ∧
        Model.LoadA cap2 (some fs2) file2 =
          { completion := Completion.escaped Thrown.badAlloc, events := [],
            final := some s })) := by
  have ho : IsU32 1 := by decide
  have hmesh := mesh_bad_alloc cap h1 name material flags detailLevel numVerts hn hm hf hd hv
    h2 r 0 (Model.new true)
  have hloop : forIdx (fun _ => LoadA.mesh cap) 0 1
      ⟨⟨encStr name ++ (encStr material ++ (encInt flags ++ (encInt detailLevel ++
        (encUint numVerts ++ r)))), 0⟩, some (Model.new true)⟩ =
      (ResA.thrown Thrown.badAlloc, ⟨⟨r, 0⟩,
        some ⟨true, [], [⟨name, material, flags, detailLevel, 0, 0, [], [], []⟩]⟩⟩) := by
    show (LoadA.mesh cap >>= fun _ => forIdx (fun _ => LoadA.mesh cap) 1 0) _ = _
    rw [bindA_thrown hmesh]
    rfl
  have hchunk : LoadA.chunk cap numBones 1
      ⟨⟨encStr strMeshes ++ (encUint size ++ (encUint 1 ++
        (encStr name ++ (encStr material ++ (encInt flags ++ (encInt detailLevel ++
          (encUint numVerts ++ r))))))), 0⟩, some (Model.new true)⟩ =
      (ResA.thrown Thrown.badAlloc, ⟨⟨r, 0⟩,
        some ⟨true, [], [⟨name, material, flags, detailLevel, 0, 0, [], [], []⟩]⟩⟩) := by
    unfold LoadA.chunk
    rw [bindA_ok (ofM_ok (onFile_ok _ ((decodes_ReadFromFile strMeshes (by decide)).1 _ 0))),
      bindA_ok (ofM_ok (onFile_ok _ ((decodes_ReadUint size hsz).1 _ 0))),
      bindA_ok (ofM_ok (onFile_ok _ ((decodes_ReadUint 1 ho).1 _ 0)))]
    simp only [Icmp_strMeshes_strBones, Icmp_strMeshes, if_true, if_false, ne_eq,
      not_true_eq_false]
    exact hloop
  have hbody : LoadA.body cap
      ⟨⟨encHeader GMD_VERSION modelName author appName numBones 1 1 ++
        (encStr strMeshes ++ (encUint size ++ (encUint 1 ++
          (encStr name ++ (encStr material ++ (encInt flags ++ (encInt detailLevel ++
            (encUint numVerts ++ r)))))))), 0⟩, none⟩ =
      (ResA.thrown Thrown.badAlloc, ⟨⟨r, 0⟩,
        some ⟨true, [], [⟨name, material, flags, detailLevel, 0, 0, [], [], []⟩]⟩⟩) := by
    unfold LoadA.body
    rw [bindA_ok (ofM_ok ((steps_header modelName author appName numBones 1 1 hmn hau hap hnb
        ho ho).1 _ 0 none)),
      bindA_ok (alloc_ok cap 1 _ h1),
      bindA_ok (ofM_ok (rfl : newModel _ = (Res.ok (), _)))]
    show (LoadA.chunk cap numBones 1 >>= fun _ =>
      forIdx (fun _ => LoadA.chunk cap numBones 1) 1 0) _ = _
    rw [bindA_thrown hchunk]
  have hout : Model.LoadA cap (some fs) filename =
      { completion := Completion.escaped Thrown.badAlloc, events := [],
        final := some ⟨⟨r, 0⟩,
          some ⟨true, [], [⟨name, material, flags, detailLevel, 0, 0, [], [], []⟩]⟩⟩ } := by
    unfold Model.LoadA
    simp only [hopen, hbody]
  refine ⟨hout, ?_, fun cap2 fs2 file2 bytes h => LoadA_cases cap2 fs2 file2 bytes h⟩
  rw [hout]
  exact List.not_mem_nil _

set_option maxRecDepth 100000 in
/-- The file of 70 bytes whose mesh announces `2^32 - 1` vertices, with an
allocator that provides arrays of up to 1000 objects: `Load` is left by
`std::bad_alloc` with the file open. With the same allocator the scenario file
is loaded, and the scenario file without its last byte is rejected with one
`Close`. -/
theorem Load_bad_alloc_escapes_witness :
    Model.LoadA 1000 (some (readableFS hugeVertsFile)) [] =
      { completion := Completion.escaped Thrown.badAlloc, events := [],
        final := some ⟨⟨[], 0⟩, some ⟨true, [], [⟨[], [], 0, 0, 0, 0, [], [], []⟩]⟩⟩ } ∧
    Model.LoadA 1000 (some (readableFS (gmdBytes scenarioName scenarioModel))) scenarioName =
      { completion := Completion.returned (some scenarioModel), events := [Event.close],
        final := some ⟨⟨[], 0⟩, some scenarioModel⟩ } ∧
    (Model.LoadA 1000 (some (readableFS truncatedFile)) scenarioName).completion =
      Completion.returned none ∧
    (Model.LoadA 1000 (some (readableFS truncatedFile)) scenarioName).events.count
      Event.close = 1 :=
  ⟨(Load_bad_alloc_escapes 1000 (readableFS hugeVertsFile) [] [] [] [] 0 0 [] [] 0 0 4294967295
      [] (by decide) (by decide) (by decide) (by decide) (by decide) (by decide) (by decide)
      (by decide) (by decide) (by decide) (by decide) (by decide) rfl).1,
    by decide!, by decide!, by decide!⟩

/-! ## `Model.Load` and `Model.LoadA` -/

theorem ofM_error {σ α : Type} {x : M σ α} {s s1 : σ} {e : FileReadWriteError}
    (h : x s = (Res.error e, s1)) :
    (MA.ofM x : MA σ α) s = (ResA.thrown (Thrown.fileError e), s1) := by
  unfold MA.ofM
  rw [h]

theorem refines_ofM {α : Type} (x : M LoadState α) : Refines x (MA.ofM x) := by
  intro s
  refine Or.inr ⟨fun a s1 h => ofM_ok h, fun e s1 h => ⟨s1.model, ?_⟩⟩
  exact ofM_error h

theorem refines_bind {α β : Type} {x : M LoadState α} {xa : MA LoadState α}
    {f : α → M LoadState β} {fa : α → MA LoadState β}
    (h : Refines x xa) (hf : ∀ a, Refines (f a) (fa a)) :
    Refines (x >>= f) (xa >>= fa) := by
  intro s
  rcases h s with ⟨st, hb⟩ | ⟨hok, herr⟩
  · exact Or.inl ⟨st, bindA_thrown hb⟩
  · rcases M.run_cases x s with ⟨a, s1, hx⟩ | ⟨e, s1, hx⟩
    · have hxa := hok a s1 hx
      rw [M.bind_ok hx, bindA_ok hxa]
      exact hf a s1
    · obtain ⟨mo, hxa⟩ := herr e s1 hx
      rw [M.bind_error hx, bindA_thrown hxa]
      refine Or.inr ⟨fun a s2 h => ?_, fun e2 s2 h => ?_⟩
      · simp at h
      · simp only [Prod.mk.injEq, Res.error.injEq] at h
        obtain ⟨he, hs⟩ := h
        subst he hs
        exact ⟨mo, rfl⟩

/-- A `new` expression in front of a statement: it fails, or the statement
runs as before. -/
theorem refines_alloc {α : Type} {x : M LoadState α} {xa : MA LoadState α} (cap n : Nat)
    (h : Refines x xa) : Refines x (alloc cap n >>= fun _ => xa) := by
  intro s
  by_cases hn : n ≤ cap
  · rw [bindA_ok (alloc_ok cap n s hn)]
    exact h s
  · exact Or.inl ⟨s, bindA_thrown (alloc_fail cap n s (Nat.not_le.mp hn))⟩

theorem refines_ite {α : Type} (c : Prop) [Decidable c] {x y : M LoadState α}
    {xa ya : MA LoadState α} (hx : Refines x xa) (hy : Refines y ya) :
    Refines (if c then x else y) (if c then xa else ya) := by
  by_cases hc : c
  · simp only [hc, if_true]
    exact hx
  · simp only [hc, if_false]
    exact hy

theorem refines_ret {α : Type} (a : α) :
    Refines (Pure.pure a : M LoadState α) (Pure.pure a : MA LoadState α) := by
  intro s
  refine Or.inr ⟨fun b s1 h => ?_, fun e s1 h => ?_⟩
  · have h2 : (Res.ok a, s) = (Res.ok b, s1) := h
    simp only [Prod.mk.injEq, Res.ok.injEq] at h2
    obtain ⟨hb, hs⟩ := h2
    subst hb hs
    rfl
  · have h2 : (Res.ok a, s) = (Res.error e, s1) := h
    simp at h2

theorem refines_forIdx {b : M LoadState Unit} {ba : MA LoadState Unit} (h : Refines b ba)
    (i n : Nat) : Refines (og.forN b n) (forIdx (fun _ => ba) i n) := by
  induction n generalizing i with
  | zero => exact refines_ret ()
  | succ n ih => exact refines_bind h (fun _ => ih (i + 1))

/-! ### Buffers filled slot by slot -/

theorem modifyLast_cons_cons {α : Type} (g : α → α) (a b : α) (l : List α) :
    modifyLast g (a :: b :: l) = a :: modifyLast g (b :: l) := rfl

theorem modifyLast_ne_nil {α : Type} (g : α → α) (b : α) (l : List α) :
    ∃ c l2, modifyLast g (b :: l) = c :: l2 := by
  cases l with
  | nil => exact ⟨g b, [], rfl⟩
  | cons c l => exact ⟨b, modifyLast g (c :: l), rfl⟩

theorem modifyLast_comp {α : Type} (g h : α → α) (l : List α) :
    modifyLast g (modifyLast h l) = modifyLast (fun a => g (h a)) l := by
  induction l with
  | nil => rfl
  | cons a l ih =>
    cases l with
    | nil => rfl
    | cons b l =>
      obtain ⟨c, l2, hc⟩ := modifyLast_ne_nil h b l
      rw [modifyLast_cons_cons, modifyLast_cons_cons, hc, modifyLast_cons_cons, ← hc, ih]

theorem modifyLast_id {α : Type} (l : List α) : modifyLast (fun a => a) l = l := by
  induction l with
  | nil => rfl
  | cons a l ih =>
    cases l with
    | nil => rfl
    | cons b l => rw [modifyLast_cons_cons, ih]

theorem modifyLast_congr {α : Type} {g h : α → α} (hgh : ∀ a, g a = h a) (l : List α) :
    modifyLast g l = modifyLast h l := by
  have : g = h := funext hgh
  rw [this]

theorem modifyAt_comp {α : Type} (g h : α → α) (k : Nat) (l : List α) :
    modifyAt g k (modifyAt h k l) = modifyAt (fun a => g (h a)) k l := by
  induction l generalizing k with
  | nil => cases k <;> rfl
  | cons a l ih =>
    cases k with
    | zero => rfl
    | succ k =>
      simp only [modifyAt]
      rw [ih]

theorem modifyAt_id {α : Type} (k : Nat) (l : List α) : modifyAt (fun a => a) k l = l := by
  induction l generalizing k with
  | nil => cases k <;> rfl
  | cons a l ih =>
    cases k with
    | zero => rfl
    | succ k =>
      simp only [modifyAt]
      rw [ih]

theorem liftMesh_comp (g h : MeshAnimated → MeshAnimated) (m : Model) :
    liftMesh g (liftMesh h m) = liftMesh (fun mesh => g (h mesh)) m := by
  simp only [liftMesh, modifyLast_comp]

theorem liftMesh_id (m : Model) : liftMesh (fun mesh => mesh) m = m := by
  simp only [liftMesh, modifyLast_id]

theorem map_liftMesh_comp (g h : MeshAnimated → MeshAnimated) (mo : Option Model) :
    (mo.map (liftMesh h)).map (liftMesh g) = mo.map (liftMesh fun mesh => g (h mesh)) := by
  cases mo with
  | none => rfl
  | some m => simp only [Option.map_some', liftMesh_comp]

theorem map_liftMesh_id (mo : Option Model) : mo.map (liftMesh fun mesh => mesh) = mo := by
  cases mo with
  | none => rfl
  | some m => simp only [Option.map_some', liftMesh_id]

theorem map_liftMesh_congr {g h : MeshAnimated → MeshAnimated} (hgh : ∀ mesh, g mesh = h mesh)
    (mo : Option Model) : mo.map (liftMesh g) = mo.map (liftMesh h) := by
  have : g = h := funext hgh
  rw [this]

theorem onMesh_run (g : MeshAnimated → MeshAnimated) (f : InFile) (mo : Option Model) :
    onMesh g ⟨f, mo⟩ = (Res.ok (), ⟨f, mo.map (liftMesh g)⟩) := rfl

theorem readN_length {σ α : Type} (x : M σ α) (n : Nat) (s s1 : σ) (as : List α)
    (h : og.readN x n s = (Res.ok as, s1)) : as.length = n := by
  induction n generalizing s s1 as with
  | zero =>
    have h2 : (Res.ok ([] : List α), s) = (Res.ok as, s1) := h
    simp only [Prod.mk.injEq, Res.ok.injEq] at h2
    rw [← h2.1]
    rfl
  | succ n ih =>
    have h2 : (x >>= fun a => og.readN x n >>= fun l => (Pure.pure (a :: l) : M σ (List α))) s =
        (Res.ok as, s1) := h
    obtain ⟨a, s2, _, h2⟩ := M.bind_eq_ok h2
    obtain ⟨l, s3, h3, h2⟩ := M.bind_eq_ok h2
    have h4 : (Res.ok (a :: l), s3) = (Res.ok as, s1) := h2
    simp only [Prod.mk.injEq, Res.ok.injEq] at h4
    rw [← h4.1, List.length_cons, ih s2 s3 l h3]

/-- A loop that fills the slots `i`, `i + 1`, ... reads what `readN` reads and
stores the values in order. -/
theorem elemSpec_forIdx {α : Type} {body : Nat → MA LoadState Unit} {read : M InFile α}
    {put : Nat → α → MeshAnimated → MeshAnimated} (h : ElemSpec body read put) (n : Nat) :
    ElemSpec (fun i => forIdx body i n) (og.readN read n) (putAll put) := by
  induction n with
  | zero =>
    intro i f mo
    refine Or.inr ⟨fun as f1 hr => ?_, fun e f1 hr => ?_⟩
    · have h2 : (Res.ok ([] : List α), f) = (Res.ok as, f1) := hr
      simp only [Prod.mk.injEq, Res.ok.injEq] at h2
      obtain ⟨ha, hf⟩ := h2
      subst ha hf
      show (ResA.ok (), (⟨f, mo⟩ : LoadState)) = _
      simp only [putAll, map_liftMesh_id]
    · have h2 : (Res.ok ([] : List α), f) = (Res.error e, f1) := hr
      simp at h2
  | succ n ih =>
    intro i f mo
    show (∃ st, (body i >>= fun _ => forIdx body (i + 1) n) ⟨f, mo⟩ = _) ∨
      ((∀ as f1, (read >>= fun a => og.readN read n >>= fun l =>
          (Pure.pure (a :: l) : M InFile (List α))) f = (Res.ok as, f1) →
        (body i >>= fun _ => forIdx body (i + 1) n) ⟨f, mo⟩ = _) ∧
       (∀ e f1, (read >>= fun a => og.readN read n >>= fun l =>
          (Pure.pure (a :: l) : M InFile (List α))) f = (Res.error e, f1) →
        ∃ mo1, (body i >>= fun _ => forIdx body (i + 1) n) ⟨f, mo⟩ = _))
    rcases h i f mo with ⟨st, hb⟩ | ⟨hok, herr⟩
    · exact Or.inl ⟨st, bindA_thrown hb⟩
    · rcases M.run_cases read f with ⟨a, f1, hx⟩ | ⟨e, f1, hx⟩
      · rw [bindA_ok (hok a f1 hx), M.bind_ok hx]
        rcases ih (i + 1) f1 (mo.map (liftMesh (put i a))) with ⟨st, hb⟩ | ⟨hok2, herr2⟩
        · exact Or.inl ⟨st, hb⟩
        · refine Or.inr ?_
          rcases M.run_cases (og.readN read n) f1 with ⟨l, f2, hl⟩ | ⟨e, f2, hl⟩
          · have hk := hok2 l f2 hl
            dsimp only at hk
            rw [M.bind_ok hl, hk]
            refine ⟨fun as f3 hr => ?_, fun e f3 hr => ?_⟩
            · have h2 : (Res.ok (a :: l), f2) = (Res.ok as, f3) := hr
              simp only [Prod.mk.injEq, Res.ok.injEq] at h2
              obtain ⟨ha, hf⟩ := h2
              subst ha hf
              rw [map_liftMesh_comp]
              rfl
            · have h2 : (Res.ok (a :: l), f2) = (Res.error e, f3) := hr
              simp at h2
          · obtain ⟨mo1, hb⟩ := herr2 e f2 hl
            dsimp only at hb
            rw [M.bind_error hl, hb]
            refine ⟨fun as f3 hr => ?_, fun e2 f3 hr => ?_⟩
            · simp at hr
            · simp only [Prod.mk.injEq, Res.error.injEq] at hr
              obtain ⟨he, hf⟩ := hr
              subst he hf
              exact ⟨mo1, rfl⟩
      · obtain ⟨mo1, hb⟩ := herr e f1 hx
        rw [bindA_thrown hb, M.bind_error hx]
        refine Or.inr ⟨fun as f3 hr => ?_, fun e2 f3 hr => ?_⟩
        · simp at hr
        · simp only [Prod.mk.injEq, Res.error.injEq] at hr
          obtain ⟨he, hf⟩ := hr
          subst he hf
          exact ⟨mo1, rfl⟩

/-- A loop body that reads one value and stores it into its slot. -/
theorem elemSpec_store {α : Type} (read : M InFile α)
    (put : Nat → α → MeshAnimated → MeshAnimated) :
    ElemSpec (fun i => MA.ofM (onFile read) >>= fun a =>
      MA.ofM (onMesh fun mesh => put i a mesh)) read put := by
  intro i f mo
  refine Or.inr ⟨fun a f1 hr => ?_, fun e f1 hr => ⟨mo, ?_⟩⟩
  · dsimp only
    rw [bindA_ok (ofM_ok (onFile_ok mo hr))]
    rfl
  · dsimp only
    exact bindA_thrown (ofM_error (onFile_error mo hr))

theorem putAll_nil {α β : Type} (put : Nat → α → β → β) (i : Nat) (b : β) :
    putAll put i [] b = b := rfl

theorem putAll_cons {α β : Type} (put : Nat → α → β → β) (i : Nat) (a : α) (as : List α)
    (b : β) : putAll put i (a :: as) b = putAll put (i + 1) as (put i a b) := rfl

/-- Slots filled in order: a buffer of the length of `as` ends up as `as`. -/
theorem putAll_fill {α : Type} (upd : Nat → α → List α → List α)
    (hupd : ∀ (pre : List α) (d : α) (rest : List α) (a : α),
      upd pre.length a (pre ++ d :: rest) = pre ++ a :: rest)
    (as pre ds : List α) (hd : ds.length = as.length) :
    putAll upd pre.length as (pre ++ ds) = pre ++ as := by
  induction as generalizing pre ds with
  | nil =>
    cases ds with
    | nil => rfl
    | cons d ds => simp at hd
  | cons a as ih =>
    cases ds with
    | nil => simp at hd
    | cons d ds =>
      have hl : ds.length = as.length := by simpa using hd
      have h2 := ih (pre ++ [a]) ds hl
      rw [putAll_cons, hupd]
      simp only [List.length_append, List.length_singleton, List.append_assoc,
        List.singleton_append] at h2
      exact h2

theorem set_fills {α : Type} (pre : List α) (d : α) (rest : List α) (a : α) :
    (pre ++ d :: rest).set pre.length a = pre ++ a :: rest := by
  induction pre with
  | nil => rfl
  | cons p pre ih => simp only [List.cons_append, List.length_cons, List.set_cons_succ, ih]

theorem modifyAt_fills {α : Type} (pre : List α) (d : α) (rest : List α) (a : α) :
    modifyAt (fun _ => a) pre.length (pre ++ d :: rest) = pre ++ a :: rest := by
  induction pre with
  | nil => rfl
  | cons p pre ih =>
    show p :: modifyAt (fun _ => a) pre.length (pre ++ d :: rest) = _
    rw [ih]
    rfl

/-- Slot updates that act through a part of the record act on the part. -/
theorem putAll_lift {α β γ : Type} (lift : (γ → γ) → β → β)
    (hcomp : ∀ (g h : γ → γ) (b : β), lift g (lift h b) = lift (fun c => g (h c)) b)
    (hid : ∀ b : β, lift (fun c => c) b = b)
    (put : Nat → α → β → β) (put2 : Nat → α → γ → γ)
    (hput : ∀ i a b, put i a b = lift (put2 i a) b) (i : Nat) (as : List α) (b : β) :
    putAll put i as b = lift (fun c => putAll put2 i as c) b := by
  induction as generalizing i b with
  | nil =>
    rw [putAll_nil]
    exact (hid b).symm
  | cons a as ih =>
    rw [putAll_cons, ih, hput, hcomp]
    rfl

theorem vtxUpd_comp (k : Nat) (g h : Vertex → Vertex) (mesh : MeshAnimated) :
    vtxUpd k g (vtxUpd k h mesh) = vtxUpd k (fun v => g (h v)) mesh := by
  simp only [vtxUpd, modifyAt_comp]

theorem vtxUpd_id (k : Nat) (mesh : MeshAnimated) : vtxUpd k (fun v => v) mesh = mesh := by
  simp only [vtxUpd, modifyAt_id]

theorem wUpd_comp (l : Nat) (g h : VertexWeight → VertexWeight) (v : Vertex) :
    wUpd l g (wUpd l h v) = wUpd l (fun w => g (h w)) v := by
  simp only [wUpd, modifyAt_comp]

theorem onVertex_run (k : Nat) (g : Vertex → Vertex) (f : InFile) (mo : Option Model) :
    onVertex k g ⟨f, mo⟩ = (Res.ok (), ⟨f, mo.map (liftMesh (vtxUpd k g))⟩) := rfl

theorem onWeight_run (k l : Nat) (g : VertexWeight → VertexWeight) (f : InFile)
    (mo : Option Model) :
    onWeight k l g ⟨f, mo⟩ = (Res.ok (), ⟨f, mo.map (liftMesh (vtxUpd k (wUpd l g)))⟩) := rfl

/-- The body of the loop over `l` reads one weight record and leaves it in
`weights[l]` of `vertices[k]`. -/
theorem elemSpec_weight (k : Nat) :
    ElemSpec (LoadA.weight k) readWeight (fun l w => vtxUpd k (wUpd l fun _ => w)) := by
  intro l f mo
  refine Or.inr ⟨fun w f4 hr => ?_, fun e f4 hr => ?_⟩
  · have hr1 : (File.ReadInt >>= fun b => readVec3 >>= fun o => readVec3 >>= fun n =>
        File.ReadFloat >>= fun i => (Pure.pure ⟨b, o, n, i⟩ : M InFile VertexWeight)) f =
        (Res.ok w, f4) := hr
    obtain ⟨b, f1, h1, hr2⟩ := M.bind_eq_ok hr1
    obtain ⟨o, f2, h2, hr3⟩ := M.bind_eq_ok hr2
    obtain ⟨n, f3, h3, hr4⟩ := M.bind_eq_ok hr3
    obtain ⟨i, f5, h4, hr5⟩ := M.bind_eq_ok hr4
    have h5 : (Res.ok (⟨b, o, n, i⟩ : VertexWeight), f5) = (Res.ok w, f4) := hr5
    simp only [Prod.mk.injEq, Res.ok.injEq] at h5
    obtain ⟨hw, hf⟩ := h5
    subst hw hf
    show (MA.ofM (onFile File.ReadInt) >>= fun boneId =>
      MA.ofM (onWeight k l fun w => { w with boneId := boneId }) >>= fun _ =>
      MA.ofM (onFile readVec3) >>= fun origin =>
      MA.ofM (onWeight k l fun w => { w with origin := origin }) >>= fun _ =>
      MA.ofM (onFile readVec3) >>= fun normal =>
      MA.ofM (onWeight k l fun w => { w with normal := normal }) >>= fun _ =>
      MA.ofM (onFile File.ReadFloat) >>= fun influence =>
      MA.ofM (onWeight k l fun w => { w with influence := influence })) ⟨f, mo⟩ = _
    rw [bindA_ok (ofM_ok (onFile_ok mo h1)), bindA_ok (ofM_ok (onWeight_run k l _ f1 mo)),
      bindA_ok (ofM_ok (onFile_ok _ h2)), bindA_ok (ofM_ok (onWeight_run k l _ f2 _)),
      bindA_ok (ofM_ok (onFile_ok _ h3)), bindA_ok (ofM_ok (onWeight_run k l _ f3 _)),
      bindA_ok (ofM_ok (onFile_ok _ h4)), ofM_ok (onWeight_run k l _ f5 _)]
    simp only [map_liftMesh_comp, vtxUpd_comp, wUpd_comp]
  · have hr1 : (File.ReadInt >>= fun b => readVec3 >>= fun o => readVec3 >>= fun n =>
        File.ReadFloat >>= fun i => (Pure.pure ⟨b, o, n, i⟩ : M InFile VertexWeight)) f =
        (Res.error e, f4) := hr
    show ∃ mo1, (MA.ofM (onFile File.ReadInt) >>= fun boneId =>
      MA.ofM (onWeight k l fun w => { w with boneId := boneId }) >>= fun _ =>
      MA.ofM (onFile readVec3) >>= fun origin =>
      MA.ofM (onWeight k l fun w => { w with origin := origin }) >>= fun _ =>
      MA.ofM (onFile readVec3) >>= fun normal =>
      MA.ofM (onWeight k l fun w => { w with normal := normal }) >>= fun _ =>
      MA.ofM (onFile File.ReadFloat) >>= fun influence =>
      MA.ofM (onWeight k l fun w => { w with influence := influence })) ⟨f, mo⟩ = _
    rcases M.bind_eq_error hr1 with h1 | ⟨b, f1, h1, hr2⟩
    · exact ⟨_, bindA_thrown (ofM_error (onFile_error mo h1))⟩
    rw [bindA_ok (ofM_ok (onFile_ok mo h1)), bindA_ok (ofM_ok (onWeight_run k l _ f1 mo))]
    rcases M.bind_eq_error hr2 with h2 | ⟨o, f2, h2, hr3⟩
    · exact ⟨_, bindA_thrown (ofM_error (onFile_error _ h2))⟩
    rw [bindA_ok (ofM_ok (onFile_ok _ h2)), bindA_ok (ofM_ok (onWeight_run k l _ f2 _))]
    rcases M.bind_eq_error hr3 with h3 | ⟨n, f3, h3, hr4⟩
    · exact ⟨_, bindA_thrown (ofM_error (onFile_error _ h3))⟩
    rw [bindA_ok (ofM_ok (onFile_ok _ h3)), bindA_ok (ofM_ok (onWeight_run k l _ f3 _))]
    rcases M.bind_eq_error hr4 with h4 | ⟨i, f5, h4, hr5⟩
    · exact ⟨_, bindA_thrown (ofM_error (onFile_error _ h4))⟩
    · have h5 : (Res.ok (⟨b, o, n, i⟩ : VertexWeight), f5) = (Res.error e, f4) := hr5
      simp at h5

/-- The weights of `vertices[k]`, allocated by `InitVertex` and filled slot by
slot, are the list of the weights read. -/
theorem weights_filled (k num : Nat) (ws : List VertexWeight) (hl : ws.length = num)
    (mesh : MeshAnimated) :
    putAll (fun l w => vtxUpd k (wUpd l fun _ => w)) 0 ws
        (vtxUpd k (fun v => InitVertex v num) mesh) =
      vtxUpd k (fun _ => { InitVertex Vertex.blank num with weights := ws }) mesh := by
  rw [putAll_lift (fun g mesh => vtxUpd k (fun v => { v with weights := g v.weights }) mesh)
    (fun g h b => vtxUpd_comp k _ _ b) (fun b => vtxUpd_id k b)
    (fun l w => vtxUpd k (wUpd l fun _ => w))
    (fun l w ws0 => modifyAt (fun _ => w) l ws0) (fun i a b => rfl)]
  dsimp only
  rw [vtxUpd_comp]
  have hfill := putAll_fill (fun l (w : VertexWeight) ws0 => modifyAt (fun _ => w) l ws0)
    (fun pre d rest a => modifyAt_fills pre d rest a) ws []
    (List.replicate num ⟨0, Vec3.blank, Vec3.blank, 0⟩) (by rw [List.length_replicate, hl])
  simp only [List.length_nil, List.nil_append] at hfill
  simp only [InitVertex, hfill]

/-- The body of the loop over `k` reads one vertex and leaves it in
`vertices[k]`, unless `InitVertex` cannot allocate the weights. -/
theorem elemSpec_vertex (cap : Nat) :
    ElemSpec (LoadA.vertex cap) readVertex (fun k v => vtxUpd k fun _ => v) := by
  intro k f mo
  have hc : ∀ num f1, File.ReadUint f = (Res.ok num, f1) →
      readVertex f = (og.readN readWeight num >>= fun ws =>
        (Pure.pure { InitVertex Vertex.blank num with weights := ws } : M InFile Vertex)) f1 := by
    intro num f1 h1
    show (File.ReadUint >>= fun num => og.readN readWeight (InitVertex Vertex.blank num).numWeights
      >>= fun ws => (Pure.pure { InitVertex Vertex.blank num with weights := ws } :
        M InFile Vertex)) f = _
    rw [M.bind_ok h1]
    rfl
  have hA : LoadA.vertex cap k ⟨f, mo⟩ = (MA.ofM (onFile File.ReadUint) >>= fun num =>
      alloc cap num >>= fun _ => MA.ofM (onVertex k fun v => InitVertex v num) >>= fun _ =>
      forIdx (LoadA.weight k) 0 num) ⟨f, mo⟩ := rfl
  rcases M.run_cases File.ReadUint f with ⟨num, f1, h1⟩ | ⟨e, f1, h1⟩
  · rw [hA, hc num f1 h1, bindA_ok (ofM_ok (onFile_ok mo h1))]
    by_cases hn : num ≤ cap
    · rw [bindA_ok (alloc_ok cap num _ hn), bindA_ok (ofM_ok (onVertex_run k _ f1 mo))]
      have hw := elemSpec_forIdx (elemSpec_weight k) num 0 f1
        (mo.map (liftMesh (vtxUpd k fun v => InitVertex v num)))
      dsimp only at hw
      rcases hw with ⟨st, hb⟩ | ⟨hok, herr⟩
      · exact Or.inl ⟨st, hb⟩
      · refine Or.inr ?_
        rcases M.run_cases (og.readN readWeight num) f1 with ⟨ws, f2, hl⟩ | ⟨e, f2, hl⟩
        · rw [M.bind_ok hl, hok ws f2 hl, map_liftMesh_comp,
            map_liftMesh_congr (weights_filled k num ws (readN_length _ _ _ _ _ hl))]
          refine ⟨fun v f3 hr => ?_, fun e f3 hr => ?_⟩
          · have h5 : (Res.ok ({ InitVertex Vertex.blank num with weights := ws } : Vertex), f2) =
                (Res.ok v, f3) := hr
            simp only [Prod.mk.injEq, Res.ok.injEq] at h5
            obtain ⟨hv, hf⟩ := h5
            subst hv hf
            rfl
          · have h5 : (Res.ok ({ InitVertex Vertex.blank num with weights := ws } : Vertex), f2) =
                (Res.error e, f3) := hr
            simp at h5
        · obtain ⟨mo1, hb⟩ := herr e f2 hl
          rw [M.bind_error hl, hb]
          refine ⟨fun v f3 hr => ?_, fun e2 f3 hr => ?_⟩
          · simp at hr
          · simp only [Prod.mk.injEq, Res.error.injEq] at hr
            obtain ⟨he, hf⟩ := hr
            subst he hf
            exact ⟨mo1, rfl⟩
    · exact Or.inl ⟨_, bindA_thrown (alloc_fail cap num _ (Nat.not_le.mp hn))⟩
  · refine Or.inr ⟨fun v f3 hr => ?_, fun e2 f3 hr => ?_⟩
    · have h6 : readVertex f = (Res.error e, f1) := M.bind_error h1
      rw [h6] at hr
      simp at hr
    · have h6 : readVertex f = (Res.error e, f1) := M.bind_error h1
      rw [h6] at hr
      simp only [Prod.mk.injEq, Res.error.injEq] at hr
      obtain ⟨he, hf⟩ := hr
      subst he hf
      rw [hA]
      exact ⟨mo, bindA_thrown (ofM_error (onFile_error mo h1))⟩

theorem matches_ok {α : Type} (a : α) (s : LoadState) :
    Matches ((Res.ok a, s) : Res α × LoadState) (ResA.ok a, s) := by
  refine Or.inr ⟨fun b s1 h => ?_, fun e s1 h => ?_⟩
  · simp only [Prod.mk.injEq, Res.ok.injEq] at h
    obtain ⟨hb, hs⟩ := h
    subst hb hs
    rfl
  · simp at h

theorem matches_error {α : Type} (e : FileReadWriteError) (f : InFile) (mo mo1 : Option Model) :
    Matches ((Res.error e, ⟨f, mo⟩) : Res α × LoadState)
      (ResA.thrown (Thrown.fileError e), ⟨f, mo1⟩) := by
  refine Or.inr ⟨fun b s1 h => ?_, fun e2 s1 h => ?_⟩
  · simp at h
  · simp only [Prod.mk.injEq, Res.error.injEq] at h
    obtain ⟨he, hs⟩ := h
    subst he hs
    exact ⟨mo1, rfl⟩

theorem matches_badAlloc {α : Type} (r : Res α × LoadState) (st : LoadState) :
    Matches r ((ResA.thrown Thrown.badAlloc, st) : ResA α × LoadState) :=
  Or.inl ⟨st, rfl⟩

/-- One array of a mesh: the loop that fills the buffer in place throws
`std::bad_alloc`, or it ends as the read of the whole array followed by one
store does, or it throws the error that read throws. -/
theorem fill_outcome {α : Type} {body : Nat → MA LoadState Unit} {read : M InFile α}
    {put : Nat → α → MeshAnimated → MeshAnimated} (hspec : ElemSpec body read put)
    (store : List α → MeshAnimated → MeshAnimated) (n : Nat) (f : InFile) (mo : Option Model)
    (G : MeshAnimated → MeshAnimated)
    (hfill : ∀ (as : List α) (mesh : MeshAnimated), as.length = n →
      putAll put 0 as (G mesh) = store as (G mesh)) :
    (∃ st, forIdx body 0 n ⟨f, mo.map (liftMesh G)⟩ = (ResA.thrown Thrown.badAlloc, st)) ∨
    (∃ as f1, og.readN read n f = (Res.ok as, f1) ∧
      forIdx body 0 n ⟨f, mo.map (liftMesh G)⟩ =
        (ResA.ok (), ⟨f1, mo.map (liftMesh fun mesh => store as (G mesh))⟩)) ∨
    (∃ e f1 mo1, og.readN read n f = (Res.error e, f1) ∧
      forIdx body 0 n ⟨f, mo.map (liftMesh G)⟩ =
        (ResA.thrown (Thrown.fileError e), ⟨f1, mo1⟩)) := by
  have h := elemSpec_forIdx hspec n 0 f (mo.map (liftMesh G))
  dsimp only at h
  rcases h with ⟨st, hb⟩ | ⟨hok, herr⟩
  · exact Or.inl ⟨st, hb⟩
  · rcases M.run_cases (og.readN read n) f with ⟨as, f1, hr⟩ | ⟨e, f1, hr⟩
    · refine Or.inr (Or.inl ⟨as, f1, hr, ?_⟩)
      rw [hok as f1 hr, map_liftMesh_comp,
        map_liftMesh_congr (fun mesh => hfill as mesh (readN_length _ _ _ _ _ hr))]
    · obtain ⟨mo1, hb⟩ := herr e f1 hr
      exact Or.inr (Or.inr ⟨e, f1, mo1, hr, hb⟩)

theorem indices_filled (as : List Int) (mesh : MeshAnimated)
    (hl : mesh.indices.length = as.length) :
    putAll (fun i (x : Int) (mesh : MeshAnimated) =>
        { mesh with indices := mesh.indices.set i x }) 0 as mesh =
      { mesh with indices := as } := by
  rw [putAll_lift (fun g (mesh : MeshAnimated) => { mesh with indices := g mesh.indices })
    (fun g h b => rfl) (fun b => rfl) _ (fun i (x : Int) l => l.set i x) (fun i a b => rfl)]
  have hfill := putAll_fill (fun i (x : Int) l => l.set i x)
    (fun pre d rest a => set_fills pre d rest a) as [] mesh.indices hl
  simp only [List.length_nil, List.nil_append] at hfill
  simp only [hfill]

theorem texCoords_filled (as : List Vec2) (mesh : MeshAnimated)
    (hl : mesh.texCoords.length = as.length) :
    putAll (fun k (t : Vec2) (mesh : MeshAnimated) =>
        { mesh with texCoords := mesh.texCoords.set k t }) 0 as mesh =
      { mesh with texCoords := as } := by
  rw [putAll_lift (fun g (mesh : MeshAnimated) => { mesh with texCoords := g mesh.texCoords })
    (fun g h b => rfl) (fun b => rfl) _ (fun i (x : Vec2) l => l.set i x) (fun i a b => rfl)]
  have hfill := putAll_fill (fun i (x : Vec2) l => l.set i x)
    (fun pre d rest a => set_fills pre d rest a) as [] mesh.texCoords hl
  simp only [List.length_nil, List.nil_append] at hfill
  simp only [hfill]

theorem vertices_filled (as : List Vertex) (mesh : MeshAnimated)
    (hl : mesh.vertices.length = as.length) :
    putAll (fun k (v : Vertex) => vtxUpd k fun _ => v) 0 as mesh =
      { mesh with vertices := as } := by
  rw [putAll_lift (fun g (mesh : MeshAnimated) => { mesh with vertices := g mesh.vertices })
    (fun g h b => rfl) (fun b => rfl) (fun k (v : Vertex) => vtxUpd k fun _ => v)
    (fun k (v : Vertex) l => modifyAt (fun _ => v) k l) (fun i a b => rfl)]
  have hfill := putAll_fill (fun k (v : Vertex) l => modifyAt (fun _ => v) k l)
    (fun pre d rest a => modifyAt_fills pre d rest a) as [] mesh.vertices hl
  simp only [List.length_nil, List.nil_append] at hfill
  simp only [hfill]

/-- The part of a mesh record behind the vertex count: the three arrays filled
in place are the three arrays read and stored whole. -/
theorem refines_meshTail (cap numVerts : Nat) :
    Refines
      (onMesh (fun mesh => InitVertices mesh numVerts) >>= fun _ =>
        onFile File.ReadUint >>= fun numIndices =>
        onMesh (fun mesh => InitIndices mesh numIndices) >>= fun _ =>
        onFile (File.ReadIntArray numIndices) >>= fun indices =>
        onMesh (fun mesh => { mesh with indices := indices }) >>= fun _ =>
        onFile (og.readN readVec2 numVerts) >>= fun texCoords =>
        onMesh (fun mesh => { mesh with texCoords := texCoords }) >>= fun _ =>
        onFile (og.readN readVertex numVerts) >>= fun vertices =>
        onMesh (fun mesh => { mesh with vertices := vertices }))
      (alloc cap numVerts >>= fun _ =>
        MA.ofM (onMesh fun mesh => InitVertices mesh numVerts) >>= fun _ =>
        MA.ofM (onFile File.ReadUint) >>= fun numIndices =>
        alloc cap numIndices >>= fun _ =>
        MA.ofM (onMesh fun mesh => InitIndices mesh numIndices) >>= fun _ =>
        forIdx (fun i => MA.ofM (onFile File.ReadInt) >>= fun x =>
          MA.ofM (onMesh fun mesh => { mesh with indices := mesh.indices.set i x }))
          0 numIndices >>= fun _ =>
        forIdx (fun k => MA.ofM (onFile readVec2) >>= fun t =>
          MA.ofM (onMesh fun mesh => { mesh with texCoords := mesh.texCoords.set k t }))
          0 numVerts >>= fun _ =>
        forIdx (LoadA.vertex cap) 0 numVerts) := by
  intro s
  obtain ⟨f, mo⟩ := s
  by_cases hv : numVerts ≤ cap
  swap
  · exact Or.inl ⟨_, bindA_thrown (alloc_fail cap numVerts _ (Nat.not_le.mp hv))⟩
  rw [bindA_ok (alloc_ok cap numVerts _ hv), bindA_ok (ofM_ok (onMesh_run _ f mo)),
    M.bind_ok (onMesh_run _ f mo)]
  rcases M.run_cases File.ReadUint f with ⟨ni, f1, h1⟩ | ⟨e, f1, h1⟩
  swap
  · rw [M.bind_error (onFile_error _ h1), bindA_thrown (ofM_error (onFile_error _ h1))]
    exact matches_error _ _ _ _
  rw [M.bind_ok (onFile_ok _ h1), bindA_ok (ofM_ok (onFile_ok _ h1))]
  by_cases hi : ni ≤ cap
  swap
  · exact Or.inl ⟨_, bindA_thrown (alloc_fail cap ni _ (Nat.not_le.mp hi))⟩
  rw [bindA_ok (alloc_ok cap ni _ hi), bindA_ok (ofM_ok (onMesh_run _ f1 _)),
    M.bind_ok (onMesh_run _ f1 _), map_liftMesh_comp]
  -- the indices
  have hI := fill_outcome (elemSpec_store File.ReadInt
      (fun i (x : Int) (mesh : MeshAnimated) => { mesh with indices := mesh.indices.set i x }))
    (fun as mesh => { mesh with indices := as }) ni f1 mo
    (fun mesh => InitIndices (InitVertices mesh numVerts) ni)
    (fun as mesh hl => indices_filled as _ (by
      simp only [InitIndices, List.length_replicate, hl]))
  dsimp only at hI
  rcases hI with ⟨st, hb⟩ | ⟨idx, f2, hr, hb⟩ | ⟨e, f2, mo1, hr, hb⟩
  · exact Or.inl ⟨st, bindA_thrown hb⟩
  swap
  · have hr2 : File.ReadIntArray ni f1 = (Res.error e, f2) := hr
    rw [M.bind_error (onFile_error _ hr2), bindA_thrown hb]
    exact matches_error _ _ _ _
  have hr2 : File.ReadIntArray ni f1 = (Res.ok idx, f2) := hr
  rw [M.bind_ok (onFile_ok _ hr2), M.bind_ok (onMesh_run _ f2 _), bindA_ok hb,
    map_liftMesh_comp]
  -- the texture coordinates
  have hT := fill_outcome (elemSpec_store readVec2
      (fun k (t : Vec2) (mesh : MeshAnimated) =>
        { mesh with texCoords := mesh.texCoords.set k t }))
    (fun as mesh => { mesh with texCoords := as }) numVerts f2 mo
    (fun mesh => { InitIndices (InitVertices mesh numVerts) ni with indices := idx })
    (fun as mesh hl => texCoords_filled as _ (by
      simp only [InitIndices, InitVertices, List.length_replicate, hl]))
  dsimp only at hT
  rcases hT with ⟨st, hb⟩ | ⟨tex, f3, hr, hb⟩ | ⟨e, f3, mo1, hr, hb⟩
  · exact Or.inl ⟨st, bindA_thrown hb⟩
  swap
  · rw [M.bind_error (onFile_error _ hr), bindA_thrown hb]
    exact matches_error _ _ _ _
  rw [M.bind_ok (onFile_ok _ hr), M.bind_ok (onMesh_run _ f3 _), bindA_ok hb,
    map_liftMesh_comp]
  -- the vertices
  have hV := fill_outcome (elemSpec_vertex cap)
    (fun as mesh => { mesh with vertices := as }) numVerts f3 mo
    (fun mesh => { ({ InitIndices (InitVertices mesh numVerts) ni with indices := idx } :
      MeshAnimated) with texCoords := tex })
    (fun as mesh hl => vertices_filled as _ (by
      simp only [InitIndices, InitVertices, List.length_replicate, hl]))
  dsimp only at hV
  rcases hV with ⟨st, hb⟩ | ⟨vs, f4, hr, hb⟩ | ⟨e, f4, mo1, hr, hb⟩
  · exact Or.inl ⟨st, hb⟩
  swap
  · rw [M.bind_error (onFile_error _ hr), hb]
    exact matches_error _ _ _ _
  rw [M.bind_ok (onFile_ok _ hr), onMesh_run _ f4 _, hb, map_liftMesh_comp]
  exact matches_ok _ _

/-- One mesh record: unless a `new` fails, `LoadA.mesh` does what `Load.mesh`
does. -/
theorem refines_mesh (cap : Nat) : Refines Load.mesh (LoadA.mesh cap) :=
  refines_alloc cap 1
    (refines_bind (refines_ofM _) fun _ =>
      refines_bind (refines_ofM _) fun _ =>
      refines_bind (refines_ofM _) fun _ =>
      refines_bind (refines_ofM _) fun _ =>
      refines_bind (refines_ofM _) fun _ =>
      refines_bind (refines_ofM _) fun _ =>
      refines_bind (refines_ofM _) fun _ =>
      refines_bind (refines_ofM _) fun _ =>
      refines_bind (refines_ofM _) fun _ =>
      refines_bind (refines_ofM _) fun numVerts => refines_meshTail cap numVerts)

theorem refines_chunk (cap numBones numMeshes : Nat) :
    Refines (Load.chunk numBones numMeshes) (LoadA.chunk cap numBones numMeshes) :=
  refines_bind (refines_ofM _) fun _ =>
    refines_bind (refines_ofM _) fun _ =>
    refines_bind (refines_ofM _) fun entries =>
      refines_ite _
        (refines_ite _ (refines_ofM _) (refines_forIdx (refines_ofM Load.bone) 0 entries))
        (refines_ite _
          (refines_ite _ (refines_ofM _) (refines_forIdx (refines_mesh cap) 0 entries))
          (refines_ofM _))

/-- The try block: unless a `new` fails, `LoadA.body` does what `Load.body`
does. -/
theorem refines_body (cap : Nat) : Refines Load.body (LoadA.body cap) :=
  refines_bind (refines_ofM Load.header) fun h =>
    refines_alloc cap 1
      (refines_bind (refines_ofM newModel) fun _ =>
        refines_forIdx (refines_chunk cap h.numBones h.numMeshes) 0 h.numChunks)

/-- The two embeddings of `Load` agree on every call that no `std::bad_alloc`
leaves: `Model.LoadA` then returns what `Model.Load` returns, closes the file as
often, reports the same error and leaves the file in the same state; when a
model is returned, the events and the final state are the same. The two differ
in the partially built model that is deleted after a `FileReadWriteError`. -/
theorem LoadA_matches_Load (cap : Nat) (modelFS : Option FileSystemCore) (filename : String) :
    (Model.LoadA cap modelFS filename).completion = Completion.escaped Thrown.badAlloc ∨
    ((Model.LoadA cap modelFS filename).completion =
        Completion.returned (Model.Load modelFS filename).result ∧
      (Model.LoadA cap modelFS filename).events.count Event.close =
        (Model.Load modelFS filename).events.count Event.close ∧
      (∀ e, Event.error e filename ∈ (Model.LoadA cap modelFS filename).events ↔
        Event.error e filename ∈ (Model.Load modelFS filename).events) ∧
      (Model.LoadA cap modelFS filename).final.map LoadState.file =
        (Model.Load modelFS filename).final.map LoadState.file ∧
      ((Model.Load modelFS filename).result ≠ none →
        (Model.LoadA cap modelFS filename).events = (Model.Load modelFS filename).events ∧
        (Model.LoadA cap modelFS filename).final = (Model.Load modelFS filename).final)) := by
  cases modelFS with
  | none => exact Or.inr ⟨rfl, rfl, fun e => Iff.rfl, rfl, fun _ => ⟨rfl, rfl⟩⟩
  | some fs =>
    cases hopen : fs.OpenRead filename with
    | none =>
      have hA : Model.LoadA cap (some fs) filename =
          { completion := Completion.returned none, events := [Event.warning filename],
            final := none } := by
        simp only [Model.LoadA, hopen]
      have hL : Model.Load (some fs) filename =
          { result := none, events := [Event.warning filename], final := none } := by
        simp only [Model.Load, hopen]
      rw [hA, hL]
      exact Or.inr ⟨rfl, rfl, fun e => Iff.rfl, rfl, fun _ => ⟨rfl, rfl⟩⟩
    | some bytes =>
      rcases refines_body cap ⟨⟨bytes, 0⟩, none⟩ with ⟨st, hb⟩ | ⟨hok, herr⟩
      · refine Or.inl ?_
        simp only [Model.LoadA, hopen, hb]
      · refine Or.inr ?_
        rcases M.run_cases Load.body ⟨⟨bytes, 0⟩, none⟩ with ⟨u, s1, hx⟩ | ⟨e, s1, hx⟩
        · have hxa := hok u s1 hx
          have hA : Model.LoadA cap (some fs) filename =
              { completion := Completion.returned s1.model, events := [Event.close],
                final := some s1 } := by
            simp only [Model.LoadA, hopen, hxa]
          have hL : Model.Load (some fs) filename =
              { result := s1.model, events := [Event.close], final := some s1 } := by
            simp only [Model.Load, hopen, hx]
          rw [hA, hL]
          exact ⟨rfl, rfl, fun e => Iff.rfl, rfl, fun _ => ⟨rfl, rfl⟩⟩
        · obtain ⟨mo, hxa⟩ := herr e s1 hx
          have hA : Model.LoadA cap (some fs) filename =
              { completion := Completion.returned none,
                events := [Event.close, Event.deleteModel mo, Event.error e filename],
                final := some ⟨s1.file, mo⟩ } := by
            simp only [Model.LoadA, hopen, hxa]
          have hL : Model.Load (some fs) filename =
              { result := none,
                events := [Event.close, Event.deleteModel s1.model, Event.error e filename],
                final := some s1 } := by
            simp only [Model.Load, hopen, hx]
          rw [hA, hL]
          refine ⟨rfl, ?_, fun e2 => ?_, rfl, fun h => absurd rfl h⟩
          · simp [List.count_cons]
          · simp

end og
